import Mathlib

/-!
# Transaction pool (core/mempool/txpool.go)

A shallow embedding of the transaction pool: the two per-sender queue types
(`sortedTxs`, `txMap`), the admission path (`checkLimits`, `add`, `put`,
`putToPending`), removal, pending-to-executable migration and `ResetTo`, the
entry points `AddExternalTxs` and `AddInternalTx` with the deferral of
transactions while the node is syncing (`addDeferredTx`, `StopSync`),
followed by the properties proved of them.

Conventions of the embedding.

* A Go `map[K]V` is an association list `List (K × V)`.  Go leaves the
  iteration order of a map unspecified; the order of the list stands for the
  order one run happens to use.  Properties of a single call are stated for
  every list, and the reachable states are closed under reordering of the
  maps.
* `uint32` nonces and `uint16` epochs are natural numbers; the one place
  where the source computes on them (`nonce + 1`) carries an explicit
  `% 2 ^ 32`.
* `tx.Hash()` is a digest of the signed content of a transaction.  It is
  taken to be collision free: the hash of a transaction is the tuple of its
  content fields, the two flags the pool may set (`highPriority`, `shardId`)
  are not part of it.
* The ledger (`appstate.AppState`), the validator (`validation.ValidateTx`)
  and the table of ceremonial transaction types (`validation.CeremonialTxs`)
  live outside this package.  They are parameters of the operations, and the
  ledger may be a different one at every step.
* Locks, the event bus and the statistics collector are left out: the
  operations are taken one at a time.  Of the keeper only the list of
  transactions it hands to `StopSync` appears, as a parameter.
* `appState.Readonly(head.Height())` may fail; its error is a field of the
  ledger record, and the entry points return it where the source does.  The
  snapshot it returns with an error is nil.  Where the source drops the error
  and goes on (`AddInternalTx` in syncing mode, the re-validation of
  `ResetTo`), the first read through the nil snapshot ends the call with a nil
  dereference; `add` recovers it into an error, the other two do not, and
  their results carry it as a fault.
* The pool and the channel of deferred transactions hold pointers; the
  embedding holds values.  The one write that is seen through two holders at
  once, the shard id that `add` sets on a transaction which `AddInternalTx`
  has just deferred, is made on both.
-/

namespace Mempool

/-! ## Transactions -/

/-- Digest of a transaction: its signed content (`types.Transaction.Hash`). -/
structure Hash where
  AccountNonce : Nat
  Epoch : Nat
  TxType : Nat
  sender : Nat
  body : Nat
deriving DecidableEq, Repr

/-- A transaction (`types.Transaction`); `TxType` is its field `Type`.
`sender` is what `types.Sender` recovers from the signature, `body` stands for
the rest of the signed content (recipient, amount, payload, signature). -/
structure Transaction where
  AccountNonce : Nat
  Epoch : Nat
  TxType : Nat
  sender : Nat
  body : Nat
  highPriority : Bool
  shardId : Nat
deriving DecidableEq, Repr

/-- Method `tx.Hash()`. -/
def Transaction.Hash (tx : Transaction) : Hash :=
  { AccountNonce := tx.AccountNonce, Epoch := tx.Epoch, TxType := tx.TxType,
    sender := tx.sender, body := tx.body }

/-- Method `tx.Hash128()`, the short hash used by the compact index. -/
def Transaction.Hash128 (tx : Transaction) : Mempool.Hash := tx.Hash

/-- Successor of a `uint32` nonce, as Go computes `nonce + 1`. -/
def nonceSucc (n : Nat) : Nat := (n + 1) % 2 ^ 32

/-! ## Errors -/

/-- Errors returned by `validation.ValidateTx`; `ResetTo` tells
`validation.InvalidNonce` apart from all others. -/
inductive ValidationError where
  | InvalidNonce
  | other (code : Nat)
deriving DecidableEq, Repr

/-- Errors the pool returns. -/
inductive PoolError where
  | DuplicateTxError
  | MempoolFullError
  | setIsFullErr
  | sortedTxNonceErr
  | multipleCeremonyExecutable (txType : Nat)
  | multipleCeremonyPending (txType : Nat)
  | queueMaxSizeReached
  | validation (e : ValidationError)
  | recovered (msg : Nat)
  | stateUnavailable (code : Nat)
deriving DecidableEq, Repr

/-! ## External collaborators -/

/-- The table `priorityTypes = validation.CeremonialTxs`, a Go
`map[types.TxType]bool` declared outside this package. -/
abbrev PriorityTable := Nat → Option Bool

/-- Lookup `_, ok := priorityTypes[t]`: is the type a key of the table. -/
def priorityKey (pt : PriorityTable) (t : Nat) : Bool := (pt t).isSome

/-- Lookup `priorityTypes[t]`: the stored flag, false for a missing key. -/
def priorityVal (pt : PriorityTable) (t : Nat) : Bool := (pt t).getD false

/-- Context in which `validation.ValidateTx` is called. -/
inductive TxKind where
  | InBlockTx
  | InboundTx
  | MempoolTx
deriving DecidableEq, Repr

/-- What a call of the validator does: accept, return an error, or raise a
fault of the underlying state tree. -/
inductive ValidateOutcome where
  | ok
  | err (e : ValidationError)
  | fault (msg : Nat)
deriving DecidableEq, Repr

/-- The ledger as the pool reads it: `appState.State.Epoch()`, `GetNonce`,
`GetEpoch`, `ValidationPeriod()`, `ShardId`, the constant
`state.FlipLotteryPeriod`, and the validator run against the read-only
snapshot.  `ReadonlyErr` is the error of `appState.Readonly(head.Height())`
when the snapshot cannot be opened; the snapshot is then nil and the other
fields say what the calls on `pool.appState` itself return. -/
structure Ledger where
  Epoch : Nat
  GetNonce : Nat → Nat
  GetEpoch : Nat → Nat
  ValidationPeriod : Nat
  FlipLotteryPeriod : Nat
  ShardId : Nat → Nat
  ValidateTx : Transaction → TxKind → ValidateOutcome
  ReadonlyErr : Option Nat := none

/-- Configuration `config.Mempool`. -/
structure MempoolCfg where
  TxPoolExecutableSlots : Int
  TxPoolQueueSlots : Int
  TxPoolAddrExecutableLimit : Int
  TxPoolAddrQueueLimit : Int
  ResetInCeremony : Bool
deriving DecidableEq, Repr

/-! ## Go maps -/

/-- Lookup `m[k]` with the presence flag. -/
def mapGet {κ ν : Type} [DecidableEq κ] : List (κ × ν) → κ → Option ν
  | [], _ => none
  | (k', v) :: rest, k => if k' = k then some v else mapGet rest k

/-- Assignment `m[k] = v`. -/
def mapSet {κ ν : Type} [DecidableEq κ] : List (κ × ν) → κ → ν → List (κ × ν)
  | [], k, v => [(k, v)]
  | (k', v') :: rest, k, v =>
    if k' = k then (k, v) :: rest else (k', v') :: mapSet rest k v

/-- Statement `delete(m, k)`. -/
def mapDelete {κ ν : Type} [DecidableEq κ] (m : List (κ × ν)) (k : κ) : List (κ × ν) :=
  m.filter (fun p => decide (p.1 ≠ k))

/-! ## txMap -/

/-- Type `txMap`: transactions by hash, with a size cap. -/
structure txMap where
  txs : List (Hash × Transaction)
  maxTxs : Int
deriving DecidableEq, Repr

/-- Constructor `newTxMap`. -/
def newTxMap (maxTxs : Int) : txMap := { txs := [], maxTxs := maxTxs }

/-- Method `txMap.Get`. -/
def txMap.Get (m : txMap) (hash : Hash) : Option Transaction := mapGet m.txs hash

/-- Method `txMap.Full`. -/
def txMap.Full (m : txMap) : Bool :=
  decide (m.maxTxs > 0) && decide ((m.txs.length : Int) ≥ m.maxTxs)

/-- Method `txMap.Add`. -/
def txMap.Add (pt : PriorityTable) (m : txMap) (tx : Transaction) : Option PoolError × txMap :=
  if !priorityKey pt tx.TxType && m.Full then
    (some PoolError.setIsFullErr, m)
  else
    (none, { m with txs := mapSet m.txs tx.Hash tx })

/-- Method `txMap.Remove`. -/
def txMap.Remove (m : txMap) (hash : Hash) : txMap :=
  { m with txs := mapDelete m.txs hash }

/-- Method `txMap.Empty`. -/
def txMap.Empty (m : txMap) : Bool := m.txs.length == 0

/-- The comparison handed to `sort.SliceStable` in `txMap.Sorted`. -/
def sortedLess (a b : Transaction) : Bool :=
  if a.Epoch < b.Epoch then true
  else if a.Epoch > b.Epoch then false
  else decide (a.AccountNonce < b.AccountNonce)

/-- Stable insertion of `x`, which stood before all of the list, into a list
sorted by `less`: `x` passes exactly the elements that are less than it. -/
def stableInsert (less : Transaction → Transaction → Bool) (x : Transaction) :
    List Transaction → List Transaction
  | [] => [x]
  | y :: ys => if less y x then y :: stableInsert less x ys else x :: y :: ys

/-- Library call `sort.SliceStable(xs, less)`: a stable sort, elements that
`less` does not separate keep their order. -/
def sliceStable (less : Transaction → Transaction → Bool) : List Transaction → List Transaction
  | [] => []
  | x :: xs => stableInsert less x (sliceStable less xs)

/-- Method `txMap.Sorted`. -/
def txMap.Sorted (m : txMap) : List Transaction :=
  sliceStable sortedLess (m.txs.map Prod.snd)

/-- Filters of `txMap.List`. -/
inductive TxMapFilter where
  | All
  | Priority
  | NotPriority
deriving DecidableEq, Repr

/-- Method `txMap.List`. -/
def txMap.List (m : txMap) (filter : TxMapFilter) : List Transaction :=
  (m.txs.map Prod.snd).filter (fun tx =>
    match filter with
    | TxMapFilter.All => true
    | TxMapFilter.Priority => tx.highPriority
    | TxMapFilter.NotPriority => !tx.highPriority)

/-! ## sortedTxs -/

/-- Type `sortedTxs`: the executable queue of one sender. -/
structure sortedTxs where
  txs : List Transaction
  maxTxs : Int
deriving DecidableEq, Repr

/-- Constructor `newSortedTxs`. -/
def newSortedTxs (maxTxs : Int) : sortedTxs := { txs := [], maxTxs := maxTxs }

/-- Method `sortedTxs.Full`. -/
def sortedTxs.Full (s : sortedTxs) : Bool :=
  decide (s.maxTxs > 0) && decide ((s.txs.length : Int) ≥ s.maxTxs)

/-- Method `sortedTxs.Empty`. -/
def sortedTxs.Empty (s : sortedTxs) : Bool := s.txs.length == 0

/-- Method `sortedTxs.Add`. -/
def sortedTxs.Add (pt : PriorityTable) (s : sortedTxs) (tx : Transaction) :
    Option PoolError × sortedTxs :=
  if !priorityKey pt tx.TxType && s.Full then
    (some PoolError.setIsFullErr, s)
  else
    match s.txs.getLast? with
    | some last =>
      if tx.AccountNonce ≠ nonceSucc last.AccountNonce ∨ tx.Epoch ≠ last.Epoch then
        (some PoolError.sortedTxNonceErr, s)
      else (none, { s with txs := s.txs ++ [tx] })
    | none => (none, { s with txs := s.txs ++ [tx] })

/-- The loop of `sort.Search`: binary search on `[i, j)`; `fuel` bounds the
number of iterations. -/
def searchLoop (f : Nat → Bool) : Nat → Nat → Nat → Nat
  | 0, i, _ => i
  | fuel + 1, i, j =>
    if i < j then
      let h := (i + j) / 2
      if !f h then searchLoop f fuel (h + 1) j else searchLoop f fuel i h
    else i

/-- Library call `sort.Search(n, f)`.  The interval shrinks in every
iteration, so `n` iterations are enough. -/
def sortSearch (n : Nat) (f : Nat → Bool) : Nat := searchLoop f n 0 n

/-- The predicate `s.txs[i].AccountNonce >= nonce` of `sortedTxs.Remove`. -/
def nonceAtLeast (txs : List Transaction) (nonce : Nat) (i : Nat) : Bool :=
  match txs[i]? with
  | some t => decide (t.AccountNonce ≥ nonce)
  | none => false

/-- Method `sortedTxs.Remove`. -/
def sortedTxs.Remove (s : sortedTxs) (transaction : Transaction) : sortedTxs :=
  let i := sortSearch s.txs.length (nonceAtLeast s.txs transaction.AccountNonce)
  match s.txs[i]? with
  | some t => if t.Hash = transaction.Hash then { s with txs := s.txs.eraseIdx i } else s
  | none => s

/-! ## The pool -/

/-- Type `TxPool`, the fields that hold pool state.  The nonce cache belongs
to the ledger and the keeper, the event bus and the statistics collector are
outside collaborators; none of them is read back by the pool. -/
structure TxPool where
  knownDeferredTxs : List Hash
  deferredTxs : List Transaction
  all : txMap
  shortHashAll : List (Hash × Transaction)
  txSyncCounts : List (Hash × Int)
  executableTxs : List (Nat × sortedTxs)
  pendingTxs : List (Nat × txMap)
  mempoolCfg : MempoolCfg
  isSyncing : Bool
  coinbase : Nat
deriving DecidableEq, Repr

/-- Constructor `NewTxPool`: the empty pool. -/
def NewTxPool (cfg : MempoolCfg) : TxPool :=
  { knownDeferredTxs := [], deferredTxs := [], all := newTxMap (-1), shortHashAll := [],
    txSyncCounts := [], executableTxs := [], pendingTxs := [], mempoolCfg := cfg,
    isSyncing := false, coinbase := 0 }

/-- Method `TxPool.checkPriorityTxLimits`. -/
def TxPool.checkPriorityTxLimits (pool : TxPool) (tx : Transaction) : Option PoolError :=
  let inExecutable :=
    match mapGet pool.executableTxs tx.sender with
    | some executable => executable.txs.any (fun existingTx => existingTx.TxType == tx.TxType)
    | none => false
  if inExecutable then some (PoolError.multipleCeremonyExecutable tx.TxType)
  else
    let inPending :=
      match mapGet pool.pendingTxs tx.sender with
      | some txs => txs.txs.any (fun existingTx => existingTx.2.TxType == tx.TxType)
      | none => false
    if inPending then some (PoolError.multipleCeremonyPending tx.TxType) else none

/-- A Go `int` result on a 64-bit platform: two's complement wrap-around. -/
def wrapInt (x : Int) : Int := (x + 2 ^ 63) % 2 ^ 64 - 2 ^ 63

/-- The `totalLimit` computed at the head of `checkRegularTxLimits`. -/
def totalLimit (cfg : MempoolCfg) : Int :=
  if cfg.TxPoolExecutableSlots < 0 ∨ cfg.TxPoolQueueSlots < 0 then -1
  else
    wrapInt (wrapInt (cfg.TxPoolExecutableSlots * cfg.TxPoolAddrExecutableLimit) +
      wrapInt (cfg.TxPoolQueueSlots * cfg.TxPoolAddrQueueLimit))

/-- Method `TxPool.checkRegularTxLimits`. -/
def TxPool.checkRegularTxLimits (pool : TxPool) (tx : Transaction) : Option PoolError :=
  if totalLimit pool.mempoolCfg > 0 ∧ (pool.all.txs.length : Int) ≥ totalLimit pool.mempoolCfg then
    some PoolError.queueMaxSizeReached
  else
    match mapGet pool.executableTxs tx.sender with
    | some byAddr =>
      if byAddr.Full then
        let pendingFull :=
          match mapGet pool.pendingTxs tx.sender with
          | some pending => pending.Full
          | none => false
        if pendingFull then some PoolError.MempoolFullError
        else if pool.mempoolCfg.TxPoolQueueSlots > 0 ∧
            (pool.pendingTxs.length : Int) ≥ pool.mempoolCfg.TxPoolQueueSlots then
          some PoolError.MempoolFullError
        else none
      else none
    | none => none

/-- Method `TxPool.checkLimits`. -/
def TxPool.checkLimits (pt : PriorityTable) (pool : TxPool) (tx : Transaction) :
    Option PoolError :=
  if priorityVal pt tx.TxType then pool.checkPriorityTxLimits tx
  else pool.checkRegularTxLimits tx

/-- Method `TxPool.putToPending`. -/
def TxPool.putToPending (pt : PriorityTable) (pool : TxPool) (tx : Transaction) :
    Option PoolError × TxPool :=
  let store (set : txMap) : Option PoolError × TxPool :=
    match set.Add pt tx with
    | (some e, _) => (some e, pool)
    | (none, set1) => (none, { pool with pendingTxs := mapSet pool.pendingTxs tx.sender set1 })
  match mapGet pool.pendingTxs tx.sender with
  | some set => store set
  | none =>
    if pool.mempoolCfg.TxPoolQueueSlots > 0 ∧
        (pool.pendingTxs.length : Int) ≥ pool.mempoolCfg.TxPoolQueueSlots then
      (some PoolError.MempoolFullError, pool)
    else store (newTxMap pool.mempoolCfg.TxPoolAddrQueueLimit)

/-- The committed nonce `put` and the migration compare with: the account
nonce, or zero when the account epoch is behind the global epoch. -/
def committedNonce (st : Ledger) (sender : Nat) : Nat :=
  if st.GetEpoch sender < st.Epoch then 0 else st.GetNonce sender

/-- The queue `executable` that `put` and the migration work on: the
executable queue of the sender, or a new one when the sender has none. -/
def TxPool.executableOrNew (pool : TxPool) (sender : Nat) : sortedTxs :=
  match mapGet pool.executableTxs sender with
  | some e => e
  | none => newSortedTxs pool.mempoolCfg.TxPoolAddrExecutableLimit

/-- The flag `isExecutable` of `put`. -/
def TxPool.isExecutable (st : Ledger) (pool : TxPool) (tx : Transaction) : Bool :=
  if (pool.executableOrNew tx.sender).Empty then
    !(decide (tx.Epoch ≠ st.Epoch) ||
      decide (tx.AccountNonce ≠ nonceSucc (committedNonce st tx.sender)))
  else true

/-- The placement in `put`: into the executable queue when the flag is set
and the queue takes the transaction, else into the pending queue. -/
def TxPool.place (pt : PriorityTable) (st : Ledger) (pool : TxPool) (tx : Transaction) :
    Option PoolError × TxPool :=
  if pool.isExecutable st tx then
    match (pool.executableOrNew tx.sender).Add pt tx with
    | (some _, _) => pool.putToPending pt tx
    | (none, executable1) =>
      (none, { pool with executableTxs := mapSet pool.executableTxs tx.sender executable1 })
  else pool.putToPending pt tx

/-- Method `TxPool.put`: the placement, then the entry in the two indices. -/
def TxPool.put (pt : PriorityTable) (st : Ledger) (pool : TxPool) (tx : Transaction) :
    Option PoolError × TxPool :=
  match pool.place pt st tx with
  | (some e, pool1) => (some e, pool1)
  | (none, pool1) =>
    (none, { pool1 with
      all := (pool1.all.Add pt tx).2
      shortHashAll := mapSet pool1.shortHashAll tx.Hash128 tx })

/-- Method `TxPool.add`.  The pool holds pointers, so the shard id that the
source sets on the transaction after `put` is seen through every index; here
it is set on the value that `put` stores.  A fault raised by the validator is
recovered into an error. -/
def TxPool.add (pt : PriorityTable) (st : Ledger) (pool : TxPool) (tx : Transaction)
    (own : Bool) (txType : TxKind) : Option PoolError × TxPool :=
  if (pool.all.Get tx.Hash).isSome then (some PoolError.DuplicateTxError, pool)
  else
    match pool.checkLimits pt tx with
    | some e => (some e, pool)
    | none =>
      match st.ValidateTx tx txType with
      | ValidateOutcome.fault msg => (some (PoolError.recovered msg), pool)
      | ValidateOutcome.err e => (some (PoolError.validation e), pool)
      | ValidateOutcome.ok =>
        let _ := own
        pool.put pt st { tx with shardId := st.ShardId tx.sender }

/-- Method `TxPool.GetTx`. -/
def TxPool.GetTx (pool : TxPool) (hash : Hash) : Option Transaction := pool.all.Get hash

/-- Method `TxPool.GetPendingByAddress`. -/
def TxPool.GetPendingByAddress (pool : TxPool) (address : Nat) : List Transaction :=
  (match mapGet pool.executableTxs address with
    | some executable => executable.txs
    | none => []) ++
  (match mapGet pool.pendingTxs address with
    | some pending => pending.txs.map Prod.snd
    | none => [])

/-- Method `TxPool.Remove`. -/
def TxPool.Remove (pool : TxPool) (transaction : Transaction) : TxPool :=
  { pool with
    all := pool.all.Remove transaction.Hash
    shortHashAll := mapDelete pool.shortHashAll transaction.Hash128
    txSyncCounts := mapDelete pool.txSyncCounts transaction.Hash
    executableTxs :=
      match mapGet pool.executableTxs transaction.sender with
      | some executable =>
        if (executable.Remove transaction).Empty then
          mapDelete pool.executableTxs transaction.sender
        else mapSet pool.executableTxs transaction.sender (executable.Remove transaction)
      | none => pool.executableTxs
    pendingTxs :=
      match mapGet pool.pendingTxs transaction.sender with
      | some pending =>
        if (pending.Remove transaction.Hash).Empty then
          mapDelete pool.pendingTxs transaction.sender
        else mapSet pool.pendingTxs transaction.sender (pending.Remove transaction.Hash)
      | none => pool.pendingTxs }

/-- The inner loop of `movePendingTxsToExecutable` for one sender, over the
sorted snapshot of its pending queue.  The flag records whether the executable
queue was stored back (`pool.executableTxs[sender] = executable`). -/
def migrateLoop (pt : PriorityTable) (st : Ledger) (sender : Nat) :
    List Transaction → sortedTxs → txMap → Bool → sortedTxs × txMap × Bool
  | [], executable, pending, stored => (executable, pending, stored)
  | tx :: rest, executable, pending, stored =>
    if executable.Empty &&
        (decide (st.Epoch ≠ tx.Epoch) || decide (tx.AccountNonce ≠ nonceSucc (committedNonce st sender))) then
      (executable, pending, stored)
    else
      match executable.Add pt tx with
      | (none, executable1) =>
        migrateLoop pt st sender rest executable1 (pending.Remove tx.Hash) true
      | (some _, _) => (executable, pending, stored)

/-- One iteration of the outer loop of `movePendingTxsToExecutable`. -/
def migrateSender (pt : PriorityTable) (st : Ledger) (pool : TxPool) (entry : Nat × txMap) :
    TxPool :=
  let r := migrateLoop pt st entry.1 entry.2.Sorted (pool.executableOrNew entry.1) entry.2 false
  { pool with
    executableTxs :=
      if r.2.2 then mapSet pool.executableTxs entry.1 r.1 else pool.executableTxs
    pendingTxs :=
      if r.2.1.Empty then mapDelete pool.pendingTxs entry.1
      else mapSet pool.pendingTxs entry.1 r.2.1 }

/-- Method `TxPool.movePendingTxsToExecutable`: the loop over the senders
with a pending queue. -/
def TxPool.movePendingTxsToExecutable (pt : PriorityTable) (st : Ledger) (pool : TxPool) :
    TxPool :=
  pool.pendingTxs.foldl (migrateSender pt st) pool

/-- Entry of the map `minErrorNonce` of `ResetTo`. -/
structure txError where
  nonce : Nat
  err : ValidationError
deriving DecidableEq, Repr

/-- First loop of the re-validation in `ResetTo`: per sender the least nonce
whose validation fails with an error other than the invalid-nonce error, and
the transactions that fail with the invalid-nonce error.  A fault of the
validator is not recovered here and ends the loop. -/
def resetPass1 (st : Ledger) (globalEpoch : Nat) :
    List Transaction → List (Nat × txError) → List (Hash × Transaction) →
      Except Nat (List (Nat × txError) × List (Hash × Transaction))
  | [], minErrorNonce, removingTxs => Except.ok (minErrorNonce, removingTxs)
  | tx :: rest, minErrorNonce, removingTxs =>
    if tx.Epoch ≠ globalEpoch then resetPass1 st globalEpoch rest minErrorNonce removingTxs
    else
      match st.ValidateTx tx TxKind.MempoolTx with
      | ValidateOutcome.ok => resetPass1 st globalEpoch rest minErrorNonce removingTxs
      | ValidateOutcome.fault msg => Except.error msg
      | ValidateOutcome.err e =>
        if e = ValidationError.InvalidNonce then
          resetPass1 st globalEpoch rest minErrorNonce (mapSet removingTxs tx.Hash tx)
        else
          match mapGet minErrorNonce tx.sender with
          | some n =>
            if tx.AccountNonce < n.nonce then
              resetPass1 st globalEpoch rest
                (mapSet minErrorNonce tx.sender { nonce := tx.AccountNonce, err := e }) removingTxs
            else resetPass1 st globalEpoch rest minErrorNonce removingTxs
          | none =>
            resetPass1 st globalEpoch rest
              (mapSet minErrorNonce tx.sender { nonce := tx.AccountNonce, err := e }) removingTxs

/-- Second loop of the re-validation in `ResetTo`. -/
def resetPass2 (globalEpoch : Nat) (minErrorNonce : List (Nat × txError)) :
    List Transaction → List (Hash × Transaction) → List (Hash × Transaction)
  | [], removingTxs => removingTxs
  | tx :: rest, removingTxs =>
    if tx.Epoch < globalEpoch then
      resetPass2 globalEpoch minErrorNonce rest (mapSet removingTxs tx.Hash tx)
    else if tx.Epoch > globalEpoch then resetPass2 globalEpoch minErrorNonce rest removingTxs
    else
      match mapGet minErrorNonce tx.sender with
      | some txError =>
        if tx.AccountNonce ≥ txError.nonce then
          resetPass2 globalEpoch minErrorNonce rest (mapSet removingTxs tx.Hash tx)
        else resetPass2 globalEpoch minErrorNonce rest removingTxs
      | none => resetPass2 globalEpoch minErrorNonce rest removingTxs

/-- Method `TxPool.ResetTo`, on the transactions of the block's body.  The
first component of the result is set when the call does not return, and the
pool is then the pool as it stands at that point.  On the re-validation path
the source drops the error of `appState.Readonly` and reads the network size
through the snapshot before the first loop: when the snapshot could not be
opened it is nil and the call ends there with a nil dereference, recorded
with the code of the snapshot error.  A fault that the validator raises
during re-validation is not recovered either. -/
def TxPool.ResetTo (pt : PriorityTable) (st : Ledger) (pool : TxPool) (block : List Transaction) :
    Option Nat × TxPool :=
  let pool1 := block.foldl TxPool.Remove pool
  let pool2 := pool1.movePendingTxsToExecutable pt st
  if !pool2.mempoolCfg.ResetInCeremony && decide (st.ValidationPeriod > st.FlipLotteryPeriod) then
    (none, pool2)
  else
    let pending := pool2.all.List TxMapFilter.All
    match st.ReadonlyErr with
    | some code => (some code, pool2)
    | none =>
      match resetPass1 st st.Epoch pending [] [] with
      | Except.error msg => (some msg, pool2)
      | Except.ok (minErrorNonce, removingTxs1) =>
        let removingTxs := resetPass2 st.Epoch minErrorNonce pending removingTxs1
        (none, (removingTxs.map Prod.snd).foldl TxPool.Remove pool2)

/-! ## Sequences of queue operations -/

/-- A call on an executable queue: `Add(tx)` or `Remove(tx)`. -/
inductive QueueOp where
  | add (tx : Transaction)
  | remove (tx : Transaction)
deriving DecidableEq, Repr

/-- One call on an executable queue; the error of `Add` is dropped. -/
def applyQueueOp (pt : PriorityTable) (s : sortedTxs) : QueueOp → sortedTxs
  | QueueOp.add tx => (s.Add pt tx).2
  | QueueOp.remove tx => s.Remove tx

/-- The queue after a sequence of calls, from the empty queue. -/
def runQueueOps (pt : PriorityTable) (maxTxs : Int) (ops : List QueueOp) : sortedTxs :=
  ops.foldl (applyQueueOp pt) (newSortedTxs maxTxs)

/-- Adjacent entries as claimed for an executable queue: same epoch, nonces
that differ by exactly one. -/
def consecutive (a b : Transaction) : Prop :=
  b.Epoch = a.Epoch ∧ b.AccountNonce = a.AccountNonce + 1

instance (a b : Transaction) : Decidable (consecutive a b) :=
  inferInstanceAs (Decidable (b.Epoch = a.Epoch ∧ b.AccountNonce = a.AccountNonce + 1))

/-- Adjacent entries as `sortedTxs.Add` lays them down: same epoch, the
`uint32` successor as nonce. -/
def consecutive32 (a b : Transaction) : Prop :=
  b.Epoch = a.Epoch ∧ b.AccountNonce = nonceSucc a.AccountNonce

/-- Order of `txMap.Sorted`: by epoch, within an epoch by nonce. -/
def epochNonceLe (a b : Transaction) : Prop :=
  a.Epoch < b.Epoch ∨ (a.Epoch = b.Epoch ∧ a.AccountNonce ≤ b.AccountNonce)

/-! ## Reachable pool states -/

/-- The executable queue of a sender as a list, empty when the sender has
none. -/
def TxPool.execOf (pool : TxPool) (sender : Nat) : List Transaction :=
  match mapGet pool.executableTxs sender with
  | some executable => executable.txs
  | none => []

/-- The pending queue of a sender as a list of entries, empty when the
sender has none. -/
def TxPool.pendOf (pool : TxPool) (sender : Nat) : List (Hash × Transaction) :=
  match mapGet pool.pendingTxs sender with
  | some pending => pending.txs
  | none => []

/-- Number of transactions in all executable queues (the first loop of
`assertTxs` in `TestTxPool_ResetTo`). -/
def TxPool.executableCount (pool : TxPool) : Nat :=
  (pool.executableTxs.map (fun p => p.2.txs.length)).sum

/-- Number of transactions in all pending queues (the second loop of
`assertTxs` in `TestTxPool_ResetTo`). -/
def TxPool.pendingCount (pool : TxPool) : Nat :=
  (pool.pendingTxs.map (fun p => p.2.txs.length)).sum

/-- Two pools with the same content whose maps are enumerated in different
orders: Go leaves the iteration order of a map open. -/
structure SameContent (a b : TxPool) : Prop where
  knownDeferredTxs : b.knownDeferredTxs = a.knownDeferredTxs
  deferredTxs : b.deferredTxs = a.deferredTxs
  allTxs : b.all.txs.Perm a.all.txs
  allMax : b.all.maxTxs = a.all.maxTxs
  shortHashAll : b.shortHashAll.Perm a.shortHashAll
  txSyncCounts : b.txSyncCounts.Perm a.txSyncCounts
  executableTxs : b.executableTxs.Perm a.executableTxs
  pendingTxs : b.pendingTxs.Perm a.pendingTxs
  mempoolCfg : b.mempoolCfg = a.mempoolCfg
  isSyncing : b.isSyncing = a.isSyncing
  coinbase : b.coinbase = a.coinbase

/-- Pool states reachable from the empty pool through `add`, `Remove`,
`movePendingTxsToExecutable` and `ResetTo`, with any ledger at each step and
the maps enumerated in any order (the rules `reorder` and `reorderPending`).
`ok` is a condition on the transactions that `add` admits: a call of `add`
that returns an error is a step for every transaction.  Between the steps
the fields that the four operations do not read (the syncing flag, the
address of the node, the deferral queue and its seen-set, the compact index
and the sync counters) may change in any way (the rule `frame`), as
`Initialize`, `StartSync`, `addDeferredTx` and `GetPendingTransaction` change
them: the states that `AddExternalTxs`, `AddInternalTx` and `StopSync` produce,
in syncing mode or not, are among the reachable ones. -/
inductive ReachableVia (pt : PriorityTable) (ok : Transaction → Prop) : TxPool → Prop where
  | empty (cfg : MempoolCfg) : ReachableVia pt ok (NewTxPool cfg)
  | add (st : Ledger) (pool : TxPool) (tx : Transaction) (own : Bool) (txType : TxKind) :
      ReachableVia pt ok pool → ((pool.add pt st tx own txType).1 = none → ok tx) →
      ReachableVia pt ok (pool.add pt st tx own txType).2
  | remove (pool : TxPool) (tx : Transaction) :
      ReachableVia pt ok pool → ReachableVia pt ok (pool.Remove tx)
  | move (st : Ledger) (pool : TxPool) :
      ReachableVia pt ok pool → ReachableVia pt ok (pool.movePendingTxsToExecutable pt st)
  | reset (st : Ledger) (pool : TxPool) (block : List Transaction) :
      ReachableVia pt ok pool → ReachableVia pt ok (pool.ResetTo pt st block).2
  | reorder (pool other : TxPool) :
      ReachableVia pt ok pool → SameContent pool other → ReachableVia pt ok other
  | reorderPending (pool : TxPool) (sender : Nat) (pending : txMap)
      (txs : List (Hash × Transaction)) :
      ReachableVia pt ok pool → mapGet pool.pendingTxs sender = some pending →
      txs.Perm pending.txs →
      ReachableVia pt ok { pool with
        pendingTxs := mapSet pool.pendingTxs sender { pending with txs := txs } }
  | frame (pool other : TxPool) :
      ReachableVia pt ok pool → other.all = pool.all →
      other.executableTxs = pool.executableTxs → other.pendingTxs = pool.pendingTxs →
      other.mempoolCfg = pool.mempoolCfg → ReachableVia pt ok other

/-- Pool states reachable from the empty pool through `add`, `Remove`,
`movePendingTxsToExecutable` and `ResetTo`, for any transactions. -/
def Reachable (pt : PriorityTable) (pool : TxPool) : Prop :=
  ReachableVia pt (fun _ => True) pool

/-- A nonce below the largest `uint32` value: its successor does not wrap. -/
def noWrap (tx : Transaction) : Prop := tx.AccountNonce + 1 < 2 ^ 32

instance (tx : Transaction) : Decidable (noWrap tx) :=
  inferInstanceAs (Decidable (tx.AccountNonce + 1 < 2 ^ 32))

/-- Reachable pool states when no transaction that `add` admits carries the
largest `uint32` nonce. -/
def ReachableNoWrap (pt : PriorityTable) (pool : TxPool) : Prop :=
  ReachableVia pt noWrap pool

/-- A condition on the admitted transactions under which no nonce in a queue
wraps around: the nonces are `uint32` values, and `add` does not admit, for
one sender and one epoch, both the largest nonce 4294967295 and the nonce 0,
its `uint32` successor.  The condition does not look at the shard id, which
`add` sets on the transaction it stores. -/
structure WrapFree (ok : Transaction → Prop) : Prop where
  range : ∀ tx, ok tx → tx.AccountNonce < 2 ^ 32
  pair : ∀ a b, ok a → ok b → a.sender = b.sender → a.Epoch = b.Epoch →
    a.AccountNonce = 4294967295 → b.AccountNonce ≠ 0
  stored : ∀ tx shard, ok tx → ok { tx with shardId := shard }

/-- A `uint32` nonce above zero: what a validator lets through whose nonce
rule asks for a nonce above the committed nonce of the account. -/
def positiveNonce (tx : Transaction) : Prop := 0 < tx.AccountNonce ∧ tx.AccountNonce < 2 ^ 32

instance (tx : Transaction) : Decidable (positiveNonce tx) :=
  inferInstanceAs (Decidable (0 < tx.AccountNonce ∧ tx.AccountNonce < 2 ^ 32))

/-- The invariant of the pool when the transactions in it meet `ok`, on the
per-sender view of the executable queues `E`, the per-sender view of the
pending queues `P` and the keys `A` of the Global Index: executable queues
ascend strictly in the nonce and hold transactions of their sender; pending
entries are keyed by their hash; every hash of the Global Index is in exactly
one queue of its sender. -/
structure ViewInv (ok : Transaction → Prop) (E : Nat → List Transaction)
    (P : Nat → List (Hash × Transaction)) (A : List Hash) : Prop where
  execOk : ∀ s, (E s).Pairwise (fun a b => a.AccountNonce < b.AccountNonce) ∧
    ∀ t ∈ E s, t.sender = s ∧ ok t
  pendOk : ∀ s, ∀ e ∈ P s, e.1 = e.2.Hash ∧ e.2.sender = s ∧ ok e.2
  allKeys : A.Nodup
  hashes : ∀ x : Hash,
    ((E x.sender).map Transaction.Hash).count x + ((P x.sender).map Prod.fst).count x = A.count x

/-- The invariant of the pool that the reachable states keep when the
admitted transactions meet a condition `ok` under which no nonce wraps. -/
structure PoolInv (ok : Transaction → Prop) (pool : TxPool) : Prop where
  execKeys : (pool.executableTxs.map Prod.fst).Nodup
  pendKeys : (pool.pendingTxs.map Prod.fst).Nodup
  allCap : pool.all.maxTxs ≤ 0
  view : ViewInv ok pool.execOf pool.pendOf (pool.all.txs.map Prod.fst)

/-- The invariant of the priority types, on the per-sender views: pending
entries are keyed by their hash, one entry a key, and a sender holds at most
one transaction of each priority type. -/
structure PrioView (pt : PriorityTable) (E : Nat → List Transaction)
    (P : Nat → List (Hash × Transaction)) : Prop where
  pendKeyed : ∀ s, ∀ e ∈ P s, e.1 = e.2.Hash
  pendNodup : ∀ s, ((P s).map Prod.fst).Nodup
  prio : ∀ s T, priorityVal pt T = true →
    ((E s ++ (P s).map Prod.snd).filter (fun t => decide (t.TxType = T))).length ≤ 1

/-- The invariant of the priority types that every reachable state keeps. -/
structure PrioInv (pt : PriorityTable) (pool : TxPool) : Prop where
  execKeys : (pool.executableTxs.map Prod.fst).Nodup
  pendKeys : (pool.pendingTxs.map Prod.fst).Nodup
  view : PrioView pt pool.execOf pool.pendOf

/-! ## Arithmetic of the capacity check -/

/-- A value in the range of a Go `int` on a 64-bit platform. -/
def fitsInt (x : Int) : Prop := -2 ^ 63 ≤ x ∧ x < 2 ^ 63

instance (x : Int) : Decidable (fitsInt x) :=
  inferInstanceAs (Decidable (-2 ^ 63 ≤ x ∧ x < 2 ^ 63))

/-- The expression `TxPoolExecutableSlots*TxPoolAddrExecutableLimit +
TxPoolQueueSlots*TxPoolAddrQueueLimit` as Go computes it. -/
def goTotal (cfg : MempoolCfg) : Int :=
  wrapInt (wrapInt (cfg.TxPoolExecutableSlots * cfg.TxPoolAddrExecutableLimit) +
    wrapInt (cfg.TxPoolQueueSlots * cfg.TxPoolAddrQueueLimit))

/-! ## Syncing mode -/

/-- Constant `MaxDeferredTxs`, the capacity of the channel `deferredTxs`. -/
def MaxDeferredTxs : Nat := 100

/-- Method `TxPool.Initialize` with `useTxKeeper` false: the address of the
node.  The head is outside the pool state. -/
def TxPool.Initialize (pool : TxPool) (coinbase : Nat) : TxPool :=
  { pool with coinbase := coinbase }

/-- Method `TxPool.StartSync`. -/
def TxPool.StartSync (pool : TxPool) : TxPool := { pool with isSyncing := true }

/-- Method `TxPool.addDeferredTx`.  The channel `deferredTxs` is the list of
its buffered elements, oldest first: a send goes through while fewer than
`MaxDeferredTxs` elements are buffered, a receive takes the head.  The three
`select` statements are taken one after the other. -/
def TxPool.addDeferredTx (pool : TxPool) (tx : Transaction) : TxPool :=
  if tx.Hash ∈ pool.knownDeferredTxs then pool
  else
    let queue :=
      if pool.deferredTxs.length < MaxDeferredTxs then pool.deferredTxs ++ [tx]
      else
        let queue1 := pool.deferredTxs.drop 1
        if queue1.length < MaxDeferredTxs then queue1 ++ [tx] else queue1
    { pool with deferredTxs := queue, knownDeferredTxs := pool.knownDeferredTxs ++ [tx.Hash] }

/-- The loop of `AddExternalTxs` over the batch; `batchLen` is `len(txs)`. -/
def externalLoop (pt : PriorityTable) (st : Ledger) (txType : TxKind) (batchLen : Nat) :
    List Transaction → TxPool → Option PoolError × TxPool
  | [], pool => (none, pool)
  | tx :: rest, pool =>
    if pool.isSyncing && decide (tx.sender ≠ pool.coinbase) then
      externalLoop pt st txType batchLen rest (pool.addDeferredTx tx)
    else
      match pool.add pt st tx (decide (tx.sender = pool.coinbase)) txType with
      | (some e, pool1) =>
        if batchLen = 1 then (some e, pool1)
        else externalLoop pt st txType batchLen rest pool1
      | (none, pool1) => externalLoop pt st txType batchLen rest pool1

/-- Method `TxPool.AddExternalTxs`. -/
def TxPool.AddExternalTxs (pt : PriorityTable) (st : Ledger) (pool : TxPool) (txType : TxKind)
    (txs : List Transaction) : Option PoolError × TxPool :=
  match st.ReadonlyErr with
  | some code => (some (PoolError.stateUnavailable code), pool)
  | none => externalLoop pt st txType txs.length txs pool

/-- What a call of `AddInternalTx` leaves: the error it returns, the pool, the
transaction of the caller as the call leaves it (the call writes the priority
flag and, through `add`, the shard id on it), and the fault when the call does
not return. -/
structure InternalTxResult where
  err : Option PoolError
  pool : TxPool
  tx : Transaction
  fault : Option Nat := none
deriving DecidableEq, Repr

/-- Whether `addDeferredTx(tx)` sends `tx` to the channel `deferredTxs`: the
hash is not in the seen-set, and the first or the second send finds room. -/
def TxPool.sendsDeferred (pool : TxPool) (tx : Transaction) : Bool :=
  decide (tx.Hash ∉ pool.knownDeferredTxs) &&
    (decide (pool.deferredTxs.length < MaxDeferredTxs) ||
      decide ((pool.deferredTxs.drop 1).length < MaxDeferredTxs))

/-- The write `SetShardId(shard)` on the element that was sent to the channel
last, the youngest one. -/
def setShardOfLast (shard : Nat) : List Transaction → List Transaction
  | [] => []
  | [t] => [{ t with shardId := shard }]
  | t :: u :: rest => t :: setShardOfLast shard (u :: rest)

/-- Method `TxPool.AddInternalTx`.

The pool and the channel hold pointers.  The transaction handed to a call is
an object of its own; what the call writes on it is seen in the result `tx`
and, in syncing mode, through the pointer that `addDeferredTx` has just sent
to the channel: when `add` admits the transaction it sets the shard id on that
object.

In syncing mode the error of `appState.Readonly` is dropped.  When the
snapshot cannot be opened it is nil: `add` then fails for every transaction
(with the duplicate error, the error of the limits, or the nil dereference in
`validate` that `add` recovers) and leaves the pool alone, and for a type that
is a key of `priorityTypes` the construction of the event reads the shard id
through the nil snapshot, which ends the call with a nil dereference that
nothing recovers; the fault carries the code of the snapshot error. -/
def TxPool.AddInternalTx (pt : PriorityTable) (st : Ledger) (pool : TxPool) (tx : Transaction) :
    InternalTxResult :=
  let tx1 := { tx with highPriority := true }
  if pool.isSyncing then
    let pool1 := pool.addDeferredTx tx1
    match st.ReadonlyErr with
    | some code =>
      if priorityKey pt tx1.TxType then
        { err := none, pool := pool1, tx := tx1, fault := some code }
      else { err := none, pool := pool1, tx := tx1 }
    | none =>
      match pool1.add pt st tx1 true TxKind.InboundTx with
      | (some _, pool2) => { err := none, pool := pool2, tx := tx1 }
      | (none, pool2) =>
        { err := none,
          pool := { pool2 with
            deferredTxs :=
              if pool.sendsDeferred tx1 then
                setShardOfLast (st.ShardId tx1.sender) pool2.deferredTxs
              else pool2.deferredTxs },
          tx := { tx1 with shardId := st.ShardId tx1.sender } }
  else
    match st.ReadonlyErr with
    | some code => { err := some (PoolError.stateUnavailable code), pool := pool, tx := tx1 }
    | none =>
      match pool.add pt st tx1 true TxKind.InboundTx with
      | (some e, pool2) => { err := some e, pool := pool2, tx := tx1 }
      | (none, pool2) =>
        { err := none, pool := pool2, tx := { tx1 with shardId := st.ShardId tx1.sender } }

/-- One resubmission by `StopSync`: the transaction taken from the channel,
the pool at that moment, and the error the resubmission returned (which
`StopSync` drops). -/
structure Resubmission where
  tx : Transaction
  before : TxPool
  err : Option PoolError
deriving DecidableEq, Repr

/-- The loop of `StopSync` that empties the channel `deferredTxs`.  Each round
receives the oldest buffered transaction and resubmits it; the loop ends when
the channel is empty.  The first argument bounds the number of rounds.  The
first component of the result is the fault of a resubmission through
`AddInternalTx` that does not return: the loop ends there. -/
def drainLoop (pt : PriorityTable) (st : Ledger) :
    Nat → TxPool → List Resubmission → Option Nat × TxPool × List Resubmission
  | 0, pool, log => (none, pool, log)
  | fuel + 1, pool, log =>
    match pool.deferredTxs with
    | [] => (none, pool, log)
    | tx :: rest =>
      let pool1 := { pool with deferredTxs := rest }
      let r : Option PoolError × TxPool :=
        if tx.highPriority then
          ((pool1.AddInternalTx pt st tx).err, (pool1.AddInternalTx pt st tx).pool)
        else pool1.AddExternalTxs pt st TxKind.MempoolTx [tx]
      let fault : Option Nat :=
        if tx.highPriority then (pool1.AddInternalTx pt st tx).fault else none
      match fault with
      | some code => (some code, r.2, log)
      | none => drainLoop pt st fuel r.2 (log ++ [{ tx := tx, before := pool1, err := r.1 }])

/-- What a call of `StopSync` leaves: the fault when `ResetTo` or a
resubmission did not return (the call does not return then either), the pool,
and the resubmissions in the order they were made. -/
structure StopSyncResult where
  fault : Option Nat
  pool : TxPool
  resubmitted : List Resubmission
deriving DecidableEq, Repr

/-- Method `TxPool.StopSync`; `keeperTxs` is `txKeeper.List()`, empty when
there is no keeper.  The pool is not in syncing mode while the channel is
emptied, so no resubmission writes to the channel and one round per buffered
transaction empties it. -/
def TxPool.StopSync (pt : PriorityTable) (st : Ledger) (pool : TxPool) (block : List Transaction)
    (keeperTxs : List Transaction) : StopSyncResult :=
  let pool1 := { pool with isSyncing := false }
  match pool1.ResetTo pt st block with
  | (some msg, pool2) => { fault := some msg, pool := pool2, resubmitted := [] }
  | (none, pool2) =>
    let drained := drainLoop pt st pool2.deferredTxs.length pool2 []
    match drained.1 with
    | some code => { fault := some code, pool := drained.2.1, resubmitted := drained.2.2 }
    | none =>
      let pool3 := { drained.2.1 with knownDeferredTxs := [] }
      { fault := none, pool := (pool3.AddExternalTxs pt st TxKind.MempoolTx keeperTxs).2,
        resubmitted := drained.2.2 }

/-! ## Pools with a single sender

The scenarios follow one sender from the empty pool.  The pool states on the
way have a fixed shape, which `senderPool` names; `submitAll` hands a list of
transactions to `add` one after the other, as the loops of
`TestTxPool_ResetTo` do through `AddInternalTx`. -/

/-- The entry of a transaction in a map keyed by hash. -/
def entryOf (tx : Transaction) : Hash × Transaction := (tx.Hash, tx)

/-- The pool of configuration `cfg` that knows a single sender: the sender's
executable queue holds `executable`, its pending queue holds `pending` and the
two indices hold `all`, each in the order of insertion.  A queue that would be
empty does not exist. -/
def senderPool (cfg : MempoolCfg) (sender : Nat) (executable pending all : List Transaction) :
    TxPool :=
  { NewTxPool cfg with
    executableTxs :=
      if executable = [] then []
      else [(sender, { txs := executable, maxTxs := cfg.TxPoolAddrExecutableLimit })]
    pendingTxs :=
      if pending = [] then []
      else [(sender, { txs := pending.map entryOf, maxTxs := cfg.TxPoolAddrQueueLimit })]
    all := { txs := all.map entryOf, maxTxs := -1 }
    shortHashAll := all.map entryOf }

/-- The transaction as `add` stores it: with the shard of its sender set. -/
def storedTx (st : Ledger) (tx : Transaction) : Transaction :=
  { tx with shardId := st.ShardId tx.sender }

/-- The condition under which `put` appends a transaction that is not of a
priority type to an executable queue holding `executable`: the queue is not
full, and the transaction continues the queue, or starts it right after the
committed nonce of its sender. -/
def execRoute (st : Ledger) (cfg : MempoolCfg) (executable : List Transaction)
    (tx : Transaction) : Prop :=
  ¬ (cfg.TxPoolAddrExecutableLimit > 0 ∧
      (executable.length : Int) ≥ cfg.TxPoolAddrExecutableLimit) ∧
    match executable.getLast? with
    | some last => tx.AccountNonce = nonceSucc last.AccountNonce ∧ tx.Epoch = last.Epoch
    | none => tx.Epoch = st.Epoch ∧ tx.AccountNonce = nonceSucc (committedNonce st tx.sender)

instance (st : Ledger) (cfg : MempoolCfg) (executable : List Transaction) (tx : Transaction) :
    Decidable (execRoute st cfg executable tx) := by
  unfold execRoute
  cases executable.getLast? <;> exact inferInstance

/-- The condition under which `put` appends a transaction of a priority type
to an executable queue holding `executable`: the transaction continues the
queue, or starts it right after the committed nonce of its sender.  The
capacity of the queue is not looked at for such a type. -/
def priorityRoute (st : Ledger) (executable : List Transaction) (tx : Transaction) : Prop :=
  match executable.getLast? with
  | some last => tx.AccountNonce = nonceSucc last.AccountNonce ∧ tx.Epoch = last.Epoch
  | none => tx.Epoch = st.Epoch ∧ tx.AccountNonce = nonceSucc (committedNonce st tx.sender)

instance (st : Ledger) (executable : List Transaction) (tx : Transaction) :
    Decidable (priorityRoute st executable tx) := by
  unfold priorityRoute
  cases executable.getLast? <;> exact inferInstance

/-- Submission of a list of transactions one after the other through `add`:
the errors returned, in order, and the pool at the end. -/
def submitAll (pt : PriorityTable) (st : Ledger) (txType : TxKind) :
    List Transaction → TxPool → List (Option PoolError) × TxPool
  | [], pool => ([], pool)
  | tx :: rest, pool =>
    let r := pool.add pt st tx false txType
    let r2 := submitAll pt st txType rest r.2
    (r.1 :: r2.1, r2.2)

/-- The transactions of a scenario with one sender: `txOf n`, for `n` from
`base + 1` to `base + count`, is a transaction of that sender with nonce `n`
in the epoch of the ledger; it is not of a priority type and the validator
accepts it.  Nonces are `uint32` values. -/
structure SenderScenario (pt : PriorityTable) (st : Ledger) (sender : Nat) (txType : TxKind)
    (txOf : Nat → Transaction) (base count : Nat) : Prop where
  bound : base + count < 2 ^ 32
  nonce : ∀ n, base < n → n ≤ base + count → (txOf n).AccountNonce = n
  sender : ∀ n, base < n → n ≤ base + count → (txOf n).sender = sender
  epoch : ∀ n, base < n → n ≤ base + count → (txOf n).Epoch = st.Epoch
  regular : ∀ n, base < n → n ≤ base + count → pt (txOf n).TxType = none
  valid : ∀ n, base < n → n ≤ base + count →
    st.ValidateTx (txOf n) txType = ValidateOutcome.ok

/-- Where the arrival of the nonce `n` leaves the queues of a sender whose
committed nonce is `base`, when the executable queue holds the `held.1` nonces
after `base` and the pending queue holds the nonces `held.2`: the nonce joins
the executable queue when it is the next one and the queue is not full, else
the pending queue. -/
def arrive (limit : Int) (base : Nat) (held : Nat × List Nat) (n : Nat) : Nat × List Nat :=
  if n = base + held.1 + 1 ∧ ¬ (limit > 0 ∧ (held.1 : Int) ≥ limit) then (held.1 + 1, held.2)
  else (held.1, held.2 ++ [n])

/-- A run of nonces of one sender: `txOf n`, for `n` from `base + 1` to
`base + count`, is a transaction of that sender with nonce `n` in the epoch of
the ledger, and it is not of a priority type.  Nonces are `uint32` values. -/
structure NonceRun (pt : PriorityTable) (st : Ledger) (sender : Nat)
    (txOf : Nat → Transaction) (base count : Nat) : Prop where
  bound : base + count < 2 ^ 32
  nonce : ∀ n, base < n → n ≤ base + count → (txOf n).AccountNonce = n
  sender : ∀ n, base < n → n ≤ base + count → (txOf n).sender = sender
  epoch : ∀ n, base < n → n ≤ base + count → (txOf n).Epoch = st.Epoch
  regular : ∀ n, base < n → n ≤ base + count → pt (txOf n).TxType = none

/-! ## Listing for the peer sync -/

/-- Constant `maxTxSyncCounts`. -/
def maxTxSyncCounts : Int := 15

/-- Lookup `pool.txSyncCounts[hash]` in the Go map of counters: zero for a
missing key. -/
def syncCount (counts : List (Hash × Int)) (hash : Hash) : Int := (mapGet counts hash).getD 0

/-- The loop of `GetPendingTransaction` over the listed transactions;
`multiShard` is the constant `common.MultiShard`, declared outside this
package.  The counter is a Go `int`. -/
def pendingLoop (multiShard : Nat) (noFilter count : Bool) (shardId : Nat) :
    List Transaction → List (Hash × Int) → List Transaction →
      List Transaction × List (Hash × Int)
  | [], counts, result => (result, counts)
  | tx :: rest, counts, result =>
    if noFilter || decide (syncCount counts tx.Hash ≤ maxTxSyncCounts) then
      if shardId = multiShard ∨ tx.shardId = shardId then
        pendingLoop multiShard noFilter count shardId rest
          (if count then mapSet counts tx.Hash (wrapInt (syncCount counts tx.Hash + 1))
            else counts)
          (result ++ [tx])
      else pendingLoop multiShard noFilter count shardId rest counts result
    else pendingLoop multiShard noFilter count shardId rest counts result

/-- Method `TxPool.GetPendingTransaction`: the transactions returned and the
pool with its counters. -/
def TxPool.GetPendingTransaction (multiShard : Nat) (pool : TxPool)
    (noFilter addHighPriority : Bool) (shardId : Nat) (count : Bool) :
    List Transaction × TxPool :=
  let filter := if addHighPriority then TxMapFilter.All else TxMapFilter.NotPriority
  let all := pool.all.List filter
  let r := pendingLoop multiShard noFilter count shardId all pool.txSyncCounts []
  (r.1, { pool with txSyncCounts := r.2 })

/-- The Global Index is a map keyed by the hash of its transactions: every
entry stands under the hash of its transaction, one entry a key. -/
structure IndexKeyed (pool : TxPool) : Prop where
  keyed : ∀ e ∈ pool.all.txs, e.1 = e.2.Hash
  nodup : (pool.all.txs.map Prod.fst).Nodup

instance (pool : TxPool) : Decidable (IndexKeyed pool) :=
  decidable_of_iff ((∀ e ∈ pool.all.txs, e.1 = e.2.Hash) ∧ (pool.all.txs.map Prod.fst).Nodup)
    ⟨fun h => ⟨h.1, h.2⟩, fun h => ⟨h.keyed, h.nodup⟩⟩

/-- The condition under which `GetPendingTransaction` lists a transaction of
the Global Index, on the counters as they are before the call. -/
def listedForSync (multiShard : Nat) (counts : List (Hash × Int))
    (noFilter addHighPriority : Bool) (shardId : Nat) (tx : Transaction) : Bool :=
  (addHighPriority || !tx.highPriority) &&
    (noFilter || decide (syncCount counts tx.Hash ≤ 15)) &&
    (decide (shardId = multiShard) || decide (tx.shardId = shardId))

/-! ## Senders with a pending queue -/

/-- The distinct senders that have a pending queue. -/
def TxPool.pendingSenders (pool : TxPool) : List Nat := (pool.pendingTxs.map Prod.fst).dedup

/-- The bound of `putToPending` on the senders with a pending queue: a
positive `TxPoolQueueSlots` is not exceeded by `len(pool.pendingTxs)`. -/
def SlotBound (pool : TxPool) : Prop :=
  pool.mempoolCfg.TxPoolQueueSlots > 0 →
    (pool.pendingTxs.length : Int) ≤ pool.mempoolCfg.TxPoolQueueSlots

/-! ## What the migration moves -/

/-- The test of the inner loop of `movePendingTxsToExecutable` on one
transaction of the sorted snapshot: true when the loop moves the transaction
to the executable queue, false when it breaks. -/
def migrates (pt : PriorityTable) (st : Ledger) (sender : Nat) (executable : sortedTxs)
    (tx : Transaction) : Bool :=
  if executable.Empty &&
      (decide (st.Epoch ≠ tx.Epoch) ||
        decide (tx.AccountNonce ≠ nonceSucc (committedNonce st sender))) then false
  else ((executable.Add pt tx).1).isNone

/-- A transaction that the executable queue of the sender would accept next,
in the words of the specification: same epoch and nonce one above the tail,
or, for an empty executable queue, the current epoch and the committed nonce
plus one; with room in the queue (a priority type needs no room). -/
def acceptsNext (pt : PriorityTable) (st : Ledger) (sender : Nat) (executable : sortedTxs)
    (tx : Transaction) : Prop :=
  (priorityKey pt tx.TxType = true ∨ executable.Full = false) ∧
    match executable.txs.getLast? with
    | some last => tx.Epoch = last.Epoch ∧ tx.AccountNonce = nonceSucc last.AccountNonce
    | none => tx.Epoch = st.Epoch ∧ tx.AccountNonce = nonceSucc (committedNonce st sender)

instance (pt : PriorityTable) (st : Ledger) (sender : Nat) (executable : sortedTxs)
    (tx : Transaction) : Decidable (acceptsNext pt st sender executable tx) := by
  unfold acceptsNext
  cases executable.txs.getLast? <;> exact inferInstance

/-- The migration has stopped for a sender: the first transaction of its
pending queue, in the order of `txMap.Sorted`, is one the inner loop of
`movePendingTxsToExecutable` breaks at. -/
def MigrationDone (pt : PriorityTable) (st : Ledger) (pool : TxPool) (sender : Nat) : Prop :=
  ∀ tx, (sliceStable sortedLess ((pool.pendOf sender).map Prod.snd)).head? = some tx →
    migrates pt st sender (pool.executableOrNew sender) tx = false

/-! ## The re-validation of `ResetTo` -/

/-- The re-validation of a transaction fails with `validation.InvalidNonce`. -/
def failsNonce (st : Ledger) (tx : Transaction) : Prop :=
  st.ValidateTx tx TxKind.MempoolTx = ValidateOutcome.err ValidationError.InvalidNonce

instance (st : Ledger) (tx : Transaction) : Decidable (failsNonce st tx) :=
  inferInstanceAs (Decidable
    (st.ValidateTx tx TxKind.MempoolTx = ValidateOutcome.err ValidationError.InvalidNonce))

/-- The re-validation of a transaction fails with an error other than
`validation.InvalidNonce`. -/
def failsOther (st : Ledger) (tx : Transaction) : Prop :=
  match st.ValidateTx tx TxKind.MempoolTx with
  | ValidateOutcome.err e => e ≠ ValidationError.InvalidNonce
  | _ => False

instance (st : Ledger) (tx : Transaction) : Decidable (failsOther st tx) := by
  unfold failsOther
  cases st.ValidateTx tx TxKind.MempoolTx <;> exact inferInstance

/-- The removal condition for a transaction of the current epoch, in the
words of the specification: its own validation fails with the invalid-nonce
error, or its nonce is at least the nonce of a transaction of the same sender
and the current epoch, among those listed, whose validation fails with another
error. -/
def revalidationRemoves (st : Ledger) (listed : List Transaction) (tx : Transaction) : Prop :=
  failsNonce st tx ∨
    ∃ t ∈ listed, t.sender = tx.sender ∧ t.Epoch = st.Epoch ∧ failsOther st t ∧
      t.AccountNonce ≤ tx.AccountNonce

instance (st : Ledger) (listed : List Transaction) (tx : Transaction) :
    Decidable (revalidationRemoves st listed tx) := by
  unfold revalidationRemoves
  exact inferInstance

/-! ## The snapshot for block building -/

/-- The comparison handed to `sort.SliceStable` in `createBuildingContext`. -/
def nonceLess (a b : Transaction) : Bool := decide (a.AccountNonce < b.AccountNonce)

/-- What `createBuildingContext` hands to `newBuildingContext`: the sorted
transaction list, the priority transactions, the transactions by sender (a nil
map, here the empty one, when no priority transaction is present) and the
committed nonces by sender. -/
structure buildingContext where
  txs : List Transaction
  priorityTxs : List Transaction
  sortedTxsPerSender : List (Nat × List Transaction)
  curNoncesPerSender : List (Nat × Nat)
deriving DecidableEq, Repr

/-- The first loop of `createBuildingContext`: the transactions of the
executable queues whose epoch is the global epoch, queue after queue in the
order in which the map `executableTxs` is enumerated. -/
def collectExecutable (globalEpoch : Nat) (executableTxs : List (Nat × sortedTxs)) :
    List Transaction :=
  executableTxs.flatMap (fun p => p.2.txs.filter (fun tx => decide (tx.Epoch = globalEpoch)))

/-- Method `TxPool.createBuildingContext`. -/
def TxPool.createBuildingContext (pt : PriorityTable) (st : Ledger) (pool : TxPool) :
    buildingContext :=
  let globalEpoch := st.Epoch
  let collected := collectExecutable globalEpoch pool.executableTxs
  let withPriorityTx := collected.any (fun tx => priorityVal pt tx.TxType)
  let curNoncesPerSender :=
    pool.executableTxs.foldl (fun m p => mapSet m p.1 (committedNonce st p.1)) []
  let txs := sliceStable nonceLess collected
  { txs := txs
    priorityTxs :=
      if withPriorityTx then txs.filter (fun tx => priorityVal pt tx.TxType) else []
    sortedTxsPerSender :=
      if withPriorityTx then
        txs.foldl (fun m tx => mapSet m tx.sender ((mapGet m tx.sender).getD [] ++ [tx])) []
      else []
    curNoncesPerSender := curNoncesPerSender }

/-! ## Concrete data used by the examples -/

/-- A table with the single ceremonial type 7. -/
def examplePriority : PriorityTable := fun t => if t = 7 then some true else none

/-- A regular transaction (type 0) of sender 1 in epoch 0 with the given nonce. -/
def exampleTx (nonce : Nat) : Transaction :=
  { AccountNonce := nonce, Epoch := 0, TxType := 0, sender := 1, body := 0,
    highPriority := false, shardId := 0 }

/-- A ceremonial transaction (type 7) of sender 1 in epoch 0 with the given
nonce and body. -/
def exampleCeremonyTx (nonce body : Nat) : Transaction :=
  { AccountNonce := nonce, Epoch := 0, TxType := 7, sender := 1, body := body,
    highPriority := false, shardId := 0 }

/-- A ledger in epoch 0 where every account has committed nonce 0 and the
validator accepts everything. -/
def exampleLedger : Ledger :=
  { Epoch := 0, GetNonce := fun _ => 0, GetEpoch := fun _ => 0, ValidationPeriod := 0,
    FlipLotteryPeriod := 1, ShardId := fun _ => 1,
    ValidateTx := fun _ _ => ValidateOutcome.ok }

/-- A configuration with two executable and two pending places per sender. -/
def exampleCfg : MempoolCfg :=
  { TxPoolExecutableSlots := 4, TxPoolQueueSlots := 4, TxPoolAddrExecutableLimit := 2,
    TxPoolAddrQueueLimit := 2, ResetInCeremony := false }

/-- The pool after the transaction with nonce 1 of sender 1 was admitted. -/
def examplePool1 : TxPool :=
  (TxPool.add examplePriority exampleLedger (NewTxPool exampleCfg) (exampleTx 1) false
    TxKind.InboundTx).2

/-- A configuration with a single slot for senders with a pending queue. -/
def slotCfg : MempoolCfg :=
  { TxPoolExecutableSlots := 4, TxPoolQueueSlots := 1, TxPoolAddrExecutableLimit := 2,
    TxPoolAddrQueueLimit := 2, ResetInCeremony := false }

/-- The pool with one pending-sender slot after sender 1 submitted the nonce
5, which went to its pending queue. -/
def slotPool : TxPool :=
  (TxPool.add examplePriority exampleLedger (NewTxPool slotCfg) (exampleTx 5) false
    TxKind.InboundTx).2

/-- A ceremonial transaction (type 7) of sender 2 in epoch 0 with nonce 5. -/
def otherCeremonyTx : Transaction :=
  { AccountNonce := 5, Epoch := 0, TxType := 7, sender := 2, body := 0,
    highPriority := false, shardId := 0 }

/-- A configuration whose per-address pending limit is negative while both
slot counts are positive: the computed total is `1 * 5 + 1 * (-1) = 4`. -/
def negLimitCfg : MempoolCfg :=
  { TxPoolExecutableSlots := 1, TxPoolQueueSlots := 1, TxPoolAddrExecutableLimit := 5,
    TxPoolAddrQueueLimit := -1, ResetInCeremony := false }

/-- The pool of `negLimitCfg` after sender 1 submitted the nonces 1 to 4. -/
def negLimitPool : TxPool :=
  [exampleTx 1, exampleTx 2, exampleTx 3, exampleTx 4].foldl
    (fun pool tx => (TxPool.add examplePriority exampleLedger pool tx false TxKind.InboundTx).2)
    (NewTxPool negLimitCfg)

/-- The configuration of `TestTxPool_addDeferredTx`: the pending-slot count
and the per-address pending limit are -1, the other limits are zero. -/
def deferredTestCfg : MempoolCfg :=
  { TxPoolExecutableSlots := 0, TxPoolQueueSlots := -1, TxPoolAddrExecutableLimit := 0,
    TxPoolAddrQueueLimit := -1, ResetInCeremony := false }

/-- The empty pool of a node with address 1, in syncing mode. -/
def syncPool : TxPool := ((NewTxPool exampleCfg).Initialize 1).StartSync

/-- The empty pool of a node with address 0, in syncing mode. -/
def guestSyncPool : TxPool := (NewTxPool exampleCfg).StartSync

/-- The syncing pool of node 0 after the transaction with nonce 1 of sender 1
came in through `AddExternalTxs`: it waits in the deferral queue. -/
def deferredPool : TxPool :=
  (guestSyncPool.AddExternalTxs examplePriority exampleLedger TxKind.InboundTx [exampleTx 1]).2

/-- The example ledger during the short session of a validation ceremony
(`ValidationPeriod() > state.FlipLotteryPeriod`, so that `ResetTo` returns
before it re-validates) when its read-only snapshot cannot be opened. -/
def stalledLedger : Ledger :=
  { exampleLedger with ValidationPeriod := 2, ReadonlyErr := some 1 }

/-- The example ledger with a validator that rejects everything. -/
def rejectingLedger : Ledger :=
  { exampleLedger with ValidateTx := fun _ _ => ValidateOutcome.err (ValidationError.other 0) }

/-- A configuration with the per-address limits of the scenario (32 places in
the executable queue, 32 in the pending queue) and a single slot for senders
with a pending queue. -/
def scenarioSlotCfg : MempoolCfg :=
  { TxPoolExecutableSlots := 1024, TxPoolQueueSlots := 1, TxPoolAddrExecutableLimit := 32,
    TxPoolAddrQueueLimit := 32, ResetInCeremony := false }

/-- A configuration with the limits of the scenario: 32 places in each queue
of a sender, 1024 and 256 slots. -/
def scenarioCfg : MempoolCfg :=
  { TxPoolExecutableSlots := 1024, TxPoolQueueSlots := 256, TxPoolAddrExecutableLimit := 32,
    TxPoolAddrQueueLimit := 32, ResetInCeremony := false }

/-- The example ledger after a block that took the nonces up to 32 of every
account. -/
def advancedLedger : Ledger := { exampleLedger with GetNonce := fun _ => 32 }

/-- The example ledger with a validator that raises a fault of the state
tree. -/
def faultyLedger : Ledger :=
  { exampleLedger with ValidateTx := fun _ _ => ValidateOutcome.fault 3 }

/-- The pool with the nonce 1 of sender 1 admitted, after the transaction was
handed to peers sixteen times. -/
def servedPool : TxPool :=
  { examplePool1 with txSyncCounts := [((exampleTx 1).Hash, 16)] }

/-- The example ledger after the epoch changed: the global epoch is 1, the
accounts are still in epoch 0. -/
def nextEpochLedger : Ledger := { exampleLedger with Epoch := 1 }

/-- A second regular transaction of sender 1 with the nonce 1. -/
def rivalTx : Transaction := { exampleTx 1 with body := 1 }

/-- The pool after sender 1 submitted the nonce 1, a second transaction with
the nonce 1, the nonce 3 and the nonce 2: the nonces 1 and 2 are in the
executable queue, the second transaction with the nonce 1 and the nonce 3 are
in the pending queue. -/
def blockedPool : TxPool :=
  [exampleTx 1, rivalTx, exampleTx 3, exampleTx 2].foldl
    (fun pool tx => (TxPool.add examplePriority exampleLedger pool tx false TxKind.InboundTx).2)
    (NewTxPool scenarioCfg)

/-- A regular transaction of sender 2 in epoch 0 with the nonce 5. -/
def strangerTx : Transaction := { exampleTx 5 with sender := 2 }

/-- The example ledger during the short session of a validation ceremony
(`ValidationPeriod() > state.FlipLotteryPeriod`). -/
def ceremonyLedger : Ledger := { exampleLedger with ValidationPeriod := 2 }

/-- The example ledger with a validator that finds the nonce 1 invalid and
rejects the nonce 3 for another reason. -/
def pickyLedger : Ledger :=
  { exampleLedger with
    ValidateTx := fun tx _ =>
      if tx.AccountNonce = 1 then ValidateOutcome.err ValidationError.InvalidNonce
      else if tx.AccountNonce = 3 then ValidateOutcome.err (ValidationError.other 0)
      else ValidateOutcome.ok }

/-- A regular transaction of sender 2 in epoch 0 with the nonce 1. -/
def twinTx : Transaction := { exampleTx 1 with sender := 2 }

/-- The pool with one pending-sender slot, held by sender 1, after sender 2
submitted its nonce 1, which went to its executable queue. -/
def twinSlotPool : TxPool :=
  (TxPool.add examplePriority exampleLedger slotPool twinTx false TxKind.InboundTx).2

/-- The pool after sender 1 and sender 2 each submitted their nonce 1. -/
def tiePool : TxPool :=
  [exampleTx 1, twinTx].foldl
    (fun pool tx => (TxPool.add examplePriority exampleLedger pool tx false TxKind.InboundTx).2)
    (NewTxPool exampleCfg)

/-- The pool `tiePool` with the map of the executable queues enumerated in the
other order. -/
def tiePoolSwapped : TxPool :=
  { tiePool with executableTxs := tiePool.executableTxs.reverse }

/-- The example ledger when the account of sender 2 has the committed nonce
1. -/
def stepLedger : Ledger := { exampleLedger with GetNonce := fun s => s - 1 }

/-- The pool after sender 1 submitted its nonce 1 and sender 2 its nonce 2. -/
def stepPool : TxPool :=
  [exampleTx 1, { exampleTx 2 with sender := 2 }].foldl
    (fun pool tx => (TxPool.add examplePriority stepLedger pool tx false TxKind.InboundTx).2)
    (NewTxPool exampleCfg)

/-- The pool `stepPool` with the map of the executable queues enumerated in
the other order. -/
def stepPoolSwapped : TxPool :=
  { stepPool with executableTxs := stepPool.executableTxs.reverse }

/-! # Theorems -/

set_option maxRecDepth 20000

/-! ## Go maps -/

theorem mapGet_mapSet_self {κ ν : Type} [DecidableEq κ] (m : List (κ × ν)) (k : κ) (v : ν) :
    mapGet (mapSet m k v) k = some v := by
  induction m with
  | nil => simp [mapSet, mapGet]
  | cons p rest ih =>
    obtain ⟨k1, v1⟩ := p
    by_cases h : k1 = k
    · simp [mapSet, mapGet, h]
    · simp [mapSet, mapGet, h, ih]

theorem mapGet_mapSet_ne {κ ν : Type} [DecidableEq κ] (m : List (κ × ν)) (k k2 : κ) (v : ν)
    (hne : k2 ≠ k) : mapGet (mapSet m k v) k2 = mapGet m k2 := by
  induction m with
  | nil => simp [mapSet, mapGet, Ne.symm hne]
  | cons p rest ih =>
    obtain ⟨k1, v1⟩ := p
    by_cases h : k1 = k
    · subst h
      simp [mapSet, mapGet, Ne.symm hne]
    · by_cases h2 : k1 = k2
      · subst h2
        simp [mapSet, mapGet, h]
      · simp [mapSet, mapGet, h, h2, ih]

/-! ## Admission of a duplicate -/

/-- C1: for every pool state and every transaction whose hash is already in
the Global Index, `add` returns `DuplicateTxError` and hands back the pool it
was given: the Global Index, the executable queues and the pending queues are
exactly as before, and so is the pool size. -/
theorem add_duplicate (pt : PriorityTable) (st : Ledger) (pool : TxPool) (tx : Transaction)
    (own : Bool) (txType : TxKind) (hdup : (pool.all.Get tx.Hash).isSome = true) :
    (pool.add pt st tx own txType).1 = some PoolError.DuplicateTxError ∧
    (pool.add pt st tx own txType).2 = pool ∧
    (pool.add pt st tx own txType).2.all.txs.length = pool.all.txs.length := by
  simp [TxPool.add, hdup]

/-- Witness of C1: the transaction admitted into `examplePool1` is offered a
second time. -/
theorem add_duplicate_witness :
    (examplePool1.add examplePriority exampleLedger (exampleTx 1) true TxKind.InboundTx).1
        = some PoolError.DuplicateTxError ∧
    (examplePool1.add examplePriority exampleLedger (exampleTx 1) true TxKind.InboundTx).2
        = examplePool1 ∧
    (examplePool1.add examplePriority exampleLedger (exampleTx 1) true TxKind.InboundTx).2.all.txs.length
        = examplePool1.all.txs.length :=
  add_duplicate examplePriority exampleLedger examplePool1 (exampleTx 1) true TxKind.InboundTx
    (by decide)

/-! ## The executable queue: `sortedTxs.Add` -/

/-- C5: `sortedTxs.Add(tx)` succeeds if and only if (tx is of a priority type
or the queue is not full, full meaning `maxTxs > 0` and length at least
`maxTxs`) and (the queue is empty or tx has the tail's epoch and the tail's
nonce plus one, the sum taken as Go takes it on `uint32`); on success the new
queue is the old queue with tx appended at the end, on failure the queue is
unchanged.  A priority type is a key of the table, as `Add` looks it up. -/
theorem sortedTxs_Add_iff (pt : PriorityTable) (s : sortedTxs) (tx : Transaction) :
    ((s.Add pt tx).1 = none ↔
      (priorityKey pt tx.TxType = true ∨ ¬ (s.maxTxs > 0 ∧ (s.txs.length : Int) ≥ s.maxTxs)) ∧
      (s.txs = [] ∨ ∃ last, s.txs.getLast? = some last ∧ tx.Epoch = last.Epoch ∧
        tx.AccountNonce = nonceSucc last.AccountNonce)) ∧
    ((s.Add pt tx).1 = none → (s.Add pt tx).2 = { s with txs := s.txs ++ [tx] }) ∧
    ((s.Add pt tx).1 ≠ none → (s.Add pt tx).2 = s) := by
  unfold sortedTxs.Add sortedTxs.Full
  by_cases hfull : (!priorityKey pt tx.TxType && (decide (s.maxTxs > 0) &&
      decide ((s.txs.length : Int) ≥ s.maxTxs))) = true
  · rw [if_pos hfull]
    simp only [Bool.and_eq_true, Bool.not_eq_true', decide_eq_true_eq] at hfull
    obtain ⟨hk, h1, h2⟩ := hfull
    refine ⟨?_, ?_, ?_⟩
    · constructor
      · intro h; cases h
      · rintro ⟨h | h, _⟩
        · rw [hk] at h; cases h
        · exact absurd ⟨h1, h2⟩ h
    · intro h; cases h
    · intro _; rfl
  · rw [if_neg hfull]
    have hcap : priorityKey pt tx.TxType = true ∨
        ¬ (s.maxTxs > 0 ∧ (s.txs.length : Int) ≥ s.maxTxs) := by
      by_cases hk : priorityKey pt tx.TxType = true
      · exact Or.inl hk
      · right
        rintro ⟨h1, h2⟩
        apply hfull
        simp only [Bool.and_eq_true, Bool.not_eq_true', decide_eq_true_eq]
        exact ⟨by simpa using hk, h1, h2⟩
    cases hl : s.txs.getLast? with
    | none =>
      have hnil : s.txs = [] := List.getLast?_eq_none_iff.mp hl
      simp [hcap, hnil]
    | some last =>
      have hne : s.txs ≠ [] := by
        intro h; rw [h] at hl; simp at hl
      by_cases hseq : tx.AccountNonce ≠ nonceSucc last.AccountNonce ∨ tx.Epoch ≠ last.Epoch
      · dsimp only
        rw [if_pos hseq]
        refine ⟨?_, ?_, ?_⟩
        · constructor
          · intro h; cases h
          · rintro ⟨_, h | ⟨l, hl2, he, hn⟩⟩
            · exact absurd h hne
            · cases hl2
              rcases hseq with h | h
              · exact absurd hn h
              · exact absurd he h
        · intro h; cases h
        · intro _; trivial
      · dsimp only
        rw [if_neg hseq]
        have hseq2 : tx.AccountNonce = nonceSucc last.AccountNonce ∧ tx.Epoch = last.Epoch := by
          constructor
          · by_contra h; exact hseq (Or.inl h)
          · by_contra h; exact hseq (Or.inr h)
        refine ⟨?_, ?_, ?_⟩
        · constructor
          · intro _
            exact ⟨hcap, Or.inr ⟨last, rfl, hseq2.2, hseq2.1⟩⟩
          · intro _; trivial
        · intro _; trivial
        · intro h; exact absurd rfl h

/-! ## The pending queue: `txMap.Add` -/

/-- C7: `txMap.Add(tx)` returns the set-is-full error if and only if tx is
not of a priority type and the map is full (`maxTxs > 0` and size at least
`maxTxs`), and then the map is unchanged; otherwise it returns no error and
stores tx under its hash, every other key keeping its entry; so a transaction
of a priority type is accepted even into a full map.  A priority type is a key
of the table, as `Add` looks it up. -/
theorem txMap_Add_iff (pt : PriorityTable) (m : txMap) (tx : Transaction) :
    ((m.Add pt tx).1 = some PoolError.setIsFullErr ↔
      priorityKey pt tx.TxType = false ∧ m.maxTxs > 0 ∧ (m.txs.length : Int) ≥ m.maxTxs) ∧
    ((m.Add pt tx).1 = some PoolError.setIsFullErr → (m.Add pt tx).2 = m) ∧
    ((m.Add pt tx).1 ≠ some PoolError.setIsFullErr →
      (m.Add pt tx).1 = none ∧ (m.Add pt tx).2.Get tx.Hash = some tx ∧
      (∀ h, h ≠ tx.Hash → (m.Add pt tx).2.Get h = m.Get h) ∧
      (m.Add pt tx).2.maxTxs = m.maxTxs) ∧
    (priorityKey pt tx.TxType = true → (m.Add pt tx).1 = none) := by
  unfold txMap.Add txMap.Full
  by_cases hfull : (!priorityKey pt tx.TxType && (decide (m.maxTxs > 0) &&
      decide ((m.txs.length : Int) ≥ m.maxTxs))) = true
  · rw [if_pos hfull]
    simp only [Bool.and_eq_true, Bool.not_eq_true', decide_eq_true_eq] at hfull
    obtain ⟨hk, h1, h2⟩ := hfull
    refine ⟨⟨fun _ => ⟨hk, h1, h2⟩, fun _ => rfl⟩, fun _ => rfl, fun h => absurd rfl h, ?_⟩
    intro h; rw [hk] at h; cases h
  · rw [if_neg hfull]
    refine ⟨⟨fun h => (by cases h), ?_⟩, fun h => (by cases h), ?_, fun _ => rfl⟩
    · rintro ⟨hk, h1, h2⟩
      exfalso; apply hfull
      simp only [Bool.and_eq_true, Bool.not_eq_true', decide_eq_true_eq]
      exact ⟨hk, h1, h2⟩
    · intro _
      refine ⟨rfl, ?_, ?_, rfl⟩
      · exact mapGet_mapSet_self m.txs tx.Hash tx
      · intro h hne
        exact mapGet_mapSet_ne m.txs tx.Hash h tx hne

/-! ## Limits for priority types -/

/-- C9: for a transaction of a priority type, `checkLimits` returns an error
if and only if the sender's executable queue or the sender's pending queue
already holds a transaction of the same type; the result is the same in every
pool with these two queue maps, whatever its Global Index and its configured
capacities.  A priority type is one the table maps to true, as `checkLimits`
looks it up. -/
theorem checkLimits_priority (pt : PriorityTable) (pool : TxPool) (tx : Transaction)
    (hprio : priorityVal pt tx.TxType = true) :
    ((pool.checkLimits pt tx).isSome = true ↔
      (∃ executable, mapGet pool.executableTxs tx.sender = some executable ∧
        ∃ existingTx ∈ executable.txs, existingTx.TxType = tx.TxType) ∨
      (∃ pending, mapGet pool.pendingTxs tx.sender = some pending ∧
        ∃ existingTx ∈ pending.txs, existingTx.2.TxType = tx.TxType)) ∧
    (∀ other : TxPool, other.executableTxs = pool.executableTxs →
      other.pendingTxs = pool.pendingTxs → other.checkLimits pt tx = pool.checkLimits pt tx) := by
  constructor
  · simp only [TxPool.checkLimits, hprio, if_true, TxPool.checkPriorityTxLimits]
    cases he : mapGet pool.executableTxs tx.sender with
    | none =>
      cases hp : mapGet pool.pendingTxs tx.sender with
      | none => simp
      | some pending =>
        by_cases hany : (pending.txs.any fun existingTx => existingTx.2.TxType == tx.TxType) = true
        · simp only [hany]
          simp only [List.any_eq_true, beq_iff_eq] at hany
          simp
          obtain ⟨⟨a, b⟩, hab, h⟩ := hany
          exact ⟨a, b, hab, h⟩
        · simp only [hany]
          simp only [List.any_eq_true, beq_iff_eq] at hany
          simp
          intro a b hab
          exact fun h => hany ⟨(a, b), hab, h⟩
    | some executable =>
      by_cases hany : (executable.txs.any fun existingTx => existingTx.TxType == tx.TxType) = true
      · simp only [hany]
        simp only [List.any_eq_true, beq_iff_eq] at hany
        simp
        exact Or.inl hany
      · simp only [hany]
        simp only [List.any_eq_true, beq_iff_eq] at hany
        cases hp : mapGet pool.pendingTxs tx.sender with
        | none =>
          simp
          intro x hx h
          exact hany ⟨x, hx, h⟩
        | some pending =>
          by_cases hany2 : (pending.txs.any fun existingTx => existingTx.2.TxType == tx.TxType) = true
          · simp only [hany2]
            simp only [List.any_eq_true, beq_iff_eq] at hany2
            simp
            obtain ⟨⟨a, b⟩, hab, h⟩ := hany2
            exact Or.inr ⟨a, b, hab, h⟩
          · simp only [hany2]
            simp only [List.any_eq_true, beq_iff_eq] at hany2
            simp
            constructor
            · intro x hx h
              exact hany ⟨x, hx, h⟩
            · intro a b hab h
              exact hany2 ⟨(a, b), hab, h⟩
  · intro other h1 h2
    simp only [TxPool.checkLimits, hprio, if_true, TxPool.checkPriorityTxLimits, h1, h2]

/-- Witness of C9: a second ceremonial transaction of sender 1 is checked
against a pool whose executable queue holds one of the same type. -/
theorem checkLimits_priority_witness :
    (((TxPool.add examplePriority exampleLedger (NewTxPool exampleCfg) (exampleCeremonyTx 1 0)
        false TxKind.InboundTx).2.checkLimits examplePriority (exampleCeremonyTx 2 0)).isSome = true ↔
      (∃ executable, mapGet (TxPool.add examplePriority exampleLedger (NewTxPool exampleCfg)
          (exampleCeremonyTx 1 0) false TxKind.InboundTx).2.executableTxs
            (exampleCeremonyTx 2 0).sender = some executable ∧
        ∃ existingTx ∈ executable.txs, existingTx.TxType = (exampleCeremonyTx 2 0).TxType) ∨
      (∃ pending, mapGet (TxPool.add examplePriority exampleLedger (NewTxPool exampleCfg)
          (exampleCeremonyTx 1 0) false TxKind.InboundTx).2.pendingTxs
            (exampleCeremonyTx 2 0).sender = some pending ∧
        ∃ existingTx ∈ pending.txs, existingTx.2.TxType = (exampleCeremonyTx 2 0).TxType)) ∧
    ((TxPool.add examplePriority exampleLedger (NewTxPool exampleCfg) (exampleCeremonyTx 1 0)
        false TxKind.InboundTx).2.checkLimits examplePriority (exampleCeremonyTx 2 0)).isSome = true :=
  ⟨(checkLimits_priority examplePriority _ (exampleCeremonyTx 2 0) (by decide)).1, by decide⟩

/-! ## `txMap.Sorted` -/

theorem stableInsert_perm (less : Transaction → Transaction → Bool) (x : Transaction)
    (l : List Transaction) : (stableInsert less x l).Perm (x :: l) := by
  induction l with
  | nil => simp [stableInsert]
  | cons y ys ih =>
    unfold stableInsert
    by_cases h : less y x = true
    · rw [if_pos h]
      exact (List.Perm.cons y ih).trans (List.Perm.swap x y ys)
    · rw [if_neg h]

theorem sliceStable_perm (less : Transaction → Transaction → Bool) (l : List Transaction) :
    (sliceStable less l).Perm l := by
  induction l with
  | nil => simp [sliceStable]
  | cons x xs ih =>
    unfold sliceStable
    exact (stableInsert_perm less x _).trans (List.Perm.cons x ih)

theorem epochNonceLe_of_less {a b : Transaction} (h : sortedLess a b = true) :
    epochNonceLe a b := by
  unfold sortedLess at h
  unfold epochNonceLe
  by_cases h1 : a.Epoch < b.Epoch
  · exact Or.inl h1
  · by_cases h2 : a.Epoch > b.Epoch
    · simp [h1, h2] at h
    · simp [h1, h2] at h
      right; constructor <;> omega

theorem epochNonceLe_of_not_less {a b : Transaction} (h : ¬ sortedLess b a = true) :
    epochNonceLe a b := by
  unfold sortedLess at h
  unfold epochNonceLe
  by_cases h1 : b.Epoch < a.Epoch
  · simp [h1] at h
  · by_cases h2 : b.Epoch > a.Epoch
    · exact Or.inl h2
    · simp [h1, h2] at h
      right; constructor <;> omega

theorem epochNonceLe_trans {a b c : Transaction} (h1 : epochNonceLe a b)
    (h2 : epochNonceLe b c) : epochNonceLe a c := by
  unfold epochNonceLe at *
  omega

theorem stableInsert_sorted (x : Transaction) (l : List Transaction)
    (hl : l.Pairwise epochNonceLe) : (stableInsert sortedLess x l).Pairwise epochNonceLe := by
  induction l with
  | nil => simp [stableInsert]
  | cons y ys ih =>
    rw [List.pairwise_cons] at hl
    unfold stableInsert
    by_cases h : sortedLess y x = true
    · rw [if_pos h, List.pairwise_cons]
      refine ⟨?_, ih hl.2⟩
      intro z hz
      have hz2 : z ∈ x :: ys := (stableInsert_perm sortedLess x ys).mem_iff.mp hz
      rcases List.mem_cons.mp hz2 with hzx | hzy
      · subst hzx; exact epochNonceLe_of_less h
      · exact hl.1 z hzy
    · rw [if_neg h, List.pairwise_cons]
      refine ⟨?_, List.pairwise_cons.mpr hl⟩
      intro z hz
      rcases List.mem_cons.mp hz with hzy | hzy
      · subst hzy; exact epochNonceLe_of_not_less h
      · exact epochNonceLe_trans (epochNonceLe_of_not_less h) (hl.1 z hzy)

theorem sliceStable_sorted (l : List Transaction) :
    (sliceStable sortedLess l).Pairwise epochNonceLe := by
  induction l with
  | nil => simp [sliceStable]
  | cons x xs ih =>
    unfold sliceStable
    exact stableInsert_sorted x _ ih

/-- C8: for every pending map, `txMap.Sorted` returns a list that holds each
transaction of the map exactly once (it is a permutation of the map's
entries) and is ordered by epoch ascending and, within one epoch, by nonce
ascending. -/
theorem txMap_Sorted_perm_sorted (m : txMap) :
    m.Sorted.Perm (m.txs.map Prod.snd) ∧
    m.Sorted.Pairwise (fun a b =>
      a.Epoch < b.Epoch ∨ (a.Epoch = b.Epoch ∧ a.AccountNonce ≤ b.AccountNonce)) :=
  ⟨sliceStable_perm sortedLess _, sliceStable_sorted _⟩

/-! ## `sortedTxs.Remove` -/

theorem searchLoop_spec (f : Nat → Bool) (n : Nat)
    (hmono : ∀ a b, a ≤ b → b < n → f a = true → f b = true) :
    ∀ fuel i j, i ≤ j → j ≤ n → j - i ≤ fuel → (∀ k, k < i → f k = false) →
      (j < n → f j = true) →
      (∀ k, k < searchLoop f fuel i j → f k = false) ∧
      (searchLoop f fuel i j < n → f (searchLoop f fuel i j) = true) ∧
      searchLoop f fuel i j ≤ n := by
  intro fuel
  induction fuel with
  | zero =>
    intro i j hij hjn hfuel hlow hhigh
    have : i = j := by omega
    subst this
    simp only [searchLoop]
    exact ⟨hlow, hhigh, hjn⟩
  | succ fuel ih =>
    intro i j hij hjn hfuel hlow hhigh
    unfold searchLoop
    by_cases hlt : i < j
    · rw [if_pos hlt]
      dsimp only
      have hh1 : i ≤ (i + j) / 2 := by omega
      have hh2 : (i + j) / 2 < j := by omega
      by_cases hf : f ((i + j) / 2) = true
      · simp only [hf, Bool.not_true, Bool.false_eq_true, if_false]
        exact ih i ((i + j) / 2) hh1 (by omega) (by omega) hlow (fun _ => hf)
      · simp only [hf, Bool.not_false, if_true]
        refine ih ((i + j) / 2 + 1) j (by omega) hjn (by omega) ?_ hhigh
        intro k hk
        by_contra hk2
        have hk3 : f k = true := by simpa using hk2
        exact hf (hmono k ((i + j) / 2) (by omega) (by omega) hk3)
    · rw [if_neg hlt]
      have : i = j := by omega
      subst this
      exact ⟨hlow, hhigh, hjn⟩

theorem sortSearch_spec (f : Nat → Bool) (n : Nat)
    (hmono : ∀ a b, a ≤ b → b < n → f a = true → f b = true) :
    (∀ k, k < sortSearch n f → f k = false) ∧
    (sortSearch n f < n → f (sortSearch n f) = true) ∧ sortSearch n f ≤ n := by
  unfold sortSearch
  exact searchLoop_spec f n hmono n 0 n (Nat.zero_le n) (Nat.le_refl n) (by omega)
    (fun k hk => absurd hk (Nat.not_lt_zero k)) (fun h => absurd h (Nat.lt_irrefl n))

theorem nonceAtLeast_mono (txs : List Transaction) (nonce : Nat)
    (hasc : txs.Pairwise (fun a b => a.AccountNonce < b.AccountNonce)) :
    ∀ a b, a ≤ b → b < txs.length → nonceAtLeast txs nonce a = true →
      nonceAtLeast txs nonce b = true := by
  intro a b hab hb ha
  have ha2 : a < txs.length := by omega
  unfold nonceAtLeast at *
  rw [List.getElem?_eq_getElem ha2] at ha
  rw [List.getElem?_eq_getElem hb]
  simp only [decide_eq_true_eq] at *
  rcases Nat.lt_or_eq_of_le hab with h | h
  · have := List.pairwise_iff_getElem.mp hasc a b ha2 hb h
    omega
  · subst h; exact ha

theorem eraseIdx_length_append (l1 l2 : List Transaction) (e : Transaction) :
    (l1 ++ e :: l2).eraseIdx l1.length = l1 ++ l2 := by
  induction l1 with
  | nil => simp
  | cons x xs ih => simp [ih]

theorem getElem?_length_append (l1 l2 : List Transaction) (e : Transaction) :
    (l1 ++ e :: l2)[l1.length]? = some e := by
  induction l1 with
  | nil => simp
  | cons x xs ih => simpa using ih

/-- The search of `Remove` lands on the entry with the transaction's nonce,
when the queue is strictly ascending. -/
theorem sortSearch_finds (l1 l2 : List Transaction) (e : Transaction) (nonce : Nat)
    (hasc : (l1 ++ e :: l2).Pairwise (fun a b => a.AccountNonce < b.AccountNonce))
    (he : e.AccountNonce = nonce) :
    sortSearch (l1 ++ e :: l2).length (nonceAtLeast (l1 ++ e :: l2) nonce) = l1.length := by
  obtain ⟨hlow, hhigh, hle⟩ := sortSearch_spec (nonceAtLeast (l1 ++ e :: l2) nonce)
    (l1 ++ e :: l2).length (nonceAtLeast_mono _ nonce hasc)
  have hp : nonceAtLeast (l1 ++ e :: l2) nonce l1.length = true := by
    unfold nonceAtLeast
    rw [getElem?_length_append]
    simp [he]
  have hbelow : ∀ k, k < l1.length → nonceAtLeast (l1 ++ e :: l2) nonce k = false := by
    intro k hk
    unfold nonceAtLeast
    rw [List.getElem?_append_left hk, List.getElem?_eq_getElem hk]
    have hmem : l1[k] ∈ l1 := List.getElem_mem hk
    have := (List.pairwise_append.mp hasc).2.2 l1[k] hmem e (List.mem_cons_self e l2)
    simp only [decide_eq_false_iff_not]
    omega
  have hlen : l1.length < (l1 ++ e :: l2).length := by simp
  rcases Nat.lt_trichotomy (sortSearch (l1 ++ e :: l2).length (nonceAtLeast (l1 ++ e :: l2) nonce))
    l1.length with h | h | h
  · have h1 := hhigh (by omega)
    rw [hbelow _ h] at h1
    cases h1
  · exact h
  · have h1 := hlow _ h
    rw [hp] at h1
    cases h1

theorem hash_nonce {a b : Transaction} (h : a.Hash = b.Hash) : a.AccountNonce = b.AccountNonce := by
  have := congrArg Hash.AccountNonce h
  simpa [Transaction.Hash] using this

/-- Removal from a strictly ascending queue that holds `e` with the hash of
the transaction: exactly `e` goes. -/
theorem sortedTxs_Remove_found (s : sortedTxs) (tx e : Transaction) (l1 l2 : List Transaction)
    (hs : s.txs = l1 ++ e :: l2)
    (hasc : s.txs.Pairwise (fun a b => a.AccountNonce < b.AccountNonce))
    (he : e.Hash = tx.Hash) : s.Remove tx = { s with txs := l1 ++ l2 } := by
  unfold sortedTxs.Remove
  rw [hs] at hasc
  dsimp only
  rw [hs, sortSearch_finds l1 l2 e tx.AccountNonce hasc (hash_nonce he),
    getElem?_length_append]
  simp [he, eraseIdx_length_append]

/-- Whatever the queue, `Remove` leaves it alone or erases one position. -/
theorem sortedTxs_Remove_cases (s : sortedTxs) (tx : Transaction) :
    s.Remove tx = s ∨
    ∃ i e, s.txs[i]? = some e ∧ e.Hash = tx.Hash ∧ s.Remove tx = { s with txs := s.txs.eraseIdx i } := by
  unfold sortedTxs.Remove
  dsimp only
  cases h : s.txs[sortSearch s.txs.length (nonceAtLeast s.txs tx.AccountNonce)]? with
  | none => left; rfl
  | some t =>
    by_cases ht : t.Hash = tx.Hash
    · right
      exact ⟨_, t, h, ht, by simp [ht]⟩
    · left; simp [ht]

/-- C6: for every executable queue whose nonces are strictly ascending and
every transaction tx: if the queue holds an element with tx's hash,
`sortedTxs.Remove(tx)` yields the queue with exactly that element deleted, the
other elements kept in their order and the length reduced by one; if no
element has tx's nonce and hash, the queue is unchanged. -/
theorem sortedTxs_Remove_spec (s : sortedTxs) (tx : Transaction)
    (hasc : s.txs.Pairwise (fun a b => a.AccountNonce < b.AccountNonce)) :
    (∀ e ∈ s.txs, e.Hash = tx.Hash →
      ∃ l1 l2, s.txs = l1 ++ e :: l2 ∧ (s.Remove tx).txs = l1 ++ l2 ∧
        (s.Remove tx).txs.length + 1 = s.txs.length ∧ (s.Remove tx).maxTxs = s.maxTxs) ∧
    ((∀ e ∈ s.txs, ¬ (e.AccountNonce = tx.AccountNonce ∧ e.Hash = tx.Hash)) →
      s.Remove tx = s) := by
  constructor
  · intro e hmem he
    obtain ⟨l1, l2, hs⟩ := List.append_of_mem hmem
    refine ⟨l1, l2, hs, ?_, ?_, ?_⟩
    · rw [sortedTxs_Remove_found s tx e l1 l2 hs hasc he]
    · rw [sortedTxs_Remove_found s tx e l1 l2 hs hasc he, hs]
      simp
      omega
    · rw [sortedTxs_Remove_found s tx e l1 l2 hs hasc he]
  · intro hnone
    rcases sortedTxs_Remove_cases s tx with h | ⟨i, e, hi, he, _⟩
    · exact h
    · exact absurd ⟨hash_nonce he, he⟩ (hnone e (List.getElem?_mem hi))

/-- Witness of C6: the head of the queue with nonces 2, 3, 4 is removed. -/
theorem sortedTxs_Remove_spec_witness :
    (∀ e ∈ [exampleTx 2, exampleTx 3, exampleTx 4], e.Hash = (exampleTx 2).Hash →
      ∃ l1 l2, [exampleTx 2, exampleTx 3, exampleTx 4] = l1 ++ e :: l2 ∧
        (sortedTxs.Remove { txs := [exampleTx 2, exampleTx 3, exampleTx 4], maxTxs := 10 }
          (exampleTx 2)).txs = l1 ++ l2 ∧
        (sortedTxs.Remove { txs := [exampleTx 2, exampleTx 3, exampleTx 4], maxTxs := 10 }
          (exampleTx 2)).txs.length + 1 = 3 ∧
        (sortedTxs.Remove { txs := [exampleTx 2, exampleTx 3, exampleTx 4], maxTxs := 10 }
          (exampleTx 2)).maxTxs = 10) ∧
    (sortedTxs.Remove { txs := [exampleTx 2, exampleTx 3, exampleTx 4], maxTxs := 10 }
      (exampleTx 2)).txs = [exampleTx 3, exampleTx 4] :=
  ⟨(sortedTxs_Remove_spec { txs := [exampleTx 2, exampleTx 3, exampleTx 4], maxTxs := 10 }
      (exampleTx 2) (by decide)).1, by decide⟩

/-! ## Sequences of `Add` and `Remove` on an executable queue -/

/-- What `sortedTxs.Add` does: it fails and leaves the queue alone, or it
appends the transaction, which then follows the tail. -/
theorem sortedTxs_Add_cases (pt : PriorityTable) (s : sortedTxs) (tx : Transaction) :
    (∃ e, s.Add pt tx = (some e, s)) ∨
    (s.Add pt tx = (none, { s with txs := s.txs ++ [tx] }) ∧
      (priorityKey pt tx.TxType = true ∨ s.Full = false) ∧
      ∀ last, s.txs.getLast? = some last → consecutive32 last tx) := by
  unfold sortedTxs.Add
  by_cases hfull : (!priorityKey pt tx.TxType && s.Full) = true
  · rw [if_pos hfull]
    exact Or.inl ⟨_, rfl⟩
  · rw [if_neg hfull]
    have hcap : priorityKey pt tx.TxType = true ∨ s.Full = false := by
      cases h1 : priorityKey pt tx.TxType <;> cases h2 : s.Full <;> simp [h1, h2] at hfull ⊢
    cases hl : s.txs.getLast? with
    | none =>
      right
      exact ⟨rfl, hcap, fun last h => by cases h⟩
    | some last =>
      dsimp only
      by_cases hseq : tx.AccountNonce ≠ nonceSucc last.AccountNonce ∨ tx.Epoch ≠ last.Epoch
      · rw [if_pos hseq]
        exact Or.inl ⟨_, rfl⟩
      · rw [if_neg hseq]
        right
        refine ⟨rfl, hcap, ?_⟩
        intro l hl2
        cases hl2
        constructor
        · by_contra h; exact hseq (Or.inr h)
        · by_contra h; exact hseq (Or.inl h)

theorem foldl_invariant {α β : Type} (P : α → Prop) (f : α → β → α) (l : List β)
    (hstep : ∀ a b, b ∈ l → P a → P (f a b)) : ∀ a, P a → P (l.foldl f a) := by
  induction l with
  | nil => intro a ha; exact ha
  | cons b bs ih =>
    intro a ha
    simp only [List.foldl_cons]
    exact ih (fun a2 b2 hb2 => hstep a2 b2 (List.mem_cons_of_mem b hb2)) _
      (hstep a b (List.mem_cons_self b bs) ha)

theorem sameEpoch_applyQueueOp (pt : PriorityTable) (s : sortedTxs) (op : QueueOp)
    (h : ∀ a ∈ s.txs, ∀ b ∈ s.txs, a.Epoch = b.Epoch) :
    ∀ a ∈ (applyQueueOp pt s op).txs, ∀ b ∈ (applyQueueOp pt s op).txs, a.Epoch = b.Epoch := by
  cases op with
  | add tx =>
    simp only [applyQueueOp]
    rcases sortedTxs_Add_cases pt s tx with ⟨e, he⟩ | ⟨hadd, _, hlast⟩
    · rw [he]; exact h
    · rw [hadd]
      have htx : ∀ a ∈ s.txs, a.Epoch = tx.Epoch := by
        intro a ha
        have hne : s.txs ≠ [] := List.ne_nil_of_mem ha
        have hl := List.getLast?_eq_getLast s.txs hne
        have hmem : s.txs.getLast hne ∈ s.txs := List.getLast_mem hne
        rw [(hlast _ hl).1]
        exact h a ha _ hmem
      intro a ha b hb
      simp only [List.mem_append, List.mem_singleton] at ha hb
      rcases ha with ha | ha <;> rcases hb with hb | hb
      · exact h a ha b hb
      · rw [hb]; exact htx a ha
      · rw [ha]; exact (htx b hb).symm
      · rw [ha, hb]
  | remove tx =>
    simp only [applyQueueOp]
    rcases sortedTxs_Remove_cases s tx with hr | ⟨i, e, _, _, hr⟩
    · rw [hr]; exact h
    · rw [hr]
      intro a ha b hb
      exact h a ((List.eraseIdx_sublist s.txs i).subset ha) b
        ((List.eraseIdx_sublist s.txs i).subset hb)

theorem ascending_applyQueueOp (pt : PriorityTable) (s : sortedTxs) (op : QueueOp)
    (hop : ∀ tx, op = QueueOp.add tx → tx.AccountNonce + 1 < 2 ^ 32)
    (h : s.txs.Pairwise (fun a b => a.AccountNonce < b.AccountNonce) ∧
      ∀ a ∈ s.txs, a.AccountNonce + 1 < 2 ^ 32) :
    (applyQueueOp pt s op).txs.Pairwise (fun a b => a.AccountNonce < b.AccountNonce) ∧
      ∀ a ∈ (applyQueueOp pt s op).txs, a.AccountNonce + 1 < 2 ^ 32 := by
  cases op with
  | add tx =>
    simp only [applyQueueOp]
    rcases sortedTxs_Add_cases pt s tx with ⟨e, he⟩ | ⟨hadd, _, hlast⟩
    · rw [he]; exact h
    · rw [hadd]
      constructor
      · rw [List.pairwise_append]
        refine ⟨h.1, List.pairwise_singleton _ _, ?_⟩
        intro a ha b hb
        rw [List.mem_singleton] at hb
        subst hb
        have hne : s.txs ≠ [] := List.ne_nil_of_mem ha
        have hl := List.getLast?_eq_getLast s.txs hne
        have hmem : s.txs.getLast hne ∈ s.txs := List.getLast_mem hne
        have hsucc := (hlast _ hl).2
        have hbound := h.2 _ hmem
        have hle : a.AccountNonce ≤ (s.txs.getLast hne).AccountNonce := by
          obtain ⟨l1, hl1⟩ : ∃ l1, s.txs = l1 ++ [s.txs.getLast hne] :=
            ⟨s.txs.dropLast, (List.dropLast_append_getLast hne).symm⟩
          have hp := h.1
          rw [hl1, List.pairwise_append] at hp
          rw [hl1, List.mem_append, List.mem_singleton] at ha
          rcases ha with ha | ha
          · exact Nat.le_of_lt (hp.2.2 a ha _ (List.mem_singleton_self _))
          · rw [ha]
        unfold nonceSucc at hsucc
        rw [Nat.mod_eq_of_lt hbound] at hsucc
        omega
      · intro a ha
        simp only [List.mem_append, List.mem_singleton] at ha
        rcases ha with ha | ha
        · exact h.2 a ha
        · rw [ha]; exact hop tx rfl
  | remove tx =>
    simp only [applyQueueOp]
    rcases sortedTxs_Remove_cases s tx with hr | ⟨i, e, _, _, hr⟩
    · rw [hr]; exact h
    · rw [hr]
      exact ⟨h.1.sublist (List.eraseIdx_sublist s.txs i),
        fun a ha => h.2 a ((List.eraseIdx_sublist s.txs i).subset ha)⟩

theorem chain_applyAdd (pt : PriorityTable) (s : sortedTxs) (tx : Transaction)
    (h : s.txs.Chain' consecutive32) :
    (applyQueueOp pt s (QueueOp.add tx)).txs.Chain' consecutive32 := by
  simp only [applyQueueOp]
  rcases sortedTxs_Add_cases pt s tx with ⟨e, he⟩ | ⟨hadd, _, hlast⟩
  · rw [he]; exact h
  · rw [hadd]
    rw [List.chain'_append]
    refine ⟨h, List.chain'_singleton tx, ?_⟩
    intro x hx y hy
    simp only [List.head?_cons, Option.mem_def, Option.some.injEq] at hy
    subst hy
    exact hlast x hx

/-- C4 as the code has it: in every executable queue obtained from an empty
queue by a sequence of `sortedTxs.Add` and `sortedTxs.Remove` calls all
transactions have the same epoch; when the sequence has `Add` calls only,
every two adjacent transactions have nonces that differ by exactly one (the
later is the `uint32` successor of the earlier); and when no offered
transaction carries the largest `uint32` nonce, the nonces are strictly
ascending, so no two transactions of the queue have equal nonces. -/
theorem runQueueOps_invariant (pt : PriorityTable) (maxTxs : Int) (ops : List QueueOp) :
    (∀ a ∈ (runQueueOps pt maxTxs ops).txs, ∀ b ∈ (runQueueOps pt maxTxs ops).txs,
      a.Epoch = b.Epoch) ∧
    ((∀ op ∈ ops, ∃ tx, op = QueueOp.add tx) →
      (runQueueOps pt maxTxs ops).txs.Chain' (fun a b =>
        b.Epoch = a.Epoch ∧ b.AccountNonce = nonceSucc a.AccountNonce)) ∧
    ((∀ tx, QueueOp.add tx ∈ ops → tx.AccountNonce + 1 < 2 ^ 32) →
      (runQueueOps pt maxTxs ops).txs.Pairwise (fun a b => a.AccountNonce < b.AccountNonce)) := by
  unfold runQueueOps
  refine ⟨?_, ?_, ?_⟩
  · exact foldl_invariant (fun s : sortedTxs => ∀ a ∈ s.txs, ∀ b ∈ s.txs, a.Epoch = b.Epoch)
      (applyQueueOp pt) ops (fun s op _ hs => sameEpoch_applyQueueOp pt s op hs) _
      (by intro a ha; simp [newSortedTxs] at ha)
  · intro hadds
    exact foldl_invariant (fun s : sortedTxs => s.txs.Chain' consecutive32)
      (applyQueueOp pt) ops
      (fun s op hop hs => by
        obtain ⟨tx, rfl⟩ := hadds op hop
        exact chain_applyAdd pt s tx hs) _
      (by simp [newSortedTxs])
  · intro hbound
    exact (foldl_invariant
      (fun s : sortedTxs => s.txs.Pairwise (fun a b => a.AccountNonce < b.AccountNonce) ∧
        ∀ a ∈ s.txs, a.AccountNonce + 1 < 2 ^ 32)
      (applyQueueOp pt) ops
      (fun s op hop hs => ascending_applyQueueOp pt s op
        (fun tx htx => hbound tx (htx ▸ hop)) hs) _
      (by simp [newSortedTxs])).1

/-- Counterexample to C4 as stated: after `Add` of the nonces 1, 2, 3 and
`Remove` of the middle one the queue holds the nonces 1 and 3, which are
adjacent and not consecutive. -/
theorem runQueueOps_gap :
    (runQueueOps examplePriority 10
      [QueueOp.add (exampleTx 1), QueueOp.add (exampleTx 2), QueueOp.add (exampleTx 3),
        QueueOp.remove (exampleTx 2)]).txs = [exampleTx 1, exampleTx 3] ∧
    ¬ (runQueueOps examplePriority 10
      [QueueOp.add (exampleTx 1), QueueOp.add (exampleTx 2), QueueOp.add (exampleTx 3),
        QueueOp.remove (exampleTx 2)]).txs.Chain' consecutive := by
  have hq : (runQueueOps examplePriority 10
      [QueueOp.add (exampleTx 1), QueueOp.add (exampleTx 2), QueueOp.add (exampleTx 3),
        QueueOp.remove (exampleTx 2)]).txs = [exampleTx 1, exampleTx 3] := by decide
  refine ⟨hq, ?_⟩
  rw [hq]
  simp [consecutive, exampleTx]

/-! ## More on Go maps -/

theorem mapGet_mapSet {κ ν : Type} [DecidableEq κ] (m : List (κ × ν)) (k k2 : κ) (v : ν) :
    mapGet (mapSet m k v) k2 = if k2 = k then some v else mapGet m k2 := by
  by_cases h : k2 = k
  · subst h; simp [mapGet_mapSet_self]
  · simp [h, mapGet_mapSet_ne m k k2 v h]

theorem mapGet_mapDelete {κ ν : Type} [DecidableEq κ] (m : List (κ × ν)) (k k2 : κ) :
    mapGet (mapDelete m k) k2 = if k2 = k then none else mapGet m k2 := by
  induction m with
  | nil => simp [mapDelete, mapGet]
  | cons p rest ih =>
    obtain ⟨k1, v1⟩ := p
    unfold mapDelete at ih ⊢
    by_cases h1 : k1 = k
    · subst h1
      simp only [List.filter_cons, ne_eq, not_true_eq_false, decide_False, Bool.false_eq_true,
        if_false, ih, mapGet]
      by_cases h2 : k2 = k1
      · simp [h2]
      · simp [h2, Ne.symm h2]
    · simp only [List.filter_cons, ne_eq, h1, not_false_eq_true, decide_True, if_true, mapGet, ih]
      by_cases h2 : k1 = k2
      · subst h2; simp [h1]
      · simp [h2]

theorem mapGet_none_iff {κ ν : Type} [DecidableEq κ] (m : List (κ × ν)) (k : κ) :
    mapGet m k = none ↔ k ∉ m.map Prod.fst := by
  induction m with
  | nil => simp [mapGet]
  | cons p rest ih =>
    obtain ⟨k1, v1⟩ := p
    by_cases h : k1 = k
    · subst h; simp [mapGet]
    · simp [mapGet, h, ih, Ne.symm h]

theorem mapGet_some_mem {κ ν : Type} [DecidableEq κ] (m : List (κ × ν)) (k : κ) (v : ν)
    (h : mapGet m k = some v) : (k, v) ∈ m := by
  induction m with
  | nil => simp [mapGet] at h
  | cons p rest ih =>
    obtain ⟨k1, v1⟩ := p
    by_cases h1 : k1 = k
    · subst h1
      simp [mapGet] at h
      subst h
      exact List.mem_cons_self _ _
    · simp [mapGet, h1] at h
      exact List.mem_cons_of_mem _ (ih h)

theorem mem_mapGet {κ ν : Type} [DecidableEq κ] (m : List (κ × ν)) (k : κ) (v : ν)
    (hnd : (m.map Prod.fst).Nodup) (h : (k, v) ∈ m) : mapGet m k = some v := by
  induction m with
  | nil => cases h
  | cons p rest ih =>
    obtain ⟨k1, v1⟩ := p
    simp only [List.map_cons, List.nodup_cons] at hnd
    rcases List.mem_cons.mp h with h1 | h1
    · cases h1; simp [mapGet]
    · have hk : k ∈ rest.map Prod.fst := List.mem_map.mpr ⟨(k, v), h1, rfl⟩
      have hne : k1 ≠ k := fun e => hnd.1 (e ▸ hk)
      simp [mapGet, hne, ih hnd.2 h1]

theorem mapGet_perm {κ ν : Type} [DecidableEq κ] (m m2 : List (κ × ν)) (k : κ)
    (hnd : (m.map Prod.fst).Nodup) (hp : m2.Perm m) : mapGet m2 k = mapGet m k := by
  have hnd2 : (m2.map Prod.fst).Nodup := (hp.map Prod.fst).nodup_iff.mpr hnd
  cases h : mapGet m k with
  | none =>
    rw [mapGet_none_iff] at h ⊢
    intro hk
    exact h ((hp.map Prod.fst).mem_iff.mp hk)
  | some v =>
    exact mem_mapGet m2 k v hnd2 (hp.mem_iff.mpr (mapGet_some_mem m k v h))

theorem keys_mapSet {κ ν : Type} [DecidableEq κ] (m : List (κ × ν)) (k : κ) (v : ν) :
    (mapSet m k v).map Prod.fst =
      if k ∈ m.map Prod.fst then m.map Prod.fst else m.map Prod.fst ++ [k] := by
  induction m with
  | nil => simp [mapSet]
  | cons p rest ih =>
    obtain ⟨k1, v1⟩ := p
    by_cases h : k1 = k
    · subst h; simp [mapSet]
    · simp only [mapSet, h, if_false, List.map_cons, ih, List.mem_cons, Ne.symm h, false_or]
      by_cases h2 : k ∈ rest.map Prod.fst
      · simp [h2]
      · simp [h2]

theorem keys_mapSet_nodup {κ ν : Type} [DecidableEq κ] (m : List (κ × ν)) (k : κ) (v : ν)
    (hnd : (m.map Prod.fst).Nodup) : ((mapSet m k v).map Prod.fst).Nodup := by
  rw [keys_mapSet]
  by_cases h : k ∈ m.map Prod.fst
  · simp only [h, if_true]; exact hnd
  · simp only [h, if_false]
    rw [List.nodup_append]
    refine ⟨hnd, List.nodup_singleton k, ?_⟩
    intro a ha hb
    rw [List.mem_singleton] at hb
    subst hb
    exact h ha

theorem keys_mapDelete {κ ν : Type} [DecidableEq κ] (m : List (κ × ν)) (k : κ) :
    (mapDelete m k).map Prod.fst = (m.map Prod.fst).filter (fun x => decide (x ≠ k)) := by
  unfold mapDelete
  induction m with
  | nil => simp
  | cons p rest ih =>
    obtain ⟨k1, v1⟩ := p
    by_cases h : k1 = k
    · simp only [List.filter_cons, ne_eq, h, not_true_eq_false, decide_False, Bool.false_eq_true,
        if_false, List.map_cons]
      exact ih
    · simp only [List.filter_cons, ne_eq, h, not_false_eq_true, decide_True, if_true,
        List.map_cons]
      rw [ih]

theorem keys_mapDelete_nodup {κ ν : Type} [DecidableEq κ] (m : List (κ × ν)) (k : κ)
    (hnd : (m.map Prod.fst).Nodup) : ((mapDelete m k).map Prod.fst).Nodup := by
  rw [keys_mapDelete]
  exact hnd.filter _

theorem count_keys_mapDelete {κ ν : Type} [DecidableEq κ] (m : List (κ × ν)) (k x : κ) :
    ((mapDelete m k).map Prod.fst).count x = if x = k then 0 else (m.map Prod.fst).count x := by
  rw [keys_mapDelete]
  by_cases h : x = k
  · subst h
    simp only [if_true]
    rw [List.count_eq_zero]
    intro hm
    simp at hm
  · simp only [h, if_false]
    rw [List.count_filter]
    simp [h]

theorem mem_mapSet {κ ν : Type} [DecidableEq κ] (m : List (κ × ν)) (k : κ) (v : ν)
    (p : κ × ν) (h : p ∈ mapSet m k v) : p = (k, v) ∨ p ∈ m := by
  induction m with
  | nil =>
    simp [mapSet] at h
    exact Or.inl h
  | cons q rest ih =>
    obtain ⟨k1, v1⟩ := q
    by_cases h1 : k1 = k
    · simp only [mapSet, h1, if_true, List.mem_cons] at h
      rcases h with h | h
      · exact Or.inl h
      · exact Or.inr (List.mem_cons_of_mem _ h)
    · simp only [mapSet, h1, if_false, List.mem_cons] at h
      rcases h with h | h
      · exact Or.inr (h ▸ List.mem_cons_self _ _)
      · rcases ih h with h2 | h2
        · exact Or.inl h2
        · exact Or.inr (List.mem_cons_of_mem _ h2)

/-- Assignment to a key that is not in the map appends the entry. -/
theorem mapSet_absent {κ ν : Type} [DecidableEq κ] (m : List (κ × ν)) (k : κ) (v : ν)
    (h : mapGet m k = none) : mapSet m k v = m ++ [(k, v)] := by
  induction m with
  | nil => simp [mapSet]
  | cons p rest ih =>
    obtain ⟨k1, v1⟩ := p
    by_cases h1 : k1 = k
    · simp [mapGet, h1] at h
    · simp only [mapGet, h1, if_false] at h
      simp [mapSet, h1, ih h]

/-! ## The invariant under the elementary changes of the queues -/

/-- The largest `uint32` nonce has no successor to wrap to when no admitted
transaction carries it. -/
theorem noWrap_wrapFree : WrapFree noWrap :=
  ⟨fun tx h => by unfold noWrap at h; omega,
    fun a _ h _ _ _ h2 => by unfold noWrap at h; omega,
    fun _ _ h => h⟩

/-- No nonce wraps to zero when no admitted transaction carries the nonce
zero. -/
theorem positiveNonce_wrapFree : WrapFree positiveNonce :=
  ⟨fun _ h => h.2, fun _ b _ h _ _ _ => by unfold positiveNonce at h; omega, fun _ _ h => h⟩

/-- Under a condition that excludes the wrap, the transaction that
`sortedTxs.Add` takes after the tail of a queue has the greater nonce. -/
theorem WrapFree.step {ok : Transaction → Prop} (hok : WrapFree ok) {a b : Transaction}
    (ha : ok a) (hb : ok b) (hs : a.sender = b.sender) (hc : consecutive32 a b) :
    a.AccountNonce < b.AccountNonce := by
  have h1 := hok.range a ha
  have h2 := hc.2
  unfold nonceSucc at h2
  by_cases h3 : a.AccountNonce + 1 < 2 ^ 32
  · rw [Nat.mod_eq_of_lt h3] at h2
    omega
  · have h4 : a.AccountNonce = 4294967295 := by omega
    have h5 := hok.pair a b ha hb hs hc.1.symm h4
    rw [h4] at h2
    have h6 : b.AccountNonce = 0 := by rw [h2]; decide
    exact absurd h6 h5

theorem ascending_append (l : List Transaction) (tx : Transaction)
    (hasc : l.Pairwise (fun a b => a.AccountNonce < b.AccountNonce))
    (hstep : ∀ last, l.getLast? = some last → last.AccountNonce < tx.AccountNonce) :
    (l ++ [tx]).Pairwise (fun a b => a.AccountNonce < b.AccountNonce) := by
  rw [List.pairwise_append]
  refine ⟨hasc, List.pairwise_singleton _ _, ?_⟩
  intro a ha b hb
  rw [List.mem_singleton] at hb
  subst hb
  have hne : l ≠ [] := List.ne_nil_of_mem ha
  have hl := List.getLast?_eq_getLast l hne
  have hsucc := hstep _ hl
  have hle : a.AccountNonce ≤ (l.getLast hne).AccountNonce := by
    obtain ⟨l1, hl1⟩ : ∃ l1, l = l1 ++ [l.getLast hne] :=
      ⟨l.dropLast, (List.dropLast_append_getLast hne).symm⟩
    have hp := hasc
    rw [hl1, List.pairwise_append] at hp
    rw [hl1, List.mem_append, List.mem_singleton] at ha
    rcases ha with ha | ha
    · exact Nat.le_of_lt (hp.2.2 a ha _ (List.mem_singleton_self _))
    · rw [ha]
  omega

/-- The step of `ascending_append` for a queue of one sender whose
transactions meet a condition that excludes the wrap. -/
theorem tail_step {ok : Transaction → Prop} (hok : WrapFree ok) (l : List Transaction)
    (tx : Transaction) (hl : ∀ t ∈ l, t.sender = tx.sender ∧ ok t) (htx : ok tx)
    (hlast : ∀ last, l.getLast? = some last → consecutive32 last tx) :
    ∀ last, l.getLast? = some last → last.AccountNonce < tx.AccountNonce := by
  intro last h
  have hmem : last ∈ l := List.mem_of_getLast?_eq_some h
  exact hok.step (hl last hmem).2 htx (hl last hmem).1 (hlast last h)

theorem hash_sender_field (tx : Transaction) : tx.Hash.sender = tx.sender := rfl

theorem count_le_one_of_nodup {α : Type} [DecidableEq α] (l : List α) (h : l.Nodup) (x : α) :
    l.count x ≤ 1 := List.nodup_iff_count_le_one.mp h x

/-- A transaction is appended to the executable queue of its sender and
entered in the Global Index. -/
theorem ViewInv.view_addExec {ok : Transaction → Prop} {E E2 : Nat → List Transaction}
    {P : Nat → List (Hash × Transaction)} {A : List Hash} (hv : ViewInv ok E P A)
    (hok : WrapFree ok)
    (tx : Transaction) (hnew : tx.Hash ∉ A) (hbound : ok tx)
    (hlast : ∀ last, (E tx.sender).getLast? = some last → consecutive32 last tx)
    (hE : ∀ s, E2 s = if s = tx.sender then E s ++ [tx] else E s) :
    ViewInv ok E2 P (A ++ [tx.Hash]) := by
  refine ⟨?_, hv.pendOk, ?_, ?_⟩
  · intro s
    rw [hE s]
    by_cases hs : s = tx.sender
    · subst hs
      simp only [if_true]
      refine ⟨ascending_append _ tx (hv.execOk _).1
        (tail_step hok _ tx (hv.execOk _).2 hbound hlast), ?_⟩
      intro t ht
      rcases List.mem_append.mp ht with h | h
      · exact (hv.execOk _).2 t h
      · rw [List.mem_singleton] at h
        subst h
        exact ⟨rfl, hbound⟩
    · simp only [hs, if_false]
      exact hv.execOk s
  · rw [List.nodup_append]
    refine ⟨hv.allKeys, List.nodup_singleton _, ?_⟩
    intro a ha hb
    rw [List.mem_singleton] at hb
    subst hb
    exact hnew ha
  · intro x
    have h0 := hv.hashes x
    rw [hE x.sender, List.count_append, List.count_singleton]
    by_cases hs : x.sender = tx.sender
    · simp only [hs, if_true, List.map_append, List.map_cons, List.map_nil, List.count_append,
        List.count_singleton]
      rw [hs] at h0
      by_cases hx : tx.Hash = x
      · simp only [hx, beq_self_eq_true, if_true]
        omega
      · have hx2 : (tx.Hash == x) = false := by simpa using hx
        simp only [hx2, Bool.false_eq_true, if_false]
        omega
    · have hx : (tx.Hash == x) = false := by
        have : tx.Hash ≠ x := fun e => hs (by rw [← e]; rfl)
        simpa using this
      simp only [hs, if_false, hx, Bool.false_eq_true]
      omega

theorem filter_type_length_append_singleton (l : List Transaction) (tx : Transaction) (T : Nat) :
    ((l ++ [tx]).filter (fun t => decide (t.TxType = T))).length =
      (l.filter (fun t => decide (t.TxType = T))).length + if tx.TxType = T then 1 else 0 := by
  by_cases h : tx.TxType = T
  · simp [List.filter_append, List.filter_cons, h]
  · simp [List.filter_append, List.filter_cons, h]

/-- A transaction is entered in the pending queue of its sender and in the
Global Index. -/
theorem ViewInv.view_addPend {ok : Transaction → Prop} {E : Nat → List Transaction}
    {P P2 : Nat → List (Hash × Transaction)} {A : List Hash} (hv : ViewInv ok E P A)
    (tx : Transaction) (hnew : tx.Hash ∉ A) (hbound : ok tx)
    (hP : ∀ s, P2 s = if s = tx.sender then mapSet (P s) tx.Hash tx else P s) :
    ViewInv ok E P2 (A ++ [tx.Hash]) := by
  have habsent : mapGet (P tx.sender) tx.Hash = none := by
    rw [mapGet_none_iff]
    intro hmem
    have h0 := hv.hashes tx.Hash
    rw [hash_sender_field] at h0
    have h1 : 0 < ((P tx.sender).map Prod.fst).count tx.Hash := List.count_pos_iff.mpr hmem
    have h2 : A.count tx.Hash = 0 := List.count_eq_zero.mpr hnew
    omega
  have hP2 : ∀ s, P2 s = if s = tx.sender then P s ++ [(tx.Hash, tx)] else P s := by
    intro s
    rw [hP s]
    by_cases hs : s = tx.sender
    · subst hs
      simp only [if_true]
      exact mapSet_absent _ _ _ habsent
    · simp only [hs, if_false]
  refine ⟨hv.execOk, ?_, ?_, ?_⟩
  · intro s e he
    rw [hP2 s] at he
    by_cases hs : s = tx.sender
    · subst hs
      simp only [if_true] at he
      rcases List.mem_append.mp he with h | h
      · exact hv.pendOk _ e h
      · rw [List.mem_singleton] at h
        subst h
        exact ⟨rfl, rfl, hbound⟩
    · simp only [hs, if_false] at he
      exact hv.pendOk s e he
  · rw [List.nodup_append]
    refine ⟨hv.allKeys, List.nodup_singleton _, ?_⟩
    intro a ha hb
    rw [List.mem_singleton] at hb
    subst hb
    exact hnew ha
  · intro x
    have h0 := hv.hashes x
    rw [hP2 x.sender, List.count_append, List.count_singleton]
    by_cases hs : x.sender = tx.sender
    · simp only [hs, if_true, List.map_append, List.map_cons, List.map_nil, List.count_append,
        List.count_singleton]
      rw [hs] at h0
      by_cases hx : tx.Hash = x
      · simp only [hx, beq_self_eq_true, if_true]
        omega
      · have hx2 : (tx.Hash == x) = false := by simpa using hx
        simp only [hx2, Bool.false_eq_true, if_false]
        omega
    · have hx : (tx.Hash == x) = false := by
        have : tx.Hash ≠ x := fun e => hs (by rw [← e]; rfl)
        simpa using this
      simp only [hs, if_false, hx, Bool.false_eq_true]
      omega

/-- The views are enumerated in another order. -/
theorem ViewInv.view_congr {ok : Transaction → Prop} {E E2 : Nat → List Transaction}
    {P P2 : Nat → List (Hash × Transaction)} {A A2 : List Hash} (hv : ViewInv ok E P A)
    (hE : ∀ s, E2 s = E s) (hP : ∀ s, (P2 s).Perm (P s)) (hA : A2.Perm A) :
    ViewInv ok E2 P2 A2 := by
  refine ⟨?_, ?_, ?_, ?_⟩
  · intro s; rw [hE s]; exact hv.execOk s
  · intro s e he
    exact hv.pendOk s e ((hP s).mem_iff.mp he)
  · exact hA.nodup_iff.mpr hv.allKeys
  · intro x
    rw [hE, ((hP x.sender).map Prod.fst).count_eq x, hA.count_eq x]
    exact hv.hashes x

theorem getElem?_decompose {α : Type} (l : List α) (i : Nat) (e : α) (h : l[i]? = some e) :
    ∃ l1 l2, l = l1 ++ e :: l2 ∧ l.eraseIdx i = l1 ++ l2 := by
  induction l generalizing i with
  | nil => simp at h
  | cons x xs ih =>
    cases i with
    | zero =>
      simp at h
      subst h
      exact ⟨[], xs, rfl, rfl⟩
    | succ j =>
      simp at h
      obtain ⟨l1, l2, h1, h2⟩ := ih j h
      refine ⟨x :: l1, l2, ?_, ?_⟩
      · simp [h1]
      · simp [h2]

/-- Decomposed form of `sortedTxs_Remove_cases`. -/
theorem sortedTxs_Remove_split (s : sortedTxs) (tx : Transaction) :
    (s.Remove tx).maxTxs = s.maxTxs ∧
    ((s.Remove tx).txs = s.txs ∨
      ∃ l1 e l2, s.txs = l1 ++ e :: l2 ∧ e.Hash = tx.Hash ∧ (s.Remove tx).txs = l1 ++ l2) := by
  rcases sortedTxs_Remove_cases s tx with h | ⟨i, e, hi, he, h⟩
  · rw [h]; exact ⟨rfl, Or.inl rfl⟩
  · rw [h]
    obtain ⟨l1, l2, h1, h2⟩ := getElem?_decompose s.txs i e hi
    exact ⟨rfl, Or.inr ⟨l1, e, l2, h1, he, h2⟩⟩

theorem mapDelete_sublist {κ ν : Type} [DecidableEq κ] (m : List (κ × ν)) (k : κ) :
    (mapDelete m k).Sublist m := List.filter_sublist m

/-- A transaction is removed from the queues of its sender and from the
Global Index. -/
theorem ViewInv.view_remove {ok : Transaction → Prop} {E E2 : Nat → List Transaction}
    {P P2 : Nat → List (Hash × Transaction)} {A A2 : List Hash} (hv : ViewInv ok E P A)
    (tx : Transaction) (R : List Transaction)
    (hR : R = E tx.sender ∨
      ∃ l1 e l2, E tx.sender = l1 ++ e :: l2 ∧ e.Hash = tx.Hash ∧ R = l1 ++ l2)
    (hfound : ∀ l1 e l2, E tx.sender = l1 ++ e :: l2 → e.Hash = tx.Hash → R = l1 ++ l2)
    (hE : ∀ s, E2 s = if s = tx.sender then R else E s)
    (hP : ∀ s, P2 s = if s = tx.sender then mapDelete (P s) tx.Hash else P s)
    (hA2 : A2.Nodup) (hcount : ∀ x, A2.count x = if x = tx.Hash then 0 else A.count x) :
    ViewInv ok E2 P2 A2 := by
  have hsub : R.Sublist (E tx.sender) := by
    rcases hR with h | ⟨l1, e, l2, h1, _, h2⟩
    · rw [h]
    · rw [h1, h2]
      exact List.Sublist.append_left (List.sublist_cons_self e l2) l1
  refine ⟨?_, ?_, hA2, ?_⟩
  · intro s
    rw [hE s]
    by_cases hs : s = tx.sender
    · subst hs
      simp only [if_true]
      exact ⟨(hv.execOk _).1.sublist hsub, fun t ht => (hv.execOk _).2 t (hsub.subset ht)⟩
    · simp only [hs, if_false]
      exact hv.execOk s
  · intro s e he
    rw [hP s] at he
    by_cases hs : s = tx.sender
    · subst hs
      simp only [if_true] at he
      exact hv.pendOk _ e ((mapDelete_sublist _ _).subset he)
    · simp only [hs, if_false] at he
      exact hv.pendOk s e he
  · intro x
    have h0 := hv.hashes x
    rw [hE x.sender, hP x.sender, hcount x]
    by_cases hs : x.sender = tx.sender
    · simp only [hs, if_true]
      rw [hs] at h0
      rw [count_keys_mapDelete]
      by_cases hx : x = tx.Hash
      · subst hx
        simp only [if_true, Nat.add_zero]
        have hle := count_le_one_of_nodup A hv.allKeys tx.Hash
        by_cases hmem : tx.Hash ∈ (E tx.sender).map Transaction.Hash
        · obtain ⟨e, he, heh⟩ := List.mem_map.mp hmem
          obtain ⟨l1, l2, hl⟩ := List.append_of_mem he
          rw [hfound l1 e l2 hl heh]
          rw [hl] at h0
          simp only [List.map_append, List.map_cons, List.count_append, List.count_cons, heh,
            beq_self_eq_true, if_true] at h0 ⊢
          omega
        · rw [List.count_eq_zero]
          intro hm
          exact hmem ((hsub.map Transaction.Hash).subset hm)
      · simp only [hx, if_false]
        rcases hR with h | ⟨l1, e, l2, h1, he, h2⟩
        · rw [h]; exact h0
        · rw [h2]
          rw [h1] at h0
          have hne : (e.Hash == x) = false := by
            have : e.Hash ≠ x := fun e2 => hx (by rw [← e2, he])
            simpa using this
          simp only [List.map_append, List.map_cons, List.count_append, List.count_cons, hne,
            Bool.false_eq_true, if_false] at h0 ⊢
          omega
    · have hx : x ≠ tx.Hash := fun e => hs (by rw [e]; rfl)
      simp only [hs, if_false, hx]
      exact h0

theorem filter_type_mapDelete (P : List (Hash × Transaction)) (tx : Transaction) (T : Nat)
    (hmem : (tx.Hash, tx) ∈ P) :
    (((mapDelete P tx.Hash).map Prod.snd).filter (fun t => decide (t.TxType = T))).length +
      (if tx.TxType = T then 1 else 0) ≤
    ((P.map Prod.snd).filter (fun t => decide (t.TxType = T))).length := by
  induction P with
  | nil => cases hmem
  | cons p rest ih =>
    obtain ⟨k, v⟩ := p
    have hsub : (((mapDelete rest tx.Hash).map Prod.snd).filter
        (fun t => decide (t.TxType = T))).length ≤
        ((rest.map Prod.snd).filter (fun t => decide (t.TxType = T))).length :=
      (((mapDelete_sublist rest tx.Hash).map Prod.snd).filter _).length_le
    by_cases hk : k = tx.Hash
    · have hd : mapDelete ((k, v) :: rest) tx.Hash = mapDelete rest tx.Hash := by
        simp [mapDelete, List.filter_cons, hk]
      rw [hd]
      rcases List.mem_cons.mp hmem with h | h
      · cases h
        by_cases hty : tx.TxType = T
        · simp [List.filter_cons, hty]; omega
        · simp [List.filter_cons, hty]; omega
      · have := ih h
        have hmono : ((rest.map Prod.snd).filter (fun t => decide (t.TxType = T))).length ≤
            ((((k, v) :: rest).map Prod.snd).filter (fun t => decide (t.TxType = T))).length :=
          (((List.sublist_cons_self (k, v) rest).map Prod.snd).filter _).length_le
        omega
    · have hd : mapDelete ((k, v) :: rest) tx.Hash = (k, v) :: mapDelete rest tx.Hash := by
        simp [mapDelete, List.filter_cons, hk]
      rw [hd]
      rcases List.mem_cons.mp hmem with h | h
      · cases h; exact absurd rfl hk
      · have := ih h
        by_cases hv : v.TxType = T
        · simp [List.filter_cons, hv] at this ⊢; omega
        · simp [List.filter_cons, hv] at this ⊢; omega

/-- A pending transaction moves to the tail of the executable queue of its
sender. -/
theorem ViewInv.view_migrate {ok : Transaction → Prop} {E E2 : Nat → List Transaction}
    {P P2 : Nat → List (Hash × Transaction)} {A : List Hash} (hv : ViewInv ok E P A)
    (hok : WrapFree ok)
    (tx : Transaction) (hmem : (tx.Hash, tx) ∈ P tx.sender)
    (hlast : ∀ last, (E tx.sender).getLast? = some last → consecutive32 last tx)
    (hE : ∀ s, E2 s = if s = tx.sender then E s ++ [tx] else E s)
    (hP : ∀ s, P2 s = if s = tx.sender then mapDelete (P s) tx.Hash else P s) :
    ViewInv ok E2 P2 A := by
  have hpk := hv.pendOk _ _ hmem
  refine ⟨?_, ?_, hv.allKeys, ?_⟩
  · intro s
    rw [hE s]
    by_cases hs : s = tx.sender
    · subst hs
      simp only [if_true]
      refine ⟨ascending_append _ tx (hv.execOk _).1
        (tail_step hok _ tx (hv.execOk _).2 hpk.2.2 hlast), ?_⟩
      intro t ht
      rcases List.mem_append.mp ht with h | h
      · exact (hv.execOk _).2 t h
      · rw [List.mem_singleton] at h
        subst h
        exact ⟨rfl, hpk.2.2⟩
    · simp only [hs, if_false]
      exact hv.execOk s
  · intro s e he
    rw [hP s] at he
    by_cases hs : s = tx.sender
    · subst hs
      simp only [if_true] at he
      exact hv.pendOk _ e ((mapDelete_sublist _ _).subset he)
    · simp only [hs, if_false] at he
      exact hv.pendOk s e he
  · intro x
    have h0 := hv.hashes x
    rw [hE x.sender, hP x.sender]
    by_cases hs : x.sender = tx.sender
    · simp only [hs, if_true]
      rw [hs] at h0
      rw [count_keys_mapDelete]
      by_cases hx : x = tx.Hash
      · subst hx
        simp only [if_true, Nat.add_zero]
        have hle := count_le_one_of_nodup A hv.allKeys tx.Hash
        have hpos : 0 < ((P tx.sender).map Prod.fst).count tx.Hash :=
          List.count_pos_iff.mpr (List.mem_map.mpr ⟨(tx.Hash, tx), hmem, rfl⟩)
        simp only [List.map_append, List.map_cons, List.map_nil, List.count_append,
          List.count_singleton, beq_self_eq_true, if_true]
        omega
      · have hne : (tx.Hash == x) = false := by
          have : tx.Hash ≠ x := fun e => hx e.symm
          simpa using this
        simp only [hx, if_false, List.map_append, List.map_cons, List.map_nil, List.count_append,
          List.count_singleton, hne, Bool.false_eq_true]
        omega
    · simp only [hs, if_false]
      exact h0

/-! ## The invariant of the priority types under the elementary changes -/

theorem filter_type_mapSet (P : List (Hash × Transaction)) (tx : Transaction) (T : Nat) :
    (((mapSet P tx.Hash tx).map Prod.snd).filter (fun t => decide (t.TxType = T))).length ≤
      ((P.map Prod.snd).filter (fun t => decide (t.TxType = T))).length +
        (if tx.TxType = T then 1 else 0) := by
  induction P with
  | nil =>
    by_cases hty : tx.TxType = T <;> simp [mapSet, List.filter_cons, hty]
  | cons p rest ih =>
    obtain ⟨k, v⟩ := p
    by_cases hk : k = tx.Hash
    · have hs : mapSet ((k, v) :: rest) tx.Hash tx = (tx.Hash, tx) :: rest := by
        simp [mapSet, hk]
      rw [hs]
      by_cases hty : tx.TxType = T <;> by_cases hv : v.TxType = T <;>
        simp [List.filter_cons, hty, hv]
    · have hs : mapSet ((k, v) :: rest) tx.Hash tx = (k, v) :: mapSet rest tx.Hash tx := by
        simp [mapSet, hk]
      rw [hs]
      by_cases hv : v.TxType = T
      · simp [List.filter_cons, hv] at ih ⊢; omega
      · simp [List.filter_cons, hv] at ih ⊢; omega

/-- A transaction that passed the check of its type is appended to the
executable queue of `k`. -/
theorem PrioView.prioView_addExec {pt : PriorityTable} {E E2 : Nat → List Transaction}
    {P : Nat → List (Hash × Transaction)} (hv : PrioView pt E P) (k : Nat) (tx : Transaction)
    (hprio : priorityVal pt tx.TxType = true →
      ∀ t ∈ E k ++ (P k).map Prod.snd, t.TxType ≠ tx.TxType)
    (hE : ∀ s, E2 s = if s = k then E s ++ [tx] else E s) : PrioView pt E2 P := by
  refine ⟨hv.pendKeyed, hv.pendNodup, ?_⟩
  intro s T hT
  rw [hE s]
  by_cases hs : s = k
  · subst hs
    simp only [if_true]
    have h0 := hv.prio s T hT
    have hre : (E s ++ [tx]) ++ (P s).map Prod.snd =
        E s ++ ([tx] ++ (P s).map Prod.snd) := by simp
    have hp : (E s ++ ([tx] ++ (P s).map Prod.snd)).Perm
        ((E s ++ (P s).map Prod.snd) ++ [tx]) := by
      rw [List.append_assoc]
      exact List.Perm.append_left _ List.perm_append_comm
    rw [hre, (hp.filter _).length_eq, filter_type_length_append_singleton]
    by_cases hty : tx.TxType = T
    · subst hty
      have hnone : (E s ++ (P s).map Prod.snd).filter
          (fun t => decide (t.TxType = tx.TxType)) = [] := by
        rw [List.filter_eq_nil_iff]
        intro t ht
        simpa using hprio hT t ht
      rw [hnone]; simp
    · simp only [hty, if_false]; omega
  · simp only [hs, if_false]
    exact hv.prio s T hT

/-- A transaction that passed the check of its type is entered in the pending
queue of `k`. -/
theorem PrioView.prioView_addPend {pt : PriorityTable} {E : Nat → List Transaction}
    {P P2 : Nat → List (Hash × Transaction)} (hv : PrioView pt E P) (k : Nat) (tx : Transaction)
    (hprio : priorityVal pt tx.TxType = true →
      ∀ t ∈ E k ++ (P k).map Prod.snd, t.TxType ≠ tx.TxType)
    (hP : ∀ s, P2 s = if s = k then mapSet (P s) tx.Hash tx else P s) : PrioView pt E P2 := by
  refine ⟨?_, ?_, ?_⟩
  · intro s e he
    rw [hP s] at he
    by_cases hs : s = k
    · simp only [hs, if_true] at he
      rcases mem_mapSet _ _ _ _ he with h | h
      · rw [h]
      · exact hv.pendKeyed k e h
    · simp only [hs, if_false] at he
      exact hv.pendKeyed s e he
  · intro s
    rw [hP s]
    by_cases hs : s = k
    · simp only [hs, if_true]
      exact keys_mapSet_nodup _ _ _ (hv.pendNodup k)
    · simp only [hs, if_false]
      exact hv.pendNodup s
  · intro s T hT
    rw [hP s]
    by_cases hs : s = k
    · subst hs
      simp only [if_true]
      have h0 := hv.prio s T hT
      have h1 := filter_type_mapSet (P s) tx T
      simp only [List.filter_append, List.length_append] at h0 ⊢
      by_cases hty : tx.TxType = T
      · subst hty
        have hnone : (E s ++ (P s).map Prod.snd).filter
            (fun t => decide (t.TxType = tx.TxType)) = [] := by
          rw [List.filter_eq_nil_iff]
          intro t ht
          simpa using hprio hT t ht
        simp only [List.filter_append, List.append_eq_nil] at hnone
        rw [hnone.2] at h1
        rw [hnone.1]
        simp at h1 ⊢
        exact h1
      · simp only [hty, if_false] at h1
        omega
    · simp only [hs, if_false]
      exact hv.prio s T hT

/-- Entries are taken out of the queues of `k`. -/
theorem PrioView.prioView_remove {pt : PriorityTable} {E E2 : Nat → List Transaction}
    {P P2 : Nat → List (Hash × Transaction)} (hv : PrioView pt E P) (k : Nat) (h : Hash)
    (R : List Transaction) (hR : R.Sublist (E k))
    (hE : ∀ s, E2 s = if s = k then R else E s)
    (hP : ∀ s, P2 s = if s = k then mapDelete (P s) h else P s) : PrioView pt E2 P2 := by
  refine ⟨?_, ?_, ?_⟩
  · intro s e he
    rw [hP s] at he
    by_cases hs : s = k
    · simp only [hs, if_true] at he
      exact hv.pendKeyed k e ((mapDelete_sublist _ _).subset he)
    · simp only [hs, if_false] at he
      exact hv.pendKeyed s e he
  · intro s
    rw [hP s]
    by_cases hs : s = k
    · simp only [hs, if_true]
      exact keys_mapDelete_nodup _ _ (hv.pendNodup k)
    · simp only [hs, if_false]
      exact hv.pendNodup s
  · intro s T hT
    rw [hE s, hP s]
    by_cases hs : s = k
    · subst hs
      simp only [if_true]
      have hsub2 : (R ++ (mapDelete (P s) h).map Prod.snd).Sublist
          (E s ++ (P s).map Prod.snd) :=
        List.Sublist.append hR ((mapDelete_sublist _ _).map Prod.snd)
      exact Nat.le_trans (hsub2.filter _).length_le (hv.prio _ T hT)
    · simp only [hs, if_false]
      exact hv.prio s T hT

/-- A pending transaction of `k` moves to the tail of the executable queue
of `k`. -/
theorem PrioView.prioView_migrate {pt : PriorityTable} {E E2 : Nat → List Transaction}
    {P P2 : Nat → List (Hash × Transaction)} (hv : PrioView pt E P) (k : Nat) (tx : Transaction)
    (hmem : (tx.Hash, tx) ∈ P k)
    (hE : ∀ s, E2 s = if s = k then E s ++ [tx] else E s)
    (hP : ∀ s, P2 s = if s = k then mapDelete (P s) tx.Hash else P s) : PrioView pt E2 P2 := by
  refine ⟨?_, ?_, ?_⟩
  · intro s e he
    rw [hP s] at he
    by_cases hs : s = k
    · simp only [hs, if_true] at he
      exact hv.pendKeyed k e ((mapDelete_sublist _ _).subset he)
    · simp only [hs, if_false] at he
      exact hv.pendKeyed s e he
  · intro s
    rw [hP s]
    by_cases hs : s = k
    · simp only [hs, if_true]
      exact keys_mapDelete_nodup _ _ (hv.pendNodup k)
    · simp only [hs, if_false]
      exact hv.pendNodup s
  · intro s T hT
    rw [hE s, hP s]
    by_cases hs : s = k
    · subst hs
      simp only [if_true]
      have h0 := hv.prio s T hT
      have h1 := filter_type_mapDelete (P s) tx T hmem
      simp only [List.filter_append, List.length_append] at h0 ⊢
      have h2 : (List.filter (fun t => decide (t.TxType = T)) [tx]).length =
          if tx.TxType = T then 1 else 0 := by
        by_cases hty : tx.TxType = T <;> simp [List.filter_cons, hty]
      rw [h2]
      omega
    · simp only [hs, if_false]
      exact hv.prio s T hT

/-- The views are enumerated in another order. -/
theorem PrioView.prioView_congr {pt : PriorityTable} {E E2 : Nat → List Transaction}
    {P P2 : Nat → List (Hash × Transaction)} (hv : PrioView pt E P)
    (hE : ∀ s, E2 s = E s) (hP : ∀ s, (P2 s).Perm (P s)) : PrioView pt E2 P2 := by
  refine ⟨?_, ?_, ?_⟩
  · intro s e he
    exact hv.pendKeyed s e ((hP s).mem_iff.mp he)
  · intro s
    exact ((hP s).map Prod.fst).nodup_iff.mpr (hv.pendNodup s)
  · intro s T hT
    rw [hE]
    have hp : (E s ++ (P2 s).map Prod.snd).Perm (E s ++ (P s).map Prod.snd) :=
      List.Perm.append_left _ ((hP s).map Prod.snd)
    rw [(hp.filter _).length_eq]
    exact hv.prio s T hT

/-! ## The per-sender views after a change of the maps -/

theorem execOf_mapSet (pool other : TxPool) (k : Nat) (q : sortedTxs)
    (h : other.executableTxs = mapSet pool.executableTxs k q) (s : Nat) :
    other.execOf s = if s = k then q.txs else pool.execOf s := by
  unfold TxPool.execOf
  rw [h, mapGet_mapSet]
  by_cases hs : s = k <;> simp [hs]

theorem execOf_mapDelete (pool other : TxPool) (k : Nat)
    (h : other.executableTxs = mapDelete pool.executableTxs k) (s : Nat) :
    other.execOf s = if s = k then [] else pool.execOf s := by
  unfold TxPool.execOf
  rw [h, mapGet_mapDelete]
  by_cases hs : s = k <;> simp [hs]

theorem execOf_congr (pool other : TxPool) (h : other.executableTxs = pool.executableTxs)
    (s : Nat) : other.execOf s = pool.execOf s := by
  unfold TxPool.execOf; rw [h]

theorem pendOf_mapSet (pool other : TxPool) (k : Nat) (m : txMap)
    (h : other.pendingTxs = mapSet pool.pendingTxs k m) (s : Nat) :
    other.pendOf s = if s = k then m.txs else pool.pendOf s := by
  unfold TxPool.pendOf
  rw [h, mapGet_mapSet]
  by_cases hs : s = k <;> simp [hs]

theorem pendOf_mapDelete (pool other : TxPool) (k : Nat)
    (h : other.pendingTxs = mapDelete pool.pendingTxs k) (s : Nat) :
    other.pendOf s = if s = k then [] else pool.pendOf s := by
  unfold TxPool.pendOf
  rw [h, mapGet_mapDelete]
  by_cases hs : s = k <;> simp [hs]

theorem pendOf_congr (pool other : TxPool) (h : other.pendingTxs = pool.pendingTxs)
    (s : Nat) : other.pendOf s = pool.pendOf s := by
  unfold TxPool.pendOf; rw [h]

theorem GetPendingByAddress_eq (pool : TxPool) (s : Nat) :
    pool.GetPendingByAddress s = pool.execOf s ++ (pool.pendOf s).map Prod.snd := by
  unfold TxPool.GetPendingByAddress TxPool.execOf TxPool.pendOf
  cases mapGet pool.executableTxs s <;> cases mapGet pool.pendingTxs s <;> rfl

/-! ## Admission keeps the invariant -/

/-- What `putToPending` does: it fails and leaves the pool alone, or it
enters the transaction under its hash in the pending queue of the sender. -/
theorem putToPending_cases (pt : PriorityTable) (pool : TxPool) (tx : Transaction) :
    (∃ e, pool.putToPending pt tx = (some e, pool)) ∨
    (∃ m, pool.putToPending pt tx =
        (none, { pool with pendingTxs := mapSet pool.pendingTxs tx.sender m }) ∧
      m.txs = mapSet (pool.pendOf tx.sender) tx.Hash tx) := by
  unfold TxPool.putToPending TxPool.pendOf
  cases hg : mapGet pool.pendingTxs tx.sender with
  | some set =>
    dsimp only
    unfold txMap.Add
    by_cases hfull : (!priorityKey pt tx.TxType && set.Full) = true
    · simp only [hfull, if_true]
      exact Or.inl ⟨_, rfl⟩
    · simp only [hfull, if_false]
      exact Or.inr ⟨_, rfl, rfl⟩
  | none =>
    dsimp only
    by_cases hslots : pool.mempoolCfg.TxPoolQueueSlots > 0 ∧
        (pool.pendingTxs.length : Int) ≥ pool.mempoolCfg.TxPoolQueueSlots
    · rw [if_pos hslots]
      exact Or.inl ⟨_, rfl⟩
    · rw [if_neg hslots]
      unfold txMap.Add
      by_cases hfull : (!priorityKey pt tx.TxType &&
          (newTxMap pool.mempoolCfg.TxPoolAddrQueueLimit).Full) = true
      · simp only [hfull, if_true]
        exact Or.inl ⟨_, rfl⟩
      · simp only [hfull, if_false]
        exact Or.inr ⟨_, rfl, rfl⟩

theorem executableOrNew_txs (pool : TxPool) (s : Nat) :
    (pool.executableOrNew s).txs = pool.execOf s := by
  unfold TxPool.executableOrNew TxPool.execOf
  cases mapGet pool.executableTxs s <;> rfl

/-- What the placement of `put` does. -/
theorem place_cases (pt : PriorityTable) (st : Ledger) (pool : TxPool) (tx : Transaction) :
    (∃ e, pool.place pt st tx = (some e, pool)) ∨
    (∃ q, pool.place pt st tx =
        (none, { pool with executableTxs := mapSet pool.executableTxs tx.sender q }) ∧
      q.txs = pool.execOf tx.sender ++ [tx] ∧
      ∀ last, (pool.execOf tx.sender).getLast? = some last → consecutive32 last tx) ∨
    (∃ m, pool.place pt st tx =
        (none, { pool with pendingTxs := mapSet pool.pendingTxs tx.sender m }) ∧
      m.txs = mapSet (pool.pendOf tx.sender) tx.Hash tx) := by
  have hpend : (∃ e, pool.putToPending pt tx = (some e, pool)) ∨
      (∃ q, pool.putToPending pt tx =
          (none, { pool with executableTxs := mapSet pool.executableTxs tx.sender q }) ∧
        q.txs = pool.execOf tx.sender ++ [tx] ∧
        ∀ last, (pool.execOf tx.sender).getLast? = some last → consecutive32 last tx) ∨
      (∃ m, pool.putToPending pt tx =
          (none, { pool with pendingTxs := mapSet pool.pendingTxs tx.sender m }) ∧
        m.txs = mapSet (pool.pendOf tx.sender) tx.Hash tx) := by
    rcases putToPending_cases pt pool tx with h | h
    · exact Or.inl h
    · exact Or.inr (Or.inr h)
  unfold TxPool.place
  cases pool.isExecutable st tx with
  | false => simpa using hpend
  | true =>
    simp only [if_true]
    rcases sortedTxs_Add_cases pt (pool.executableOrNew tx.sender) tx with
      ⟨e, he⟩ | ⟨hadd, _, hlast⟩
    · rw [he]; exact hpend
    · rw [hadd]
      right; left
      refine ⟨_, rfl, ?_, ?_⟩
      · dsimp only; rw [executableOrNew_txs]
      · rw [← executableOrNew_txs]; exact hlast

/-- What `put` does: it fails and leaves the pool alone, or it appends the
transaction to the executable queue of the sender, or it enters it in the
pending queue of the sender; in the last two cases the transaction is entered
in both indices. -/
theorem put_cases (pt : PriorityTable) (st : Ledger) (pool : TxPool) (tx : Transaction) :
    (∃ e, pool.put pt st tx = (some e, pool)) ∨
    (∃ q, pool.put pt st tx =
        (none, { pool with
          executableTxs := mapSet pool.executableTxs tx.sender q
          all := (pool.all.Add pt tx).2
          shortHashAll := mapSet pool.shortHashAll tx.Hash128 tx }) ∧
      q.txs = pool.execOf tx.sender ++ [tx] ∧
      ∀ last, (pool.execOf tx.sender).getLast? = some last → consecutive32 last tx) ∨
    (∃ m, pool.put pt st tx =
        (none, { pool with
          pendingTxs := mapSet pool.pendingTxs tx.sender m
          all := (pool.all.Add pt tx).2
          shortHashAll := mapSet pool.shortHashAll tx.Hash128 tx }) ∧
      m.txs = mapSet (pool.pendOf tx.sender) tx.Hash tx) := by
  unfold TxPool.put
  rcases place_cases pt st pool tx with ⟨e, he⟩ | ⟨q, hq, h1, h2⟩ | ⟨m, hm, h1⟩
  · rw [he]; exact Or.inl ⟨e, rfl⟩
  · rw [hq]; exact Or.inr (Or.inl ⟨q, rfl, h1, h2⟩)
  · rw [hm]; exact Or.inr (Or.inr ⟨m, rfl, h1⟩)

theorem all_Add_txs (pt : PriorityTable) (all : txMap) (tx : Transaction)
    (hcap : all.maxTxs ≤ 0) :
    (all.Add pt tx).2 = { all with txs := mapSet all.txs tx.Hash tx } := by
  unfold txMap.Add txMap.Full
  have h : decide (all.maxTxs > 0) = false := by
    simp only [decide_eq_false_iff_not]; omega
  simp [h]

theorem keys_mapSet_new {κ ν : Type} [DecidableEq κ] (m : List (κ × ν)) (k : κ) (v : ν)
    (h : mapGet m k = none) : (mapSet m k v).map Prod.fst = m.map Prod.fst ++ [k] := by
  rw [mapSet_absent m k v h]; simp

theorem checkPriorityTxLimits_none (pool : TxPool) (tx : Transaction)
    (h : pool.checkPriorityTxLimits tx = none) :
    ∀ t ∈ pool.execOf tx.sender ++ (pool.pendOf tx.sender).map Prod.snd,
      t.TxType ≠ tx.TxType := by
  unfold TxPool.checkPriorityTxLimits at h
  unfold TxPool.execOf TxPool.pendOf
  intro t ht
  cases he : mapGet pool.executableTxs tx.sender with
  | none =>
    cases hp : mapGet pool.pendingTxs tx.sender with
    | none => simp [he, hp] at ht
    | some m =>
      simp [he, hp] at h ht
      obtain ⟨a, ha⟩ := ht
      exact h a t ha
  | some q =>
    cases hp : mapGet pool.pendingTxs tx.sender with
    | none =>
      simp [he, hp] at h ht
      exact h t ht
    | some m =>
      simp only [he, hp] at h ht
      by_cases h1 : (q.txs.any fun existingTx => existingTx.TxType == tx.TxType) = true
      · simp [h1] at h
      · by_cases h2 : (m.txs.any fun existingTx => existingTx.2.TxType == tx.TxType) = true
        · simp [h1, h2] at h
        · simp at h1 h2 ht
          rcases ht with ht | ⟨a, ha⟩
          · exact h1 t ht
          · exact h2 a t ha

/-- The invariant after `put` of a transaction that is new to the Global
Index. -/
theorem PoolInv.pool_put {ok : Transaction → Prop} {pool : TxPool}
    (hinv : PoolInv ok pool)
    (hok : WrapFree ok) (pt : PriorityTable)
    (st : Ledger) (tx : Transaction) (hnew : mapGet pool.all.txs tx.Hash = none)
    (hbound : ok tx) :
    PoolInv ok (pool.put pt st tx).2 := by
  have hnotin : tx.Hash ∉ pool.all.txs.map Prod.fst := (mapGet_none_iff _ _).mp hnew
  rcases put_cases pt st pool tx with ⟨e, he⟩ | ⟨q, hq, hq1, hq2⟩ | ⟨m, hm, hm1⟩
  · rw [he]; exact hinv
  · rw [hq]
    refine ⟨keys_mapSet_nodup _ _ _ hinv.execKeys, hinv.pendKeys, ?_, ?_⟩
    · dsimp only
      rw [all_Add_txs pt _ tx hinv.allCap]
      exact hinv.allCap
    · dsimp only
      rw [all_Add_txs pt _ tx hinv.allCap]
      dsimp only
      rw [keys_mapSet_new _ _ _ hnew]
      have hP : TxPool.pendOf { pool with
          executableTxs := mapSet pool.executableTxs tx.sender q
          all := { pool.all with txs := mapSet pool.all.txs tx.Hash tx }
          shortHashAll := mapSet pool.shortHashAll tx.Hash128 tx } = pool.pendOf :=
        funext fun s => pendOf_congr pool _ rfl s
      rw [hP]
      refine hinv.view.view_addExec hok tx hnotin hbound hq2 ?_
      intro s
      rw [execOf_mapSet pool _ tx.sender q rfl s, hq1]
      by_cases hs : s = tx.sender
      · subst hs; simp
      · simp [hs]
  · rw [hm]
    refine ⟨hinv.execKeys, keys_mapSet_nodup _ _ _ hinv.pendKeys, ?_, ?_⟩
    · dsimp only
      rw [all_Add_txs pt _ tx hinv.allCap]
      exact hinv.allCap
    · dsimp only
      rw [all_Add_txs pt _ tx hinv.allCap]
      dsimp only
      rw [keys_mapSet_new _ _ _ hnew]
      have hE : TxPool.execOf { pool with
          pendingTxs := mapSet pool.pendingTxs tx.sender m
          all := { pool.all with txs := mapSet pool.all.txs tx.Hash tx }
          shortHashAll := mapSet pool.shortHashAll tx.Hash128 tx } = pool.execOf :=
        funext fun s => execOf_congr pool _ rfl s
      rw [hE]
      refine hinv.view.view_addPend tx hnotin hbound ?_
      intro s
      rw [pendOf_mapSet pool _ tx.sender m rfl s, hm1]
      by_cases hs : s = tx.sender
      · subst hs; simp
      · simp [hs]

/-- The parts of `add` before `put`: when `add` goes on to `put`, the hash is
new to the Global Index and the limits were checked. -/
theorem add_cases (pt : PriorityTable) (st : Ledger) (pool : TxPool) (tx : Transaction)
    (own : Bool) (txType : TxKind) :
    (pool.add pt st tx own txType).2 = pool ∨
    ((pool.add pt st tx own txType) =
        pool.put pt st { tx with shardId := st.ShardId tx.sender } ∧
      mapGet pool.all.txs tx.Hash = none ∧ pool.checkLimits pt tx = none) := by
  unfold TxPool.add
  by_cases hdup : (pool.all.Get tx.Hash).isSome = true
  · rw [if_pos hdup]; exact Or.inl rfl
  · rw [if_neg hdup]
    have hnew : mapGet pool.all.txs tx.Hash = none := by
      unfold txMap.Get at hdup
      cases h : mapGet pool.all.txs tx.Hash with
      | none => rfl
      | some v => rw [h] at hdup; simp at hdup
    cases hlim : pool.checkLimits pt tx with
    | some e => exact Or.inl rfl
    | none =>
      dsimp only
      cases hval : st.ValidateTx tx txType with
      | fault msg => exact Or.inl rfl
      | err e => exact Or.inl rfl
      | ok => exact Or.inr ⟨rfl, hnew, rfl⟩

/-- A call of `put` that returns an error leaves the pool as it was. -/
theorem put_error_same (pt : PriorityTable) (st : Ledger) (pool : TxPool) (tx : Transaction)
    (herr : (pool.put pt st tx).1 ≠ none) : (pool.put pt st tx).2 = pool := by
  rcases put_cases pt st pool tx with ⟨e, he⟩ | ⟨q, hq, _⟩ | ⟨m, hm, _⟩
  · rw [he]
  · rw [hq] at herr; exact absurd rfl herr
  · rw [hm] at herr; exact absurd rfl herr

/-- A call of `add` that returns an error leaves the pool as it was. -/
theorem add_error_same (pt : PriorityTable) (st : Ledger) (pool : TxPool) (tx : Transaction)
    (own : Bool) (txType : TxKind) (herr : (pool.add pt st tx own txType).1 ≠ none) :
    (pool.add pt st tx own txType).2 = pool := by
  rcases add_cases pt st pool tx own txType with h | ⟨h, _, _⟩
  · exact h
  · rw [h] at herr ⊢
    exact put_error_same pt st pool _ herr

/-- What `add` admits has passed the validator: a condition on the admitted
transactions holds whenever every transaction the validator accepts meets
it. -/
theorem add_admits_valid (pt : PriorityTable) (st : Ledger) (pool : TxPool) (tx : Transaction)
    (own : Bool) (txType : TxKind) (hnone : (pool.add pt st tx own txType).1 = none) :
    st.ValidateTx tx txType = ValidateOutcome.ok := by
  unfold TxPool.add at hnone
  by_cases hdup : (pool.all.Get tx.Hash).isSome = true
  · rw [if_pos hdup] at hnone; cases hnone
  · rw [if_neg hdup] at hnone
    cases hlim : pool.checkLimits pt tx with
    | some e => rw [hlim] at hnone; cases hnone
    | none =>
      cases hval : st.ValidateTx tx txType with
      | fault msg => rw [hlim] at hnone; simp only [hval] at hnone; cases hnone
      | err e => rw [hlim] at hnone; simp only [hval] at hnone; cases hnone
      | ok => rfl

/-- The invariant after `add`, when the transaction meets the condition in
case `add` admits it. -/
theorem PoolInv.pool_add {ok : Transaction → Prop} {pool : TxPool}
    (hinv : PoolInv ok pool)
    (hok : WrapFree ok) (pt : PriorityTable)
    (st : Ledger) (tx : Transaction) (own : Bool) (txType : TxKind)
    (hbound : (pool.add pt st tx own txType).1 = none → ok tx) :
    PoolInv ok (pool.add pt st tx own txType).2 := by
  rcases add_cases pt st pool tx own txType with h | ⟨h, hnew, _⟩
  · rw [h]; exact hinv
  · by_cases herr : (pool.add pt st tx own txType).1 = none
    · rw [h]
      exact hinv.pool_put hok pt st { tx with shardId := st.ShardId tx.sender } hnew
        (hok.stored tx _ (hbound herr))
    · have hsame : (pool.add pt st tx own txType).2 = pool := by
        rw [h] at herr ⊢
        rcases put_cases pt st pool { tx with shardId := st.ShardId tx.sender } with
          ⟨e, he⟩ | ⟨q, hq, _⟩ | ⟨m, hm, _⟩
        · rw [he]
        · rw [hq] at herr; exact absurd rfl herr
        · rw [hm] at herr; exact absurd rfl herr
      rw [hsame]; exact hinv

/-- The invariant of the priority types after `put` of a transaction that
passed the check of its type. -/
theorem PrioInv.prio_put {pt : PriorityTable} {pool : TxPool} (hinv : PrioInv pt pool)
    (st : Ledger) (tx : Transaction)
    (hprio : priorityVal pt tx.TxType = true →
      ∀ t ∈ pool.execOf tx.sender ++ (pool.pendOf tx.sender).map Prod.snd,
        t.TxType ≠ tx.TxType) :
    PrioInv pt (pool.put pt st tx).2 := by
  rcases put_cases pt st pool tx with ⟨e, he⟩ | ⟨q, hq, hq1, _⟩ | ⟨m, hm, hm1⟩
  · rw [he]; exact hinv
  · rw [hq]
    refine ⟨keys_mapSet_nodup _ _ _ hinv.execKeys, hinv.pendKeys, ?_⟩
    have hP : TxPool.pendOf { pool with
        executableTxs := mapSet pool.executableTxs tx.sender q
        all := (pool.all.Add pt tx).2
        shortHashAll := mapSet pool.shortHashAll tx.Hash128 tx } = pool.pendOf :=
      funext fun s => pendOf_congr pool _ rfl s
    rw [hP]
    refine hinv.view.prioView_addExec tx.sender tx hprio ?_
    intro s
    rw [execOf_mapSet pool _ tx.sender q rfl s, hq1]
    by_cases hs : s = tx.sender
    · subst hs; simp
    · simp [hs]
  · rw [hm]
    refine ⟨hinv.execKeys, keys_mapSet_nodup _ _ _ hinv.pendKeys, ?_⟩
    have hE : TxPool.execOf { pool with
        pendingTxs := mapSet pool.pendingTxs tx.sender m
        all := (pool.all.Add pt tx).2
        shortHashAll := mapSet pool.shortHashAll tx.Hash128 tx } = pool.execOf :=
      funext fun s => execOf_congr pool _ rfl s
    rw [hE]
    refine hinv.view.prioView_addPend tx.sender tx hprio ?_
    intro s
    rw [pendOf_mapSet pool _ tx.sender m rfl s, hm1]
    by_cases hs : s = tx.sender
    · subst hs; simp
    · simp [hs]

/-- The invariant of the priority types after `add`. -/
theorem PrioInv.prio_add {pt : PriorityTable} {pool : TxPool} (hinv : PrioInv pt pool)
    (st : Ledger) (tx : Transaction) (own : Bool) (txType : TxKind) :
    PrioInv pt (pool.add pt st tx own txType).2 := by
  rcases add_cases pt st pool tx own txType with h | ⟨h, _, hlim⟩
  · rw [h]; exact hinv
  · rw [h]
    refine hinv.prio_put st { tx with shardId := st.ShardId tx.sender } ?_
    intro hp
    have hp2 : priorityVal pt tx.TxType = true := hp
    unfold TxPool.checkLimits at hlim
    rw [if_pos hp2] at hlim
    exact checkPriorityTxLimits_none pool tx hlim

/-! ## Removal keeps the invariant -/

theorem empty_txs_sorted (q : sortedTxs) (h : q.Empty = true) : q.txs = [] := by
  unfold sortedTxs.Empty at h
  exact List.length_eq_zero.mp (by simpa using h)

theorem empty_txs_map (m : txMap) (h : m.Empty = true) : m.txs = [] := by
  unfold txMap.Empty at h
  exact List.length_eq_zero.mp (by simpa using h)

/-- The executable queue of the sender after `Remove`, as a list. -/
theorem Remove_execOf (pool : TxPool) (tx : Transaction) (s : Nat) :
    (pool.Remove tx).execOf s =
      if s = tx.sender then
        (match mapGet pool.executableTxs tx.sender with
          | some q => (q.Remove tx).txs
          | none => [])
      else pool.execOf s := by
  cases hg : mapGet pool.executableTxs tx.sender with
  | none =>
    have h : (pool.Remove tx).executableTxs = pool.executableTxs := by
      simp [TxPool.Remove, hg]
    rw [execOf_congr pool _ h s]
    by_cases hs : s = tx.sender
    · subst hs; simp [TxPool.execOf, hg]
    · simp [hs]
  | some q =>
    by_cases hem : (q.Remove tx).Empty = true
    · have h : (pool.Remove tx).executableTxs = mapDelete pool.executableTxs tx.sender := by
        simp [TxPool.Remove, hg, hem]
      rw [execOf_mapDelete pool _ _ h s]
      by_cases hs : s = tx.sender
      · subst hs; simp [empty_txs_sorted _ hem]
      · simp [hs]
    · have h : (pool.Remove tx).executableTxs =
          mapSet pool.executableTxs tx.sender (q.Remove tx) := by
        simp [TxPool.Remove, hg, hem]
      rw [execOf_mapSet pool _ _ _ h s]

/-- The pending queue of the sender after `Remove`, as a list. -/
theorem Remove_pendOf (pool : TxPool) (tx : Transaction) (s : Nat) :
    (pool.Remove tx).pendOf s =
      if s = tx.sender then mapDelete (pool.pendOf s) tx.Hash else pool.pendOf s := by
  cases hg : mapGet pool.pendingTxs tx.sender with
  | none =>
    have h : (pool.Remove tx).pendingTxs = pool.pendingTxs := by
      simp [TxPool.Remove, hg]
    rw [pendOf_congr pool _ h s]
    by_cases hs : s = tx.sender
    · subst hs; simp [TxPool.pendOf, hg, mapDelete]
    · simp [hs]
  | some m =>
    by_cases hem : (m.Remove tx.Hash).Empty = true
    · have h : (pool.Remove tx).pendingTxs = mapDelete pool.pendingTxs tx.sender := by
        simp [TxPool.Remove, hg, hem]
      rw [pendOf_mapDelete pool _ _ h s]
      by_cases hs : s = tx.sender
      · subst hs
        have := empty_txs_map _ hem
        simp only [txMap.Remove] at this
        simp [TxPool.pendOf, hg, this]
      · simp [hs]
    · have h : (pool.Remove tx).pendingTxs =
          mapSet pool.pendingTxs tx.sender (m.Remove tx.Hash) := by
        simp [TxPool.Remove, hg, hem]
      rw [pendOf_mapSet pool _ _ _ h s]
      by_cases hs : s = tx.sender
      · subst hs; simp [TxPool.pendOf, hg, txMap.Remove]
      · simp [hs]

theorem Remove_execKeys (pool : TxPool) (tx : Transaction)
    (h : (pool.executableTxs.map Prod.fst).Nodup) :
    ((pool.Remove tx).executableTxs.map Prod.fst).Nodup := by
  unfold TxPool.Remove
  dsimp only
  cases mapGet pool.executableTxs tx.sender with
  | none => exact h
  | some q =>
    dsimp only
    split
    · exact keys_mapDelete_nodup _ _ h
    · exact keys_mapSet_nodup _ _ _ h

theorem Remove_pendKeys (pool : TxPool) (tx : Transaction)
    (h : (pool.pendingTxs.map Prod.fst).Nodup) :
    ((pool.Remove tx).pendingTxs.map Prod.fst).Nodup := by
  unfold TxPool.Remove
  dsimp only
  cases mapGet pool.pendingTxs tx.sender with
  | none => exact h
  | some q =>
    dsimp only
    split
    · exact keys_mapDelete_nodup _ _ h
    · exact keys_mapSet_nodup _ _ _ h

theorem Remove_all (pool : TxPool) (tx : Transaction) :
    (pool.Remove tx).all = { pool.all with txs := mapDelete pool.all.txs tx.Hash } := rfl

/-- The invariant after `Remove`. -/
theorem PoolInv.pool_remove {ok : Transaction → Prop} {pool : TxPool}
    (hinv : PoolInv ok pool)
    (tx : Transaction) : PoolInv ok (pool.Remove tx) := by
  refine ⟨Remove_execKeys pool tx hinv.execKeys, Remove_pendKeys pool tx hinv.pendKeys, ?_, ?_⟩
  · rw [Remove_all]; exact hinv.allCap
  · rw [Remove_all]
    dsimp only
    refine hinv.view.view_remove tx
      (match mapGet pool.executableTxs tx.sender with
        | some q => (q.Remove tx).txs
        | none => []) ?_ ?_ (Remove_execOf pool tx) (Remove_pendOf pool tx)
      (keys_mapDelete_nodup _ _ hinv.view.allKeys) (count_keys_mapDelete _ _)
    · unfold TxPool.execOf
      cases hg : mapGet pool.executableTxs tx.sender with
      | none => exact Or.inl rfl
      | some q =>
        dsimp only
        rcases (sortedTxs_Remove_split q tx).2 with h | h
        · exact Or.inl h
        · exact Or.inr h
    · intro l1 e l2 hl he
      have hasc := (hinv.view.execOk tx.sender).1
      unfold TxPool.execOf at hl hasc
      cases hg : mapGet pool.executableTxs tx.sender with
      | none => rw [hg] at hl; simp at hl
      | some q =>
        rw [hg] at hl hasc
        dsimp only at hl hasc ⊢
        rw [sortedTxs_Remove_found q tx e l1 l2 hl hasc he]

theorem Remove_exec_sublist (pool : TxPool) (tx : Transaction) :
    (match mapGet pool.executableTxs tx.sender with
      | some q => (q.Remove tx).txs
      | none => []).Sublist (pool.execOf tx.sender) := by
  unfold TxPool.execOf
  cases hg : mapGet pool.executableTxs tx.sender with
  | none => exact List.Sublist.refl _
  | some q =>
    dsimp only
    rcases (sortedTxs_Remove_split q tx).2 with h | ⟨l1, e, l2, h1, _, h2⟩
    · rw [h]
    · rw [h1, h2]
      exact List.Sublist.append_left (List.sublist_cons_self e l2) l1

/-- The invariant of the priority types after `Remove`. -/
theorem PrioInv.prio_remove {pt : PriorityTable} {pool : TxPool} (hinv : PrioInv pt pool)
    (tx : Transaction) : PrioInv pt (pool.Remove tx) :=
  ⟨Remove_execKeys pool tx hinv.execKeys, Remove_pendKeys pool tx hinv.pendKeys,
    hinv.view.prioView_remove tx.sender tx.Hash _ (Remove_exec_sublist pool tx)
      (Remove_execOf pool tx) (Remove_pendOf pool tx)⟩

/-! ## Migration keeps the invariants -/

/-- The flag of the migration loop: once set it stays set, and while it is
not set the executable queue is the one the loop was given. -/
theorem migrateLoop_flag (pt : PriorityTable) (st : Ledger) (sender : Nat) :
    ∀ (rest : List Transaction) (executable : sortedTxs) (pending : txMap) (stored : Bool),
      (stored = true → (migrateLoop pt st sender rest executable pending stored).2.2 = true) ∧
      ((migrateLoop pt st sender rest executable pending stored).2.2 = false →
        (migrateLoop pt st sender rest executable pending stored).1 = executable) := by
  intro rest
  induction rest with
  | nil =>
    intro executable pending stored
    simp only [migrateLoop]
    exact ⟨fun h => h, fun _ => trivial⟩
  | cons tx rest ih =>
    intro executable pending stored
    unfold migrateLoop
    by_cases hbreak : (executable.Empty && (decide (st.Epoch ≠ tx.Epoch) ||
        decide (tx.AccountNonce ≠ nonceSucc (committedNonce st sender)))) = true
    · rw [if_pos hbreak]
      exact ⟨fun h => h, fun _ => rfl⟩
    · rw [if_neg hbreak]
      rcases sortedTxs_Add_cases pt executable tx with ⟨e, he⟩ | ⟨hadd, _, _⟩
      · rw [he]
        exact ⟨fun h => h, fun _ => rfl⟩
      · rw [hadd]
        dsimp only
        obtain ⟨h2, _⟩ := ih { executable with txs := executable.txs ++ [tx] }
          (pending.Remove tx.Hash) true
        refine ⟨fun _ => h2 rfl, ?_⟩
        intro hfalse
        rw [h2 rfl] at hfalse
        cases hfalse

/-- The migration loop keeps every property of the two queues of the sender
that a single move keeps. -/
theorem migrateLoop_keeps (pt : PriorityTable) (st : Ledger) (sender : Nat)
    (I : List Transaction → List (Hash × Transaction) → Prop)
    (hstep : ∀ el pl tx, I el pl → (tx.Hash, tx) ∈ pl →
      (∀ last, el.getLast? = some last → consecutive32 last tx) →
      I (el ++ [tx]) (mapDelete pl tx.Hash)) :
    ∀ (rest : List Transaction) (executable : sortedTxs) (pending : txMap) (stored : Bool),
      I executable.txs pending.txs →
      (∀ t ∈ rest, (t.Hash, t) ∈ pending.txs) → (rest.map Transaction.Hash).Nodup →
      I (migrateLoop pt st sender rest executable pending stored).1.txs
        (migrateLoop pt st sender rest executable pending stored).2.1.txs := by
  intro rest
  induction rest with
  | nil =>
    intro executable pending stored hI _ _
    simp only [migrateLoop]
    exact hI
  | cons tx rest ih =>
    intro executable pending stored hI hmem hnd
    unfold migrateLoop
    by_cases hbreak : (executable.Empty && (decide (st.Epoch ≠ tx.Epoch) ||
        decide (tx.AccountNonce ≠ nonceSucc (committedNonce st sender)))) = true
    · rw [if_pos hbreak]; exact hI
    · rw [if_neg hbreak]
      rcases sortedTxs_Add_cases pt executable tx with ⟨e, he⟩ | ⟨hadd, _, hlast⟩
      · rw [he]; exact hI
      · rw [hadd]
        dsimp only
        have htx : (tx.Hash, tx) ∈ pending.txs := hmem tx (List.mem_cons_self _ _)
        simp only [List.map_cons, List.nodup_cons] at hnd
        have hmem2 : ∀ t ∈ rest, (t.Hash, t) ∈ (pending.Remove tx.Hash).txs := by
          intro t ht
          have h1 := hmem t (List.mem_cons_of_mem _ ht)
          have hne : t.Hash ≠ tx.Hash := by
            intro e
            exact hnd.1 (e ▸ List.mem_map_of_mem Transaction.Hash ht)
          simp only [txMap.Remove, mapDelete, List.mem_filter]
          exact ⟨h1, by simpa using hne⟩
        exact ih { executable with txs := executable.txs ++ [tx] } (pending.Remove tx.Hash) true
          (hstep _ _ tx hI htx hlast) hmem2 hnd.2

/-- The sorted snapshot of a pending queue whose entries are keyed by their
hash, one entry a key. -/
theorem sorted_snapshot (m : txMap) (hkeyed : ∀ e ∈ m.txs, e.1 = e.2.Hash)
    (hnd : (m.txs.map Prod.fst).Nodup) :
    (∀ t ∈ m.Sorted, (t.Hash, t) ∈ m.txs) ∧ (m.Sorted.map Transaction.Hash).Nodup := by
  have hperm := sliceStable_perm sortedLess (m.txs.map Prod.snd)
  constructor
  · intro t ht
    have ht2 : t ∈ m.txs.map Prod.snd := hperm.mem_iff.mp ht
    obtain ⟨e, he, hes⟩ := List.mem_map.mp ht2
    have hk := hkeyed e he
    have : e = (t.Hash, t) := by
      rw [← hes, ← hk]
    rw [← this]; exact he
  · have h1 : (m.Sorted.map Transaction.Hash).Perm
        ((m.txs.map Prod.snd).map Transaction.Hash) := hperm.map _
    rw [h1.nodup_iff]
    have h2 : (m.txs.map Prod.snd).map Transaction.Hash = m.txs.map Prod.fst := by
      rw [List.map_map]
      apply List.map_congr_left
      intro e he
      exact (hkeyed e he).symm
    rw [h2]
    exact hnd

theorem migrateSender_all (pt : PriorityTable) (st : Ledger) (pool : TxPool)
    (entry : Nat × txMap) : (migrateSender pt st pool entry).all = pool.all := rfl

/-- The executable queues after one iteration of the outer loop. -/
theorem migrateSender_execOf (pt : PriorityTable) (st : Ledger) (pool : TxPool)
    (entry : Nat × txMap) :
    (migrateSender pt st pool entry).execOf = fun s =>
      if s = entry.1 then (migrateLoop pt st entry.1 entry.2.Sorted
        (pool.executableOrNew entry.1) entry.2 false).1.txs else pool.execOf s := by
  funext s
  cases hf : (migrateLoop pt st entry.1 entry.2.Sorted
      (pool.executableOrNew entry.1) entry.2 false).2.2 with
  | true =>
    have h : (migrateSender pt st pool entry).executableTxs =
        mapSet pool.executableTxs entry.1 (migrateLoop pt st entry.1 entry.2.Sorted
          (pool.executableOrNew entry.1) entry.2 false).1 := by
      simp [migrateSender, hf]
    rw [execOf_mapSet pool _ _ _ h s]
  | false =>
    have h : (migrateSender pt st pool entry).executableTxs = pool.executableTxs := by
      simp [migrateSender, hf]
    rw [execOf_congr pool _ h s, (migrateLoop_flag pt st entry.1 _ _ _ _).2 hf]
    by_cases hs : s = entry.1
    · subst hs; simp [executableOrNew_txs]
    · simp [hs]

/-- The pending queues after one iteration of the outer loop. -/
theorem migrateSender_pendOf (pt : PriorityTable) (st : Ledger) (pool : TxPool)
    (entry : Nat × txMap) :
    (migrateSender pt st pool entry).pendOf = fun s =>
      if s = entry.1 then (migrateLoop pt st entry.1 entry.2.Sorted
        (pool.executableOrNew entry.1) entry.2 false).2.1.txs else pool.pendOf s := by
  funext s
  by_cases hem : (migrateLoop pt st entry.1 entry.2.Sorted
      (pool.executableOrNew entry.1) entry.2 false).2.1.Empty = true
  · have h : (migrateSender pt st pool entry).pendingTxs =
        mapDelete pool.pendingTxs entry.1 := by
      simp [migrateSender, hem]
    rw [pendOf_mapDelete pool _ _ h s, empty_txs_map _ hem]
  · have h : (migrateSender pt st pool entry).pendingTxs =
        mapSet pool.pendingTxs entry.1 (migrateLoop pt st entry.1 entry.2.Sorted
          (pool.executableOrNew entry.1) entry.2 false).2.1 := by
      simp [migrateSender, hem]
    rw [pendOf_mapSet pool _ _ _ h s]

theorem migrateSender_execKeys (pt : PriorityTable) (st : Ledger) (pool : TxPool)
    (entry : Nat × txMap) (h : (pool.executableTxs.map Prod.fst).Nodup) :
    ((migrateSender pt st pool entry).executableTxs.map Prod.fst).Nodup := by
  unfold migrateSender
  dsimp only
  split
  · exact keys_mapSet_nodup _ _ _ h
  · exact h

theorem migrateSender_pendKeys (pt : PriorityTable) (st : Ledger) (pool : TxPool)
    (entry : Nat × txMap) (h : (pool.pendingTxs.map Prod.fst).Nodup) :
    ((migrateSender pt st pool entry).pendingTxs.map Prod.fst).Nodup := by
  unfold migrateSender
  dsimp only
  split
  · exact keys_mapDelete_nodup _ _ h
  · exact keys_mapSet_nodup _ _ _ h

theorem update_self_exec (pool : TxPool) (k : Nat) :
    (fun s => if s = k then (pool.executableOrNew k).txs else pool.execOf s) = pool.execOf := by
  funext s
  by_cases hs : s = k
  · subst hs; simp [executableOrNew_txs]
  · simp [hs]

theorem update_self_pend (pool : TxPool) (entry : Nat × txMap)
    (hentry : mapGet pool.pendingTxs entry.1 = some entry.2) :
    (fun s => if s = entry.1 then entry.2.txs else pool.pendOf s) = pool.pendOf := by
  funext s
  by_cases hs : s = entry.1
  · subst hs; simp [TxPool.pendOf, hentry]
  · simp [hs]

theorem pending_keys_nodup {ok : Transaction → Prop} {pool : TxPool}
    (hinv : PoolInv ok pool)
    (s : Nat) : ((pool.pendOf s).map Prod.fst).Nodup := by
  rw [List.nodup_iff_count_le_one]
  intro x
  by_cases hx : x ∈ (pool.pendOf s).map Prod.fst
  · obtain ⟨e, he, hes⟩ := List.mem_map.mp hx
    have hk := hinv.view.pendOk s e he
    have hsx : x.sender = s := by
      rw [← hes, hk.1]; exact hk.2.1
    have h0 := hinv.view.hashes x
    rw [hsx] at h0
    have h1 := count_le_one_of_nodup _ hinv.view.allKeys x
    omega
  · rw [List.count_eq_zero.mpr hx]
    exact Nat.zero_le 1

/-- The invariant after one iteration of the outer loop of the migration, for
an entry the pool holds. -/
theorem PoolInv.pool_migrateStep {ok : Transaction → Prop} {pool : TxPool}
    (hinv : PoolInv ok pool)
    (hok : WrapFree ok) (pt : PriorityTable)
    (st : Ledger) (entry : Nat × txMap)
    (hentry : mapGet pool.pendingTxs entry.1 = some entry.2) :
    PoolInv ok (migrateSender pt st pool entry) := by
  have hpend : pool.pendOf entry.1 = entry.2.txs := by
    unfold TxPool.pendOf; rw [hentry]
  obtain ⟨hsnap, hnd⟩ := sorted_snapshot entry.2
    (fun e he => (hinv.view.pendOk entry.1 e (by rw [hpend]; exact he)).1)
    (by rw [← hpend]; exact pending_keys_nodup hinv entry.1)
  refine ⟨migrateSender_execKeys pt st pool entry hinv.execKeys,
    migrateSender_pendKeys pt st pool entry hinv.pendKeys, hinv.allCap, ?_⟩
  rw [migrateSender_all, migrateSender_execOf, migrateSender_pendOf]
  refine migrateLoop_keeps pt st entry.1
    (fun el pl => ViewInv ok (fun s => if s = entry.1 then el else pool.execOf s)
      (fun s => if s = entry.1 then pl else pool.pendOf s) (pool.all.txs.map Prod.fst))
    ?_ entry.2.Sorted (pool.executableOrNew entry.1) entry.2 false
    (by
      show ViewInv ok (fun s => if s = entry.1 then (pool.executableOrNew entry.1).txs
          else pool.execOf s) (fun s => if s = entry.1 then entry.2.txs else pool.pendOf s)
        (pool.all.txs.map Prod.fst)
      rw [update_self_exec, update_self_pend pool entry hentry]; exact hinv.view) hsnap hnd
  intro el pl tx hv htx hlast
  have hsender : tx.sender = entry.1 :=
    (hv.pendOk entry.1 (tx.Hash, tx) (by simpa using htx)).2.1
  refine hv.view_migrate hok tx ?_ ?_ ?_ ?_
  · simpa [hsender] using htx
  · simpa [hsender] using hlast
  · intro s
    by_cases hs : s = entry.1
    · subst hs; simp [hsender]
    · simp [hs, hsender]
  · intro s
    by_cases hs : s = entry.1
    · subst hs; simp [hsender]
    · simp [hs, hsender]

/-- The invariant of the priority types after one iteration of the outer
loop of the migration, for an entry the pool holds. -/
theorem PrioInv.prio_migrateStep {pt : PriorityTable} {pool : TxPool} (hinv : PrioInv pt pool)
    (st : Ledger) (entry : Nat × txMap)
    (hentry : mapGet pool.pendingTxs entry.1 = some entry.2) :
    PrioInv pt (migrateSender pt st pool entry) := by
  have hpend : pool.pendOf entry.1 = entry.2.txs := by
    unfold TxPool.pendOf; rw [hentry]
  obtain ⟨hsnap, hnd⟩ := sorted_snapshot entry.2
    (fun e he => hinv.view.pendKeyed entry.1 e (by rw [hpend]; exact he))
    (by rw [← hpend]; exact hinv.view.pendNodup entry.1)
  refine ⟨migrateSender_execKeys pt st pool entry hinv.execKeys,
    migrateSender_pendKeys pt st pool entry hinv.pendKeys, ?_⟩
  rw [migrateSender_execOf, migrateSender_pendOf]
  refine migrateLoop_keeps pt st entry.1
    (fun el pl => PrioView pt (fun s => if s = entry.1 then el else pool.execOf s)
      (fun s => if s = entry.1 then pl else pool.pendOf s))
    ?_ entry.2.Sorted (pool.executableOrNew entry.1) entry.2 false
    (by
      show PrioView pt (fun s => if s = entry.1 then (pool.executableOrNew entry.1).txs
          else pool.execOf s) (fun s => if s = entry.1 then entry.2.txs else pool.pendOf s)
      rw [update_self_exec, update_self_pend pool entry hentry]; exact hinv.view) hsnap hnd
  intro el pl tx hv htx _
  refine hv.prioView_migrate entry.1 tx (by simpa using htx) ?_ ?_
  · intro s
    by_cases hs : s = entry.1
    · subst hs; simp
    · simp [hs]
  · intro s
    by_cases hs : s = entry.1
    · subst hs; simp
    · simp [hs]

theorem migrateSender_pending_other (pt : PriorityTable) (st : Ledger) (pool : TxPool)
    (entry : Nat × txMap) (k : Nat) (hk : k ≠ entry.1) :
    mapGet (migrateSender pt st pool entry).pendingTxs k = mapGet pool.pendingTxs k := by
  unfold migrateSender
  dsimp only
  split
  · rw [mapGet_mapDelete]; simp [hk]
  · rw [mapGet_mapSet]; simp [hk]

/-- The outer loop of the migration keeps what each of its iterations keeps. -/
theorem migrateFold_keeps (pt : PriorityTable) (st : Ledger) (J : TxPool → Prop)
    (hstep : ∀ pool entry, J pool → mapGet pool.pendingTxs entry.1 = some entry.2 →
      J (migrateSender pt st pool entry)) :
    ∀ (entries : List (Nat × txMap)) (pool : TxPool), J pool →
      (entries.map Prod.fst).Nodup →
      (∀ e ∈ entries, mapGet pool.pendingTxs e.1 = some e.2) →
      J (entries.foldl (migrateSender pt st) pool) := by
  intro entries
  induction entries with
  | nil => intro pool hJ _ _; exact hJ
  | cons e rest ih =>
    intro pool hJ hnd hget
    simp only [List.foldl_cons]
    simp only [List.map_cons, List.nodup_cons] at hnd
    refine ih _ (hstep pool e hJ (hget e (List.mem_cons_self _ _))) hnd.2 ?_
    intro e2 he2
    have hne : e2.1 ≠ e.1 := by
      intro h
      exact hnd.1 (h ▸ List.mem_map_of_mem Prod.fst he2)
    rw [migrateSender_pending_other pt st pool e e2.1 hne]
    exact hget e2 (List.mem_cons_of_mem _ he2)

/-- The invariant after `movePendingTxsToExecutable`. -/
theorem PoolInv.pool_move {ok : Transaction → Prop} {pool : TxPool}
    (hinv : PoolInv ok pool)
    (hok : WrapFree ok) (pt : PriorityTable)
    (st : Ledger) : PoolInv ok (pool.movePendingTxsToExecutable pt st) := by
  unfold TxPool.movePendingTxsToExecutable
  refine migrateFold_keeps pt st (PoolInv ok) (fun p e hp he => hp.pool_migrateStep hok pt st e he)
    pool.pendingTxs pool hinv hinv.pendKeys ?_
  intro e he
  exact mem_mapGet _ _ _ hinv.pendKeys he

/-- The invariant of the priority types after `movePendingTxsToExecutable`. -/
theorem PrioInv.prio_move {pt : PriorityTable} {pool : TxPool} (hinv : PrioInv pt pool)
    (st : Ledger) : PrioInv pt (pool.movePendingTxsToExecutable pt st) := by
  unfold TxPool.movePendingTxsToExecutable
  refine migrateFold_keeps pt st (PrioInv pt) (fun p e hp he => hp.prio_migrateStep st e he)
    pool.pendingTxs pool hinv hinv.pendKeys ?_
  intro e he
  exact mem_mapGet _ _ _ hinv.pendKeys he

theorem move_all (pt : PriorityTable) (st : Ledger) (pool : TxPool) :
    (pool.movePendingTxsToExecutable pt st).all = pool.all := by
  unfold TxPool.movePendingTxsToExecutable
  exact foldl_invariant (fun p : TxPool => p.all = pool.all) (migrateSender pt st)
    pool.pendingTxs (fun a b _ ha => by
      show (migrateSender pt st a b).all = pool.all
      rw [migrateSender_all]; exact ha) pool rfl

/-! ## `ResetTo` and the reordering of maps keep the invariants -/

theorem PoolInv.pool_removeAll {ok : Transaction → Prop} (txs : List Transaction)
    (pool : TxPool) (hinv : PoolInv ok pool) : PoolInv ok (txs.foldl TxPool.Remove pool) :=
  foldl_invariant (PoolInv ok) TxPool.Remove txs (fun _ b _ ha => PoolInv.pool_remove ha b) pool hinv

theorem PrioInv.prio_removeAll {pt : PriorityTable} (txs : List Transaction) (pool : TxPool)
    (hinv : PrioInv pt pool) : PrioInv pt (txs.foldl TxPool.Remove pool) :=
  foldl_invariant (PrioInv pt) TxPool.Remove txs (fun _ b _ ha => PrioInv.prio_remove ha b) pool hinv

/-- The pool after `ResetTo` is the pool after the removal of the block and
the migration, or that pool with further transactions removed. -/
theorem ResetTo_cases (pt : PriorityTable) (st : Ledger) (pool : TxPool)
    (block : List Transaction) :
    (pool.ResetTo pt st block).2 =
        (block.foldl TxPool.Remove pool).movePendingTxsToExecutable pt st ∨
    ∃ removed : List Transaction, (pool.ResetTo pt st block).2 =
      removed.foldl TxPool.Remove
        ((block.foldl TxPool.Remove pool).movePendingTxsToExecutable pt st) := by
  unfold TxPool.ResetTo
  dsimp only
  split
  · exact Or.inl rfl
  · split
    · exact Or.inl rfl
    · split
      · exact Or.inl rfl
      · exact Or.inr ⟨_, rfl⟩

/-- The invariant after `ResetTo`. -/
theorem PoolInv.pool_reset {ok : Transaction → Prop} {pool : TxPool}
    (hinv : PoolInv ok pool)
    (hok : WrapFree ok) (pt : PriorityTable)
    (st : Ledger) (block : List Transaction) : PoolInv ok (pool.ResetTo pt st block).2 := by
  have h2 : PoolInv ok ((block.foldl TxPool.Remove pool).movePendingTxsToExecutable pt st) :=
    (PoolInv.pool_removeAll block pool hinv).pool_move hok pt st
  rcases ResetTo_cases pt st pool block with h | ⟨removed, h⟩
  · rw [h]; exact h2
  · rw [h]; exact PoolInv.pool_removeAll _ _ h2

/-- The invariant of the priority types after `ResetTo`. -/
theorem PrioInv.prio_reset {pt : PriorityTable} {pool : TxPool} (hinv : PrioInv pt pool)
    (st : Ledger) (block : List Transaction) : PrioInv pt (pool.ResetTo pt st block).2 := by
  have h2 : PrioInv pt ((block.foldl TxPool.Remove pool).movePendingTxsToExecutable pt st) :=
    (PrioInv.prio_removeAll block pool hinv).prio_move st
  rcases ResetTo_cases pt st pool block with h | ⟨removed, h⟩
  · rw [h]; exact h2
  · rw [h]; exact PrioInv.prio_removeAll _ _ h2

theorem Remove_keys (pool : TxPool) (tx : Transaction) (x : Hash)
    (hx : x ∈ (pool.Remove tx).all.txs.map Prod.fst) :
    x ∈ pool.all.txs.map Prod.fst ∧ x ≠ tx.Hash := by
  rw [Remove_all] at hx
  dsimp only at hx
  rw [keys_mapDelete, List.mem_filter] at hx
  exact ⟨hx.1, by simpa using hx.2⟩

theorem removeAll_keys (txs : List Transaction) :
    ∀ (pool : TxPool) (x : Hash), x ∈ (txs.foldl TxPool.Remove pool).all.txs.map Prod.fst →
      x ∈ pool.all.txs.map Prod.fst ∧ ∀ t ∈ txs, x ≠ t.Hash := by
  induction txs with
  | nil => intro pool x hx; exact ⟨hx, fun t ht => by cases ht⟩
  | cons tx rest ih =>
    intro pool x hx
    simp only [List.foldl_cons] at hx
    obtain ⟨h1, h2⟩ := ih (pool.Remove tx) x hx
    obtain ⟨h3, h4⟩ := Remove_keys pool tx x h1
    refine ⟨h3, ?_⟩
    intro t ht
    rcases List.mem_cons.mp ht with h | h
    · rw [h]; exact h4
    · exact h2 t h

/-- No hash of a transaction of the block is a key of the Global Index after
`ResetTo`, whatever the pool. -/
theorem ResetTo_keys (pt : PriorityTable) (st : Ledger) (pool : TxPool)
    (block : List Transaction) (x : Hash)
    (hx : x ∈ (pool.ResetTo pt st block).2.all.txs.map Prod.fst) :
    ∀ t ∈ block, x ≠ t.Hash := by
  have h2 : ∀ y, y ∈ ((block.foldl TxPool.Remove pool).movePendingTxsToExecutable pt st).all.txs.map
      Prod.fst → ∀ t ∈ block, y ≠ t.Hash := by
    intro y hy
    rw [move_all] at hy
    exact (removeAll_keys block pool y hy).2
  rcases ResetTo_cases pt st pool block with h | ⟨removed, h⟩
  · rw [h] at hx; exact h2 x hx
  · rw [h] at hx; exact h2 x (removeAll_keys _ _ x hx).1

/-- The invariant in a pool with the same content. -/
theorem PoolInv.pool_reorder {ok : Transaction → Prop} {pool other : TxPool}
    (hinv : PoolInv ok pool)
    (h : SameContent pool other) : PoolInv ok other := by
  refine ⟨?_, ?_, ?_, ?_⟩
  · exact (h.executableTxs.map Prod.fst).nodup_iff.mpr hinv.execKeys
  · exact (h.pendingTxs.map Prod.fst).nodup_iff.mpr hinv.pendKeys
  · rw [h.allMax]; exact hinv.allCap
  · refine hinv.view.view_congr ?_ ?_ (h.allTxs.map Prod.fst)
    · intro s
      unfold TxPool.execOf
      rw [mapGet_perm _ _ s hinv.execKeys h.executableTxs]
    · intro s
      unfold TxPool.pendOf
      rw [mapGet_perm _ _ s hinv.pendKeys h.pendingTxs]

/-- The invariant of the priority types in a pool with the same content. -/
theorem PrioInv.prio_reorder {pt : PriorityTable} {pool other : TxPool} (hinv : PrioInv pt pool)
    (h : SameContent pool other) : PrioInv pt other := by
  refine ⟨?_, ?_, ?_⟩
  · exact (h.executableTxs.map Prod.fst).nodup_iff.mpr hinv.execKeys
  · exact (h.pendingTxs.map Prod.fst).nodup_iff.mpr hinv.pendKeys
  · refine hinv.view.prioView_congr ?_ ?_
    · intro s
      unfold TxPool.execOf
      rw [mapGet_perm _ _ s hinv.execKeys h.executableTxs]
    · intro s
      unfold TxPool.pendOf
      rw [mapGet_perm _ _ s hinv.pendKeys h.pendingTxs]

theorem pendOf_reorderPending (pool : TxPool) (sender : Nat) (pending : txMap)
    (txs : List (Hash × Transaction))
    (hget : mapGet pool.pendingTxs sender = some pending) (hperm : txs.Perm pending.txs)
    (s : Nat) :
    (TxPool.pendOf { pool with
      pendingTxs := mapSet pool.pendingTxs sender { pending with txs := txs } } s).Perm
      (pool.pendOf s) := by
  rw [pendOf_mapSet pool _ sender _ rfl s]
  by_cases hs : s = sender
  · subst hs
    simp only [if_true]
    unfold TxPool.pendOf
    rw [hget]
    exact hperm
  · simp only [hs, if_false]
    exact List.Perm.refl _

/-- The invariant after the entries of one pending queue are put in another
order. -/
theorem PoolInv.pool_reorderPending {ok : Transaction → Prop} {pool : TxPool}
    (hinv : PoolInv ok pool)
    (sender : Nat) (pending : txMap) (txs : List (Hash × Transaction))
    (hget : mapGet pool.pendingTxs sender = some pending) (hperm : txs.Perm pending.txs) :
    PoolInv ok { pool with
      pendingTxs := mapSet pool.pendingTxs sender { pending with txs := txs } } :=
  ⟨hinv.execKeys, keys_mapSet_nodup _ _ _ hinv.pendKeys, hinv.allCap,
    hinv.view.view_congr (fun s => execOf_congr pool _ rfl s)
      (pendOf_reorderPending pool sender pending txs hget hperm) (List.Perm.refl _)⟩

/-- The invariant of the priority types after the entries of one pending
queue are put in another order. -/
theorem PrioInv.prio_reorderPending {pt : PriorityTable} {pool : TxPool} (hinv : PrioInv pt pool)
    (sender : Nat) (pending : txMap) (txs : List (Hash × Transaction))
    (hget : mapGet pool.pendingTxs sender = some pending) (hperm : txs.Perm pending.txs) :
    PrioInv pt { pool with
      pendingTxs := mapSet pool.pendingTxs sender { pending with txs := txs } } :=
  ⟨hinv.execKeys, keys_mapSet_nodup _ _ _ hinv.pendKeys,
    hinv.view.prioView_congr (fun s => execOf_congr pool _ rfl s)
      (pendOf_reorderPending pool sender pending txs hget hperm)⟩

theorem PoolInv.pool_empty (ok : Transaction → Prop) (cfg : MempoolCfg) :
    PoolInv ok (NewTxPool cfg) := by
  refine ⟨?_, ?_, ?_, ?_, ?_, ?_, ?_⟩ <;>
    simp [NewTxPool, newTxMap, TxPool.execOf, TxPool.pendOf, mapGet]

theorem PrioInv.prio_empty (pt : PriorityTable) (cfg : MempoolCfg) : PrioInv pt (NewTxPool cfg) := by
  refine ⟨?_, ?_, ?_, ?_, ?_⟩ <;>
    simp [NewTxPool, newTxMap, TxPool.execOf, TxPool.pendOf, mapGet]

/-- The invariant looks at the Global Index and the queues only. -/
theorem PoolInv.of_queues {ok : Transaction → Prop} {base pool : TxPool}
    (hinv : PoolInv ok base) (hall : pool.all = base.all)
    (hexec : pool.executableTxs = base.executableTxs)
    (hpend : pool.pendingTxs = base.pendingTxs) : PoolInv ok pool := by
  have hE : pool.execOf = base.execOf := funext fun s => execOf_congr base pool hexec s
  have hP : pool.pendOf = base.pendOf := funext fun s => pendOf_congr base pool hpend s
  refine ⟨?_, ?_, ?_, ?_⟩
  · rw [hexec]; exact hinv.execKeys
  · rw [hpend]; exact hinv.pendKeys
  · rw [hall]; exact hinv.allCap
  · rw [hE, hP, hall]; exact hinv.view

/-- The invariant of the priority types looks at the queues only. -/
theorem PrioInv.prio_of_queues {pt : PriorityTable} {base pool : TxPool}
    (hinv : PrioInv pt base) (hexec : pool.executableTxs = base.executableTxs)
    (hpend : pool.pendingTxs = base.pendingTxs) : PrioInv pt pool := by
  have hE : pool.execOf = base.execOf := funext fun s => execOf_congr base pool hexec s
  have hP : pool.pendOf = base.pendOf := funext fun s => pendOf_congr base pool hpend s
  refine ⟨?_, ?_, ?_⟩
  · rw [hexec]; exact hinv.execKeys
  · rw [hpend]; exact hinv.pendKeys
  · rw [hE, hP]; exact hinv.view

/-- Every reachable pool state satisfies the invariant, when the admitted
transactions meet a condition under which no nonce wraps. -/
theorem ReachableVia.poolInv {pt : PriorityTable} {ok : Transaction → Prop} {pool : TxPool}
    (hok : WrapFree ok) (h : ReachableVia pt ok pool) : PoolInv ok pool := by
  induction h with
  | empty cfg => exact PoolInv.pool_empty ok cfg
  | add st pool tx own txType _ hbound ih => exact ih.pool_add hok pt st tx own txType hbound
  | remove pool tx _ ih => exact ih.pool_remove tx
  | move st pool _ ih => exact ih.pool_move hok pt st
  | reset st pool block _ ih => exact ih.pool_reset hok pt st block
  | reorder pool other _ hs ih => exact ih.pool_reorder hs
  | reorderPending pool sender pending txs _ hget hperm ih =>
    exact ih.pool_reorderPending sender pending txs hget hperm
  | frame pool other _ hall hexec hpend _ ih => exact ih.of_queues hall hexec hpend

/-- Every pool state reachable without a wrapping nonce satisfies the
invariant. -/
theorem ReachableNoWrap.inv {pt : PriorityTable} {pool : TxPool} (h : ReachableNoWrap pt pool) :
    PoolInv noWrap pool :=
  ReachableVia.poolInv noWrap_wrapFree h

/-- A call of `add` that returns an error is a step of every reachability
relation: the condition is asked of the admitted transactions only. -/
theorem ReachableVia.add_refused {pt : PriorityTable} {ok : Transaction → Prop} {pool : TxPool}
    (h : ReachableVia pt ok pool) (st : Ledger) (tx : Transaction) (own : Bool)
    (txType : TxKind) (herr : (pool.add pt st tx own txType).1 ≠ none) :
    ReachableVia pt ok (pool.add pt st tx own txType).2 :=
  ReachableVia.add st pool tx own txType h (fun hnone => absurd hnone herr)

/-- Every reachable pool state satisfies the invariant of the priority
types. -/
theorem Reachable.prioInv {pt : PriorityTable} {pool : TxPool} (h : Reachable pt pool) :
    PrioInv pt pool := by
  unfold Reachable at h
  induction h with
  | empty cfg => exact PrioInv.prio_empty pt cfg
  | add st pool tx own txType _ _ ih => exact ih.prio_add st tx own txType
  | remove pool tx _ ih => exact ih.prio_remove tx
  | move st pool _ ih => exact ih.prio_move st
  | reset st pool block _ ih => exact ih.prio_reset st block
  | reorder pool other _ hs ih => exact ih.prio_reorder hs
  | reorderPending pool sender pending txs _ hget hperm ih =>
    exact ih.prio_reorderPending sender pending txs hget hperm
  | frame pool other _ _ hexec hpend _ ih => exact ih.prio_of_queues hexec hpend

/-! ## The counting invariant -/

theorem count_flatMap_bySender {ν : Type} (f : ν → List Hash) (m : List (Nat × ν))
    (hnd : (m.map Prod.fst).Nodup)
    (hs : ∀ p ∈ m, ∀ y ∈ f p.2, y.sender = p.1) (x : Hash) :
    (m.flatMap (fun p => f p.2)).count x =
      (match mapGet m x.sender with
        | some v => f v
        | none => []).count x := by
  induction m with
  | nil => simp [mapGet]
  | cons p rest ih =>
    obtain ⟨k, v⟩ := p
    simp only [List.map_cons, List.nodup_cons] at hnd
    have ih2 := ih hnd.2 (fun p hp => hs p (List.mem_cons_of_mem _ hp))
    simp only [List.flatMap_cons, List.count_append, ih2]
    by_cases hk : k = x.sender
    · subst hk
      have hnone : mapGet rest x.sender = none := (mapGet_none_iff _ _).mpr hnd.1
      simp [mapGet, hnone]
    · have hzero : (f v).count x = 0 := by
        rw [List.count_eq_zero]
        intro hx
        exact hk (hs (k, v) (List.mem_cons_self _ _) x hx).symm
      simp [mapGet, hk, hzero]

theorem length_flatMap_sum {α β : Type} (g : α → List β) (m : List α) :
    (m.flatMap g).length = (m.map (fun p => (g p).length)).sum := by
  induction m with
  | nil => simp
  | cons p rest ih => simp [List.flatMap_cons, ih]

/-- Under the invariant the queues hold as many transactions as the Global
Index has entries. -/
theorem PoolInv.pool_count {ok : Transaction → Prop} {pool : TxPool}
    (hinv : PoolInv ok pool) :
    pool.executableCount + pool.pendingCount = pool.all.txs.length := by
  have hE : ∀ x : Hash,
      (pool.executableTxs.flatMap (fun p => p.2.txs.map Transaction.Hash)).count x =
        ((pool.execOf x.sender).map Transaction.Hash).count x := by
    intro x
    rw [count_flatMap_bySender (fun q : sortedTxs => q.txs.map Transaction.Hash)
      pool.executableTxs hinv.execKeys ?_ x]
    · unfold TxPool.execOf
      cases mapGet pool.executableTxs x.sender <;> rfl
    · intro p hp y hy
      obtain ⟨t, ht, hty⟩ := List.mem_map.mp hy
      have hget := mem_mapGet _ p.1 p.2 hinv.execKeys hp
      have := (hinv.view.execOk p.1).2 t (by unfold TxPool.execOf; rw [hget]; exact ht)
      rw [← hty]; exact this.1
  have hP : ∀ x : Hash,
      (pool.pendingTxs.flatMap (fun p => p.2.txs.map Prod.fst)).count x =
        ((pool.pendOf x.sender).map Prod.fst).count x := by
    intro x
    rw [count_flatMap_bySender (fun m : txMap => m.txs.map Prod.fst)
      pool.pendingTxs hinv.pendKeys ?_ x]
    · unfold TxPool.pendOf
      cases mapGet pool.pendingTxs x.sender <;> rfl
    · intro p hp y hy
      obtain ⟨e, he, hey⟩ := List.mem_map.mp hy
      have hget := mem_mapGet _ p.1 p.2 hinv.pendKeys hp
      have := hinv.view.pendOk p.1 e (by unfold TxPool.pendOf; rw [hget]; exact he)
      rw [← hey, this.1]; exact this.2.1
  have hperm : (pool.executableTxs.flatMap (fun p => p.2.txs.map Transaction.Hash) ++
      pool.pendingTxs.flatMap (fun p => p.2.txs.map Prod.fst)).Perm
      (pool.all.txs.map Prod.fst) := by
    rw [List.perm_iff_count]
    intro x
    rw [List.count_append, hE, hP]
    exact hinv.view.hashes x
  have hlen := hperm.length_eq
  rw [List.length_append, length_flatMap_sum, length_flatMap_sum] at hlen
  simp only [List.length_map] at hlen
  unfold TxPool.executableCount TxPool.pendingCount
  exact hlen

/-- C10: in every pool state reachable from the empty pool through `add`,
`Remove`, `movePendingTxsToExecutable` and `ResetTo`, for every sender and
every priority transaction type, at most one transaction of that type is held
in the sender's executable and pending queues combined.  A priority type is
one the table maps to true, as `checkLimits` looks it up. -/
theorem reachable_priority_unique (pt : PriorityTable) (pool : TxPool) (h : Reachable pt pool)
    (sender txType : Nat) (hprio : priorityVal pt txType = true) :
    ((pool.GetPendingByAddress sender).filter (fun t => decide (t.TxType = txType))).length ≤ 1 := by
  rw [GetPendingByAddress_eq]
  exact h.prioInv.view.prio sender txType hprio

/-- Witness of C10: after a ceremonial transaction was admitted and a second
one of the same sender and type was offered, the sender holds one. -/
theorem reachable_priority_unique_witness :
    (((TxPool.add examplePriority exampleLedger
        (TxPool.add examplePriority exampleLedger (NewTxPool exampleCfg) (exampleCeremonyTx 1 0)
          false TxKind.InboundTx).2 (exampleCeremonyTx 2 0) false TxKind.InboundTx).2.GetPendingByAddress
        1).filter (fun t => decide (t.TxType = 7))).length ≤ 1 ∧
    (TxPool.add examplePriority exampleLedger
        (TxPool.add examplePriority exampleLedger (NewTxPool exampleCfg) (exampleCeremonyTx 1 0)
          false TxKind.InboundTx).2 (exampleCeremonyTx 2 0) false TxKind.InboundTx).1 =
      some (PoolError.multipleCeremonyExecutable 7) :=
  ⟨reachable_priority_unique examplePriority _
    (ReachableVia.add exampleLedger _ (exampleCeremonyTx 2 0) false TxKind.InboundTx
      (ReachableVia.add exampleLedger (NewTxPool exampleCfg) (exampleCeremonyTx 1 0) false
        TxKind.InboundTx (ReachableVia.empty exampleCfg) (fun _ => trivial)) (fun _ => trivial))
    1 7 (by decide), by decide⟩

/-! ## Capacity limits -/

theorem priorityKey_of_val (pt : PriorityTable) (t : Nat) (h : priorityVal pt t = true) :
    priorityKey pt t = true := by
  unfold priorityVal at h
  unfold priorityKey
  cases hpt : pt t with
  | none => rw [hpt] at h; simp at h
  | some b => rfl

theorem putToPending_priority (pt : PriorityTable) (pool : TxPool) (tx : Transaction)
    (hkey : priorityKey pt tx.TxType = true) :
    ((pool.putToPending pt tx).1 = none ∨
        (pool.putToPending pt tx).1 = some PoolError.MempoolFullError) ∧
      ((pool.putToPending pt tx).1 = some PoolError.MempoolFullError →
        mapGet pool.pendingTxs tx.sender = none ∧ pool.mempoolCfg.TxPoolQueueSlots > 0 ∧
          (pool.pendingTxs.length : Int) ≥ pool.mempoolCfg.TxPoolQueueSlots) := by
  unfold TxPool.putToPending
  cases hp : mapGet pool.pendingTxs tx.sender with
  | some set => simp [txMap.Add, hkey]
  | none =>
    by_cases hslots : pool.mempoolCfg.TxPoolQueueSlots > 0 ∧
        (pool.pendingTxs.length : Int) ≥ pool.mempoolCfg.TxPoolQueueSlots
    · dsimp only
      rw [if_pos hslots]
      exact ⟨Or.inr rfl, fun _ => ⟨rfl, hslots⟩⟩
    · simp [if_neg hslots, txMap.Add, hkey]

theorem place_priority (pt : PriorityTable) (st : Ledger) (pool : TxPool) (tx : Transaction)
    (hkey : priorityKey pt tx.TxType = true) :
    ((pool.place pt st tx).1 = none ∨
        (pool.place pt st tx).1 = some PoolError.MempoolFullError) ∧
      ((pool.place pt st tx).1 = some PoolError.MempoolFullError →
        mapGet pool.pendingTxs tx.sender = none ∧ pool.mempoolCfg.TxPoolQueueSlots > 0 ∧
          (pool.pendingTxs.length : Int) ≥ pool.mempoolCfg.TxPoolQueueSlots) := by
  unfold TxPool.place
  by_cases hex : pool.isExecutable st tx = true
  · rw [if_pos hex]
    cases hadd : (pool.executableOrNew tx.sender).Add pt tx with
    | mk e q =>
      cases e with
      | some e => exact putToPending_priority pt pool tx hkey
      | none => exact ⟨Or.inl rfl, fun h => by cases h⟩
  · rw [if_neg hex]
    exact putToPending_priority pt pool tx hkey

theorem put_err (pt : PriorityTable) (st : Ledger) (pool : TxPool) (tx : Transaction) :
    (pool.put pt st tx).1 = (pool.place pt st tx).1 := by
  unfold TxPool.put
  cases hpl : pool.place pt st tx with
  | mk e p =>
    cases e with
    | some e => rfl
    | none => rfl

/-- For a type that is a key of the priority table, `putToPending` refuses
exactly when the sender has no pending queue and the slots are reached. -/
theorem putToPending_priority_full (pt : PriorityTable) (pool : TxPool) (tx : Transaction)
    (hkey : priorityKey pt tx.TxType = true) :
    (pool.putToPending pt tx).1 = some PoolError.MempoolFullError ↔
      (mapGet pool.pendingTxs tx.sender = none ∧ pool.mempoolCfg.TxPoolQueueSlots > 0 ∧
        (pool.pendingTxs.length : Int) ≥ pool.mempoolCfg.TxPoolQueueSlots) := by
  refine ⟨(putToPending_priority pt pool tx hkey).2, ?_⟩
  intro h
  unfold TxPool.putToPending
  rw [h.1]
  dsimp only
  rw [if_pos h.2]

/-- For a type that is a key of the priority table, the executable queue of
the sender takes the transaction exactly under the condition
`priorityRoute`. -/
theorem priorityRoute_iff (pt : PriorityTable) (st : Ledger) (pool : TxPool) (tx : Transaction)
    (hkey : priorityKey pt tx.TxType = true) :
    (pool.isExecutable st tx = true ∧ ((pool.executableOrNew tx.sender).Add pt tx).1 = none) ↔
      priorityRoute st (pool.execOf tx.sender) tx := by
  rw [← executableOrNew_txs]
  unfold TxPool.isExecutable sortedTxs.Add sortedTxs.Empty priorityRoute
  cases hl : (pool.executableOrNew tx.sender).txs.getLast? with
  | none =>
    have hnil : (pool.executableOrNew tx.sender).txs = [] := List.getLast?_eq_none_iff.mp hl
    simp [hkey, hnil]
  | some last =>
    have hne : (pool.executableOrNew tx.sender).txs ≠ [] := by
      intro hnil
      rw [hnil] at hl
      cases hl
    have hlen : ((pool.executableOrNew tx.sender).txs.length == 0) = false := by
      simp [hne]
    simp only [hkey, hlen, Bool.not_true, Bool.false_and, Bool.false_eq_true, if_false]
    by_cases hc : tx.AccountNonce ≠ nonceSucc last.AccountNonce ∨ tx.Epoch ≠ last.Epoch
    · rw [if_pos hc]
      constructor
      · intro h; cases h.2
      · intro h
        rcases hc with hc | hc
        · exact absurd h.1 hc
        · exact absurd h.2 hc
    · rw [if_neg hc]
      constructor
      · intro _
        constructor
        · by_contra h1; exact hc (Or.inl h1)
        · by_contra h1; exact hc (Or.inr h1)
      · intro _; exact ⟨trivial, rfl⟩

/-- The placement hands the transaction to `putToPending` when the executable
queue does not take it. -/
theorem place_to_pending (pt : PriorityTable) (st : Ledger) (pool : TxPool) (tx : Transaction)
    (h : ¬ (pool.isExecutable st tx = true ∧
      ((pool.executableOrNew tx.sender).Add pt tx).1 = none)) :
    pool.place pt st tx = pool.putToPending pt tx := by
  unfold TxPool.place
  by_cases hex : pool.isExecutable st tx = true
  · rw [if_pos hex]
    cases hadd : (pool.executableOrNew tx.sender).Add pt tx with
    | mk e q =>
      cases e with
      | some e => rfl
      | none => exact absurd ⟨hex, by rw [hadd]⟩ h
  · rw [if_neg hex]

/-- The placement returns no error when the executable queue takes the
transaction. -/
theorem place_to_executable (pt : PriorityTable) (st : Ledger) (pool : TxPool)
    (tx : Transaction)
    (h : pool.isExecutable st tx = true ∧
      ((pool.executableOrNew tx.sender).Add pt tx).1 = none) :
    (pool.place pt st tx).1 = none := by
  unfold TxPool.place
  rw [if_pos h.1]
  cases hadd : (pool.executableOrNew tx.sender).Add pt tx with
  | mk e q =>
    rw [hadd] at h
    cases e with
    | some e => cases h.2
    | none => rfl

theorem add_priority (pt : PriorityTable) (st : Ledger) (pool : TxPool) (tx : Transaction)
    (own : Bool) (txType : TxKind)
    (hprio : priorityVal pt tx.TxType = true)
    (hnew : pool.all.Get tx.Hash = none)
    (hcheck : pool.checkPriorityTxLimits tx = none)
    (hvalid : st.ValidateTx tx txType = ValidateOutcome.ok) :
    ((pool.add pt st tx own txType).1 = none ∨
        (pool.add pt st tx own txType).1 = some PoolError.MempoolFullError) ∧
      ((pool.add pt st tx own txType).1 = some PoolError.MempoolFullError ↔
        (¬ priorityRoute st (pool.execOf tx.sender) tx ∧
          mapGet pool.pendingTxs tx.sender = none ∧ pool.mempoolCfg.TxPoolQueueSlots > 0 ∧
          (pool.pendingTxs.length : Int) ≥ pool.mempoolCfg.TxPoolQueueSlots)) ∧
      ((pool.add pt st tx own txType).1 = none ↔
        (priorityRoute st (pool.execOf tx.sender) tx ∨
          (mapGet pool.pendingTxs tx.sender).isSome = true ∨
          ¬ (pool.mempoolCfg.TxPoolQueueSlots > 0 ∧
            (pool.pendingTxs.length : Int) ≥ pool.mempoolCfg.TxPoolQueueSlots))) ∧
      ((pool.add pt st tx own txType).1 = some PoolError.MempoolFullError →
        (pool.add pt st tx own txType).2 = pool) := by
  have hkey := priorityKey_of_val pt tx.TxType hprio
  have hadd : (pool.add pt st tx own txType).1 =
      (pool.place pt st { tx with shardId := st.ShardId tx.sender }).1 := by
    unfold TxPool.add
    rw [hnew]
    simp only [Option.isSome_none, Bool.false_eq_true, if_false]
    unfold TxPool.checkLimits
    rw [if_pos hprio, hcheck]
    simp only [hvalid]
    exact put_err pt st pool _
  have hroute := priorityRoute_iff pt st pool { tx with shardId := st.ShardId tx.sender } hkey
  have hsame : priorityRoute st (pool.execOf tx.sender)
      { tx with shardId := st.ShardId tx.sender } ↔
      priorityRoute st (pool.execOf tx.sender) tx := Iff.rfl
  have hpl := place_priority pt st pool { tx with shardId := st.ShardId tx.sender } hkey
  have hfull : (pool.add pt st tx own txType).1 = some PoolError.MempoolFullError ↔
      (¬ priorityRoute st (pool.execOf tx.sender) tx ∧
        mapGet pool.pendingTxs tx.sender = none ∧ pool.mempoolCfg.TxPoolQueueSlots > 0 ∧
        (pool.pendingTxs.length : Int) ≥ pool.mempoolCfg.TxPoolQueueSlots) := by
    rw [hadd]
    by_cases hr : priorityRoute st (pool.execOf tx.sender) tx
    · have h1 := place_to_executable pt st pool _ (hroute.mpr (hsame.mpr hr))
      rw [h1]
      constructor
      · intro h; cases h
      · intro h; exact absurd hr h.1
    · have h1 := place_to_pending pt st pool { tx with shardId := st.ShardId tx.sender }
        (fun h => hr (hsame.mp (hroute.mp h)))
      rw [h1]
      have h2 := putToPending_priority_full pt pool
        { tx with shardId := st.ShardId tx.sender } hkey
      constructor
      · intro h; exact ⟨hr, h2.mp h⟩
      · intro h; exact h2.mpr h.2
  have hcases : (pool.add pt st tx own txType).1 = none ∨
      (pool.add pt st tx own txType).1 = some PoolError.MempoolFullError := by
    rw [hadd]; exact hpl.1
  refine ⟨hcases, hfull, ?_, ?_⟩
  · constructor
    · intro hnone
      by_contra hno
      have h3 : (pool.add pt st tx own txType).1 = some PoolError.MempoolFullError := by
        apply hfull.mpr
        refine ⟨fun hr => hno (Or.inl hr), ?_, ?_⟩
        · cases hg : mapGet pool.pendingTxs tx.sender with
          | none => rfl
          | some m => exact absurd (Or.inr (Or.inl (by rw [hg]; rfl))) hno
        · by_contra hs
          exact hno (Or.inr (Or.inr hs))
      rw [hnone] at h3
      cases h3
    · intro h
      rcases hcases with h1 | h1
      · exact h1
      · have h2 := hfull.mp h1
        rcases h with h | h | h
        · exact absurd h h2.1
        · rw [h2.2.1] at h
          simp at h
        · exact absurd h2.2.2 h
  · intro h
    exact add_error_same pt st pool tx own txType (by rw [h]; simp)

/-- A value in the range of a Go `int` is not changed by the wrap-around. -/
theorem wrapInt_of_fits (x : Int) (h : fitsInt x) : wrapInt x = x := by
  unfold fitsInt at h
  unfold wrapInt
  have h1 : (x + 2 ^ 63) % 2 ^ 64 = x + 2 ^ 63 := by
    apply Int.emod_eq_of_lt <;> omega
  omega

theorem regularLimits_total_iff (pool : TxPool) (tx : Transaction) :
    pool.checkRegularTxLimits tx = some PoolError.queueMaxSizeReached ↔
      (totalLimit pool.mempoolCfg > 0 ∧
        (pool.all.txs.length : Int) ≥ totalLimit pool.mempoolCfg) := by
  unfold TxPool.checkRegularTxLimits
  by_cases h : totalLimit pool.mempoolCfg > 0 ∧
      (pool.all.txs.length : Int) ≥ totalLimit pool.mempoolCfg
  · simp only [if_pos h, true_iff]
    exact h
  · rw [if_neg h]
    refine ⟨fun h1 => ?_, fun h2 => absurd h2 h⟩
    exfalso
    revert h1
    cases he : mapGet pool.executableTxs tx.sender with
    | none => simp
    | some q =>
      dsimp only
      split_ifs <;> simp

theorem totalLimit_pos_iff (cfg : MempoolCfg) (n : Int) :
    (totalLimit cfg > 0 ∧ n ≥ totalLimit cfg) ↔
      (0 ≤ cfg.TxPoolExecutableSlots ∧ 0 ≤ cfg.TxPoolQueueSlots ∧
        0 < goTotal cfg ∧ goTotal cfg ≤ n) := by
  unfold totalLimit goTotal
  by_cases h : cfg.TxPoolExecutableSlots < 0 ∨ cfg.TxPoolQueueSlots < 0
  · rw [if_pos h]
    constructor
    · intro h1; omega
    · intro h1; omega
  · rw [if_neg h]
    constructor
    · intro h1; refine ⟨by omega, by omega, h1.1, h1.2⟩
    · intro h1; exact ⟨h1.2.2.1, h1.2.2.2⟩

theorem goTotal_of_fits (cfg : MempoolCfg)
    (h1 : fitsInt (cfg.TxPoolExecutableSlots * cfg.TxPoolAddrExecutableLimit))
    (h2 : fitsInt (cfg.TxPoolQueueSlots * cfg.TxPoolAddrQueueLimit))
    (h3 : fitsInt (cfg.TxPoolExecutableSlots * cfg.TxPoolAddrExecutableLimit +
      cfg.TxPoolQueueSlots * cfg.TxPoolAddrQueueLimit)) :
    goTotal cfg = cfg.TxPoolExecutableSlots * cfg.TxPoolAddrExecutableLimit +
      cfg.TxPoolQueueSlots * cfg.TxPoolAddrQueueLimit := by
  unfold goTotal
  rw [wrapInt_of_fits _ h1, wrapInt_of_fits _ h2, wrapInt_of_fits _ h3]

/-- Counterexample to C11 as stated: with one slot for senders with a pending
queue, taken by sender 1, the ceremonial transaction of sender 2 with nonce 5
passes the one-per-type check and validation, and `add` rejects it with
`MempoolFullError`. -/
theorem priority_rejected_by_slots :
    priorityVal examplePriority otherCeremonyTx.TxType = true ∧
    slotPool.all.Get otherCeremonyTx.Hash = none ∧
    slotPool.checkPriorityTxLimits otherCeremonyTx = none ∧
    slotPool.checkLimits examplePriority otherCeremonyTx = none ∧
    exampleLedger.ValidateTx otherCeremonyTx TxKind.InboundTx = ValidateOutcome.ok ∧
    slotPool.add examplePriority exampleLedger otherCeremonyTx false TxKind.InboundTx =
      (some PoolError.MempoolFullError, slotPool) := by
  decide

/-- C11 as the code has it: a transaction of a priority type that is not in
the Global Index, passes the one-per-type-per-sender check and passes
validation is admitted by `add` or rejected with `MempoolFullError`, however
full the Global Index and the two queues of the sender are.  It is rejected
exactly when it has to go to the pending queue (the executable queue of the
sender does not take it: it neither continues that queue nor, for a sender
without executable transactions, follows the committed nonce in the global
epoch), its sender has no pending queue, and the pending-slot count is
positive and reached by the number of senders with a pending queue; the pool
is then left as it was.  In every other case it is admitted: when the
executable queue takes it, when its sender has a pending queue, and when a
pending-sender slot is free. -/
theorem priority_admission (pt : PriorityTable) (st : Ledger) (pool : TxPool) (tx : Transaction)
    (own : Bool) (txType : TxKind)
    (hprio : priorityVal pt tx.TxType = true)
    (hnew : pool.all.Get tx.Hash = none)
    (hcheck : pool.checkPriorityTxLimits tx = none)
    (hvalid : st.ValidateTx tx txType = ValidateOutcome.ok) :
    ((pool.add pt st tx own txType).1 = none ∨
        (pool.add pt st tx own txType).1 = some PoolError.MempoolFullError) ∧
      ((pool.add pt st tx own txType).1 = some PoolError.MempoolFullError ↔
        (¬ priorityRoute st (pool.execOf tx.sender) tx ∧
          mapGet pool.pendingTxs tx.sender = none ∧ pool.mempoolCfg.TxPoolQueueSlots > 0 ∧
          (pool.pendingTxs.length : Int) ≥ pool.mempoolCfg.TxPoolQueueSlots)) ∧
      ((pool.add pt st tx own txType).1 = none ↔
        (priorityRoute st (pool.execOf tx.sender) tx ∨
          (mapGet pool.pendingTxs tx.sender).isSome = true ∨
          ¬ (pool.mempoolCfg.TxPoolQueueSlots > 0 ∧
            (pool.pendingTxs.length : Int) ≥ pool.mempoolCfg.TxPoolQueueSlots))) ∧
      ((pool.add pt st tx own txType).1 = some PoolError.MempoolFullError →
        (pool.add pt st tx own txType).2 = pool) :=
  add_priority pt st pool tx own txType hprio hnew hcheck hvalid

/-- Witness of C11: with the only pending-sender slot held by sender 1, the
ceremonial transaction of sender 2 with the nonce 1 follows the committed
nonce of its sender: the executable queue takes it and `add` admits it. -/
theorem priority_admission_witness :
    mapGet slotPool.pendingTxs 2 = none ∧
    (slotPool.pendingTxs.length : Int) ≥ slotPool.mempoolCfg.TxPoolQueueSlots ∧
    priorityRoute exampleLedger (slotPool.execOf 2) { otherCeremonyTx with AccountNonce := 1 } ∧
    (slotPool.add examplePriority exampleLedger { otherCeremonyTx with AccountNonce := 1 } false
      TxKind.InboundTx).1 = none :=
  ⟨by decide, by decide, by decide,
    (priority_admission examplePriority exampleLedger slotPool
      { otherCeremonyTx with AccountNonce := 1 } false
      TxKind.InboundTx (by decide) (by decide) (by decide) (by decide)).2.2.1.mpr
      (Or.inl (by decide))⟩

/-- C12: the total-capacity check of `checkRegularTxLimits` rejects (returns
the error "tx queue max size reached") exactly when both slot counts are
non-negative, the total `TxPoolExecutableSlots * TxPoolAddrExecutableLimit +
TxPoolQueueSlots * TxPoolAddrQueueLimit` is greater than zero and the Global
Index has at least that many entries.  The total is the one Go computes
(`goTotal`); it is the integer value of the expression whenever the two
products and their sum are in the range of an `int`.  `checkLimits` hands a
transaction to `checkRegularTxLimits` when it is not of a priority type. -/
theorem checkRegularTxLimits_total (pt : PriorityTable) (pool : TxPool) (tx : Transaction) :
    (pool.checkRegularTxLimits tx = some PoolError.queueMaxSizeReached ↔
      (0 ≤ pool.mempoolCfg.TxPoolExecutableSlots ∧ 0 ≤ pool.mempoolCfg.TxPoolQueueSlots ∧
        0 < goTotal pool.mempoolCfg ∧ goTotal pool.mempoolCfg ≤ (pool.all.txs.length : Int))) ∧
    (fitsInt (pool.mempoolCfg.TxPoolExecutableSlots * pool.mempoolCfg.TxPoolAddrExecutableLimit) ∧
      fitsInt (pool.mempoolCfg.TxPoolQueueSlots * pool.mempoolCfg.TxPoolAddrQueueLimit) ∧
      fitsInt (pool.mempoolCfg.TxPoolExecutableSlots * pool.mempoolCfg.TxPoolAddrExecutableLimit +
        pool.mempoolCfg.TxPoolQueueSlots * pool.mempoolCfg.TxPoolAddrQueueLimit) →
      goTotal pool.mempoolCfg =
        pool.mempoolCfg.TxPoolExecutableSlots * pool.mempoolCfg.TxPoolAddrExecutableLimit +
          pool.mempoolCfg.TxPoolQueueSlots * pool.mempoolCfg.TxPoolAddrQueueLimit) ∧
    (priorityVal pt tx.TxType = false →
      pool.checkLimits pt tx = pool.checkRegularTxLimits tx) := by
  refine ⟨?_, fun h => goTotal_of_fits _ h.1 h.2.1 h.2.2, fun h => ?_⟩
  · rw [regularLimits_total_iff, totalLimit_pos_iff]
  · unfold TxPool.checkLimits
    rw [h]
    rfl

/-- Counterexample to C13 as stated: the per-address pending limit is
negative, both slot counts are 1 and the per-address executable limit is 5, so
the total is 4; with four transactions in the Global Index
`checkRegularTxLimits` rejects the regular transaction with nonce 5 because of
the size of the Global Index. -/
theorem negative_limit_rejects :
    negLimitCfg.TxPoolAddrQueueLimit < 0 ∧
    negLimitPool.mempoolCfg = negLimitCfg ∧
    negLimitPool.all.txs.length = 4 ∧
    priorityVal examplePriority (exampleTx 5).TxType = false ∧
    negLimitPool.checkRegularTxLimits (exampleTx 5) = some PoolError.queueMaxSizeReached ∧
    (negLimitPool.add examplePriority exampleLedger (exampleTx 5) false TxKind.InboundTx).1 =
      some PoolError.queueMaxSizeReached := by
  decide

/-- C13 as the code has it: if the executable-slot count or the pending-slot
count is negative, the total-capacity check is disabled: `checkRegularTxLimits`
never rejects a transaction because of the size of the Global Index.  (A
negative per-address limit does not disable it.) -/
theorem negative_slots_disable (pool : TxPool) (tx : Transaction)
    (hneg : pool.mempoolCfg.TxPoolExecutableSlots < 0 ∨ pool.mempoolCfg.TxPoolQueueSlots < 0) :
    pool.checkRegularTxLimits tx ≠ some PoolError.queueMaxSizeReached := by
  intro h
  rw [regularLimits_total_iff, totalLimit_pos_iff] at h
  omega

theorem negative_slots_disable_witness :
    deferredTestCfg.TxPoolQueueSlots < 0 ∧
    (NewTxPool deferredTestCfg).checkRegularTxLimits (exampleTx 1) ≠
      some PoolError.queueMaxSizeReached :=
  ⟨by decide, negative_slots_disable (NewTxPool deferredTestCfg) (exampleTx 1)
    (Or.inr (by decide))⟩

/-- C14: for a transaction that passes the total-capacity check,
`checkRegularTxLimits` returns `MempoolFullError` if and only if the sender
has an executable queue that is full and either the sender has a pending
queue that is full, or the pending-slot count is positive and the number of
senders with a pending queue has reached it; when the sender has no
executable queue, or it is not full, the check returns no error. -/
theorem checkRegularTxLimits_sender (pool : TxPool) (tx : Transaction)
    (hpass : pool.checkRegularTxLimits tx ≠ some PoolError.queueMaxSizeReached) :
    (pool.checkRegularTxLimits tx = some PoolError.MempoolFullError ↔
      (∃ byAddr, mapGet pool.executableTxs tx.sender = some byAddr ∧ byAddr.Full = true) ∧
        ((∃ pending, mapGet pool.pendingTxs tx.sender = some pending ∧ pending.Full = true) ∨
          (pool.mempoolCfg.TxPoolQueueSlots > 0 ∧
            (pool.pendingTxs.length : Int) ≥ pool.mempoolCfg.TxPoolQueueSlots))) ∧
    ((mapGet pool.executableTxs tx.sender = none ∨
        ∃ byAddr, mapGet pool.executableTxs tx.sender = some byAddr ∧ byAddr.Full = false) →
      pool.checkRegularTxLimits tx = none) := by
  have htot : ¬ (totalLimit pool.mempoolCfg > 0 ∧
      (pool.all.txs.length : Int) ≥ totalLimit pool.mempoolCfg) :=
    fun h => hpass ((regularLimits_total_iff pool tx).2 h)
  unfold TxPool.checkRegularTxLimits
  rw [if_neg htot]
  cases he : mapGet pool.executableTxs tx.sender with
  | none => simp
  | some q =>
    dsimp only
    cases hfull : q.Full with
    | false => simp [hfull]
    | true =>
      simp only [if_true]
      cases hp : mapGet pool.pendingTxs tx.sender with
      | none =>
        by_cases hslots : pool.mempoolCfg.TxPoolQueueSlots > 0 ∧
            (pool.pendingTxs.length : Int) ≥ pool.mempoolCfg.TxPoolQueueSlots
        · simp [hslots, hfull]
        · simp [hslots, hfull]
      | some m =>
        cases hm : m.Full with
        | true => simp [hm, hfull]
        | false =>
          by_cases hslots : pool.mempoolCfg.TxPoolQueueSlots > 0 ∧
              (pool.pendingTxs.length : Int) ≥ pool.mempoolCfg.TxPoolQueueSlots
          · simp [hslots, hfull, hm]
          · simp [hslots, hfull, hm]

theorem checkRegularTxLimits_sender_witness :
    examplePool1.checkRegularTxLimits (exampleTx 2) ≠ some PoolError.queueMaxSizeReached ∧
    examplePool1.checkRegularTxLimits (exampleTx 2) = none :=
  ⟨by decide,
    (checkRegularTxLimits_sender examplePool1 (exampleTx 2) (by decide)).2
      (Or.inr ⟨{ txs := [{ exampleTx 1 with shardId := 1 }], maxTxs := 2 },
        by decide, by decide⟩)⟩

/-! ## Syncing mode -/

theorem txMap_Add_maxTxs (pt : PriorityTable) (m : txMap) (tx : Transaction) :
    (m.Add pt tx).2.maxTxs = m.maxTxs := by
  unfold txMap.Add
  split_ifs <;> rfl

theorem txMap_Add_get_mono (pt : PriorityTable) (m : txMap) (tx : Transaction) (h : Hash)
    (hin : (m.Get h).isSome = true) : ((m.Add pt tx).2.Get h).isSome = true := by
  unfold txMap.Add
  split_ifs
  · exact hin
  · unfold txMap.Get at hin ⊢
    dsimp only
    rw [mapGet_mapSet]
    split_ifs
    · rfl
    · exact hin

/-- The fields of the pool that `put` leaves alone. -/
structure SameFrame (a b : TxPool) : Prop where
  isSyncing : b.isSyncing = a.isSyncing
  coinbase : b.coinbase = a.coinbase
  deferredTxs : b.deferredTxs = a.deferredTxs
  knownDeferredTxs : b.knownDeferredTxs = a.knownDeferredTxs
  mempoolCfg : b.mempoolCfg = a.mempoolCfg
  allMax : b.all.maxTxs = a.all.maxTxs
  index : ∀ h, (a.all.Get h).isSome = true → (b.all.Get h).isSome = true

theorem SameFrame.frame_refl (a : TxPool) : SameFrame a a :=
  ⟨rfl, rfl, rfl, rfl, rfl, rfl, fun _ h => h⟩

theorem SameFrame.frame_trans {a b c : TxPool} (h1 : SameFrame a b) (h2 : SameFrame b c) :
    SameFrame a c :=
  ⟨h2.isSyncing.trans h1.isSyncing, h2.coinbase.trans h1.coinbase,
    h2.deferredTxs.trans h1.deferredTxs, h2.knownDeferredTxs.trans h1.knownDeferredTxs,
    h2.mempoolCfg.trans h1.mempoolCfg, h2.allMax.trans h1.allMax,
    fun h hin => h2.index h (h1.index h hin)⟩

theorem put_frame (pt : PriorityTable) (st : Ledger) (pool : TxPool) (tx : Transaction) :
    SameFrame pool (pool.put pt st tx).2 := by
  rcases put_cases pt st pool tx with ⟨e, h⟩ | ⟨q, h, _⟩ | ⟨m, h, _⟩
  · rw [h]; exact SameFrame.frame_refl pool
  · rw [h]
    exact ⟨rfl, rfl, rfl, rfl, rfl, txMap_Add_maxTxs pt pool.all tx,
      fun h hin => txMap_Add_get_mono pt pool.all tx h hin⟩
  · rw [h]
    exact ⟨rfl, rfl, rfl, rfl, rfl, txMap_Add_maxTxs pt pool.all tx,
      fun h hin => txMap_Add_get_mono pt pool.all tx h hin⟩

theorem add_frame (pt : PriorityTable) (st : Ledger) (pool : TxPool) (tx : Transaction)
    (own : Bool) (txType : TxKind) : SameFrame pool (pool.add pt st tx own txType).2 := by
  rcases add_cases pt st pool tx own txType with h | ⟨h, _, _⟩
  · rw [h]; exact SameFrame.frame_refl pool
  · rw [h]; exact put_frame pt st pool _

theorem put_ok_index (pt : PriorityTable) (st : Ledger) (pool : TxPool) (tx : Transaction)
    (hcap : pool.all.maxTxs ≤ 0) (hok : (pool.put pt st tx).1 = none) :
    ((pool.put pt st tx).2.all.Get tx.Hash).isSome = true := by
  rcases put_cases pt st pool tx with ⟨e, h⟩ | ⟨q, h, _⟩ | ⟨m, h, _⟩
  · rw [h] at hok; cases hok
  · rw [h]
    dsimp only
    rw [all_Add_txs pt pool.all tx hcap]
    unfold txMap.Get
    dsimp only
    rw [mapGet_mapSet_self]
    rfl
  · rw [h]
    dsimp only
    rw [all_Add_txs pt pool.all tx hcap]
    unfold txMap.Get
    dsimp only
    rw [mapGet_mapSet_self]
    rfl

theorem add_ok_index (pt : PriorityTable) (st : Ledger) (pool : TxPool) (tx : Transaction)
    (own : Bool) (txType : TxKind) (hcap : pool.all.maxTxs ≤ 0)
    (hok : (pool.add pt st tx own txType).1 = none) :
    ((pool.add pt st tx own txType).2.all.Get tx.Hash).isSome = true := by
  have hput : pool.add pt st tx own txType =
      pool.put pt st { tx with shardId := st.ShardId tx.sender } := by
    unfold TxPool.add at hok ⊢
    by_cases h1 : (pool.all.Get tx.Hash).isSome = true
    · rw [if_pos h1] at hok; simp at hok
    · rw [if_neg h1] at hok ⊢
      cases hc : pool.checkLimits pt tx with
      | some e => rw [hc] at hok; simp at hok
      | none =>
        rw [hc] at hok
        dsimp only at hok ⊢
        cases hv : st.ValidateTx tx txType with
        | ok => rfl
        | err e => rw [hv] at hok; simp at hok
        | fault msg => rw [hv] at hok; simp at hok
  rw [hput] at hok ⊢
  exact put_ok_index pt st pool _ hcap hok

theorem addDeferredTx_queues (pool : TxPool) (tx : Transaction) :
    (pool.addDeferredTx tx).executableTxs = pool.executableTxs ∧
    (pool.addDeferredTx tx).pendingTxs = pool.pendingTxs ∧
    (pool.addDeferredTx tx).all = pool.all ∧
    (pool.addDeferredTx tx).shortHashAll = pool.shortHashAll ∧
    (pool.addDeferredTx tx).isSyncing = pool.isSyncing ∧
    (pool.addDeferredTx tx).coinbase = pool.coinbase ∧
    (pool.addDeferredTx tx).mempoolCfg = pool.mempoolCfg := by
  unfold TxPool.addDeferredTx
  split_ifs <;> exact ⟨rfl, rfl, rfl, rfl, rfl, rfl, rfl⟩

theorem addDeferredTx_known (pool : TxPool) (tx : Transaction) :
    tx.Hash ∈ (pool.addDeferredTx tx).knownDeferredTxs ∧
    ∀ h ∈ pool.knownDeferredTxs, h ∈ (pool.addDeferredTx tx).knownDeferredTxs := by
  unfold TxPool.addDeferredTx
  by_cases h1 : tx.Hash ∈ pool.knownDeferredTxs
  · rw [if_pos h1]
    exact ⟨h1, fun _ h => h⟩
  · rw [if_neg h1]
    exact ⟨by simp, fun _ h => by simp [h]⟩

theorem addDeferredTx_mem (pool : TxPool) (tx : Transaction) :
    ∀ t ∈ (pool.addDeferredTx tx).deferredTxs, t ∈ pool.deferredTxs ∨ t = tx := by
  intro t ht
  unfold TxPool.addDeferredTx at ht
  by_cases h1 : tx.Hash ∈ pool.knownDeferredTxs
  · rw [if_pos h1] at ht
    exact Or.inl ht
  · rw [if_neg h1] at ht
    dsimp only at ht
    split_ifs at ht with h2 h3
    · rcases List.mem_append.1 ht with h | h
      · exact Or.inl h
      · exact Or.inr (List.mem_singleton.1 h)
    · rcases List.mem_append.1 ht with h | h
      · exact Or.inl (List.mem_of_mem_drop h)
      · exact Or.inr (List.mem_singleton.1 h)
    · exact Or.inl (List.mem_of_mem_drop ht)

theorem externalLoop_syncing (pt : PriorityTable) (st : Ledger) (txType : TxKind) (n : Nat)
    (txs : List Transaction) :
    ∀ pool : TxPool, pool.isSyncing = true → (∀ tx ∈ txs, tx.sender ≠ pool.coinbase) →
      (externalLoop pt st txType n txs pool).1 = none ∧
      (externalLoop pt st txType n txs pool).2.executableTxs = pool.executableTxs ∧
      (externalLoop pt st txType n txs pool).2.pendingTxs = pool.pendingTxs ∧
      (externalLoop pt st txType n txs pool).2.all = pool.all ∧
      (externalLoop pt st txType n txs pool).2.shortHashAll = pool.shortHashAll ∧
      (externalLoop pt st txType n txs pool).2.isSyncing = true ∧
      (∀ t ∈ (externalLoop pt st txType n txs pool).2.deferredTxs,
        t ∈ pool.deferredTxs ∨ t ∈ txs) ∧
      (∀ tx ∈ txs, tx.Hash ∈ (externalLoop pt st txType n txs pool).2.knownDeferredTxs) ∧
      (∀ h ∈ pool.knownDeferredTxs,
        h ∈ (externalLoop pt st txType n txs pool).2.knownDeferredTxs) := by
  induction txs with
  | nil =>
    intro pool hsync _
    exact ⟨rfl, rfl, rfl, rfl, rfl, hsync, fun t ht => Or.inl ht, fun _ h => (by cases h),
      fun _ h => h⟩
  | cons tx rest ih =>
    intro pool hsync hext
    have hne : tx.sender ≠ pool.coinbase := hext tx (List.mem_cons_self _ _)
    have hq := addDeferredTx_queues pool tx
    have hstep : externalLoop pt st txType n (tx :: rest) pool =
        externalLoop pt st txType n rest (pool.addDeferredTx tx) := by
      rw [externalLoop]
      simp [hsync, hne]
    rw [hstep]
    have h := ih (pool.addDeferredTx tx) (hq.2.2.2.2.1.trans hsync)
      (fun t ht => by rw [hq.2.2.2.2.2.1]; exact hext t (List.mem_cons_of_mem _ ht))
    refine ⟨h.1, h.2.1.trans hq.1, h.2.2.1.trans hq.2.1, h.2.2.2.1.trans hq.2.2.1,
      h.2.2.2.2.1.trans hq.2.2.2.1, h.2.2.2.2.2.1, ?_, ?_, ?_⟩
    · intro t ht
      rcases h.2.2.2.2.2.2.1 t ht with h1 | h1
      · rcases addDeferredTx_mem pool tx t h1 with h2 | h2
        · exact Or.inl h2
        · exact Or.inr (h2 ▸ List.mem_cons_self _ _)
      · exact Or.inr (List.mem_cons_of_mem _ h1)
    · intro t ht
      rcases List.mem_cons.1 ht with h1 | h1
      · subst h1
        exact h.2.2.2.2.2.2.2.2 _ (addDeferredTx_known pool t).1
      · exact h.2.2.2.2.2.2.2.1 t h1
    · intro k hk
      exact h.2.2.2.2.2.2.2.2 _ ((addDeferredTx_known pool tx).2 k hk)

theorem setShardOfLast_length (shard : Nat) :
    ∀ l : List Transaction, (setShardOfLast shard l).length = l.length
  | [] => rfl
  | [_] => rfl
  | _ :: u :: rest => by
    rw [setShardOfLast, List.length_cons, setShardOfLast_length shard (u :: rest)]
    rfl

theorem setShardOfLast_append (shard : Nat) (t : Transaction) :
    ∀ front : List Transaction,
      setShardOfLast shard (front ++ [t]) = front ++ [{ t with shardId := shard }]
  | [] => rfl
  | [_] => rfl
  | a :: b :: rest => by
    have h := setShardOfLast_append shard t (b :: rest)
    simp only [List.cons_append] at h ⊢
    rw [setShardOfLast, h]

/-- When `addDeferredTx` sends the transaction to the channel, it is the
youngest element afterwards. -/
theorem sendsDeferred_last (pool : TxPool) (tx : Transaction)
    (h : pool.sendsDeferred tx = true) :
    ∃ front, (pool.addDeferredTx tx).deferredTxs = front ++ [tx] := by
  unfold TxPool.sendsDeferred at h
  simp only [Bool.and_eq_true, Bool.or_eq_true, decide_eq_true_eq] at h
  unfold TxPool.addDeferredTx
  rw [if_neg h.1]
  dsimp only
  by_cases h1 : pool.deferredTxs.length < MaxDeferredTxs
  · rw [if_pos h1]; exact ⟨_, rfl⟩
  · rw [if_neg h1]
    rcases h.2 with h2 | h2
    · exact absurd h2 h1
    · rw [if_pos h2]; exact ⟨_, rfl⟩

/-- What `AddInternalTx` leaves in syncing mode, case by case: the snapshot
cannot be opened; `add` rejects the transaction; `add` admits it. -/
theorem AddInternalTx_sync_cases (pt : PriorityTable) (st : Ledger) (pool : TxPool)
    (tx : Transaction) (hsync : pool.isSyncing = true) :
    (∀ code, st.ReadonlyErr = some code →
      pool.AddInternalTx pt st tx =
        InternalTxResult.mk none (pool.addDeferredTx { tx with highPriority := true })
          { tx with highPriority := true }
          (if priorityKey pt tx.TxType then some code else none)) ∧
    (st.ReadonlyErr = none →
      (∀ e, ((pool.addDeferredTx { tx with highPriority := true }).add pt st
          { tx with highPriority := true } true TxKind.InboundTx).1 = some e →
        pool.AddInternalTx pt st tx =
          InternalTxResult.mk none
            ((pool.addDeferredTx { tx with highPriority := true }).add pt st
              { tx with highPriority := true } true TxKind.InboundTx).2
            { tx with highPriority := true } none) ∧
      (((pool.addDeferredTx { tx with highPriority := true }).add pt st
          { tx with highPriority := true } true TxKind.InboundTx).1 = none →
        (pool.AddInternalTx pt st tx).err = none ∧
        (pool.AddInternalTx pt st tx).fault = none ∧
        (pool.AddInternalTx pt st tx).tx =
          { tx with highPriority := true, shardId := st.ShardId tx.sender } ∧
        (pool.AddInternalTx pt st tx).pool =
          { ((pool.addDeferredTx { tx with highPriority := true }).add pt st
              { tx with highPriority := true } true TxKind.InboundTx).2 with
            deferredTxs :=
              if pool.sendsDeferred { tx with highPriority := true } then
                setShardOfLast (st.ShardId tx.sender)
                  ((pool.addDeferredTx { tx with highPriority := true }).add pt st
                    { tx with highPriority := true } true TxKind.InboundTx).2.deferredTxs
              else
                ((pool.addDeferredTx { tx with highPriority := true }).add pt st
                  { tx with highPriority := true } true TxKind.InboundTx).2.deferredTxs })) := by
  unfold TxPool.AddInternalTx
  simp only [hsync, if_true]
  refine ⟨fun code h => ?_, fun h => ⟨fun e he => ?_, fun he => ?_⟩⟩
  · rw [h]
    dsimp only
    split_ifs <;> rfl
  · rw [h]
    dsimp only
    cases hadd : (pool.addDeferredTx { tx with highPriority := true }).add pt st
        { tx with highPriority := true } true TxKind.InboundTx with
    | mk e1 p =>
      rw [hadd] at he
      cases e1 with
      | none => cases he
      | some e1 => rfl
  · rw [h]
    dsimp only
    cases hadd : (pool.addDeferredTx { tx with highPriority := true }).add pt st
        { tx with highPriority := true } true TxKind.InboundTx with
    | mk e1 p =>
      rw [hadd] at he
      cases e1 with
      | none => exact ⟨rfl, rfl, rfl, rfl⟩
      | some e1 => cases he

/-- What `AddInternalTx` does in syncing mode.  It returns unless the
snapshot cannot be opened and the type is a key of the priority table; it
returns no error; it sets the priority flag and, when `add` admits the
transaction, the shard id of the sender, and nothing else of the transaction;
the hash is in the seen-set afterwards; nothing is admitted without the
snapshot. -/
theorem internalTx_while_syncing (pt : PriorityTable) (st : Ledger) (pool : TxPool)
    (tx : Transaction) (hsync : pool.isSyncing = true) :
    ((pool.AddInternalTx pt st tx).fault = none ↔
      (st.ReadonlyErr = none ∨ priorityKey pt tx.TxType = false)) ∧
    (pool.AddInternalTx pt st tx).err = none ∧
    (pool.AddInternalTx pt st tx).tx.highPriority = true ∧
    ((st.ReadonlyErr = none ∧
        ((pool.addDeferredTx { tx with highPriority := true }).add pt st
          { tx with highPriority := true } true TxKind.InboundTx).1 = none) →
      (pool.AddInternalTx pt st tx).tx =
        { tx with highPriority := true, shardId := st.ShardId tx.sender }) ∧
    (¬ (st.ReadonlyErr = none ∧
        ((pool.addDeferredTx { tx with highPriority := true }).add pt st
          { tx with highPriority := true } true TxKind.InboundTx).1 = none) →
      (pool.AddInternalTx pt st tx).tx = { tx with highPriority := true }) ∧
    tx.Hash ∈ (pool.AddInternalTx pt st tx).pool.knownDeferredTxs ∧
    (st.ReadonlyErr ≠ none →
      (pool.AddInternalTx pt st tx).pool = pool.addDeferredTx { tx with highPriority := true }) := by
  have hc := AddInternalTx_sync_cases pt st pool tx hsync
  have hknown := (addDeferredTx_known pool { tx with highPriority := true }).1
  cases hro : st.ReadonlyErr with
  | some code =>
    rw [hc.1 code hro]
    refine ⟨?_, rfl, rfl, fun h => (by cases h.1), fun _ => rfl, hknown, fun _ => rfl⟩
    dsimp only
    cases hk : priorityKey pt tx.TxType <;> simp
  | none =>
    cases hadd : ((pool.addDeferredTx { tx with highPriority := true }).add pt st
        { tx with highPriority := true } true TxKind.InboundTx).1 with
    | some e =>
      rw [(hc.2 hro).1 e hadd]
      refine ⟨(by simp), rfl, rfl, fun h => (by cases h.2), fun _ => rfl, ?_,
        fun h => absurd rfl h⟩
      dsimp only
      rw [(add_frame pt st _ _ true TxKind.InboundTx).knownDeferredTxs]
      exact hknown
    | none =>
      obtain ⟨h1, h2, h3, h4⟩ := (hc.2 hro).2 hadd
      refine ⟨(by simp [h2]), h1, (by rw [h3]), fun _ => h3, fun h => absurd ⟨rfl, rfl⟩ h, ?_,
        fun h => absurd rfl h⟩
      rw [h4]
      dsimp only
      rw [(add_frame pt st _ _ true TxKind.InboundTx).knownDeferredTxs]
      exact hknown

/-- The fields of the pool that removal and migration leave alone. -/
structure SyncFrame (a b : TxPool) : Prop where
  isSyncing : b.isSyncing = a.isSyncing
  coinbase : b.coinbase = a.coinbase
  deferredTxs : b.deferredTxs = a.deferredTxs
  knownDeferredTxs : b.knownDeferredTxs = a.knownDeferredTxs
  mempoolCfg : b.mempoolCfg = a.mempoolCfg
  allMax : b.all.maxTxs = a.all.maxTxs

theorem removeAll_syncFrame (txs : List Transaction) (pool : TxPool) :
    SyncFrame pool (txs.foldl TxPool.Remove pool) := by
  apply foldl_invariant (fun p => SyncFrame pool p) TxPool.Remove txs
  · intro a b _ h
    exact ⟨h.isSyncing, h.coinbase, h.deferredTxs, h.knownDeferredTxs, h.mempoolCfg, h.allMax⟩
  · exact ⟨rfl, rfl, rfl, rfl, rfl, rfl⟩

theorem move_syncFrame (pt : PriorityTable) (st : Ledger) (pool : TxPool) :
    SyncFrame pool (pool.movePendingTxsToExecutable pt st) := by
  unfold TxPool.movePendingTxsToExecutable
  apply foldl_invariant (fun p => SyncFrame pool p) (migrateSender pt st) pool.pendingTxs
  · intro a b _ h
    exact ⟨h.isSyncing, h.coinbase, h.deferredTxs, h.knownDeferredTxs, h.mempoolCfg, h.allMax⟩
  · exact ⟨rfl, rfl, rfl, rfl, rfl, rfl⟩

theorem SyncFrame.syncFrame_trans {a b c : TxPool} (h1 : SyncFrame a b) (h2 : SyncFrame b c) :
    SyncFrame a c :=
  ⟨h2.isSyncing.trans h1.isSyncing, h2.coinbase.trans h1.coinbase,
    h2.deferredTxs.trans h1.deferredTxs, h2.knownDeferredTxs.trans h1.knownDeferredTxs,
    h2.mempoolCfg.trans h1.mempoolCfg, h2.allMax.trans h1.allMax⟩

theorem ResetTo_syncFrame (pt : PriorityTable) (st : Ledger) (pool : TxPool)
    (block : List Transaction) : SyncFrame pool (pool.ResetTo pt st block).2 := by
  have h1 := (removeAll_syncFrame block pool).syncFrame_trans
    (move_syncFrame pt st (block.foldl TxPool.Remove pool))
  rcases ResetTo_cases pt st pool block with h | ⟨removed, h⟩
  · rw [h]; exact h1
  · rw [h]; exact h1.syncFrame_trans (removeAll_syncFrame removed _)

theorem externalLoop_live (pt : PriorityTable) (st : Ledger) (txType : TxKind) (n : Nat)
    (txs : List Transaction) :
    ∀ pool : TxPool, pool.isSyncing = false →
      SameFrame pool (externalLoop pt st txType n txs pool).2 := by
  induction txs with
  | nil => intro pool _; exact SameFrame.frame_refl pool
  | cons tx rest ih =>
    intro pool hsync
    have hf := add_frame pt st pool tx (decide (tx.sender = pool.coinbase)) txType
    rw [externalLoop]
    simp only [hsync, Bool.false_and, Bool.false_eq_true, if_false]
    cases hadd : pool.add pt st tx (decide (tx.sender = pool.coinbase)) txType with
    | mk e p =>
      rw [hadd] at hf
      have hp : p.isSyncing = false := hf.isSyncing.trans hsync
      cases e with
      | none => exact hf.frame_trans (ih p hp)
      | some e =>
        dsimp only
        split_ifs
        · exact hf
        · exact hf.frame_trans (ih p hp)

theorem AddExternalTxs_live (pt : PriorityTable) (st : Ledger) (pool : TxPool) (txType : TxKind)
    (txs : List Transaction) (hsync : pool.isSyncing = false) :
    SameFrame pool (pool.AddExternalTxs pt st txType txs).2 := by
  unfold TxPool.AddExternalTxs
  cases st.ReadonlyErr with
  | some code => exact SameFrame.frame_refl pool
  | none => exact externalLoop_live pt st txType txs.length txs pool hsync

theorem AddExternalTxs_single (pt : PriorityTable) (st : Ledger) (pool : TxPool)
    (txType : TxKind) (tx : Transaction) (hsync : pool.isSyncing = false) :
    (∀ code, st.ReadonlyErr = some code →
      pool.AddExternalTxs pt st txType [tx] = (some (PoolError.stateUnavailable code), pool)) ∧
    (st.ReadonlyErr = none →
      pool.AddExternalTxs pt st txType [tx] =
        pool.add pt st tx (decide (tx.sender = pool.coinbase)) txType) := by
  unfold TxPool.AddExternalTxs
  constructor
  · intro code h
    rw [h]
  · intro h
    rw [h]
    dsimp only
    rw [externalLoop]
    simp only [hsync, Bool.false_and, Bool.false_eq_true, if_false]
    cases hadd : pool.add pt st tx (decide (tx.sender = pool.coinbase)) txType with
    | mk e p =>
      cases e with
      | none => rfl
      | some e => simp [externalLoop]

theorem setHighPriority_id (tx : Transaction) (h : tx.highPriority = true) :
    ({ tx with highPriority := true } : Transaction) = tx := by
  cases tx
  simp only at h
  subst h
  rfl

theorem AddInternalTx_live (pt : PriorityTable) (st : Ledger) (pool : TxPool)
    (tx : Transaction) (hsync : pool.isSyncing = false) (hhigh : tx.highPriority = true) :
    (∀ code, st.ReadonlyErr = some code →
      (pool.AddInternalTx pt st tx).err = some (PoolError.stateUnavailable code) ∧
        (pool.AddInternalTx pt st tx).pool = pool) ∧
    (st.ReadonlyErr = none →
      (pool.AddInternalTx pt st tx).err = (pool.add pt st tx true TxKind.InboundTx).1 ∧
        (pool.AddInternalTx pt st tx).pool = (pool.add pt st tx true TxKind.InboundTx).2) := by
  unfold TxPool.AddInternalTx
  rw [setHighPriority_id tx hhigh]
  simp only [hsync, Bool.false_eq_true, if_false]
  constructor
  · intro code h
    rw [h]
    exact ⟨rfl, rfl⟩
  · intro h
    rw [h]
    dsimp only
    cases hadd : pool.add pt st tx true TxKind.InboundTx with
    | mk e p =>
      cases e with
      | none => exact ⟨rfl, rfl⟩
      | some e => exact ⟨rfl, rfl⟩

/-- Outside syncing mode `AddInternalTx` returns. -/
theorem AddInternalTx_live_fault (pt : PriorityTable) (st : Ledger) (pool : TxPool)
    (tx : Transaction) (hsync : pool.isSyncing = false) :
    (pool.AddInternalTx pt st tx).fault = none := by
  unfold TxPool.AddInternalTx
  simp only [hsync, Bool.false_eq_true, if_false]
  cases st.ReadonlyErr with
  | some code => rfl
  | none =>
    dsimp only
    cases hadd : pool.add pt st { tx with highPriority := true } true TxKind.InboundTx with
    | mk e p =>
      cases e with
      | none => rfl
      | some e => rfl

/-- The error with which `StopSync` resubmits a transaction taken from the
channel, and the pool after it: the entry point is chosen by the priority
flag of the transaction. -/
theorem resubmit_live (pt : PriorityTable) (st : Ledger) (pool : TxPool) (tx : Transaction)
    (hsync : pool.isSyncing = false) :
    ∀ r : Option PoolError × TxPool,
      r = (if tx.highPriority then
          ((pool.AddInternalTx pt st tx).err, (pool.AddInternalTx pt st tx).pool)
        else pool.AddExternalTxs pt st TxKind.MempoolTx [tx]) →
      (∀ code, st.ReadonlyErr = some code →
        r = (some (PoolError.stateUnavailable code), pool)) ∧
      (st.ReadonlyErr = none →
        r = pool.add pt st tx (tx.highPriority || decide (tx.sender = pool.coinbase))
          (if tx.highPriority then TxKind.InboundTx else TxKind.MempoolTx)) := by
  intro r hr
  cases hhigh : tx.highPriority with
  | true =>
    rw [hhigh] at hr
    simp only [if_true] at hr
    have h := AddInternalTx_live pt st pool tx hsync hhigh
    subst hr
    constructor
    · intro code hc
      rw [(h.1 code hc).1, (h.1 code hc).2]
    · intro hc
      rw [(h.2 hc).1, (h.2 hc).2]
      rfl
  | false =>
    rw [hhigh] at hr
    simp only [Bool.false_eq_true, if_false] at hr
    have h := AddExternalTxs_single pt st pool TxKind.MempoolTx tx hsync
    subst hr
    constructor
    · intro code hc
      exact h.1 code hc
    · intro hc
      rw [h.2 hc]
      rfl

theorem drainLoop_spec (pt : PriorityTable) (st : Ledger) :
    ∀ (fuel : Nat) (pool : TxPool) (log : List Resubmission),
      pool.isSyncing = false → pool.all.maxTxs ≤ 0 → pool.deferredTxs.length ≤ fuel →
      (drainLoop pt st fuel pool log).1 = none ∧
      (drainLoop pt st fuel pool log).2.1.isSyncing = false ∧
      (drainLoop pt st fuel pool log).2.1.deferredTxs = [] ∧
      (drainLoop pt st fuel pool log).2.1.all.maxTxs ≤ 0 ∧
      (∀ h, (pool.all.Get h).isSome = true →
        ((drainLoop pt st fuel pool log).2.1.all.Get h).isSome = true) ∧
      ∃ new : List Resubmission, (drainLoop pt st fuel pool log).2.2 = log ++ new ∧
        new.map (fun e => e.tx) = pool.deferredTxs ∧
        ∀ e ∈ new,
          (e.err = none →
            ((drainLoop pt st fuel pool log).2.1.all.Get e.tx.Hash).isSome = true) ∧
          (∀ code, st.ReadonlyErr = some code →
            e.err = some (PoolError.stateUnavailable code)) ∧
          (st.ReadonlyErr = none →
            e.err = (e.before.add pt st e.tx
              (e.tx.highPriority || decide (e.tx.sender = e.before.coinbase))
              (if e.tx.highPriority then TxKind.InboundTx else TxKind.MempoolTx)).1) := by
  intro fuel
  induction fuel with
  | zero =>
    intro pool log hsync hcap hlen
    have hnil : pool.deferredTxs = [] := List.length_eq_zero.1 (Nat.le_zero.1 hlen)
    refine ⟨rfl, hsync, hnil, hcap, fun _ h => h, [], ?_, ?_, ?_⟩
    · simp [drainLoop]
    · rw [hnil]; rfl
    · intro e he; cases he
  | succ fuel ih =>
    intro pool log hsync hcap hlen
    cases hq : pool.deferredTxs with
    | nil =>
      have hd : drainLoop pt st (fuel + 1) pool log = (none, pool, log) := by
        rw [drainLoop, hq]
      rw [hd]
      refine ⟨rfl, hsync, hq, hcap, fun _ h => h, [], by simp, rfl, ?_⟩
      intro e he; cases he
    | cons tx rest =>
      obtain ⟨r, hr⟩ : ∃ r : Option PoolError × TxPool,
          r = (if tx.highPriority then
            ((TxPool.AddInternalTx pt st { pool with deferredTxs := rest } tx).err,
              (TxPool.AddInternalTx pt st { pool with deferredTxs := rest } tx).pool)
          else TxPool.AddExternalTxs pt st { pool with deferredTxs := rest }
            TxKind.MempoolTx [tx]) := ⟨_, rfl⟩
      have hfault : (if tx.highPriority then
          (TxPool.AddInternalTx pt st { pool with deferredTxs := rest } tx).fault
          else none) = none := by
        split_ifs
        · exact AddInternalTx_live_fault pt st { pool with deferredTxs := rest } tx hsync
        · rfl
      have hd : drainLoop pt st (fuel + 1) pool log =
          drainLoop pt st fuel r.2
            (log ++ [Resubmission.mk tx { pool with deferredTxs := rest } r.1]) := by
        rw [drainLoop, hq]
        dsimp only
        rw [hfault, hr]
      have hlive := resubmit_live pt st { pool with deferredTxs := rest } tx hsync r hr
      have hframe : SameFrame { pool with deferredTxs := rest } r.2 := by
        cases hro : st.ReadonlyErr with
        | some code =>
          rw [hlive.1 code hro]
          exact SameFrame.frame_refl _
        | none =>
          rw [hlive.2 hro]
          exact add_frame pt st _ _ _ _
      have hok : r.1 = none → (r.2.all.Get tx.Hash).isSome = true := by
        intro hnone
        cases hro : st.ReadonlyErr with
        | some code =>
          rw [hlive.1 code hro] at hnone
          cases hnone
        | none =>
          rw [hlive.2 hro] at hnone ⊢
          exact add_ok_index pt st _ tx _ _ hcap hnone
      have hlen2 : r.2.deferredTxs.length ≤ fuel := by
        rw [hframe.deferredTxs]
        rw [hq] at hlen
        simpa using hlen
      have h := ih r.2 (log ++ [Resubmission.mk tx { pool with deferredTxs := rest } r.1])
        (hframe.isSyncing.trans hsync) (by rw [hframe.allMax]; exact hcap) hlen2
      rw [hd]
      obtain ⟨h0, h1, h2, h3, h4, new, h5, h6, h7⟩ := h
      refine ⟨h0, h1, h2, h3, fun k hk => h4 k (hframe.index k hk),
        Resubmission.mk tx { pool with deferredTxs := rest } r.1 :: new, ?_, ?_, ?_⟩
      · rw [h5]; simp
      · rw [List.map_cons, h6, hframe.deferredTxs]
      · intro e he
        rcases List.mem_cons.1 he with he | he
        · subst he
          refine ⟨fun hnone => h4 _ (hok hnone), ?_, ?_⟩
          · intro code hro
            rw [hlive.1 code hro]
          · intro hro
            show r.1 = _
            rw [hlive.2 hro]
        · exact h7 e he

theorem StopSync_returns (pt : PriorityTable) (st : Ledger) (pool : TxPool)
    (block : List Transaction) (keeperTxs : List Transaction)
    (hret : (pool.StopSync pt st block keeperTxs).fault = none) :
    ∃ pool2 : TxPool, SyncFrame { pool with isSyncing := false } pool2 ∧
      (pool.StopSync pt st block keeperTxs).pool =
        (TxPool.AddExternalTxs pt st
          { (drainLoop pt st pool2.deferredTxs.length pool2 []).2.1 with knownDeferredTxs := [] }
          TxKind.MempoolTx keeperTxs).2 ∧
      (pool.StopSync pt st block keeperTxs).resubmitted =
        (drainLoop pt st pool2.deferredTxs.length pool2 []).2.2 := by
  have hf := ResetTo_syncFrame pt st { pool with isSyncing := false } block
  unfold TxPool.StopSync at hret ⊢
  dsimp only at hret ⊢
  cases hreset : TxPool.ResetTo pt st { pool with isSyncing := false } block with
  | mk fault pool2 =>
    rw [hreset] at hret hf
    cases fault with
    | some msg => simp at hret
    | none =>
      dsimp only at hret ⊢
      cases hdr : (drainLoop pt st pool2.deferredTxs.length pool2 []).1 with
      | some code => rw [hdr] at hret; simp at hret
      | none => exact ⟨pool2, hf, rfl, rfl⟩

theorem StopSync_drained (pt : PriorityTable) (st : Ledger) (pool : TxPool)
    (block : List Transaction) (keeperTxs : List Transaction)
    (hcap : pool.all.maxTxs ≤ 0)
    (hret : (pool.StopSync pt st block keeperTxs).fault = none) :
    (pool.StopSync pt st block keeperTxs).pool.isSyncing = false ∧
    (pool.StopSync pt st block keeperTxs).pool.deferredTxs = [] ∧
    (pool.StopSync pt st block keeperTxs).pool.knownDeferredTxs = [] ∧
    (pool.StopSync pt st block keeperTxs).resubmitted.map (fun e => e.tx) = pool.deferredTxs ∧
    ∀ e ∈ (pool.StopSync pt st block keeperTxs).resubmitted,
      (((pool.StopSync pt st block keeperTxs).pool.all.Get e.tx.Hash).isSome = true ∨
        e.err ≠ none) ∧
      (st.ReadonlyErr = none →
        e.err = (e.before.add pt st e.tx
          (e.tx.highPriority || decide (e.tx.sender = e.before.coinbase))
          (if e.tx.highPriority then TxKind.InboundTx else TxKind.MempoolTx)).1) ∧
      (∀ code, st.ReadonlyErr = some code →
        e.err = some (PoolError.stateUnavailable code)) := by
  obtain ⟨pool2, hf, hpool, hlog⟩ := StopSync_returns pt st pool block keeperTxs hret
  have hd := drainLoop_spec pt st pool2.deferredTxs.length pool2 [] hf.isSyncing
    (by rw [hf.allMax]; exact hcap) (le_refl _)
  obtain ⟨_, h1, h2, h3, h4, new, h5, h6, h7⟩ := hd
  have hk := AddExternalTxs_live pt st
    { (drainLoop pt st pool2.deferredTxs.length pool2 []).2.1 with knownDeferredTxs := [] }
    TxKind.MempoolTx keeperTxs h1
  rw [hpool, hlog, h5]
  refine ⟨hk.isSyncing.trans h1, hk.deferredTxs.trans h2, hk.knownDeferredTxs, ?_, ?_⟩
  · rw [List.nil_append, h6, hf.deferredTxs]
  · intro e he
    rw [List.nil_append] at he
    obtain ⟨h8, h9, h10⟩ := h7 e he
    refine ⟨?_, h10, h9⟩
    cases herr : e.err with
    | none => exact Or.inl (hk.index _ (h8 herr))
    | some err => exact Or.inr (by simp)

/-- Counterexample to C18 as stated: the pool of node 1 is in syncing mode and
`AddExternalTxs` is called with the transaction with nonce 1 whose sender is
node 1 itself; the transaction is admitted, the executable queues and the
Global Index change, and nothing is put in the deferral queue. -/
theorem syncing_own_sender_admitted :
    syncPool.isSyncing = true ∧
    (syncPool.AddExternalTxs examplePriority exampleLedger TxKind.InboundTx
      [exampleTx 1]).2.executableTxs ≠ syncPool.executableTxs ∧
    (syncPool.AddExternalTxs examplePriority exampleLedger TxKind.InboundTx
      [exampleTx 1]).2.all ≠ syncPool.all ∧
    (syncPool.AddExternalTxs examplePriority exampleLedger TxKind.InboundTx
      [exampleTx 1]).2.GetPendingByAddress 1 = [{ exampleTx 1 with shardId := 1 }] ∧
    (syncPool.AddExternalTxs examplePriority exampleLedger TxKind.InboundTx
      [exampleTx 1]).2.deferredTxs = [] := by
  decide

/-- C18 as the code has it: while the pool is in syncing mode, `AddExternalTxs`
on a batch none of whose transactions is sent by the node's own address
(`coinbase`) changes neither the executable queues nor the pending queues nor
the Global Index (nor the compact index); the pool stays in syncing mode and
the transactions of the batch are only placed in the deferral queue. -/
theorem AddExternalTxs_syncing (pt : PriorityTable) (st : Ledger) (pool : TxPool)
    (txType : TxKind) (txs : List Transaction)
    (hsync : pool.isSyncing = true) (hext : ∀ tx ∈ txs, tx.sender ≠ pool.coinbase) :
    (pool.AddExternalTxs pt st txType txs).2.executableTxs = pool.executableTxs ∧
    (pool.AddExternalTxs pt st txType txs).2.pendingTxs = pool.pendingTxs ∧
    (pool.AddExternalTxs pt st txType txs).2.all = pool.all ∧
    (pool.AddExternalTxs pt st txType txs).2.shortHashAll = pool.shortHashAll ∧
    (pool.AddExternalTxs pt st txType txs).2.isSyncing = true ∧
    (∀ t ∈ (pool.AddExternalTxs pt st txType txs).2.deferredTxs,
      t ∈ pool.deferredTxs ∨ t ∈ txs) ∧
    (st.ReadonlyErr = none →
      ∀ tx ∈ txs, tx.Hash ∈ (pool.AddExternalTxs pt st txType txs).2.knownDeferredTxs) := by
  unfold TxPool.AddExternalTxs
  cases st.ReadonlyErr with
  | some code =>
    exact ⟨rfl, rfl, rfl, rfl, hsync, fun t ht => Or.inl ht, fun h => by cases h⟩
  | none =>
    have h := externalLoop_syncing pt st txType txs.length txs pool hsync hext
    exact ⟨h.2.1, h.2.2.1, h.2.2.2.1, h.2.2.2.2.1, h.2.2.2.2.2.1, h.2.2.2.2.2.2.1,
      fun _ => h.2.2.2.2.2.2.2.1⟩

theorem AddExternalTxs_syncing_witness :
    guestSyncPool.isSyncing = true ∧
    (guestSyncPool.AddExternalTxs examplePriority exampleLedger TxKind.InboundTx
      [exampleTx 1]).2.all = guestSyncPool.all ∧
    (guestSyncPool.AddExternalTxs examplePriority exampleLedger TxKind.InboundTx
      [exampleTx 1]).2.deferredTxs = [exampleTx 1] :=
  ⟨by decide,
    (AddExternalTxs_syncing examplePriority exampleLedger guestSyncPool TxKind.InboundTx
      [exampleTx 1] (by decide) (by decide)).2.2.1, by decide⟩

/-- Counterexample to C19 as stated: the transaction with nonce 1 of sender 1
waits in the deferral queue; `StopSync` runs during the short session of a
validation ceremony, where `ResetTo` returns before re-validation, and the
read-only snapshot of the ledger cannot be opened.  `StopSync` returns, the
resubmission ends with the snapshot error before `add` is called, and the
transaction is not in the Global Index although `add` on the pool of that
moment returns no error for it. -/
theorem deferred_dropped_without_add :
    deferredPool.deferredTxs = [exampleTx 1] ∧
    (deferredPool.StopSync examplePriority stalledLedger [] []).fault = none ∧
    (deferredPool.StopSync examplePriority stalledLedger [] []).pool.all.Get
      (exampleTx 1).Hash = none ∧
    (deferredPool.StopSync examplePriority stalledLedger [] []).resubmitted.map
      (fun e => (e.tx, e.err)) = [(exampleTx 1, some (PoolError.stateUnavailable 1))] ∧
    (∀ e ∈ (deferredPool.StopSync examplePriority stalledLedger [] []).resubmitted,
      (e.before.add examplePriority stalledLedger e.tx false TxKind.MempoolTx).1 = none) := by
  decide

/-- C19 as the code has it: after `StopSync(block)` has returned the pool is
not syncing, the deferral queue is empty and the seen-set is empty, and every
transaction that was in the deferral queue when `StopSync` was called has been
resubmitted once, in the order of the queue, and is either in the Global Index
or its resubmission returned an error.  That error is the error of `add` on
the pool of that moment when the read-only snapshot of the ledger can be
opened; when it cannot, the resubmission ends with the snapshot error and
`add` is not called.  The Global Index has no cap, as in every pool made by
`NewTxPool`. -/
theorem StopSync_spec (pt : PriorityTable) (st : Ledger) (pool : TxPool)
    (block : List Transaction) (keeperTxs : List Transaction)
    (hcap : pool.all.maxTxs ≤ 0)
    (hret : (pool.StopSync pt st block keeperTxs).fault = none) :
    (pool.StopSync pt st block keeperTxs).pool.isSyncing = false ∧
    (pool.StopSync pt st block keeperTxs).pool.deferredTxs = [] ∧
    (pool.StopSync pt st block keeperTxs).pool.knownDeferredTxs = [] ∧
    (pool.StopSync pt st block keeperTxs).resubmitted.map (fun e => e.tx) = pool.deferredTxs ∧
    ∀ e ∈ (pool.StopSync pt st block keeperTxs).resubmitted,
      (((pool.StopSync pt st block keeperTxs).pool.all.Get e.tx.Hash).isSome = true ∨
        e.err ≠ none) ∧
      (st.ReadonlyErr = none →
        e.err = (e.before.add pt st e.tx
          (e.tx.highPriority || decide (e.tx.sender = e.before.coinbase))
          (if e.tx.highPriority then TxKind.InboundTx else TxKind.MempoolTx)).1) ∧
      (∀ code, st.ReadonlyErr = some code →
        e.err = some (PoolError.stateUnavailable code)) :=
  StopSync_drained pt st pool block keeperTxs hcap hret

theorem StopSync_spec_witness :
    deferredPool.all.maxTxs ≤ 0 ∧
    (deferredPool.StopSync examplePriority exampleLedger [] []).fault = none ∧
    (deferredPool.StopSync examplePriority exampleLedger [] []).pool.deferredTxs = [] ∧
    ((deferredPool.StopSync examplePriority exampleLedger [] []).pool.all.Get
      (exampleTx 1).Hash).isSome = true :=
  ⟨by decide, by decide,
    (StopSync_spec examplePriority exampleLedger deferredPool [] [] (by decide)
      (by decide)).2.1, by decide⟩

theorem senderPool_executable (cfg : MempoolCfg) (s : Nat) (E P A : List Transaction) :
    (senderPool cfg s E P A).executableOrNew s =
      { txs := E, maxTxs := cfg.TxPoolAddrExecutableLimit } := by
  unfold TxPool.executableOrNew senderPool
  by_cases h : E = []
  · subst h; simp [mapGet, newSortedTxs, NewTxPool]
  · simp [h, mapGet]

theorem senderPool_execGet (cfg : MempoolCfg) (s : Nat) (E P A : List Transaction) :
    mapGet (senderPool cfg s E P A).executableTxs s =
      if E = [] then none else some { txs := E, maxTxs := cfg.TxPoolAddrExecutableLimit } := by
  unfold senderPool
  by_cases h : E = []
  · subst h; simp [mapGet]
  · simp [h, mapGet]

theorem senderPool_pendGet (cfg : MempoolCfg) (s : Nat) (E P A : List Transaction) :
    mapGet (senderPool cfg s E P A).pendingTxs s =
      if P = [] then none
      else some { txs := P.map entryOf, maxTxs := cfg.TxPoolAddrQueueLimit } := by
  unfold senderPool
  by_cases h : P = []
  · subst h; simp [mapGet]
  · simp [h, mapGet]

theorem senderPool_pendLen (cfg : MempoolCfg) (s : Nat) (E P A : List Transaction) :
    (senderPool cfg s E P A).pendingTxs.length ≤ 1 := by
  unfold senderPool
  by_cases h : P = []
  · subst h; simp
  · simp [h]

theorem senderPool_execSet (cfg : MempoolCfg) (s : Nat) (E P A E1 : List Transaction)
    (h1 : E1 ≠ []) :
    mapSet (senderPool cfg s E P A).executableTxs s
        { txs := E1, maxTxs := cfg.TxPoolAddrExecutableLimit } =
      (senderPool cfg s E1 P A).executableTxs := by
  unfold senderPool
  by_cases h : E = []
  · subst h; simp [mapSet, h1]
  · simp [h, mapSet, h1]

theorem senderPool_pendSet (cfg : MempoolCfg) (s : Nat) (E P A P1 : List Transaction)
    (h1 : P1 ≠ []) :
    mapSet (senderPool cfg s E P A).pendingTxs s
        { txs := P1.map entryOf, maxTxs := cfg.TxPoolAddrQueueLimit } =
      (senderPool cfg s E P1 A).pendingTxs := by
  unfold senderPool
  by_cases h : P = []
  · subst h; simp [mapSet, h1]
  · simp [h, mapSet, h1]

theorem mapGet_entries_none (l : List Transaction) (h : Hash)
    (hnew : ∀ a ∈ l, a.Hash ≠ h) : mapGet (l.map entryOf) h = none := by
  rw [mapGet_none_iff]
  intro hmem
  simp only [List.map_map, List.mem_map, Function.comp] at hmem
  obtain ⟨a, ha, hh⟩ := hmem
  exact hnew a ha hh

theorem mapSet_entries (l : List Transaction) (tx : Transaction)
    (hnew : ∀ a ∈ l, a.Hash ≠ tx.Hash) :
    mapSet (l.map entryOf) tx.Hash tx = (l ++ [tx]).map entryOf := by
  rw [mapSet_absent _ _ _ (mapGet_entries_none l tx.Hash hnew)]
  simp [entryOf]

theorem priorityKey_none (pt : PriorityTable) (t : Nat) (h : pt t = none) :
    priorityKey pt t = false := by
  unfold priorityKey; rw [h]; rfl

theorem priorityVal_none (pt : PriorityTable) (t : Nat) (h : pt t = none) :
    priorityVal pt t = false := by
  unfold priorityVal; rw [h]; rfl

theorem sortedTxs_Add_route (pt : PriorityTable) (st : Ledger) (cfg : MempoolCfg)
    (E : List Transaction) (tx : Transaction) (hreg : pt tx.TxType = none) :
    (execRoute st cfg E tx →
      (E = [] → tx.Epoch = st.Epoch ∧
        tx.AccountNonce = nonceSucc (committedNonce st tx.sender)) ∧
      sortedTxs.Add pt { txs := E, maxTxs := cfg.TxPoolAddrExecutableLimit } tx =
        (none, { txs := E ++ [tx], maxTxs := cfg.TxPoolAddrExecutableLimit })) ∧
    (¬ execRoute st cfg E tx →
      (E = [] ∧ ¬ (tx.Epoch = st.Epoch ∧
        tx.AccountNonce = nonceSucc (committedNonce st tx.sender))) ∨
      (sortedTxs.Add pt { txs := E, maxTxs := cfg.TxPoolAddrExecutableLimit } tx).1 ≠ none) := by
  have hkey := priorityKey_none pt tx.TxType hreg
  unfold execRoute sortedTxs.Add sortedTxs.Full
  rw [hkey]
  cases hlast : E.getLast? with
  | none =>
    have hE : E = [] := List.getLast?_eq_none_iff.1 hlast
    subst hE
    constructor
    · rintro ⟨h1, h2⟩
      refine ⟨fun _ => h2, ?_⟩
      simp only [List.length_nil, Nat.cast_zero, ge_iff_le] at h1
      simp [h1]
    · intro h
      simp only [List.length_nil, Nat.cast_zero, ge_iff_le, not_and, not_not] at h
      by_cases hfull : cfg.TxPoolAddrExecutableLimit > 0 ∧ (0:Int) ≥ cfg.TxPoolAddrExecutableLimit
      · omega
      · left
        refine ⟨rfl, fun h2 => ?_⟩
        have := h (fun h3 h4 => hfull ⟨h3, h4⟩)
        exact this h2.1 h2.2
  | some last =>
    have hE : E ≠ [] := by
      intro h; subst h; simp at hlast
    constructor
    · rintro ⟨h1, h2⟩
      refine ⟨fun h => absurd h hE, ?_⟩
      have h3 : ¬ (tx.AccountNonce ≠ nonceSucc last.AccountNonce ∨ tx.Epoch ≠ last.Epoch) := by
        intro h; rcases h with h | h
        · exact h h2.1
        · exact h h2.2
      have h4 : (decide (cfg.TxPoolAddrExecutableLimit > 0) &&
          decide ((E.length : Int) ≥ cfg.TxPoolAddrExecutableLimit)) = false := by
        rw [Bool.and_eq_false_iff]
        by_cases h5 : cfg.TxPoolAddrExecutableLimit > 0
        · right; simp only [decide_eq_false_iff_not]; exact fun h6 => h1 ⟨h5, h6⟩
        · left; simp only [decide_eq_false_iff_not]; exact h5
      simp only [h4, Bool.not_false, Bool.and_false, Bool.false_eq_true, if_false, if_neg h3]
    · intro h
      right
      by_cases h4 : (decide (cfg.TxPoolAddrExecutableLimit > 0) &&
          decide ((E.length : Int) ≥ cfg.TxPoolAddrExecutableLimit)) = true
      · simp [h4]
      · have h5 : ¬ (cfg.TxPoolAddrExecutableLimit > 0 ∧
            (E.length : Int) ≥ cfg.TxPoolAddrExecutableLimit) := by
          intro h6; apply h4; simp [h6.1, h6.2]
        have h6 : tx.AccountNonce ≠ nonceSucc last.AccountNonce ∨ tx.Epoch ≠ last.Epoch := by
          by_contra h7
          push_neg at h7
          exact h ⟨h5, h7⟩
        simp only [Bool.not_eq_true] at h4
        simp only [h4, Bool.not_false, Bool.and_false, Bool.false_eq_true, if_false, if_pos h6]
        simp

theorem place_senderPool_exec (pt : PriorityTable) (st : Ledger) (cfg : MempoolCfg) (s : Nat)
    (E P A : List Transaction) (tx : Transaction) (hs : tx.sender = s)
    (hreg : pt tx.TxType = none) (hroute : execRoute st cfg E tx) :
    (senderPool cfg s E P A).place pt st tx =
      (none, { senderPool cfg s E P A with
        executableTxs := (senderPool cfg s (E ++ [tx]) P A).executableTxs }) := by
  have h := (sortedTxs_Add_route pt st cfg E tx hreg).1 hroute
  unfold TxPool.place TxPool.isExecutable
  rw [hs, senderPool_executable, h.2]
  have hex : (if sortedTxs.Empty { txs := E, maxTxs := cfg.TxPoolAddrExecutableLimit } = true then
      !(decide (tx.Epoch ≠ st.Epoch) ||
        decide (tx.AccountNonce ≠ nonceSucc (committedNonce st s))) else true) = true := by
    by_cases hE : E = []
    · have h1 := h.1 hE
      rw [hs] at h1
      subst hE
      simp [sortedTxs.Empty, h1.1, h1.2]
    · have : sortedTxs.Empty { txs := E, maxTxs := cfg.TxPoolAddrExecutableLimit } = false := by
        simp [sortedTxs.Empty, hE]
      rw [this]
      simp
  rw [if_pos hex]
  dsimp only
  rw [senderPool_execSet cfg s E P A (E ++ [tx]) (by simp)]

theorem place_senderPool_pend (pt : PriorityTable) (st : Ledger) (cfg : MempoolCfg) (s : Nat)
    (E P A : List Transaction) (tx : Transaction) (hs : tx.sender = s)
    (hreg : pt tx.TxType = none) (hroute : ¬ execRoute st cfg E tx) :
    (senderPool cfg s E P A).place pt st tx = (senderPool cfg s E P A).putToPending pt tx := by
  have h := (sortedTxs_Add_route pt st cfg E tx hreg).2 hroute
  unfold TxPool.place TxPool.isExecutable
  rw [hs, senderPool_executable]
  rcases h with ⟨hE, h1⟩ | h1
  · rw [hs] at h1
    subst hE
    have hex : (if sortedTxs.Empty { txs := [], maxTxs := cfg.TxPoolAddrExecutableLimit } = true
        then !(decide (tx.Epoch ≠ st.Epoch) ||
          decide (tx.AccountNonce ≠ nonceSucc (committedNonce st s))) else true) = false := by
      simp only [sortedTxs.Empty, List.length_nil, beq_self_eq_true, if_true]
      by_cases h2 : tx.Epoch = st.Epoch
      · have h3 : tx.AccountNonce ≠ nonceSucc (committedNonce st s) := fun h3 => h1 ⟨h2, h3⟩
        simp [h2, h3]
      · simp [h2]
    rw [hex]
    simp
  · cases hadd : sortedTxs.Add pt { txs := E, maxTxs := cfg.TxPoolAddrExecutableLimit } tx with
    | mk e q =>
      rw [hadd] at h1
      cases e with
      | none => exact absurd rfl h1
      | some e => split_ifs <;> rfl

theorem putToPending_senderPool (pt : PriorityTable) (cfg : MempoolCfg) (s : Nat)
    (E P A : List Transaction) (tx : Transaction) (hs : tx.sender = s)
    (hreg : pt tx.TxType = none) (hnewP : ∀ a ∈ P, a.Hash ≠ tx.Hash) :
    (¬ (cfg.TxPoolAddrQueueLimit > 0 ∧ (P.length : Int) ≥ cfg.TxPoolAddrQueueLimit) →
      (senderPool cfg s E P A).putToPending pt tx =
        (none, { senderPool cfg s E P A with
          pendingTxs := (senderPool cfg s E (P ++ [tx]) A).pendingTxs })) ∧
    ((cfg.TxPoolAddrQueueLimit > 0 ∧ (P.length : Int) ≥ cfg.TxPoolAddrQueueLimit) →
      (senderPool cfg s E P A).putToPending pt tx =
        (some PoolError.setIsFullErr, senderPool cfg s E P A)) := by
  have hkey := priorityKey_none pt tx.TxType hreg
  have hcfg : (senderPool cfg s E P A).mempoolCfg = cfg := rfl
  unfold TxPool.putToPending
  rw [hs, senderPool_pendGet, hcfg]
  by_cases hP : P = []
  · subst hP
    have hlen : (senderPool cfg s E [] A).pendingTxs.length = 0 := by simp [senderPool]
    have hslots : ¬ (cfg.TxPoolQueueSlots > 0 ∧
        (((senderPool cfg s E [] A).pendingTxs.length : Nat) : Int) ≥ cfg.TxPoolQueueSlots) := by
      rw [hlen]; intro h; have := h.1; have := h.2; simp at *; omega
    simp only [if_true]
    rw [if_neg hslots]
    have hfull : ¬ (cfg.TxPoolAddrQueueLimit > 0 ∧ ((0 : Nat) : Int) ≥ cfg.TxPoolAddrQueueLimit) := by
      intro h; have := h.1; have := h.2; simp at *; omega
    constructor
    · intro _
      have hadd : txMap.Add pt (newTxMap cfg.TxPoolAddrQueueLimit) tx =
          (none, { txs := [tx].map entryOf, maxTxs := cfg.TxPoolAddrQueueLimit }) := by
        unfold txMap.Add txMap.Full newTxMap
        rw [hkey]
        have : (decide (cfg.TxPoolAddrQueueLimit > 0) &&
            decide ((([] : List (Hash × Transaction)).length : Int) ≥
              cfg.TxPoolAddrQueueLimit)) = false := by
          rw [Bool.and_eq_false_iff]
          by_cases h5 : cfg.TxPoolAddrQueueLimit > 0
          · right; simp only [decide_eq_false_iff_not, List.length_nil]
            exact fun h6 => hfull ⟨h5, h6⟩
          · left; simp only [decide_eq_false_iff_not]; exact h5
        rw [this]
        simp [mapSet, entryOf]
      rw [hadd]
      dsimp only
      rw [senderPool_pendSet cfg s E [] A [tx] (by simp)]
      rfl
    · intro h
      exact absurd h (by simp at hfull ⊢)
  · rw [if_neg hP]
    dsimp only
    unfold txMap.Add txMap.Full
    rw [hkey]
    dsimp only
    rw [List.length_map]
    constructor
    · intro hfull
      have : (decide (cfg.TxPoolAddrQueueLimit > 0) &&
          decide ((P.length : Int) ≥ cfg.TxPoolAddrQueueLimit)) = false := by
        rw [Bool.and_eq_false_iff]
        by_cases h5 : cfg.TxPoolAddrQueueLimit > 0
        · right; simp only [decide_eq_false_iff_not]
          exact fun h6 => hfull ⟨h5, h6⟩
        · left; simp only [decide_eq_false_iff_not]; exact h5
      rw [this]
      simp only [Bool.not_false, Bool.and_false, Bool.false_eq_true, if_false]
      rw [mapSet_entries P tx hnewP, senderPool_pendSet cfg s E P A (P ++ [tx]) (by simp)]
      rfl
    · intro hfull
      have : (decide (cfg.TxPoolAddrQueueLimit > 0) &&
          decide ((P.length : Int) ≥ cfg.TxPoolAddrQueueLimit)) = true := by
        simp [hfull.1, hfull.2]
      rw [this]
      simp

theorem senderPool_index (pt : PriorityTable) (cfg : MempoolCfg) (s : Nat)
    (E P A : List Transaction) (tx : Transaction) (hnewA : ∀ a ∈ A, a.Hash ≠ tx.Hash)
    (queues : TxPool) (hall : queues.all = (senderPool cfg s E P A).all)
    (hshort : queues.shortHashAll = (senderPool cfg s E P A).shortHashAll) :
    (queues.all.Add pt tx).2 = (senderPool cfg s E P (A ++ [tx])).all ∧
    mapSet queues.shortHashAll tx.Hash128 tx = (senderPool cfg s E P (A ++ [tx])).shortHashAll := by
  rw [hall, hshort]
  constructor
  · rw [all_Add_txs pt _ tx (by simp [senderPool])]
    show ({ txs := mapSet (A.map entryOf) tx.Hash tx, maxTxs := -1 } : txMap) = _
    rw [mapSet_entries A tx hnewA]
    rfl
  · show mapSet (A.map entryOf) tx.Hash tx = _
    rw [mapSet_entries A tx hnewA]
    rfl

theorem put_senderPool (pt : PriorityTable) (st : Ledger) (cfg : MempoolCfg) (s : Nat)
    (E P A : List Transaction) (tx : Transaction) (hs : tx.sender = s)
    (hreg : pt tx.TxType = none) (hnewA : ∀ a ∈ A, a.Hash ≠ tx.Hash)
    (hnewP : ∀ a ∈ P, a.Hash ≠ tx.Hash) :
    (execRoute st cfg E tx →
      (senderPool cfg s E P A).put pt st tx =
        (none, senderPool cfg s (E ++ [tx]) P (A ++ [tx]))) ∧
    (¬ execRoute st cfg E tx →
      ¬ (cfg.TxPoolAddrQueueLimit > 0 ∧ (P.length : Int) ≥ cfg.TxPoolAddrQueueLimit) →
      (senderPool cfg s E P A).put pt st tx =
        (none, senderPool cfg s E (P ++ [tx]) (A ++ [tx]))) ∧
    (¬ execRoute st cfg E tx →
      (cfg.TxPoolAddrQueueLimit > 0 ∧ (P.length : Int) ≥ cfg.TxPoolAddrQueueLimit) →
      (senderPool cfg s E P A).put pt st tx =
        (some PoolError.setIsFullErr, senderPool cfg s E P A)) := by
  refine ⟨fun hroute => ?_, fun hroute hroom => ?_, fun hroute hfull => ?_⟩
  · unfold TxPool.put
    rw [place_senderPool_exec pt st cfg s E P A tx hs hreg hroute]
    dsimp only
    have h := senderPool_index pt cfg s E P A tx hnewA (senderPool cfg s E P A) rfl rfl
    rw [h.1, h.2]
    rfl
  · unfold TxPool.put
    rw [place_senderPool_pend pt st cfg s E P A tx hs hreg hroute,
      (putToPending_senderPool pt cfg s E P A tx hs hreg hnewP).1 hroom]
    dsimp only
    have h := senderPool_index pt cfg s E P A tx hnewA (senderPool cfg s E P A) rfl rfl
    rw [h.1, h.2]
    rfl
  · unfold TxPool.put
    rw [place_senderPool_pend pt st cfg s E P A tx hs hreg hroute,
      (putToPending_senderPool pt cfg s E P A tx hs hreg hnewP).2 hfull]

theorem execRoute_stored (st : Ledger) (cfg : MempoolCfg) (E : List Transaction)
    (tx : Transaction) : execRoute st cfg E (storedTx st tx) ↔ execRoute st cfg E tx := by
  unfold execRoute storedTx
  cases E.getLast? <;> exact Iff.rfl

theorem storedTx_hash (st : Ledger) (tx : Transaction) : (storedTx st tx).Hash = tx.Hash := rfl

/-- What `add` does with a transaction that is not of a priority type, is
not in the index and is accepted by the validator, on a pool with a single
sender. -/
theorem add_senderPool (pt : PriorityTable) (st : Ledger) (cfg : MempoolCfg) (s : Nat)
    (E P A : List Transaction) (tx : Transaction) (own : Bool) (txType : TxKind)
    (hs : tx.sender = s) (hreg : pt tx.TxType = none)
    (hnewA : ∀ a ∈ A, a.Hash ≠ tx.Hash) (hnewP : ∀ a ∈ P, a.Hash ≠ tx.Hash)
    (hvalid : st.ValidateTx tx txType = ValidateOutcome.ok) :
    (¬ (totalLimit cfg > 0 ∧ (A.length : Int) ≥ totalLimit cfg) →
      execRoute st cfg E tx →
      (senderPool cfg s E P A).add pt st tx own txType =
        (none, senderPool cfg s (E ++ [storedTx st tx]) P (A ++ [storedTx st tx]))) ∧
    (¬ (totalLimit cfg > 0 ∧ (A.length : Int) ≥ totalLimit cfg) →
      ¬ execRoute st cfg E tx →
      ¬ (cfg.TxPoolAddrQueueLimit > 0 ∧ (P.length : Int) ≥ cfg.TxPoolAddrQueueLimit) →
      (cfg.TxPoolQueueSlots ≤ 0 ∨ 2 ≤ cfg.TxPoolQueueSlots ∨
        ¬ (cfg.TxPoolAddrExecutableLimit > 0 ∧
          (E.length : Int) ≥ cfg.TxPoolAddrExecutableLimit)) →
      (senderPool cfg s E P A).add pt st tx own txType =
        (none, senderPool cfg s E (P ++ [storedTx st tx]) (A ++ [storedTx st tx]))) ∧
    (((senderPool cfg s E P A).add pt st tx own txType).1 = none →
      ((senderPool cfg s E P A).add pt st tx own txType).2 =
        if execRoute st cfg E tx then
          senderPool cfg s (E ++ [storedTx st tx]) P (A ++ [storedTx st tx])
        else senderPool cfg s E (P ++ [storedTx st tx]) (A ++ [storedTx st tx])) := by
  have hval := priorityVal_none pt tx.TxType hreg
  have hdup : ((senderPool cfg s E P A).all.Get tx.Hash).isSome = false := by
    show (mapGet (A.map entryOf) tx.Hash).isSome = false
    rw [mapGet_entries_none A tx.Hash hnewA]
    rfl
  have hput := put_senderPool pt st cfg s E P A (storedTx st tx) hs hreg hnewA hnewP
  rw [execRoute_stored] at hput
  have hadd : (senderPool cfg s E P A).add pt st tx own txType =
      match (senderPool cfg s E P A).checkRegularTxLimits tx with
      | some e => (some e, senderPool cfg s E P A)
      | none => (senderPool cfg s E P A).put pt st (storedTx st tx) := by
    unfold TxPool.add TxPool.checkLimits
    rw [hdup, hval]
    simp only [Bool.false_eq_true, if_false]
    cases (senderPool cfg s E P A).checkRegularTxLimits tx with
    | some e => rfl
    | none =>
      dsimp only
      rw [hvalid]
      rfl
  have hcheck : (senderPool cfg s E P A).checkRegularTxLimits tx =
      if totalLimit cfg > 0 ∧ (A.length : Int) ≥ totalLimit cfg then
        some PoolError.queueMaxSizeReached
      else if cfg.TxPoolAddrExecutableLimit > 0 ∧
          (E.length : Int) ≥ cfg.TxPoolAddrExecutableLimit then
        if (P ≠ [] ∧ cfg.TxPoolAddrQueueLimit > 0 ∧
            (P.length : Int) ≥ cfg.TxPoolAddrQueueLimit) then some PoolError.MempoolFullError
        else if cfg.TxPoolQueueSlots > 0 ∧
            (((senderPool cfg s E P A).pendingTxs.length : Nat) : Int) ≥ cfg.TxPoolQueueSlots then
          some PoolError.MempoolFullError
        else none
      else none := by
    unfold TxPool.checkRegularTxLimits
    rw [hs, senderPool_execGet, senderPool_pendGet]
    have hlen : (senderPool cfg s E P A).all.txs.length = A.length := by
      show (A.map entryOf).length = A.length
      simp
    have hcfg : (senderPool cfg s E P A).mempoolCfg = cfg := rfl
    rw [hlen, hcfg]
    by_cases htot : totalLimit cfg > 0 ∧ (A.length : Int) ≥ totalLimit cfg
    · rw [if_pos htot, if_pos htot]
    · rw [if_neg htot, if_neg htot]
      by_cases hE : E = []
      · subst hE
        have : ¬ (cfg.TxPoolAddrExecutableLimit > 0 ∧
            ((([] : List Transaction).length : Nat) : Int) ≥ cfg.TxPoolAddrExecutableLimit) := by
          simp
        rw [if_neg this]
        simp
      · rw [if_neg hE]
        dsimp only
        unfold sortedTxs.Full
        dsimp only
        by_cases hfull : cfg.TxPoolAddrExecutableLimit > 0 ∧
            (E.length : Int) ≥ cfg.TxPoolAddrExecutableLimit
        · rw [if_pos hfull]
          have : (decide (cfg.TxPoolAddrExecutableLimit > 0) &&
              decide ((E.length : Int) ≥ cfg.TxPoolAddrExecutableLimit)) = true := by
            simp [hfull.1, hfull.2]
          rw [this]
          simp only [if_true]
          by_cases hP : P = []
          · subst hP
            simp
          · simp [hP, txMap.Full]
        · rw [if_neg hfull]
          have : (decide (cfg.TxPoolAddrExecutableLimit > 0) &&
              decide ((E.length : Int) ≥ cfg.TxPoolAddrExecutableLimit)) = false := by
            rw [Bool.and_eq_false_iff]
            by_cases h5 : cfg.TxPoolAddrExecutableLimit > 0
            · right; simp only [decide_eq_false_iff_not]
              exact fun h6 => hfull ⟨h5, h6⟩
            · left; simp only [decide_eq_false_iff_not]; exact h5
          rw [this]
          simp
  refine ⟨fun htot hroute => ?_, fun htot hroute hroom hslots => ?_, fun hok => ?_⟩
  · have hnotfull := hroute.1
    rw [hadd, hcheck, if_neg htot, if_neg hnotfull]
    exact hput.1 hroute
  · rw [hadd, hcheck, if_neg htot]
    have hlen := senderPool_pendLen cfg s E P A
    have h1 : ¬ (P ≠ [] ∧ cfg.TxPoolAddrQueueLimit > 0 ∧
        (P.length : Int) ≥ cfg.TxPoolAddrQueueLimit) := fun h => hroom h.2
    by_cases hfull : cfg.TxPoolAddrExecutableLimit > 0 ∧
        (E.length : Int) ≥ cfg.TxPoolAddrExecutableLimit
    · have h2 : ¬ (cfg.TxPoolQueueSlots > 0 ∧
          (((senderPool cfg s E P A).pendingTxs.length : Nat) : Int) ≥ cfg.TxPoolQueueSlots) := by
        intro h
        rcases hslots with h3 | h3 | h3
        · omega
        · omega
        · exact h3 hfull
      rw [if_pos hfull, if_neg h1, if_neg h2]
      exact hput.2.1 hroute hroom
    · rw [if_neg hfull]
      exact hput.2.1 hroute hroom
  · rw [hadd] at hok ⊢
    cases hc : (senderPool cfg s E P A).checkRegularTxLimits tx with
    | some e => rw [hc] at hok; simp at hok
    | none =>
      rw [hc] at hok
      dsimp only at hok ⊢
      by_cases hroute : execRoute st cfg E tx
      · rw [if_pos hroute, hput.1 hroute]
      · rw [if_neg hroute]
        by_cases hroom : cfg.TxPoolAddrQueueLimit > 0 ∧
            (P.length : Int) ≥ cfg.TxPoolAddrQueueLimit
        · rw [hput.2.2 hroute hroom] at hok
          simp at hok
        · rw [hput.2.1 hroute hroom]

theorem nonceSucc_eq_iff (a n : Nat) (ha : a < 2 ^ 32) (hn0 : 0 < n) (hn : n < 2 ^ 32) :
    n = nonceSucc a ↔ n = a + 1 := by
  unfold nonceSucc
  by_cases h : a + 1 < 2 ^ 32
  · rw [Nat.mod_eq_of_lt h]
  · have h1 : a + 1 = 2 ^ 32 := by omega
    rw [h1, Nat.mod_self]
    omega

theorem getLast?_map_range' (f : Nat → Transaction) (a k : Nat) (hk : 0 < k) :
    ((List.range' a k).map f).getLast? = some (f (a + k - 1)) := by
  obtain ⟨j, rfl⟩ : ∃ j, k = j + 1 := ⟨k - 1, by omega⟩
  rw [List.range'_concat, List.map_append, List.map_singleton, List.getLast?_append]
  simp

theorem execRoute_range (pt : PriorityTable) (st : Ledger) (cfg : MempoolCfg) (s : Nat)
    (txType : TxKind) (txOf : Nat → Transaction) (c N : Nat)
    (hsc : SenderScenario pt st s txType txOf c N) (hc : committedNonce st s = c)
    (k n : Nat) (hk : k ≤ N) (hn0 : c < n) (hn : n ≤ c + N) :
    execRoute st cfg ((List.range' (c + 1) k).map (fun i => storedTx st (txOf i))) (txOf n) ↔
      (n = c + k + 1 ∧ ¬ (cfg.TxPoolAddrExecutableLimit > 0 ∧
        (k : Int) ≥ cfg.TxPoolAddrExecutableLimit)) := by
  have hb := hsc.bound
  unfold execRoute
  rw [List.length_map, List.length_range']
  by_cases hk0 : k = 0
  · subst hk0
    simp only [List.range'_zero, List.map_nil, List.getLast?_nil]
    rw [hsc.sender n hn0 hn, hc, hsc.nonce n hn0 hn, hsc.epoch n hn0 hn,
      nonceSucc_eq_iff c n (by omega) (by omega) (by omega)]
    constructor
    · rintro ⟨h1, _, h2⟩; exact ⟨by omega, h1⟩
    · rintro ⟨h1, h2⟩; exact ⟨h2, rfl, by omega⟩
  · rw [getLast?_map_range' _ _ _ (by omega)]
    dsimp only
    have hlast : c + 1 + k - 1 = c + k := by omega
    rw [hlast]
    have h1 : (storedTx st (txOf (c + k))).AccountNonce = c + k :=
      hsc.nonce (c + k) (by omega) (by omega)
    have h2 : (storedTx st (txOf (c + k))).Epoch = st.Epoch :=
      hsc.epoch (c + k) (by omega) (by omega)
    rw [h1, h2, hsc.nonce n hn0 hn, hsc.epoch n hn0 hn,
      nonceSucc_eq_iff (c + k) n (by omega) (by omega) (by omega)]
    constructor
    · rintro ⟨h1, h2, _⟩; exact ⟨h2, h1⟩
    · rintro ⟨h1, h2⟩; exact ⟨h2, h1, rfl⟩

theorem txOf_hash_ne (pt : PriorityTable) (st : Ledger) (s : Nat) (txType : TxKind)
    (txOf : Nat → Transaction) (c N : Nat) (hsc : SenderScenario pt st s txType txOf c N)
    (a n : Nat) (ha0 : c < a) (ha : a ≤ c + N) (hn0 : c < n) (hn : n ≤ c + N) (hne : a ≠ n) :
    (storedTx st (txOf a)).Hash ≠ (storedTx st (txOf n)).Hash := by
  intro h
  have h1 := hash_nonce h
  have h2 : (storedTx st (txOf a)).AccountNonce = a := hsc.nonce a ha0 ha
  have h3 : (storedTx st (txOf n)).AccountNonce = n := hsc.nonce n hn0 hn
  omega

/-- One arrival on the pool of a scenario. -/
theorem add_arrival (pt : PriorityTable) (st : Ledger) (cfg : MempoolCfg) (s : Nat)
    (txType : TxKind) (txOf : Nat → Transaction) (c N : Nat)
    (hsc : SenderScenario pt st s txType txOf c N) (hc : committedNonce st s = c)
    (k : Nat) (Pn ar : List Nat) (n : Nat) (own : Bool)
    (hk : k ≤ N) (hn0 : c < n) (hn : n ≤ c + N)
    (har : ∀ a ∈ ar, c < a ∧ a ≤ c + N) (hnew : n ∉ ar) (hP : ∀ p ∈ Pn, p ∈ ar) :
    (((senderPool cfg s ((List.range' (c + 1) k).map (fun i => storedTx st (txOf i)))
        (Pn.map (fun i => storedTx st (txOf i)))
        (ar.map (fun i => storedTx st (txOf i)))).add pt st (txOf n) own txType).1 = none →
      ((senderPool cfg s ((List.range' (c + 1) k).map (fun i => storedTx st (txOf i)))
        (Pn.map (fun i => storedTx st (txOf i)))
        (ar.map (fun i => storedTx st (txOf i)))).add pt st (txOf n) own txType).2 =
      senderPool cfg s
        ((List.range' (c + 1) (arrive cfg.TxPoolAddrExecutableLimit c (k, Pn) n).1).map
          (fun i => storedTx st (txOf i)))
        ((arrive cfg.TxPoolAddrExecutableLimit c (k, Pn) n).2.map
          (fun i => storedTx st (txOf i)))
        ((ar ++ [n]).map (fun i => storedTx st (txOf i)))) ∧
    (¬ (totalLimit cfg > 0 ∧ (ar.length : Int) ≥ totalLimit cfg) →
      ¬ (cfg.TxPoolAddrQueueLimit > 0 ∧
        ((arrive cfg.TxPoolAddrExecutableLimit c (k, Pn) n).2.length : Int) >
          cfg.TxPoolAddrQueueLimit) →
      (cfg.TxPoolQueueSlots ≤ 0 ∨ 2 ≤ cfg.TxPoolQueueSlots ∨
        ¬ (cfg.TxPoolAddrExecutableLimit > 0 ∧ (k : Int) ≥ cfg.TxPoolAddrExecutableLimit)) →
      ((senderPool cfg s ((List.range' (c + 1) k).map (fun i => storedTx st (txOf i)))
        (Pn.map (fun i => storedTx st (txOf i)))
        (ar.map (fun i => storedTx st (txOf i)))).add pt st (txOf n) own txType).1 = none) := by
  have hnewA : ∀ a ∈ ar.map (fun i => storedTx st (txOf i)), a.Hash ≠ (txOf n).Hash := by
    intro a ha
    obtain ⟨i, hi, rfl⟩ := List.mem_map.1 ha
    exact txOf_hash_ne pt st s txType txOf c N hsc i n (har i hi).1 (har i hi).2 hn0 hn
      (fun h => hnew (h ▸ hi))
  have hnewP : ∀ a ∈ Pn.map (fun i => storedTx st (txOf i)), a.Hash ≠ (txOf n).Hash := by
    intro a ha
    obtain ⟨i, hi, rfl⟩ := List.mem_map.1 ha
    exact hnewA _ (List.mem_map.2 ⟨i, hP i hi, rfl⟩)
  have hadd := add_senderPool pt st cfg s
    ((List.range' (c + 1) k).map (fun i => storedTx st (txOf i)))
    (Pn.map (fun i => storedTx st (txOf i))) (ar.map (fun i => storedTx st (txOf i)))
    (txOf n) own txType (hsc.sender n hn0 hn) (hsc.regular n hn0 hn) hnewA hnewP
    (hsc.valid n hn0 hn)
  have hroute := execRoute_range pt st cfg s txType txOf c N hsc hc k n hk hn0 hn
  have hlen : ((List.range' (c + 1) k).map (fun i => storedTx st (txOf i))).length = k := by
    simp
  have hexec : (List.range' (c + 1) k).map (fun i => storedTx st (txOf i)) ++
      [storedTx st (txOf (c + k + 1))] =
      (List.range' (c + 1) (k + 1)).map (fun i => storedTx st (txOf i)) := by
    rw [List.range'_concat, List.map_append]
    simp [Nat.add_assoc, Nat.add_comm, Nat.add_left_comm]
  constructor
  · intro hok
    rw [hadd.2.2 hok]
    unfold arrive
    by_cases hr : n = c + k + 1 ∧ ¬ (cfg.TxPoolAddrExecutableLimit > 0 ∧
        (k : Int) ≥ cfg.TxPoolAddrExecutableLimit)
    · rw [if_pos (hroute.2 hr), if_pos hr]
      dsimp only
      rw [hr.1, hexec]
      simp
    · rw [if_neg (fun h => hr (hroute.1 h)), if_neg hr]
      simp
  · intro htot hroom hslots
    rw [List.length_map] at hadd
    by_cases hr : n = c + k + 1 ∧ ¬ (cfg.TxPoolAddrExecutableLimit > 0 ∧
        (k : Int) ≥ cfg.TxPoolAddrExecutableLimit)
    · rw [hadd.1 htot (hroute.2 hr)]
    · have hroom2 : ¬ (cfg.TxPoolAddrQueueLimit > 0 ∧
          ((Pn.map (fun i => storedTx st (txOf i))).length : Int) ≥
            cfg.TxPoolAddrQueueLimit) := by
        unfold arrive at hroom
        rw [if_neg hr] at hroom
        simp only [List.length_append, List.length_singleton, List.length_map] at hroom ⊢
        intro h
        apply hroom
        refine ⟨h.1, ?_⟩
        push_cast
        omega
      rw [hlen] at hadd
      rw [hadd.2.1 htot (fun h => hr (hroute.1 h)) hroom2 hslots]

theorem arrive_held (limit : Int) (c : Nat) (q : Nat × List Nat) (n : Nat) :
    q.1 ≤ (arrive limit c q n).1 ∧ (arrive limit c q n).1 ≤ q.1 + 1 ∧
    ((arrive limit c q n).1 = q.1 + 1 → n = c + q.1 + 1) ∧
    q.2.length ≤ (arrive limit c q n).2.length ∧
    (∀ p ∈ (arrive limit c q n).2, p ∈ q.2 ∨ p = n) := by
  unfold arrive
  split_ifs with h
  · exact ⟨by simp, by simp, fun _ => h.1, le_refl _, fun p hp => Or.inl hp⟩
  · refine ⟨le_refl _, by simp, fun h1 => by simp at h1, by simp, fun p hp => ?_⟩
    rcases List.mem_append.1 hp with h1 | h1
    · exact Or.inl h1
    · exact Or.inr (List.mem_singleton.1 h1)

theorem arrivals_length (limit : Int) (c : Nat) (ns : List Nat) :
    ∀ q : Nat × List Nat, q.2.length ≤ (ns.foldl (arrive limit c) q).2.length := by
  induction ns with
  | nil => intro q; exact le_refl _
  | cons n rest ih =>
    intro q
    rw [List.foldl_cons]
    exact le_trans (arrive_held limit c q n).2.2.2.1 (ih _)

/-- The pool after the arrivals of a scenario, when none was rejected. -/
theorem submitAll_arrivals (pt : PriorityTable) (st : Ledger) (cfg : MempoolCfg) (s : Nat)
    (txType : TxKind) (txOf : Nat → Transaction) (c N : Nat)
    (hsc : SenderScenario pt st s txType txOf c N) (hc : committedNonce st s = c)
    (ns : List Nat) :
    ∀ (k : Nat) (Pn ar : List Nat), k ≤ N → (∀ a ∈ ar, c < a ∧ a ≤ c + N) →
      (∀ p ∈ Pn, p ∈ ar) → ns.Nodup → (∀ n ∈ ns, c < n ∧ n ≤ c + N ∧ n ∉ ar) →
      (∀ e ∈ (submitAll pt st txType (ns.map txOf)
        (senderPool cfg s ((List.range' (c + 1) k).map (fun i => storedTx st (txOf i)))
          (Pn.map (fun i => storedTx st (txOf i)))
          (ar.map (fun i => storedTx st (txOf i))))).1, e = none) →
      (submitAll pt st txType (ns.map txOf)
        (senderPool cfg s ((List.range' (c + 1) k).map (fun i => storedTx st (txOf i)))
          (Pn.map (fun i => storedTx st (txOf i)))
          (ar.map (fun i => storedTx st (txOf i))))).2 =
      senderPool cfg s
        ((List.range' (c + 1)
          (ns.foldl (arrive cfg.TxPoolAddrExecutableLimit c) (k, Pn)).1).map
            (fun i => storedTx st (txOf i)))
        ((ns.foldl (arrive cfg.TxPoolAddrExecutableLimit c) (k, Pn)).2.map
          (fun i => storedTx st (txOf i)))
        ((ar ++ ns).map (fun i => storedTx st (txOf i))) := by
  induction ns with
  | nil =>
    intro k Pn ar _ _ _ _ _ _
    simp [submitAll]
  | cons n rest ih =>
    intro k Pn ar hk har hP hnd hns hok
    have hn := hns n (List.mem_cons_self _ _)
    have hstep := (add_arrival pt st cfg s txType txOf c N hsc hc k Pn ar n false hk hn.1 hn.2.1
      har hn.2.2 hP).1
    rw [List.map_cons, submitAll] at hok ⊢
    dsimp only at hok ⊢
    have hok1 := hok _ (List.mem_cons_self _ _)
    have hnext := hstep hok1
    rw [hnext] at hok ⊢
    have hq := arrive_held cfg.TxPoolAddrExecutableLimit c (k, Pn) n
    have hk2 : (arrive cfg.TxPoolAddrExecutableLimit c (k, Pn) n).1 ≤ N := by
      rcases Nat.lt_or_ge (arrive cfg.TxPoolAddrExecutableLimit c (k, Pn) n).1 (k + 1) with h | h
      · exact le_trans (Nat.lt_succ_iff.1 h) hk
      · have h1 := hq.2.2.1 (le_antisymm hq.2.1 h)
        have h2 : (arrive cfg.TxPoolAddrExecutableLimit c (k, Pn) n).1 = k + 1 :=
          le_antisymm hq.2.1 h
        rw [h2]
        dsimp only at h1
        omega
    have h := ih (arrive cfg.TxPoolAddrExecutableLimit c (k, Pn) n).1
      (arrive cfg.TxPoolAddrExecutableLimit c (k, Pn) n).2 (ar ++ [n]) hk2
      (by
        intro a ha
        rcases List.mem_append.1 ha with h1 | h1
        · exact har a h1
        · rw [List.mem_singleton.1 h1]; exact ⟨hn.1, hn.2.1⟩)
      (by
        intro p hp
        rcases hq.2.2.2.2 p hp with h1 | h1
        · exact List.mem_append_left _ (hP p h1)
        · rw [h1]; simp)
      (List.nodup_cons.1 hnd).2
      (by
        intro m hm
        have h1 := hns m (List.mem_cons_of_mem _ hm)
        refine ⟨h1.1, h1.2.1, ?_⟩
        intro h2
        rcases List.mem_append.1 h2 with h3 | h3
        · exact h1.2.2 h3
        · rw [List.mem_singleton.1 h3] at hm
          exact (List.nodup_cons.1 hnd).1 hm)
      (fun e he => hok e (List.mem_cons_of_mem _ he))
    rw [h, List.foldl_cons, List.append_assoc, List.singleton_append]

/-- Every arrival of a scenario is admitted when the capacity limits leave
room for the transactions. -/
theorem submitAll_admitted (pt : PriorityTable) (st : Ledger) (cfg : MempoolCfg) (s : Nat)
    (txType : TxKind) (txOf : Nat → Transaction) (c N : Nat)
    (hsc : SenderScenario pt st s txType txOf c N) (hc : committedNonce st s = c)
    (hslots : cfg.TxPoolQueueSlots ≤ 0 ∨ 2 ≤ cfg.TxPoolQueueSlots)
    (ns : List Nat) :
    ∀ (k : Nat) (Pn ar : List Nat), k ≤ N → (∀ a ∈ ar, c < a ∧ a ≤ c + N) →
      (∀ p ∈ Pn, p ∈ ar) → ns.Nodup → (∀ n ∈ ns, c < n ∧ n ≤ c + N ∧ n ∉ ar) →
      (totalLimit cfg ≤ 0 ∨ ((ar.length + ns.length : Nat) : Int) ≤ totalLimit cfg) →
      ¬ (cfg.TxPoolAddrQueueLimit > 0 ∧
        (((ns.foldl (arrive cfg.TxPoolAddrExecutableLimit c) (k, Pn)).2.length : Nat) : Int) >
          cfg.TxPoolAddrQueueLimit) →
      ∀ e ∈ (submitAll pt st txType (ns.map txOf)
        (senderPool cfg s ((List.range' (c + 1) k).map (fun i => storedTx st (txOf i)))
          (Pn.map (fun i => storedTx st (txOf i)))
          (ar.map (fun i => storedTx st (txOf i))))).1, e = none := by
  induction ns with
  | nil =>
    intro k Pn ar _ _ _ _ _ _ _ e he
    simp [submitAll] at he
  | cons n rest ih =>
    intro k Pn ar hk har hP hnd hns htot hroom
    have hn := hns n (List.mem_cons_self _ _)
    have hstep := add_arrival pt st cfg s txType txOf c N hsc hc k Pn ar n false hk hn.1 hn.2.1
      har hn.2.2 hP
    have hq := arrive_held cfg.TxPoolAddrExecutableLimit c (k, Pn) n
    have hlenmono := arrivals_length cfg.TxPoolAddrExecutableLimit c rest
      (arrive cfg.TxPoolAddrExecutableLimit c (k, Pn) n)
    rw [List.foldl_cons] at hroom
    have hok1 := hstep.2
      (by
        intro h
        rcases htot with h1 | h1
        · omega
        · have hl : (n :: rest).length = rest.length + 1 := rfl
          rw [hl] at h1
          push_cast at h1
          omega)
      (by
        intro h
        apply hroom
        refine ⟨h.1, ?_⟩
        have := h.2
        have h3 : (((arrive cfg.TxPoolAddrExecutableLimit c (k, Pn) n).2.length : Nat) : Int) ≤
            (((rest.foldl (arrive cfg.TxPoolAddrExecutableLimit c)
              (arrive cfg.TxPoolAddrExecutableLimit c (k, Pn) n)).2.length : Nat) : Int) := by
          exact_mod_cast hlenmono
        omega)
      (by
        rcases hslots with h | h
        · exact Or.inl h
        · exact Or.inr (Or.inl h))
    have hnext := hstep.1 hok1
    rw [List.map_cons, submitAll]
    dsimp only
    intro e he
    rcases List.mem_cons.1 he with h1 | h1
    · rw [h1]; exact hok1
    · rw [hnext] at h1
      have hk2 : (arrive cfg.TxPoolAddrExecutableLimit c (k, Pn) n).1 ≤ N := by
        rcases Nat.lt_or_ge (arrive cfg.TxPoolAddrExecutableLimit c (k, Pn) n).1 (k + 1)
          with h | h
        · exact le_trans (Nat.lt_succ_iff.1 h) hk
        · have h1 := hq.2.2.1 (le_antisymm hq.2.1 h)
          have h2 : (arrive cfg.TxPoolAddrExecutableLimit c (k, Pn) n).1 = k + 1 :=
            le_antisymm hq.2.1 h
          rw [h2]
          dsimp only at h1
          omega
      exact ih (arrive cfg.TxPoolAddrExecutableLimit c (k, Pn) n).1
        (arrive cfg.TxPoolAddrExecutableLimit c (k, Pn) n).2 (ar ++ [n]) hk2
        (by
          intro a ha
          rcases List.mem_append.1 ha with h1 | h1
          · exact har a h1
          · rw [List.mem_singleton.1 h1]; exact ⟨hn.1, hn.2.1⟩)
        (by
          intro p hp
          rcases hq.2.2.2.2 p hp with h1 | h1
          · exact List.mem_append_left _ (hP p h1)
          · rw [h1]; simp)
        (List.nodup_cons.1 hnd).2
        (by
          intro m hm
          have h1 := hns m (List.mem_cons_of_mem _ hm)
          refine ⟨h1.1, h1.2.1, ?_⟩
          intro h2
          rcases List.mem_append.1 h2 with h3 | h3
          · exact h1.2.2 h3
          · rw [List.mem_singleton.1 h3] at hm
            exact (List.nodup_cons.1 hnd).1 hm)
        (by
          rcases htot with h | h
          · exact Or.inl h
          · right
            have hl : (ar ++ [n]).length + rest.length = ar.length + (n :: rest).length := by
              have hl2 : (n :: rest).length = rest.length + 1 := rfl
              rw [hl2, List.length_append, List.length_singleton]
              omega
            rw [hl]
            exact h)
        hroom e h1

theorem senderPool_empty (cfg : MempoolCfg) (s : Nat) :
    senderPool cfg s [] [] [] = NewTxPool cfg := rfl

theorem arrivals_scenario :
    (List.range' 1 35).foldl (arrive 32 0) (0, []) = (32, [33, 34, 35]) := by
  decide

theorem range'_scenario (n : Nat) (hn : n ∈ List.range' 1 35) : 0 < n ∧ n ≤ 0 + 35 := by
  rw [List.mem_range'_1] at hn
  omega

/-- Counterexample to C15 as stated: the per-address executable limit is 32,
the per-address pending limit is 32 and there is one slot for senders with a
pending queue.  Sender 1, with committed nonce 0, submits the nonces 1 to 35
in ascending order; the nonces 34 and 35 are rejected with `MempoolFullError`
and the pending queue holds the nonce 33 alone. -/
theorem scenario_one_pending_slot :
    scenarioSlotCfg.TxPoolAddrExecutableLimit = 32 ∧
    3 ≤ scenarioSlotCfg.TxPoolAddrQueueLimit ∧
    committedNonce exampleLedger 1 = 0 ∧
    (submitAll examplePriority exampleLedger TxKind.InboundTx
      ((List.range' 1 35).map exampleTx) (NewTxPool scenarioSlotCfg)).1 =
        List.replicate 33 none ++
          [some PoolError.MempoolFullError, some PoolError.MempoolFullError] ∧
    ((submitAll examplePriority exampleLedger TxKind.InboundTx
      ((List.range' 1 35).map exampleTx) (NewTxPool scenarioSlotCfg)).2.pendOf 1).map
        (fun e => e.2.AccountNonce) = [33] := by
  decide

/-- C15 as the code has it: the per-address executable limit is 32, the
per-address pending limit is at least 3, the total capacity is disabled or at
least 35, and the pending-slot count is not 1 (it is non-positive or at least
2).  A sender with committed nonce 0 in the current epoch submits, to the
empty pool, 35 valid transactions that are not of a priority type, with the
nonces 1 to 35 in ascending order.  Then every one is admitted, the
executable queue of the sender holds the nonces 1 to 32 in order and its
pending queue holds exactly the nonces 33, 34 and 35. -/
theorem scenario_first_half (pt : PriorityTable) (st : Ledger) (cfg : MempoolCfg) (s : Nat)
    (txType : TxKind) (txOf : Nat → Transaction)
    (hsc : SenderScenario pt st s txType txOf 0 35) (hc : committedNonce st s = 0)
    (hexec : cfg.TxPoolAddrExecutableLimit = 32) (hpend : 3 ≤ cfg.TxPoolAddrQueueLimit)
    (htotal : totalLimit cfg ≤ 0 ∨ 35 ≤ totalLimit cfg)
    (hslots : cfg.TxPoolQueueSlots ≤ 0 ∨ 2 ≤ cfg.TxPoolQueueSlots) :
    (∀ e ∈ (submitAll pt st txType ((List.range' 1 35).map txOf) (NewTxPool cfg)).1,
      e = none) ∧
    (submitAll pt st txType ((List.range' 1 35).map txOf) (NewTxPool cfg)).2 =
      senderPool cfg s ((List.range' 1 32).map (fun n => storedTx st (txOf n)))
        ([33, 34, 35].map (fun n => storedTx st (txOf n)))
        ((List.range' 1 35).map (fun n => storedTx st (txOf n))) ∧
    mapGet (submitAll pt st txType ((List.range' 1 35).map txOf)
        (NewTxPool cfg)).2.executableTxs s =
      some { txs := (List.range' 1 32).map (fun n => storedTx st (txOf n)), maxTxs := 32 } ∧
    mapGet (submitAll pt st txType ((List.range' 1 35).map txOf)
        (NewTxPool cfg)).2.pendingTxs s =
      some { txs := [33, 34, 35].map (fun n => entryOf (storedTx st (txOf n))),
             maxTxs := cfg.TxPoolAddrQueueLimit } := by
  have hadm := submitAll_admitted pt st cfg s txType txOf 0 35 hsc hc hslots (List.range' 1 35)
    0 [] [] (by omega) (fun a ha => by cases ha) (fun p hp => by cases hp)
    (List.nodup_range' 1 35)
    (fun n hn => ⟨(range'_scenario n hn).1, (range'_scenario n hn).2, by simp⟩)
    (by
      rcases htotal with h | h
      · exact Or.inl h
      · right; simpa using h)
    (by
      rw [hexec, arrivals_scenario]
      intro h
      have := h.2
      simp at this
      omega)
  have harr := submitAll_arrivals pt st cfg s txType txOf 0 35 hsc hc (List.range' 1 35)
    0 [] [] (by omega) (fun a ha => by cases ha) (fun p hp => by cases hp)
    (List.nodup_range' 1 35)
    (fun n hn => ⟨(range'_scenario n hn).1, (range'_scenario n hn).2, by simp⟩) hadm
  rw [hexec, arrivals_scenario] at harr
  have hstart : senderPool cfg s
      ((List.range' (0 + 1) 0).map (fun i => storedTx st (txOf i)))
      (([] : List Nat).map (fun i => storedTx st (txOf i)))
      (([] : List Nat).map (fun i => storedTx st (txOf i))) = NewTxPool cfg := rfl
  rw [hstart] at hadm harr
  refine ⟨hadm, harr, ?_, ?_⟩
  · rw [harr, senderPool_execGet, hexec]
    simp
  · rw [harr, senderPool_pendGet]
    simp

/-! ## Migration in a pool with a single sender -/

theorem SenderScenario.storedRun {pt : PriorityTable} {st : Ledger} {s : Nat} {txType : TxKind}
    {txOf : Nat → Transaction} {c N : Nat} (hsc : SenderScenario pt st s txType txOf c N) :
    NonceRun pt st s (fun n => storedTx st (txOf n)) c N :=
  ⟨hsc.bound, hsc.nonce, hsc.sender, hsc.epoch, hsc.regular⟩

theorem SenderScenario.plainRun {pt : PriorityTable} {st : Ledger} {s : Nat} {txType : TxKind}
    {txOf : Nat → Transaction} {c N : Nat} (hsc : SenderScenario pt st s txType txOf c N) :
    NonceRun pt st s txOf c N :=
  ⟨hsc.bound, hsc.nonce, hsc.sender, hsc.epoch, hsc.regular⟩

theorem execRoute_run (pt : PriorityTable) (st : Ledger) (cfg : MempoolCfg) (s : Nat)
    (tx : Nat → Transaction) (c N : Nat)
    (hrun : NonceRun pt st s tx c N) (hc : committedNonce st s = c)
    (k n : Nat) (hk : k ≤ N) (hn0 : c < n) (hn : n ≤ c + N) :
    execRoute st cfg ((List.range' (c + 1) k).map tx) (tx n) ↔
      (n = c + k + 1 ∧ ¬ (cfg.TxPoolAddrExecutableLimit > 0 ∧
        (k : Int) ≥ cfg.TxPoolAddrExecutableLimit)) := by
  have hb := hrun.bound
  unfold execRoute
  rw [List.length_map, List.length_range']
  by_cases hk0 : k = 0
  · subst hk0
    simp only [List.range'_zero, List.map_nil, List.getLast?_nil]
    rw [hrun.sender n hn0 hn, hc, hrun.nonce n hn0 hn, hrun.epoch n hn0 hn,
      nonceSucc_eq_iff c n (by omega) (by omega) (by omega)]
    constructor
    · rintro ⟨h1, _, h2⟩; exact ⟨by omega, h1⟩
    · rintro ⟨h1, h2⟩; exact ⟨h2, rfl, by omega⟩
  · rw [getLast?_map_range' _ _ _ (by omega)]
    dsimp only
    have hlast : c + 1 + k - 1 = c + k := by omega
    rw [hlast, hrun.nonce (c + k) (by omega) (by omega),
      hrun.epoch (c + k) (by omega) (by omega), hrun.nonce n hn0 hn, hrun.epoch n hn0 hn,
      nonceSucc_eq_iff (c + k) n (by omega) (by omega) (by omega)]
    constructor
    · rintro ⟨h1, h2, _⟩; exact ⟨h2, h1⟩
    · rintro ⟨h1, h2⟩; exact ⟨h2, h1, rfl⟩

theorem migrateLoop_run (pt : PriorityTable) (st : Ledger) (cfg : MempoolCfg) (s : Nat)
    (tx : Nat → Transaction) (c N : Nat)
    (hrun : NonceRun pt st s tx c N) (hc : committedNonce st s = c) :
    ∀ (j k : Nat) (m : txMap) (stored : Bool), k + j ≤ N →
      (cfg.TxPoolAddrExecutableLimit ≤ 0 ∨
        ((k + j : Nat) : Int) ≤ cfg.TxPoolAddrExecutableLimit) →
      migrateLoop pt st s ((List.range' (c + k + 1) j).map tx)
          { txs := (List.range' (c + 1) k).map tx, maxTxs := cfg.TxPoolAddrExecutableLimit }
          m stored =
        ({ txs := (List.range' (c + 1) (k + j)).map tx,
           maxTxs := cfg.TxPoolAddrExecutableLimit },
          ((List.range' (c + k + 1) j).map tx).foldl (fun m t => m.Remove t.Hash) m,
          stored || decide (0 < j)) := by
  intro j
  induction j with
  | zero =>
    intro k m stored _ _
    simp [migrateLoop]
  | succ j ih =>
    intro k m stored hkj hcap
    have hroute : execRoute st cfg ((List.range' (c + 1) k).map tx) (tx (c + k + 1)) :=
      (execRoute_run pt st cfg s tx c N hrun hc k (c + k + 1) (by omega) (by omega)
        (by omega)).2 ⟨rfl, by
          intro h
          rcases hcap with h1 | h1
          · omega
          · push_cast at h1; omega⟩
    have hadd := (sortedTxs_Add_route pt st cfg ((List.range' (c + 1) k).map tx)
      (tx (c + k + 1)) (hrun.regular _ (by omega) (by omega))).1 hroute
    have hexec : (List.range' (c + 1) k).map tx ++ [tx (c + k + 1)] =
        (List.range' (c + 1) (k + 1)).map tx := by
      rw [List.range'_concat, List.map_append]
      simp [Nat.add_assoc, Nat.add_comm, Nat.add_left_comm]
    have hcond : (sortedTxs.Empty
          { txs := (List.range' (c + 1) k).map tx, maxTxs := cfg.TxPoolAddrExecutableLimit } &&
        (decide (st.Epoch ≠ (tx (c + k + 1)).Epoch) ||
          decide ((tx (c + k + 1)).AccountNonce ≠ nonceSucc (committedNonce st s)))) = false := by
      by_cases hE : (List.range' (c + 1) k).map tx = []
      · have h1 := hadd.1 hE
        rw [hrun.sender _ (by omega) (by omega)] at h1
        simp [h1.1, h1.2]
      · have : sortedTxs.Empty
            { txs := (List.range' (c + 1) k).map tx, maxTxs := cfg.TxPoolAddrExecutableLimit } =
            false := by
          simp only [sortedTxs.Empty, beq_eq_false_iff_ne, ne_eq, List.length_eq_zero]
          exact hE
        rw [this]
        rfl
    rw [List.range'_succ, List.map_cons, migrateLoop, hcond]
    simp only [Bool.false_eq_true, if_false]
    rw [hadd.2, hexec]
    dsimp only
    have h := ih (k + 1) (m.Remove (tx (c + k + 1)).Hash) true (by omega)
      (by
        rcases hcap with h1 | h1
        · exact Or.inl h1
        · right; push_cast at h1 ⊢; omega)
    have e1 : c + (k + 1) + 1 = c + k + 1 + 1 := by omega
    have e2 : k + 1 + j = k + (j + 1) := by omega
    rw [e1, e2] at h
    rw [h, List.foldl_cons]
    simp

theorem drain_pending (l : List Transaction) :
    ∀ m : txMap, (∀ e ∈ m.txs, ∃ t ∈ l, e.1 = t.Hash) →
      (l.foldl (fun m t => m.Remove t.Hash) m).txs = [] ∧
      (l.foldl (fun m t => m.Remove t.Hash) m).maxTxs = m.maxTxs := by
  induction l with
  | nil =>
    intro m h
    refine ⟨?_, rfl⟩
    apply List.eq_nil_iff_forall_not_mem.2
    intro e he
    obtain ⟨t, ht, _⟩ := h e he
    cases ht
  | cons t rest ih =>
    intro m h
    rw [List.foldl_cons]
    have h1 := ih (m.Remove t.Hash) (by
      intro e he
      have he2 : e ∈ m.txs ∧ e.1 ≠ t.Hash := by
        unfold txMap.Remove mapDelete at he
        simpa using he
      obtain ⟨u, hu, hue⟩ := h e he2.1
      rcases List.mem_cons.1 hu with h3 | h3
      · subst h3; exact absurd hue he2.2
      · exact ⟨u, h3, hue⟩)
    exact ⟨h1.1, h1.2⟩

theorem sorted_run (pt : PriorityTable) (st : Ledger) (s : Nat) (tx : Nat → Transaction)
    (c N : Nat) (hrun : NonceRun pt st s tx c N) (a j : Nat) (ha : c < a) (haj : a + j ≤ c + N + 1)
    (P : List Transaction) (hperm : P.Perm ((List.range' a j).map tx)) :
    sliceStable sortedLess P = (List.range' a j).map tx := by
  have hS : (sliceStable sortedLess P).Perm ((List.range' a j).map tx) :=
    (sliceStable_perm sortedLess P).trans hperm
  have hmem : ∀ t ∈ sliceStable sortedLess P, ∃ i, a ≤ i ∧ i < a + j ∧ t = tx i := by
    intro t ht
    obtain ⟨i, hi, rfl⟩ := List.mem_map.1 (hS.subset ht)
    rw [List.mem_range'_1] at hi
    exact ⟨i, hi.1, hi.2, rfl⟩
  have hnonce : ∀ i, a ≤ i → i < a + j → (tx i).AccountNonce = i :=
    fun i h1 h2 => hrun.nonce i (by omega) (by omega)
  have hepoch : ∀ i, a ≤ i → i < a + j → (tx i).Epoch = st.Epoch :=
    fun i h1 h2 => hrun.epoch i (by omega) (by omega)
  have hsorted : ((sliceStable sortedLess P).map Transaction.AccountNonce).Sorted (· ≤ ·) := by
    unfold List.Sorted
    rw [List.pairwise_map]
    refine (sliceStable_sorted P).imp_of_mem ?_
    intro x y hx hy hxy
    obtain ⟨i, hi1, hi2, rfl⟩ := hmem x hx
    obtain ⟨i2, hi3, hi4, rfl⟩ := hmem y hy
    unfold epochNonceLe at hxy
    rw [hepoch i hi1 hi2, hepoch i2 hi3 hi4] at hxy
    rcases hxy with h | h
    · omega
    · exact h.2
  have hnperm : ((sliceStable sortedLess P).map Transaction.AccountNonce).Perm
      (List.range' a j) := by
    have h1 := hS.map Transaction.AccountNonce
    rw [List.map_map] at h1
    have h2 : (List.range' a j).map (Transaction.AccountNonce ∘ tx) = List.range' a j := by
      conv_rhs => rw [← List.map_id (List.range' a j)]
      apply List.map_congr_left
      intro i hi
      rw [List.mem_range'_1] at hi
      exact hnonce i hi.1 hi.2
    rw [h2] at h1
    exact h1
  have hrange : (List.range' a j).Sorted (· ≤ ·) := by
    unfold List.Sorted
    exact (List.pairwise_lt_range' a j).imp (fun h => Nat.le_of_lt h)
  have heq := List.eq_of_perm_of_sorted hnperm hsorted hrange
  have hid : sliceStable sortedLess P =
      ((sliceStable sortedLess P).map Transaction.AccountNonce).map tx := by
    rw [List.map_map]
    conv_lhs => rw [← List.map_id (sliceStable sortedLess P)]
    apply List.map_congr_left
    intro t ht
    obtain ⟨i, hi1, hi2, rfl⟩ := hmem t ht
    simp [hnonce i hi1 hi2]
  rw [hid, heq]

theorem map_snd_entryOf (P : List Transaction) : (P.map entryOf).map Prod.snd = P := by
  rw [List.map_map]
  conv_rhs => rw [← List.map_id P]
  apply List.map_congr_left
  intro t _
  rfl

/-- The migration in a pool with a single sender whose pending queue holds
the nonces that follow its executable queue: all of them move. -/
theorem move_senderPool (pt : PriorityTable) (st : Ledger) (cfg : MempoolCfg) (s : Nat)
    (tx : Nat → Transaction) (c N : Nat)
    (hrun : NonceRun pt st s tx c N) (hc : committedNonce st s = c)
    (k j : Nat) (hkj : k + j ≤ N)
    (hcap : cfg.TxPoolAddrExecutableLimit ≤ 0 ∨
      ((k + j : Nat) : Int) ≤ cfg.TxPoolAddrExecutableLimit)
    (P A : List Transaction) (hperm : P.Perm ((List.range' (c + k + 1) j).map tx)) :
    (senderPool cfg s ((List.range' (c + 1) k).map tx) P A).movePendingTxsToExecutable pt st =
      senderPool cfg s ((List.range' (c + 1) (k + j)).map tx) [] A := by
  unfold TxPool.movePendingTxsToExecutable
  by_cases hP : P = []
  · subst hP
    have hj : j = 0 := by
      have := hperm.length_eq
      simpa using this.symm
    subst hj
    simp [senderPool]
  · have hj : 0 < j := by
      rcases Nat.eq_zero_or_pos j with h | h
      · subst h
        simp at hperm
        exact absurd hperm hP
      · exact h
    have hpend : (senderPool cfg s ((List.range' (c + 1) k).map tx) P A).pendingTxs =
        [(s, { txs := P.map entryOf, maxTxs := cfg.TxPoolAddrQueueLimit })] := by
      simp [senderPool, hP]
    rw [hpend, List.foldl_cons, List.foldl_nil]
    unfold migrateSender
    dsimp only
    rw [senderPool_executable]
    have hsorted : txMap.Sorted { txs := P.map entryOf, maxTxs := cfg.TxPoolAddrQueueLimit } =
        (List.range' (c + k + 1) j).map tx := by
      unfold txMap.Sorted
      dsimp only
      rw [map_snd_entryOf]
      exact sorted_run pt st s tx c N hrun (c + k + 1) j (by omega) (by omega) P hperm
    rw [hsorted, migrateLoop_run pt st cfg s tx c N hrun hc j k _ false hkj hcap]
    dsimp only
    have hdrain := drain_pending ((List.range' (c + k + 1) j).map tx)
      { txs := P.map entryOf, maxTxs := cfg.TxPoolAddrQueueLimit }
      (by
        intro e he
        obtain ⟨t, ht, rfl⟩ := List.mem_map.1 he
        exact ⟨t, hperm.subset ht, rfl⟩)
    have hempty : txMap.Empty (((List.range' (c + k + 1) j).map tx).foldl
        (fun m t => m.Remove t.Hash)
        { txs := P.map entryOf, maxTxs := cfg.TxPoolAddrQueueLimit }) = true := by
      unfold txMap.Empty
      rw [hdrain.1]
      rfl
    rw [hempty]
    have hflag : (false || decide (0 < j)) = true := by simp [hj]
    rw [hflag]
    simp only [if_true]
    have hne : (List.range' (c + 1) (k + j)).map tx ≠ [] := by
      intro h
      have := congrArg List.length h
      simp at this
      omega
    rw [senderPool_execSet cfg s _ P A _ hne]
    have hdel : mapDelete (senderPool cfg s ((List.range' (c + 1) k).map tx) P A).pendingTxs s =
        (senderPool cfg s ((List.range' (c + 1) (k + j)).map tx) [] A).pendingTxs := by
      rw [hpend]
      simp [mapDelete, senderPool]
    rw [hdel]
    rfl

/-! ## Removal in a pool with a single sender -/

theorem mapDelete_entries (A : List Transaction) (h : Hash) :
    mapDelete (A.map entryOf) h = (A.filter (fun a => decide (a.Hash ≠ h))).map entryOf := by
  unfold mapDelete
  rw [List.filter_map]
  rfl

/-- Removal of the head of the executable queue. -/
theorem Remove_senderPool_head (cfg : MempoolCfg) (s : Nat) (t : Transaction)
    (E P A : List Transaction) (b : Transaction) (hb : t.Hash = b.Hash) (hs : b.sender = s)
    (hasc : (t :: E).Pairwise (fun x y => x.AccountNonce < y.AccountNonce))
    (hP : ∀ p ∈ P, p.Hash ≠ b.Hash) :
    (senderPool cfg s (t :: E) P A).Remove b =
      senderPool cfg s E P (A.filter (fun a => decide (a.Hash ≠ b.Hash))) := by
  have hrem : sortedTxs.Remove { txs := t :: E, maxTxs := cfg.TxPoolAddrExecutableLimit } b =
      { txs := E, maxTxs := cfg.TxPoolAddrExecutableLimit } :=
    sortedTxs_Remove_found _ b t [] E rfl hasc hb
  have hPfilter : P.filter (fun a => decide (a.Hash ≠ b.Hash)) = P := by
    apply List.filter_eq_self.2
    intro p hp
    simpa using hP p hp
  unfold TxPool.Remove
  rw [hs, senderPool_execGet, senderPool_pendGet]
  simp only [List.cons_ne_nil, if_false]
  rw [hrem]
  unfold txMap.Remove
  have hall : (senderPool cfg s (t :: E) P A).all =
      { txs := A.map entryOf, maxTxs := -1 } := rfl
  have hshort : (senderPool cfg s (t :: E) P A).shortHashAll = A.map entryOf := rfl
  have hsync : (senderPool cfg s (t :: E) P A).txSyncCounts = [] := rfl
  rw [hall, hshort, hsync]
  unfold Transaction.Hash128
  dsimp only
  rw [mapDelete_entries A b.Hash]
  have hexec : (if sortedTxs.Empty { txs := E, maxTxs := cfg.TxPoolAddrExecutableLimit } = true
      then mapDelete (senderPool cfg s (t :: E) P A).executableTxs s
      else mapSet (senderPool cfg s (t :: E) P A).executableTxs s
        { txs := E, maxTxs := cfg.TxPoolAddrExecutableLimit }) =
      (senderPool cfg s E P (A.filter (fun a => decide (a.Hash ≠ b.Hash)))).executableTxs := by
    by_cases hE : E = []
    · subst hE
      simp [sortedTxs.Empty, senderPool, mapDelete]
    · have h1 : sortedTxs.Empty { txs := E, maxTxs := cfg.TxPoolAddrExecutableLimit } = false := by
        simp only [sortedTxs.Empty, beq_eq_false_iff_ne, ne_eq, List.length_eq_zero]
        exact hE
      rw [h1]
      simp only [Bool.false_eq_true, if_false]
      rw [senderPool_execSet cfg s (t :: E) P A E hE]
      rfl
  rw [hexec]
  by_cases hPn : P = []
  · subst hPn
    rw [if_pos rfl]
    rfl
  · rw [if_neg hPn]
    dsimp only
    rw [mapDelete_entries P b.Hash, hPfilter]
    have h1 : txMap.Empty { txs := P.map entryOf, maxTxs := cfg.TxPoolAddrQueueLimit } =
        false := by
      simp only [txMap.Empty, beq_eq_false_iff_ne, ne_eq, List.length_eq_zero,
        List.map_eq_nil_iff]
      exact hPn
    rw [h1]
    simp only [Bool.false_eq_true, if_false]
    rw [senderPool_pendSet cfg s (t :: E) P A P hPn]
    rfl

/-- Removal, in order, of a prefix of the executable queue. -/
theorem removeAll_senderPool (cfg : MempoolCfg) (s : Nat) (B : List Transaction) :
    ∀ (R P A : List Transaction), (∀ b ∈ B, b.sender = s) →
      (B ++ R).Pairwise (fun x y => x.AccountNonce < y.AccountNonce) →
      (∀ p ∈ P, ∀ b ∈ B, p.Hash ≠ b.Hash) → (∀ a ∈ A, ∀ b ∈ B, a.Hash ≠ b.Hash) →
      B.foldl TxPool.Remove (senderPool cfg s (B ++ R) P (B ++ A)) = senderPool cfg s R P A := by
  induction B with
  | nil => intro R P A _ _ _ _; rfl
  | cons t rest ih =>
    intro R P A hs hasc hP hA
    rw [List.foldl_cons, List.cons_append,
      Remove_senderPool_head cfg s t (rest ++ R) P (t :: rest ++ A) t rfl
        (hs t (List.mem_cons_self _ _)) hasc (fun p hp => hP p hp t (List.mem_cons_self _ _))]
    have hasc2 := List.pairwise_cons.1 hasc
    have hfilter : (t :: rest ++ A).filter (fun a => decide (a.Hash ≠ t.Hash)) = rest ++ A := by
      rw [List.cons_append, List.filter_cons]
      simp only [ne_eq, not_true_eq_false, decide_False, Bool.false_eq_true, if_false]
      apply List.filter_eq_self.2
      intro a ha
      simp only [ne_eq, decide_not, Bool.not_eq_true', decide_eq_false_iff_not]
      rcases List.mem_append.1 ha with h | h
      · intro heq
        have h1 := hash_nonce heq
        have h2 := hasc2.1 a (List.mem_append_left _ h)
        omega
      · exact hA a h t (List.mem_cons_self _ _)
    rw [hfilter]
    exact ih R P A (fun b hb => hs b (List.mem_cons_of_mem _ hb)) hasc2.2
      (fun p hp b hb => hP p hp b (List.mem_cons_of_mem _ hb))
      (fun a ha b hb => hA a ha b (List.mem_cons_of_mem _ hb))

/-! ## Re-validation when every transaction is valid -/

theorem resetPass1_valid (st : Ledger) (e : Nat) (l : List Transaction)
    (hvalid : ∀ t ∈ l, st.ValidateTx t TxKind.MempoolTx = ValidateOutcome.ok) :
    ∀ (minErrorNonce : List (Nat × txError)) (removingTxs : List (Hash × Transaction)),
      resetPass1 st e l minErrorNonce removingTxs = Except.ok (minErrorNonce, removingTxs) := by
  induction l with
  | nil => intro _ _; rfl
  | cons t rest ih =>
    intro minErrorNonce removingTxs
    rw [resetPass1]
    split_ifs
    · exact ih (fun u hu => hvalid u (List.mem_cons_of_mem _ hu)) _ _
    · rw [hvalid t (List.mem_cons_self _ _)]
      exact ih (fun u hu => hvalid u (List.mem_cons_of_mem _ hu)) _ _

theorem resetPass2_current (e : Nat) (l : List Transaction) (hepoch : ∀ t ∈ l, t.Epoch = e) :
    ∀ removingTxs : List (Hash × Transaction), resetPass2 e [] l removingTxs = removingTxs := by
  induction l with
  | nil => intro _; rfl
  | cons t rest ih =>
    intro removingTxs
    rw [resetPass2, hepoch t (List.mem_cons_self _ _)]
    simp only [lt_irrefl, if_false, gt_iff_lt]
    exact ih (fun u hu => hepoch u (List.mem_cons_of_mem _ hu)) _

/-- After removal and migration `ResetTo` leaves the pool as it is when every
transaction of the Global Index is in the current epoch and valid. -/
theorem ResetTo_valid (pt : PriorityTable) (st : Ledger) (pool : TxPool)
    (block : List Transaction) (pool2 : TxPool)
    (hmove : (block.foldl TxPool.Remove pool).movePendingTxsToExecutable pt st = pool2)
    (hvalid : ∀ e ∈ pool2.all.txs, st.ValidateTx e.2 TxKind.MempoolTx = ValidateOutcome.ok)
    (hepoch : ∀ e ∈ pool2.all.txs, e.2.Epoch = st.Epoch)
    (hsnap : st.ReadonlyErr = none ∨
      (pool2.mempoolCfg.ResetInCeremony = false ∧ st.ValidationPeriod > st.FlipLotteryPeriod)) :
    pool.ResetTo pt st block = (none, pool2) := by
  unfold TxPool.ResetTo
  dsimp only
  rw [hmove]
  by_cases hfast : (!pool2.mempoolCfg.ResetInCeremony &&
      decide (st.ValidationPeriod > st.FlipLotteryPeriod)) = true
  · rw [if_pos hfast]
  · rw [if_neg hfast]
    have hro : st.ReadonlyErr = none := by
      rcases hsnap with h | h
      · exact h
      · exact absurd (by simp [h.1, h.2]) hfast
    rw [hro]
    dsimp only
    have hlist : ∀ t ∈ pool2.all.List TxMapFilter.All, ∃ e ∈ pool2.all.txs, e.2 = t := by
      intro t ht
      unfold txMap.List at ht
      obtain ⟨h1, _⟩ := List.mem_filter.1 ht
      obtain ⟨e, he, rfl⟩ := List.mem_map.1 h1
      exact ⟨e, he, rfl⟩
    rw [resetPass1_valid st st.Epoch _ (by
      intro t ht
      obtain ⟨e, he, rfl⟩ := hlist t ht
      exact hvalid e he)]
    dsimp only
    rw [resetPass2_current st.Epoch _ (by
      intro t ht
      obtain ⟨e, he, rfl⟩ := hlist t ht
      exact hepoch e he)]
    rfl

theorem scenario_reset (pt : PriorityTable) (st : Ledger) (cfg : MempoolCfg) (s : Nat)
    (tx : Nat → Transaction) (P : List Transaction)
    (hold : ∀ n, 0 < n → n ≤ 32 → (tx n).AccountNonce = n ∧ (tx n).sender = s)
    (hsc : SenderScenario pt st s TxKind.MempoolTx tx 32 3)
    (hc : committedNonce st s = 32)
    (hexec : cfg.TxPoolAddrExecutableLimit = 32)
    (hperm : P.Perm ([33, 34, 35].map tx))
    (hsnap : st.ReadonlyErr = none ∨
      (cfg.ResetInCeremony = false ∧ st.ValidationPeriod > st.FlipLotteryPeriod)) :
    (senderPool cfg s ((List.range' 1 32).map tx) P ((List.range' 1 35).map tx)).ResetTo pt st
        ((List.range' 1 32).map tx) =
      (none, senderPool cfg s ([33, 34, 35].map tx) [] ([33, 34, 35].map tx)) := by
  have hrun := hsc.plainRun
  have hP : ∀ p ∈ P, ∃ i, 33 ≤ i ∧ i ≤ 35 ∧ p = tx i := by
    intro p hp
    obtain ⟨i, hi, rfl⟩ := List.mem_map.1 (hperm.subset hp)
    simp only [List.mem_cons, List.mem_singleton, List.not_mem_nil, or_false] at hi
    exact ⟨i, by omega, by omega, rfl⟩
  have hB : ∀ b ∈ (List.range' 1 32).map tx, ∃ n, 0 < n ∧ n ≤ 32 ∧ b = tx n := by
    intro b hb
    obtain ⟨n, hn, rfl⟩ := List.mem_map.1 hb
    rw [List.mem_range'_1] at hn
    exact ⟨n, by omega, by omega, rfl⟩
  have hsplit : (List.range' 1 35).map tx =
      (List.range' 1 32).map tx ++ [33, 34, 35].map tx := by
    rw [← List.map_append]
    rfl
  have hremove : ((List.range' 1 32).map tx).foldl TxPool.Remove
      (senderPool cfg s ((List.range' 1 32).map tx) P ((List.range' 1 35).map tx)) =
      senderPool cfg s [] P ([33, 34, 35].map tx) := by
    rw [hsplit]
    have h := removeAll_senderPool cfg s ((List.range' 1 32).map tx) [] P ([33, 34, 35].map tx)
      (by
        intro b hb
        obtain ⟨n, h1, h2, rfl⟩ := hB b hb
        exact (hold n h1 h2).2)
      (by
        rw [List.append_nil, List.pairwise_map]
        refine (List.pairwise_lt_range' 1 32).imp_of_mem ?_
        intro a b ha hb hab
        rw [List.mem_range'_1] at ha hb
        rw [(hold a (by omega) (by omega)).1, (hold b (by omega) (by omega)).1]
        exact hab)
      (by
        intro p hp b hb heq
        obtain ⟨i, h1, h2, rfl⟩ := hP p hp
        obtain ⟨n, h3, h4, rfl⟩ := hB b hb
        have h5 := hash_nonce heq
        rw [hrun.nonce i (by omega) (by omega), (hold n h3 h4).1] at h5
        omega)
      (by
        intro p hp b hb heq
        obtain ⟨i, hi, rfl⟩ := List.mem_map.1 hp
        simp only [List.mem_cons, List.mem_singleton, List.not_mem_nil, or_false] at hi
        obtain ⟨n, h3, h4, rfl⟩ := hB b hb
        have h5 := hash_nonce heq
        rw [hrun.nonce i (by omega) (by omega), (hold n h3 h4).1] at h5
        omega)
    rw [List.append_nil] at h
    exact h
  have hmove : (senderPool cfg s [] P ([33, 34, 35].map tx)).movePendingTxsToExecutable pt st =
      senderPool cfg s ([33, 34, 35].map tx) [] ([33, 34, 35].map tx) :=
    move_senderPool pt st cfg s tx 32 3 hrun hc 0 3 (by omega) (by rw [hexec]; right; decide)
      P ([33, 34, 35].map tx) hperm
  apply ResetTo_valid
  · rw [hremove, hmove]
  · intro e he
    obtain ⟨t, ht, rfl⟩ := List.mem_map.1 he
    obtain ⟨i, hi, rfl⟩ := List.mem_map.1 ht
    simp only [List.mem_cons, List.mem_singleton, List.not_mem_nil, or_false] at hi
    exact hsc.valid i (by omega) (by omega)
  · intro e he
    obtain ⟨t, ht, rfl⟩ := List.mem_map.1 he
    obtain ⟨i, hi, rfl⟩ := List.mem_map.1 ht
    simp only [List.mem_cons, List.mem_singleton, List.not_mem_nil, or_false] at hi
    exact hsc.epoch i (by omega) (by omega)
  · exact hsnap

/-! ## The scenarios of one sender -/

theorem example_scenario (st : Ledger) (txType : TxKind) (c N : Nat) (hb : c + N < 2 ^ 32)
    (hepoch : st.Epoch = 0)
    (hvalid : ∀ n, st.ValidateTx (exampleTx n) txType = ValidateOutcome.ok) :
    SenderScenario examplePriority st 1 txType exampleTx c N :=
  ⟨hb, fun _ _ _ => rfl, fun _ _ _ => rfl, fun _ _ _ => hepoch.symm, fun _ _ _ => rfl,
    fun n _ _ => hvalid n⟩

theorem scenario_first_half_witness :
    scenarioCfg.TxPoolAddrExecutableLimit = 32 ∧ 3 ≤ scenarioCfg.TxPoolAddrQueueLimit ∧
    committedNonce exampleLedger 1 = 0 ∧
    mapGet (submitAll examplePriority exampleLedger TxKind.InboundTx
        ((List.range' 1 35).map exampleTx) (NewTxPool scenarioCfg)).2.pendingTxs 1 =
      some { txs := [33, 34, 35].map (fun n => entryOf (storedTx exampleLedger (exampleTx n))),
             maxTxs := scenarioCfg.TxPoolAddrQueueLimit } :=
  ⟨rfl, by decide, by decide,
    (scenario_first_half examplePriority exampleLedger scenarioCfg 1 TxKind.InboundTx exampleTx
      (example_scenario exampleLedger TxKind.InboundTx 0 35 (by decide) rfl (fun _ => rfl))
      (by decide) rfl (by decide) (by decide) (by decide)).2.2.2⟩

theorem senderPool_execOf (cfg : MempoolCfg) (s : Nat) (E P A : List Transaction) :
    (senderPool cfg s E P A).execOf s = E := by
  unfold TxPool.execOf
  rw [senderPool_execGet]
  by_cases h : E = []
  · subst h; rfl
  · rw [if_neg h]

/-- C16: in the pool where one sender has the nonces 1 to 32 in its
executable queue and the nonces 33, 34 and 35 in its pending queue (in any
order), `ResetTo` on a block with the transactions of the nonces 1 to 32,
when the committed nonce of the sender is 32 and the three remaining
transactions are valid at the new head, returns and leaves the nonces 33, 34
and 35, in this order, in the executable queue of the sender; the sender has
no pending queue, and the three transactions are what the Global Index
holds.  The new head is one whose read-only snapshot can be opened, which the
re-validation reads; the snapshot is not needed when `ResetTo` returns before
the re-validation (`ResetInCeremony` false, in the short session of a
ceremony). -/
theorem scenario_second_half (pt : PriorityTable) (st : Ledger) (cfg : MempoolCfg) (s : Nat)
    (tx : Nat → Transaction) (P : List Transaction)
    (hold : ∀ n, 0 < n → n ≤ 32 → (tx n).AccountNonce = n ∧ (tx n).sender = s)
    (hsc : SenderScenario pt st s TxKind.MempoolTx tx 32 3)
    (hc : committedNonce st s = 32)
    (hexec : cfg.TxPoolAddrExecutableLimit = 32)
    (hperm : P.Perm ([33, 34, 35].map tx))
    (hsnap : st.ReadonlyErr = none ∨
      (cfg.ResetInCeremony = false ∧ st.ValidationPeriod > st.FlipLotteryPeriod)) :
    (senderPool cfg s ((List.range' 1 32).map tx) P ((List.range' 1 35).map tx)).ResetTo pt st
        ((List.range' 1 32).map tx) =
      (none, senderPool cfg s ([33, 34, 35].map tx) [] ([33, 34, 35].map tx)) ∧
    mapGet ((senderPool cfg s ((List.range' 1 32).map tx) P
        ((List.range' 1 35).map tx)).ResetTo pt st
          ((List.range' 1 32).map tx)).2.executableTxs s =
      some { txs := [tx 33, tx 34, tx 35], maxTxs := 32 } ∧
    mapGet ((senderPool cfg s ((List.range' 1 32).map tx) P
        ((List.range' 1 35).map tx)).ResetTo pt st
          ((List.range' 1 32).map tx)).2.pendingTxs s = none := by
  have h := scenario_reset pt st cfg s tx P hold hsc hc hexec hperm hsnap
  refine ⟨h, ?_, ?_⟩
  · rw [h, senderPool_execGet, hexec]
    simp
  · rw [h, senderPool_pendGet]
    simp

theorem scenario_second_half_witness :
    committedNonce advancedLedger 1 = 32 ∧ advancedLedger.ReadonlyErr = none ∧
    mapGet ((senderPool scenarioCfg 1 ((List.range' 1 32).map exampleTx)
        ([33, 34, 35].map exampleTx) ((List.range' 1 35).map exampleTx)).ResetTo
          examplePriority advancedLedger ((List.range' 1 32).map exampleTx)).2.executableTxs 1 =
      some { txs := [exampleTx 33, exampleTx 34, exampleTx 35], maxTxs := 32 } :=
  ⟨by decide, rfl,
    (scenario_second_half examplePriority advancedLedger scenarioCfg 1 exampleTx
      ([33, 34, 35].map exampleTx) (fun _ _ _ => ⟨rfl, rfl⟩)
      (example_scenario advancedLedger TxKind.MempoolTx 32 3 (by decide) rfl (fun _ => rfl))
      (by decide) rfl (List.Perm.refl _) (Or.inl rfl)).2.1⟩

theorem arrivals_le (limit : Int) (c N : Nat) (ns : List Nat) :
    ∀ q : Nat × List Nat, q.1 ≤ N → (∀ n ∈ ns, n ≤ c + N) →
      (ns.foldl (arrive limit c) q).1 ≤ N := by
  induction ns with
  | nil => intro q hq _; exact hq
  | cons n rest ih =>
    intro q hq hns
    rw [List.foldl_cons]
    apply ih
    · have h := arrive_held limit c q n
      rcases Nat.lt_or_ge (arrive limit c q n).1 (q.1 + 1) with h1 | h1
      · omega
      · have h2 := h.2.2.1 (le_antisymm h.2.1 h1)
        have h3 := hns n (List.mem_cons_self _ _)
        omega
    · exact fun m hm => hns m (List.mem_cons_of_mem _ hm)

theorem arrivals_perm (limit : Int) (c : Nat) (ns : List Nat) :
    ∀ (q : Nat × List Nat) (ar : List Nat), ar.Perm (List.range' (c + 1) q.1 ++ q.2) →
      (ar ++ ns).Perm (List.range' (c + 1) (ns.foldl (arrive limit c) q).1 ++
        (ns.foldl (arrive limit c) q).2) := by
  induction ns with
  | nil => intro q ar h; simpa using h
  | cons n rest ih =>
    intro q ar h
    rw [List.foldl_cons]
    have hstep : (ar ++ [n]).Perm (List.range' (c + 1) (arrive limit c q n).1 ++
        (arrive limit c q n).2) := by
      unfold arrive
      split_ifs with h1
      · dsimp only
        rw [List.range'_concat, h1.1]
        have e : c + 1 + 1 * q.1 = c + q.1 + 1 := by omega
        rw [e]
        exact (h.append_right [c + q.1 + 1]).trans
          (by rw [List.append_assoc, List.append_assoc]
              exact List.Perm.append_left _ List.perm_append_comm)
      · dsimp only
        rw [← List.append_assoc]
        exact h.append_right [n]
    have h2 := ih (arrive limit c q n) (ar ++ [n]) hstep
    rw [List.append_assoc, List.singleton_append] at h2
    exact h2

/-- Counterexample to C17 as stated: sender 1, with committed nonce 0 and a
per-address executable limit of 2, submits the nonce 2 and then the nonce 1.
Both are admitted; afterwards the executable queue holds the nonce 1 alone
and the nonce 2 is in the pending queue. -/
theorem out_of_order_stays_pending :
    (2 : Int) ≤ exampleCfg.TxPoolAddrExecutableLimit ∧
    committedNonce exampleLedger 1 = 0 ∧
    (submitAll examplePriority exampleLedger TxKind.InboundTx [exampleTx 2, exampleTx 1]
      (NewTxPool exampleCfg)).1 = [none, none] ∧
    (submitAll examplePriority exampleLedger TxKind.InboundTx [exampleTx 2, exampleTx 1]
      (NewTxPool exampleCfg)).2.execOf 1 = [storedTx exampleLedger (exampleTx 1)] ∧
    (submitAll examplePriority exampleLedger TxKind.InboundTx [exampleTx 2, exampleTx 1]
      (NewTxPool exampleCfg)).2.pendOf 1 = [entryOf (storedTx exampleLedger (exampleTx 2))] := by
  decide

/-- C17 as the code has it: for every N within the per-address executable
limit and every arrival order of N valid transactions, not of a priority
type, with the nonces 1 to N from a sender whose committed nonce is 0: once
all N have been submitted to the empty pool through `add` and none was
rejected, and the pending-to-executable migration has run (as it does in
`ResetTo`), the executable queue of the sender holds all N transactions in
ascending nonce order and the sender has no pending queue.  (Before the
migration the transactions that arrived ahead of their turn are in the
pending queue.) -/
theorem out_of_order_then_migration (pt : PriorityTable) (st : Ledger) (cfg : MempoolCfg)
    (s : Nat) (txType : TxKind) (txOf : Nat → Transaction) (N : Nat) (ns : List Nat)
    (hsc : SenderScenario pt st s txType txOf 0 N) (hc : committedNonce st s = 0)
    (hN : (N : Int) ≤ cfg.TxPoolAddrExecutableLimit)
    (hperm : ns.Perm (List.range' 1 N))
    (hadmitted : ∀ e ∈ (submitAll pt st txType (ns.map txOf) (NewTxPool cfg)).1, e = none) :
    ((submitAll pt st txType (ns.map txOf) (NewTxPool cfg)).2.movePendingTxsToExecutable
        pt st).execOf s = (List.range' 1 N).map (fun n => storedTx st (txOf n)) ∧
    mapGet ((submitAll pt st txType (ns.map txOf) (NewTxPool cfg)).2.movePendingTxsToExecutable
        pt st).pendingTxs s = none ∧
    (submitAll pt st txType (ns.map txOf) (NewTxPool cfg)).2.movePendingTxsToExecutable pt st =
      senderPool cfg s ((List.range' 1 N).map (fun n => storedTx st (txOf n))) []
        (ns.map (fun n => storedTx st (txOf n))) := by
  have hmem : ∀ n ∈ ns, 0 < n ∧ n ≤ 0 + N ∧ n ∉ ([] : List Nat) := by
    intro n hn
    have := hperm.subset hn
    rw [List.mem_range'_1] at this
    exact ⟨by omega, by omega, by simp⟩
  have hnd : ns.Nodup := hperm.nodup_iff.2 (List.nodup_range' 1 N)
  have hstart : senderPool cfg s
      ((List.range' (0 + 1) 0).map (fun i => storedTx st (txOf i)))
      (([] : List Nat).map (fun i => storedTx st (txOf i)))
      (([] : List Nat).map (fun i => storedTx st (txOf i))) = NewTxPool cfg := rfl
  have harr := submitAll_arrivals pt st cfg s txType txOf 0 N hsc hc ns 0 [] []
    (Nat.zero_le _) (fun a ha => by cases ha) (fun p hp => by cases hp) hnd hmem
    (by rw [hstart]; exact hadmitted)
  rw [hstart, List.nil_append] at harr
  have hk := arrivals_le cfg.TxPoolAddrExecutableLimit 0 N ns (0, []) (Nat.zero_le _)
    (fun n hn => (hmem n hn).2.1)
  have hp := arrivals_perm cfg.TxPoolAddrExecutableLimit 0 ns (0, []) [] (by simp)
  rw [List.nil_append] at hp
  obtain ⟨k, Pn, hq⟩ : ∃ k Pn, ns.foldl (arrive cfg.TxPoolAddrExecutableLimit 0) (0, []) =
      (k, Pn) := ⟨_, _, rfl⟩
  rw [hq] at harr hk hp
  dsimp only at harr hk hp
  have hPn : Pn.Perm (List.range' (0 + k + 1) (N - k)) := by
    have h1 : List.range' 1 N = List.range' (0 + 1) k ++ List.range' (0 + k + 1) (N - k) := by
      have h2 := List.range'_append (0 + 1) k (N - k) 1
      have e1 : 0 + 1 + 1 * k = 0 + k + 1 := by omega
      have e2 : N - k + k = N := by omega
      rw [e1, e2] at h2
      exact h2.symm
    have h3 := (hp.symm.trans hperm)
    rw [h1] at h3
    exact (List.perm_append_left_iff _).1 h3
  have hmove := move_senderPool pt st cfg s (fun n => storedTx st (txOf n)) 0 N hsc.storedRun hc
    k (N - k) (by omega) (by right; push_cast; omega)
    (Pn.map (fun n => storedTx st (txOf n))) (ns.map (fun n => storedTx st (txOf n)))
    (hPn.map _)
  have e3 : k + (N - k) = N := by omega
  rw [e3] at hmove
  rw [harr, hmove]
  refine ⟨senderPool_execOf _ _ _ _ _, ?_, rfl⟩
  rw [senderPool_pendGet]
  rfl

theorem out_of_order_then_migration_witness :
    [3, 1, 2].Perm (List.range' 1 3) ∧
    ((submitAll examplePriority exampleLedger TxKind.InboundTx ([3, 1, 2].map exampleTx)
        (NewTxPool scenarioCfg)).2.execOf 1).map (fun t => t.AccountNonce) = [1, 2] ∧
    ((submitAll examplePriority exampleLedger TxKind.InboundTx ([3, 1, 2].map exampleTx)
        (NewTxPool scenarioCfg)).2.movePendingTxsToExecutable examplePriority
          exampleLedger).execOf 1 =
      (List.range' 1 3).map (fun n => storedTx exampleLedger (exampleTx n)) :=
  ⟨by decide, by decide,
    (out_of_order_then_migration examplePriority exampleLedger scenarioCfg 1 TxKind.InboundTx
      exampleTx 3 [3, 1, 2]
      (example_scenario exampleLedger TxKind.InboundTx 0 3 (by decide) rfl (fun _ => rfl))
      (by decide) (by decide) (by decide) (by decide)).1⟩

/-! ## The deferral queue -/

theorem addDeferredTx_cases (pool : TxPool) (tx : Transaction) :
    (tx.Hash ∈ pool.knownDeferredTxs → pool.addDeferredTx tx = pool) ∧
    (tx.Hash ∉ pool.knownDeferredTxs →
      (pool.addDeferredTx tx).knownDeferredTxs = pool.knownDeferredTxs ++ [tx.Hash] ∧
      (pool.deferredTxs.length < MaxDeferredTxs →
        (pool.addDeferredTx tx).deferredTxs = pool.deferredTxs ++ [tx]) ∧
      (pool.deferredTxs.length = MaxDeferredTxs →
        (pool.addDeferredTx tx).deferredTxs = pool.deferredTxs.drop 1 ++ [tx])) ∧
    (pool.deferredTxs.length ≤ MaxDeferredTxs →
      (pool.addDeferredTx tx).deferredTxs.length ≤ MaxDeferredTxs) := by
  unfold TxPool.addDeferredTx
  by_cases h1 : tx.Hash ∈ pool.knownDeferredTxs
  · rw [if_pos h1]
    exact ⟨fun _ => rfl, fun h => absurd h1 h, fun h => h⟩
  · rw [if_neg h1]
    refine ⟨fun h => absurd h h1, fun _ => ⟨rfl, ?_, ?_⟩, ?_⟩
    · intro h2
      dsimp only
      rw [if_pos h2]
    · intro h2
      dsimp only
      have h3 : ¬ pool.deferredTxs.length < MaxDeferredTxs := by omega
      have h4 : (pool.deferredTxs.drop 1).length < MaxDeferredTxs := by
        rw [List.length_drop, h2]
        decide
      rw [if_neg h3, if_pos h4]
    · intro h2
      dsimp only
      by_cases h3 : pool.deferredTxs.length < MaxDeferredTxs
      · rw [if_pos h3, List.length_append, List.length_singleton]
        omega
      · rw [if_neg h3]
        by_cases h4 : (pool.deferredTxs.drop 1).length < MaxDeferredTxs
        · rw [if_pos h4, List.length_append, List.length_singleton]
          omega
        · rw [if_neg h4, List.length_drop]
          omega

theorem externalLoop_deferred (pt : PriorityTable) (st : Ledger) (txType : TxKind) (n : Nat)
    (txs : List Transaction) :
    ∀ pool : TxPool, pool.deferredTxs.length ≤ MaxDeferredTxs →
      (externalLoop pt st txType n txs pool).2.deferredTxs.length ≤ MaxDeferredTxs := by
  induction txs with
  | nil => intro pool h; exact h
  | cons tx rest ih =>
    intro pool h
    rw [externalLoop]
    by_cases h1 : (pool.isSyncing && decide (tx.sender ≠ pool.coinbase)) = true
    · rw [if_pos h1]
      exact ih _ ((addDeferredTx_cases pool tx).2.2 h)
    · rw [if_neg h1]
      have hf := add_frame pt st pool tx (decide (tx.sender = pool.coinbase)) txType
      cases hadd : pool.add pt st tx (decide (tx.sender = pool.coinbase)) txType with
      | mk e p =>
        rw [hadd] at hf
        have hp : p.deferredTxs.length ≤ MaxDeferredTxs := by
          rw [hf.deferredTxs]; exact h
        cases e with
        | none => exact ih p hp
        | some e =>
          dsimp only
          split_ifs
          · exact hp
          · exact ih p hp

/-- C21: `addDeferredTx(tx)` on a deferral queue q with seen-set s: if the
hash of tx is in s nothing changes; otherwise the hash is added to s and q
becomes q followed by tx when q holds fewer than 100 entries, or q without its
oldest entry followed by tx when q holds 100 entries.  Hence a deferral queue
of at most 100 transactions holds at most 100 afterwards, and so it does after
`AddExternalTxs` and `AddInternalTx`, the callers of `addDeferredTx`. -/
theorem addDeferredTx_spec (pool : TxPool) (tx : Transaction) :
    MaxDeferredTxs = 100 ∧
    (tx.Hash ∈ pool.knownDeferredTxs → pool.addDeferredTx tx = pool) ∧
    (tx.Hash ∉ pool.knownDeferredTxs →
      (pool.addDeferredTx tx).knownDeferredTxs = pool.knownDeferredTxs ++ [tx.Hash] ∧
      (pool.deferredTxs.length < 100 →
        (pool.addDeferredTx tx).deferredTxs = pool.deferredTxs ++ [tx]) ∧
      (pool.deferredTxs.length = 100 →
        (pool.addDeferredTx tx).deferredTxs = pool.deferredTxs.drop 1 ++ [tx])) ∧
    (pool.deferredTxs.length ≤ 100 → (pool.addDeferredTx tx).deferredTxs.length ≤ 100) ∧
    (∀ (pt : PriorityTable) (st : Ledger) (txType : TxKind) (txs : List Transaction),
      pool.deferredTxs.length ≤ 100 →
        (pool.AddExternalTxs pt st txType txs).2.deferredTxs.length ≤ 100) ∧
    (∀ (pt : PriorityTable) (st : Ledger), pool.deferredTxs.length ≤ 100 →
      (pool.AddInternalTx pt st tx).pool.deferredTxs.length ≤ 100) := by
  have h := addDeferredTx_cases pool tx
  refine ⟨rfl, h.1, h.2.1, h.2.2, ?_, ?_⟩
  · intro pt st txType txs hlen
    unfold TxPool.AddExternalTxs
    cases st.ReadonlyErr with
    | some code => exact hlen
    | none => exact externalLoop_deferred pt st txType txs.length txs pool hlen
  · intro pt st hlen
    have hdef := (addDeferredTx_cases pool { tx with highPriority := true }).2.2 hlen
    cases hsync : pool.isSyncing with
    | true =>
      have hc := AddInternalTx_sync_cases pt st pool tx hsync
      cases hro : st.ReadonlyErr with
      | some code =>
        rw [hc.1 code hro]
        exact hdef
      | none =>
        cases hadd : ((pool.addDeferredTx { tx with highPriority := true }).add pt st
            { tx with highPriority := true } true TxKind.InboundTx).1 with
        | some e =>
          rw [(hc.2 hro).1 e hadd]
          dsimp only
          rw [(add_frame pt st _ _ true TxKind.InboundTx).deferredTxs]
          exact hdef
        | none =>
          rw [((hc.2 hro).2 hadd).2.2.2]
          dsimp only
          split_ifs
          · rw [setShardOfLast_length, (add_frame pt st _ _ true TxKind.InboundTx).deferredTxs]
            exact hdef
          · rw [(add_frame pt st _ _ true TxKind.InboundTx).deferredTxs]
            exact hdef
    | false =>
      unfold TxPool.AddInternalTx
      simp only [hsync, Bool.false_eq_true, if_false]
      cases st.ReadonlyErr with
      | some code => exact hlen
      | none =>
        dsimp only
        have hf := (add_frame pt st pool { tx with highPriority := true } true
          TxKind.InboundTx).deferredTxs
        cases hadd : pool.add pt st { tx with highPriority := true } true TxKind.InboundTx with
        | mk e p =>
          rw [hadd] at hf
          cases e with
          | none => dsimp only; rw [hf]; exact hlen
          | some e => dsimp only; rw [hf]; exact hlen

/-! ## Batches of external transactions -/

theorem externalLoop_batch (pt : PriorityTable) (st : Ledger) (txType : TxKind) (n : Nat)
    (hn : n ≠ 1) (txs : List Transaction) :
    ∀ pool : TxPool, pool.isSyncing = false →
      externalLoop pt st txType n txs pool =
        (none, txs.foldl (fun p tx =>
          (p.add pt st tx (decide (tx.sender = p.coinbase)) txType).2) pool) := by
  induction txs with
  | nil => intro pool _; rfl
  | cons tx rest ih =>
    intro pool hsync
    have hf := add_frame pt st pool tx (decide (tx.sender = pool.coinbase)) txType
    rw [externalLoop, List.foldl_cons]
    simp only [hsync, Bool.false_and, Bool.false_eq_true, if_false]
    cases hadd : pool.add pt st tx (decide (tx.sender = pool.coinbase)) txType with
    | mk e p =>
      rw [hadd] at hf
      have hp : p.isSyncing = false := hf.isSyncing.trans hsync
      cases e with
      | none => exact ih p hp
      | some e =>
        dsimp only
        rw [if_neg hn]
        exact ih p hp

theorem AddExternalTxs_batch (pt : PriorityTable) (st : Ledger) (pool : TxPool)
    (txType : TxKind) (txs : List Transaction) (hsync : pool.isSyncing = false) :
    (st.ReadonlyErr = none →
      (pool.AddExternalTxs pt st txType txs).2 =
        txs.foldl (fun p tx =>
          (p.add pt st tx (decide (tx.sender = p.coinbase)) txType).2) pool ∧
      (∀ tx, txs = [tx] →
        (pool.AddExternalTxs pt st txType txs).1 =
          (pool.add pt st tx (decide (tx.sender = pool.coinbase)) txType).1) ∧
      (txs.length ≠ 1 → (pool.AddExternalTxs pt st txType txs).1 = none)) ∧
    (∀ code, st.ReadonlyErr = some code →
      pool.AddExternalTxs pt st txType txs =
        (some (PoolError.stateUnavailable code), pool)) := by
  constructor
  · intro hro
    refine ⟨?_, ?_, ?_⟩
    · by_cases hlen : txs.length = 1
      · obtain ⟨tx, rfl⟩ := List.length_eq_one.1 hlen
        rw [(AddExternalTxs_single pt st pool txType tx hsync).2 hro]
        rfl
      · unfold TxPool.AddExternalTxs
        rw [hro]
        dsimp only
        rw [externalLoop_batch pt st txType txs.length hlen txs pool hsync]
    · intro tx htx
      subst htx
      rw [(AddExternalTxs_single pt st pool txType tx hsync).2 hro]
    · intro hlen
      unfold TxPool.AddExternalTxs
      rw [hro]
      dsimp only
      rw [externalLoop_batch pt st txType txs.length hlen txs pool hsync]
  · intro code hro
    unfold TxPool.AddExternalTxs
    rw [hro]

/-- Counterexample to C22 as stated: the pool is not syncing and the
read-only snapshot of the ledger cannot be opened.  `AddExternalTxs` returns
the snapshot error for the empty batch and for the batch of the nonces 1 and
2, and it attempts no transaction of the batch: the pool is unchanged,
although `add` accepts both transactions. -/
theorem batch_without_snapshot :
    (NewTxPool exampleCfg).isSyncing = false ∧
    (NewTxPool exampleCfg).AddExternalTxs examplePriority stalledLedger TxKind.InboundTx [] =
      (some (PoolError.stateUnavailable 1), NewTxPool exampleCfg) ∧
    (NewTxPool exampleCfg).AddExternalTxs examplePriority stalledLedger TxKind.InboundTx
        [exampleTx 1, exampleTx 2] =
      (some (PoolError.stateUnavailable 1), NewTxPool exampleCfg) ∧
    ((NewTxPool exampleCfg).add examplePriority stalledLedger (exampleTx 1) false
      TxKind.InboundTx).1 = none := by
  decide

/-- C22 as the code has it: when the pool is not syncing and the read-only
snapshot of the ledger at the head can be opened, `AddExternalTxs` hands
every transaction of the batch to `add`, in order, whatever `add` returned
for the earlier ones; it returns an error if and only if the batch has
exactly one transaction and `add` rejected it, and the error is then the one
of `add`, unchanged; batches of zero or of two or more transactions return no
error.  When the snapshot cannot be opened it returns the snapshot error for
every batch and hands no transaction to `add`. -/
theorem AddExternalTxs_live_spec (pt : PriorityTable) (st : Ledger) (pool : TxPool)
    (txType : TxKind) (txs : List Transaction) (hsync : pool.isSyncing = false) :
    (st.ReadonlyErr = none →
      (pool.AddExternalTxs pt st txType txs).2 =
        txs.foldl (fun p tx =>
          (p.add pt st tx (decide (tx.sender = p.coinbase)) txType).2) pool ∧
      ((pool.AddExternalTxs pt st txType txs).1 ≠ none ↔
        ∃ tx, txs = [tx] ∧
          (pool.add pt st tx (decide (tx.sender = pool.coinbase)) txType).1 ≠ none) ∧
      (∀ tx, txs = [tx] →
        (pool.AddExternalTxs pt st txType txs).1 =
          (pool.add pt st tx (decide (tx.sender = pool.coinbase)) txType).1) ∧
      (txs.length ≠ 1 → (pool.AddExternalTxs pt st txType txs).1 = none)) ∧
    (∀ code, st.ReadonlyErr = some code →
      pool.AddExternalTxs pt st txType txs =
        (some (PoolError.stateUnavailable code), pool)) := by
  have h := AddExternalTxs_batch pt st pool txType txs hsync
  refine ⟨fun hro => ⟨(h.1 hro).1, ?_, (h.1 hro).2.1, (h.1 hro).2.2⟩, h.2⟩
  constructor
  · intro herr
    by_cases hlen : txs.length = 1
    · obtain ⟨tx, rfl⟩ := List.length_eq_one.1 hlen
      refine ⟨tx, rfl, ?_⟩
      rw [← (h.1 hro).2.1 tx rfl]
      exact herr
    · exact absurd ((h.1 hro).2.2 hlen) herr
  · rintro ⟨tx, htx, herr⟩
    rw [(h.1 hro).2.1 tx htx]
    exact herr

theorem AddExternalTxs_live_spec_witness :
    (NewTxPool exampleCfg).isSyncing = false ∧
    ((NewTxPool exampleCfg).AddExternalTxs examplePriority exampleLedger TxKind.InboundTx
      [exampleTx 1, exampleTx 1, exampleTx 2]).1 = none ∧
    ((NewTxPool exampleCfg).AddExternalTxs examplePriority exampleLedger TxKind.InboundTx
      [exampleTx 1, exampleTx 1, exampleTx 2]).2.GetPendingByAddress 1 =
        [storedTx exampleLedger (exampleTx 1), storedTx exampleLedger (exampleTx 2)] :=
  ⟨by decide,
    ((AddExternalTxs_live_spec examplePriority exampleLedger (NewTxPool exampleCfg)
      TxKind.InboundTx [exampleTx 1, exampleTx 1, exampleTx 2] (by decide)).1 rfl).2.2.2
        (by decide), by decide⟩

/-! ## Listing for the peer sync -/

theorem syncCount_mapSet (counts : List (Hash × Int)) (h k : Hash) (v : Int) :
    syncCount (mapSet counts h v) k = if k = h then v else syncCount counts k := by
  unfold syncCount
  rw [mapGet_mapSet]
  split_ifs <;> rfl

theorem pendingLoop_spec (multiShard : Nat) (noFilter count : Bool) (shardId : Nat)
    (l : List Transaction) :
    ∀ (counts : List (Hash × Int)) (result : List Transaction),
      (l.map Transaction.Hash).Nodup →
      (pendingLoop multiShard noFilter count shardId l counts result).1 =
        result ++ l.filter (fun tx =>
          (noFilter || decide (syncCount counts tx.Hash ≤ 15)) &&
            (decide (shardId = multiShard) || decide (tx.shardId = shardId))) ∧
      (count = false →
        (pendingLoop multiShard noFilter count shardId l counts result).2 = counts) ∧
      (count = true → ∀ h : Hash,
        syncCount (pendingLoop multiShard noFilter count shardId l counts result).2 h =
          if h ∈ (l.filter (fun tx =>
            (noFilter || decide (syncCount counts tx.Hash ≤ 15)) &&
              (decide (shardId = multiShard) || decide (tx.shardId = shardId)))).map
                Transaction.Hash
          then wrapInt (syncCount counts h + 1) else syncCount counts h) := by
  induction l with
  | nil =>
    intro counts result _
    simp [pendingLoop]
  | cons tx rest ih =>
    intro counts result hnd
    rw [List.map_cons, List.nodup_cons] at hnd
    have hne : ∀ t ∈ rest, t.Hash ≠ tx.Hash := by
      intro t ht heq
      exact hnd.1 (heq ▸ List.mem_map_of_mem _ ht)
    rw [pendingLoop]
    by_cases hinc : ((noFilter || decide (syncCount counts tx.Hash ≤ 15)) &&
        (decide (shardId = multiShard) || decide (tx.shardId = shardId))) = true
    · have h1 : (noFilter || decide (syncCount counts tx.Hash ≤ maxTxSyncCounts)) = true := by
        rw [Bool.and_eq_true] at hinc
        exact hinc.1
      have h2 : shardId = multiShard ∨ tx.shardId = shardId := by
        rw [Bool.and_eq_true] at hinc
        simpa using hinc.2
      rw [if_pos h1, if_pos h2, List.filter_cons, if_pos hinc]
      cases hcount : count with
      | false =>
        simp only [Bool.false_eq_true, if_false]
        have h := ih counts (result ++ [tx]) hnd.2
        rw [hcount] at h
        refine ⟨?_, fun _ => h.2.1 rfl, fun h3 => by cases h3⟩
        rw [h.1, List.append_assoc, List.singleton_append]
      | true =>
        simp only [if_true]
        have h := ih (mapSet counts tx.Hash (wrapInt (syncCount counts tx.Hash + 1)))
          (result ++ [tx]) hnd.2
        rw [hcount] at h
        have hfilter : rest.filter (fun t =>
            (noFilter || decide (syncCount
              (mapSet counts tx.Hash (wrapInt (syncCount counts tx.Hash + 1))) t.Hash ≤ 15)) &&
              (decide (shardId = multiShard) || decide (t.shardId = shardId))) =
            rest.filter (fun t =>
              (noFilter || decide (syncCount counts t.Hash ≤ 15)) &&
                (decide (shardId = multiShard) || decide (t.shardId = shardId))) := by
          apply List.filter_congr
          intro t ht
          rw [syncCount_mapSet, if_neg (hne t ht)]
        rw [hfilter] at h
        refine ⟨?_, fun h3 => (by cases h3), fun _ k => ?_⟩
        · rw [h.1, List.append_assoc, List.singleton_append]
        · rw [h.2.2 rfl k, syncCount_mapSet]
          by_cases hk : k = tx.Hash
          · subst hk
            have hnot : tx.Hash ∉ (rest.filter (fun t =>
                (noFilter || decide (syncCount counts t.Hash ≤ 15)) &&
                  (decide (shardId = multiShard) || decide (t.shardId = shardId)))).map
                    Transaction.Hash := by
              intro hmem
              obtain ⟨t, ht, hh⟩ := List.mem_map.1 hmem
              exact hne t (List.mem_filter.1 ht).1 hh
            rw [if_neg hnot, if_pos rfl, if_pos (by simp)]
          · rw [if_neg hk]
            simp only [List.map_cons, List.mem_cons, hk, false_or]
    · have hskip : pendingLoop multiShard noFilter count shardId (tx :: rest) counts result =
          pendingLoop multiShard noFilter count shardId rest counts result := by
        rw [pendingLoop]
        by_cases h1 : (noFilter || decide (syncCount counts tx.Hash ≤ maxTxSyncCounts)) = true
        · rw [if_pos h1]
          have h2 : ¬ (shardId = multiShard ∨ tx.shardId = shardId) := by
            intro h2
            apply hinc
            rw [Bool.and_eq_true]
            exact ⟨h1, by simpa using h2⟩
          rw [if_neg h2]
        · rw [if_neg h1]
      rw [← pendingLoop, hskip, List.filter_cons, if_neg hinc]
      exact ih counts result hnd.2

theorem txMap_List_filter (m : txMap) (addHighPriority : Bool) :
    m.List (if addHighPriority then TxMapFilter.All else TxMapFilter.NotPriority) =
      (m.txs.map Prod.snd).filter (fun tx => addHighPriority || !tx.highPriority) := by
  unfold txMap.List
  cases addHighPriority <;> simp

theorem IndexKeyed.values_nodup {pool : TxPool} (h : IndexKeyed pool) :
    ((pool.all.txs.map Prod.snd).map Transaction.Hash).Nodup := by
  have : (pool.all.txs.map Prod.snd).map Transaction.Hash = pool.all.txs.map Prod.fst := by
    rw [List.map_map]
    apply List.map_congr_left
    intro e he
    exact (h.keyed e he).symm
  rw [this]
  exact h.nodup

theorem GetPendingTransaction_eq (multiShard : Nat) (pool : TxPool)
    (noFilter addHighPriority : Bool) (shardId : Nat) (count : Bool) (hkeyed : IndexKeyed pool) :
    (pool.GetPendingTransaction multiShard noFilter addHighPriority shardId count).1 =
      (pool.all.txs.map Prod.snd).filter
        (listedForSync multiShard pool.txSyncCounts noFilter addHighPriority shardId) ∧
    (count = false →
      (pool.GetPendingTransaction multiShard noFilter addHighPriority shardId
        count).2.txSyncCounts = pool.txSyncCounts) ∧
    (count = true → ∀ h : Hash,
      syncCount (pool.GetPendingTransaction multiShard noFilter addHighPriority shardId
        count).2.txSyncCounts h =
        if h ∈ ((pool.GetPendingTransaction multiShard noFilter addHighPriority shardId
          count).1).map Transaction.Hash
        then wrapInt (syncCount pool.txSyncCounts h + 1) else syncCount pool.txSyncCounts h) := by
  have hnd : (((pool.all.txs.map Prod.snd).filter
      (fun tx => addHighPriority || !tx.highPriority)).map Transaction.Hash).Nodup :=
    (hkeyed.values_nodup).sublist ((List.filter_sublist _).map _)
  have hloop := pendingLoop_spec multiShard noFilter count shardId
    ((pool.all.txs.map Prod.snd).filter (fun tx => addHighPriority || !tx.highPriority))
    pool.txSyncCounts [] hnd
  have hres : (pool.GetPendingTransaction multiShard noFilter addHighPriority shardId count).1 =
      (pool.all.txs.map Prod.snd).filter
        (listedForSync multiShard pool.txSyncCounts noFilter addHighPriority shardId) := by
    unfold TxPool.GetPendingTransaction
    dsimp only
    rw [txMap_List_filter, hloop.1, List.nil_append, List.filter_filter]
    apply List.filter_congr
    intro tx _
    unfold listedForSync
    cases (addHighPriority || !tx.highPriority) <;> simp
  refine ⟨hres, ?_, ?_⟩
  · intro hc
    unfold TxPool.GetPendingTransaction
    dsimp only
    rw [txMap_List_filter]
    exact hloop.2.1 hc
  · intro hc h
    have hres2 : (pool.GetPendingTransaction multiShard noFilter addHighPriority shardId
        count).1 = ((pool.all.txs.map Prod.snd).filter
          (fun tx => addHighPriority || !tx.highPriority)).filter (fun tx =>
            (noFilter || decide (syncCount pool.txSyncCounts tx.Hash ≤ 15)) &&
              (decide (shardId = multiShard) || decide (tx.shardId = shardId))) := by
      unfold TxPool.GetPendingTransaction
      dsimp only
      rw [txMap_List_filter, hloop.1, List.nil_append]
    rw [hres2]
    unfold TxPool.GetPendingTransaction
    dsimp only
    rw [txMap_List_filter]
    exact hloop.2.2 hc h

/-- C23: `GetPendingTransaction(noFilter, addHighPriority, shardId, count)`
returns exactly the transactions of the Global Index, in its order, that
satisfy all of: `addHighPriority` or the transaction is not flagged high
priority; `noFilter` or the sync counter of the transaction before the call is
at most 15; `shardId` is the multi-shard value or equals the shard id of the
transaction.  So a transaction whose counter exceeds 15 is left out when
`noFilter` is false and is listed when `noFilter` is true and the two other
conditions hold.  The Global Index is keyed by the hashes of its
transactions. -/
theorem GetPendingTransaction_result (multiShard : Nat) (pool : TxPool)
    (noFilter addHighPriority : Bool) (shardId : Nat) (count : Bool) (hkeyed : IndexKeyed pool) :
    (pool.GetPendingTransaction multiShard noFilter addHighPriority shardId count).1 =
      (pool.all.txs.map Prod.snd).filter
        (listedForSync multiShard pool.txSyncCounts noFilter addHighPriority shardId) ∧
    (∀ tx, tx ∈ (pool.GetPendingTransaction multiShard noFilter addHighPriority shardId
        count).1 ↔
      ((∃ e ∈ pool.all.txs, e.2 = tx) ∧
        (addHighPriority = true ∨ tx.highPriority = false) ∧
        (noFilter = true ∨ syncCount pool.txSyncCounts tx.Hash ≤ 15) ∧
        (shardId = multiShard ∨ tx.shardId = shardId))) ∧
    (∀ e ∈ pool.all.txs, 15 < syncCount pool.txSyncCounts e.2.Hash →
      (noFilter = false →
        e.2 ∉ (pool.GetPendingTransaction multiShard noFilter addHighPriority shardId
          count).1) ∧
      (noFilter = true → (addHighPriority = true ∨ e.2.highPriority = false) →
        (shardId = multiShard ∨ e.2.shardId = shardId) →
        e.2 ∈ (pool.GetPendingTransaction multiShard noFilter addHighPriority shardId
          count).1)) := by
  have hres := (GetPendingTransaction_eq multiShard pool noFilter addHighPriority shardId count
    hkeyed).1
  have hmem : ∀ tx, tx ∈ (pool.GetPendingTransaction multiShard noFilter addHighPriority
      shardId count).1 ↔
      ((∃ e ∈ pool.all.txs, e.2 = tx) ∧
        (addHighPriority = true ∨ tx.highPriority = false) ∧
        (noFilter = true ∨ syncCount pool.txSyncCounts tx.Hash ≤ 15) ∧
        (shardId = multiShard ∨ tx.shardId = shardId)) := by
    intro tx
    rw [hres, List.mem_filter, List.mem_map]
    unfold listedForSync
    simp only [Bool.and_eq_true, Bool.or_eq_true, Bool.not_eq_true', decide_eq_true_eq]
    constructor
    · rintro ⟨⟨e, he, rfl⟩, ⟨h1, h2⟩, h3⟩
      exact ⟨⟨e, he, rfl⟩, h1, h2, h3⟩
    · rintro ⟨⟨e, he, rfl⟩, h1, h2, h3⟩
      exact ⟨⟨e, he, rfl⟩, ⟨h1, h2⟩, h3⟩
  refine ⟨hres, hmem, ?_⟩
  intro e he hbig
  constructor
  · intro hno hin
    have h := ((hmem e.2).1 hin).2.2.1
    rcases h with h | h
    · rw [hno] at h; cases h
    · omega
  · intro hno hprio hshard
    exact (hmem e.2).2 ⟨⟨e, he, rfl⟩, hprio, Or.inl hno, hshard⟩

theorem GetPendingTransaction_result_witness :
    IndexKeyed servedPool ∧
    (servedPool.GetPendingTransaction 0 false true 0 true).1 = [] ∧
    (servedPool.GetPendingTransaction 0 true true 0 true).1 =
      [storedTx exampleLedger (exampleTx 1)] :=
  ⟨by decide,
    (GetPendingTransaction_result 0 servedPool false true 0 true (by decide)).1.trans
      (by decide),
    (GetPendingTransaction_result 0 servedPool true true 0 true (by decide)).1.trans
      (by decide)⟩

/-- C24: `GetPendingTransaction` with `count` true increases the sync counter
of every returned transaction by exactly one (as Go computes `++` on an
`int`: the counter plus one whenever that is in the range of an `int`) and
leaves every other counter as it is; with `count` false no counter changes;
in both cases the Global Index, the compact index and the queues are
unchanged.  The Global Index is keyed by the hashes of its transactions. -/
theorem GetPendingTransaction_counters (multiShard : Nat) (pool : TxPool)
    (noFilter addHighPriority : Bool) (shardId : Nat) (count : Bool) (hkeyed : IndexKeyed pool) :
    (count = true →
      (∀ tx ∈ (pool.GetPendingTransaction multiShard noFilter addHighPriority shardId count).1,
        syncCount (pool.GetPendingTransaction multiShard noFilter addHighPriority shardId
          count).2.txSyncCounts tx.Hash = wrapInt (syncCount pool.txSyncCounts tx.Hash + 1) ∧
        (fitsInt (syncCount pool.txSyncCounts tx.Hash + 1) →
          syncCount (pool.GetPendingTransaction multiShard noFilter addHighPriority shardId
            count).2.txSyncCounts tx.Hash = syncCount pool.txSyncCounts tx.Hash + 1)) ∧
      (∀ h : Hash,
        (∀ tx ∈ (pool.GetPendingTransaction multiShard noFilter addHighPriority shardId
          count).1, tx.Hash ≠ h) →
        syncCount (pool.GetPendingTransaction multiShard noFilter addHighPriority shardId
          count).2.txSyncCounts h = syncCount pool.txSyncCounts h)) ∧
    (count = false →
      (pool.GetPendingTransaction multiShard noFilter addHighPriority shardId
        count).2.txSyncCounts = pool.txSyncCounts) ∧
    (pool.GetPendingTransaction multiShard noFilter addHighPriority shardId count).2.all =
      pool.all ∧
    (pool.GetPendingTransaction multiShard noFilter addHighPriority shardId
      count).2.shortHashAll = pool.shortHashAll ∧
    (pool.GetPendingTransaction multiShard noFilter addHighPriority shardId
      count).2.executableTxs = pool.executableTxs ∧
    (pool.GetPendingTransaction multiShard noFilter addHighPriority shardId
      count).2.pendingTxs = pool.pendingTxs := by
  have h := GetPendingTransaction_eq multiShard pool noFilter addHighPriority shardId count hkeyed
  refine ⟨fun hc => ⟨fun tx htx => ?_, fun k hk => ?_⟩, h.2.1, rfl, rfl, rfl, rfl⟩
  · have h1 : syncCount (pool.GetPendingTransaction multiShard noFilter addHighPriority shardId
        count).2.txSyncCounts tx.Hash = wrapInt (syncCount pool.txSyncCounts tx.Hash + 1) := by
      rw [h.2.2 hc tx.Hash, if_pos (List.mem_map_of_mem _ htx)]
    exact ⟨h1, fun hfit => by rw [h1, wrapInt_of_fits _ hfit]⟩
  · rw [h.2.2 hc k, if_neg]
    intro hmem
    obtain ⟨tx, htx, hh⟩ := List.mem_map.1 hmem
    exact hk tx htx hh

theorem GetPendingTransaction_counters_witness :
    IndexKeyed servedPool ∧
    syncCount (servedPool.GetPendingTransaction 0 true true 0 true).2.txSyncCounts
      (exampleTx 1).Hash = 17 ∧
    (servedPool.GetPendingTransaction 0 true true 0 false).2.txSyncCounts =
      servedPool.txSyncCounts :=
  ⟨by decide, by decide,
    (GetPendingTransaction_counters 0 servedPool true true 0 false (by decide)).2.1 rfl⟩

/-! ## The Global Index is keyed by the hashes of its transactions -/

theorem IndexKeyed.keyed_sub {pool other : TxPool} (h : IndexKeyed pool)
    (hsub : other.all.txs.Sublist pool.all.txs) : IndexKeyed other :=
  ⟨fun e he => h.keyed e (hsub.subset he), h.nodup.sublist (hsub.map Prod.fst)⟩

theorem IndexKeyed.keyed_same {pool other : TxPool} (h : IndexKeyed pool)
    (hall : other.all = pool.all) : IndexKeyed other :=
  h.keyed_sub (by rw [hall])

theorem txMap_Add_keyed (pt : PriorityTable) (m : txMap) (tx : Transaction)
    (hk : ∀ e ∈ m.txs, e.1 = e.2.Hash) (hnd : (m.txs.map Prod.fst).Nodup) :
    (∀ e ∈ (m.Add pt tx).2.txs, e.1 = e.2.Hash) ∧
      ((m.Add pt tx).2.txs.map Prod.fst).Nodup := by
  unfold txMap.Add
  split
  · exact ⟨hk, hnd⟩
  · refine ⟨?_, keys_mapSet_nodup _ _ _ hnd⟩
    intro e he
    rcases mem_mapSet _ _ _ e he with h | h
    · rw [h]
    · exact hk e h

theorem IndexKeyed.keyed_put {pool : TxPool} (h : IndexKeyed pool) (pt : PriorityTable)
    (st : Ledger) (tx : Transaction) : IndexKeyed (pool.put pt st tx).2 := by
  have hadd := txMap_Add_keyed pt pool.all tx h.keyed h.nodup
  rcases put_cases pt st pool tx with ⟨e, he⟩ | ⟨q, hq, _⟩ | ⟨m, hm, _⟩
  · rw [he]; exact h
  · rw [hq]; exact ⟨hadd.1, hadd.2⟩
  · rw [hm]; exact ⟨hadd.1, hadd.2⟩

theorem IndexKeyed.keyed_add {pool : TxPool} (h : IndexKeyed pool) (pt : PriorityTable)
    (st : Ledger) (tx : Transaction) (own : Bool) (txType : TxKind) :
    IndexKeyed (pool.add pt st tx own txType).2 := by
  rcases add_cases pt st pool tx own txType with h1 | ⟨h1, _, _⟩
  · rw [h1]; exact h
  · rw [h1]; exact h.keyed_put pt st _

theorem Remove_all_sublist (pool : TxPool) (tx : Transaction) :
    (pool.Remove tx).all.txs.Sublist pool.all.txs := by
  rw [Remove_all]
  exact mapDelete_sublist _ _

theorem removeAll_all_sublist (txs : List Transaction) :
    ∀ pool : TxPool, (txs.foldl TxPool.Remove pool).all.txs.Sublist pool.all.txs := by
  induction txs with
  | nil => intro pool; exact List.Sublist.refl _
  | cons tx rest ih =>
    intro pool
    simp only [List.foldl_cons]
    exact (ih (pool.Remove tx)).trans (Remove_all_sublist pool tx)

theorem ResetTo_all_sublist (pt : PriorityTable) (st : Ledger) (pool : TxPool)
    (block : List Transaction) :
    (pool.ResetTo pt st block).2.all.txs.Sublist pool.all.txs := by
  have h2 : ((block.foldl TxPool.Remove pool).movePendingTxsToExecutable pt st).all.txs.Sublist
      pool.all.txs := by
    rw [move_all]
    exact removeAll_all_sublist block pool
  rcases ResetTo_cases pt st pool block with h | ⟨removed, h⟩
  · rw [h]; exact h2
  · rw [h]; exact (removeAll_all_sublist removed _).trans h2

/-- In every pool state reached through `add`, `Remove`, the migration and
`ResetTo` the Global Index is keyed by the hashes of its transactions, one
entry a hash. -/
theorem ReachableVia.indexKeyed {pt : PriorityTable} {ok : Transaction → Prop} {pool : TxPool}
    (h : ReachableVia pt ok pool) : IndexKeyed pool := by
  induction h with
  | empty cfg =>
    exact ⟨fun e he => by simp [NewTxPool, newTxMap] at he, by simp [NewTxPool, newTxMap]⟩
  | add st pool tx own txType _ _ ih => exact ih.keyed_add pt st tx own txType
  | remove pool tx _ ih => exact ih.keyed_sub (Remove_all_sublist pool tx)
  | move st pool _ ih => exact ih.keyed_same (move_all pt st pool)
  | reset st pool block _ ih => exact ih.keyed_sub (ResetTo_all_sublist pt st pool block)
  | reorder pool other _ hs ih =>
    exact ⟨fun e he => ih.keyed e (hs.allTxs.mem_iff.mp he),
      (hs.allTxs.map Prod.fst).nodup_iff.mpr ih.nodup⟩
  | reorderPending pool sender pending txs _ hget hperm ih => exact ih.keyed_same rfl
  | frame pool other _ hall _ _ _ ih => exact ih.keyed_same hall

/-! ## The second pass of the re-validation -/

/-- The second loop of the re-validation only adds to the removal set, keeps
it keyed by hash, and enters every transaction of an older epoch. -/
theorem resetPass2_old (e : Nat) (m : List (Nat × txError)) :
    ∀ (l : List Transaction) (r : List (Hash × Transaction)),
      (∀ p ∈ r, p.1 = p.2.Hash) →
      (∀ p ∈ resetPass2 e m l r, p.1 = p.2.Hash) ∧
      (∀ k ∈ r.map Prod.fst, k ∈ (resetPass2 e m l r).map Prod.fst) ∧
      (∀ t ∈ l, t.Epoch < e → t.Hash ∈ (resetPass2 e m l r).map Prod.fst) := by
  have hset : ∀ (r : List (Hash × Transaction)) (tx : Transaction),
      (∀ p ∈ r, p.1 = p.2.Hash) → ∀ p ∈ mapSet r tx.Hash tx, p.1 = p.2.Hash := by
    intro r tx hr p hp
    rcases mem_mapSet _ _ _ p hp with h | h
    · rw [h]
    · exact hr p h
  have hkeys : ∀ (r : List (Hash × Transaction)) (tx : Transaction),
      (∀ k ∈ r.map Prod.fst, k ∈ (mapSet r tx.Hash tx).map Prod.fst) ∧
        tx.Hash ∈ (mapSet r tx.Hash tx).map Prod.fst := by
    intro r tx
    rw [keys_mapSet]
    by_cases hin : tx.Hash ∈ r.map Prod.fst
    · rw [if_pos hin]; exact ⟨fun k hk => hk, hin⟩
    · rw [if_neg hin]
      exact ⟨fun k hk => List.mem_append_left _ hk,
        List.mem_append_right _ (List.mem_singleton_self _)⟩
  intro l
  induction l with
  | nil =>
    intro r hr
    simp only [resetPass2]
    exact ⟨hr, fun k hk => hk, fun t ht => by cases ht⟩
  | cons tx rest ih =>
    intro r hr
    have hskip : (∀ p ∈ resetPass2 e m rest r, p.1 = p.2.Hash) ∧
        (∀ k ∈ r.map Prod.fst, k ∈ (resetPass2 e m rest r).map Prod.fst) ∧
        (¬ tx.Epoch < e →
          ∀ t ∈ tx :: rest, t.Epoch < e → t.Hash ∈ (resetPass2 e m rest r).map Prod.fst) := by
      obtain ⟨h1, h2, h3⟩ := ih r hr
      refine ⟨h1, h2, ?_⟩
      intro hnot t ht hlt
      rcases List.mem_cons.mp ht with h | h
      · rw [h] at hlt; exact absurd hlt hnot
      · exact h3 t h hlt
    have htake : (∀ p ∈ resetPass2 e m rest (mapSet r tx.Hash tx), p.1 = p.2.Hash) ∧
        (∀ k ∈ r.map Prod.fst,
          k ∈ (resetPass2 e m rest (mapSet r tx.Hash tx)).map Prod.fst) ∧
        (∀ t ∈ tx :: rest, t.Epoch < e →
          t.Hash ∈ (resetPass2 e m rest (mapSet r tx.Hash tx)).map Prod.fst) := by
      obtain ⟨h1, h2, h3⟩ := ih (mapSet r tx.Hash tx) (hset r tx hr)
      refine ⟨h1, fun k hk => h2 k ((hkeys r tx).1 k hk), ?_⟩
      intro t ht hlt
      rcases List.mem_cons.mp ht with h | h
      · rw [h]; exact h2 _ (hkeys r tx).2
      · exact h3 t h hlt
    unfold resetPass2
    by_cases hlt : tx.Epoch < e
    · rw [if_pos hlt]; exact htake
    · rw [if_neg hlt]
      by_cases hgt : tx.Epoch > e
      · rw [if_pos hgt]; exact ⟨hskip.1, hskip.2.1, hskip.2.2 hlt⟩
      · rw [if_neg hgt]
        cases hm : mapGet m tx.sender with
        | none => exact ⟨hskip.1, hskip.2.1, hskip.2.2 hlt⟩
        | some txError =>
          dsimp only
          by_cases hn : tx.AccountNonce ≥ txError.nonce
          · rw [if_pos hn]; exact htake
          · rw [if_neg hn]; exact ⟨hskip.1, hskip.2.1, hskip.2.2 hlt⟩

/-- The first loop of the re-validation leaves a removal set keyed by hash. -/
theorem resetPass1_keyed (st : Ledger) (e : Nat) :
    ∀ (l : List Transaction) (m : List (Nat × txError)) (r : List (Hash × Transaction))
      (m2 : List (Nat × txError)) (r2 : List (Hash × Transaction)),
      (∀ p ∈ r, p.1 = p.2.Hash) → resetPass1 st e l m r = Except.ok (m2, r2) →
      ∀ p ∈ r2, p.1 = p.2.Hash := by
  intro l
  induction l with
  | nil =>
    intro m r m2 r2 hr h
    simp only [resetPass1] at h
    cases h
    exact hr
  | cons tx rest ih =>
    intro m r m2 r2 hr h
    unfold resetPass1 at h
    by_cases hep : tx.Epoch ≠ e
    · rw [if_pos hep] at h; exact ih m r m2 r2 hr h
    · rw [if_neg hep] at h
      cases hv : st.ValidateTx tx TxKind.MempoolTx with
      | ok => rw [hv] at h; exact ih m r m2 r2 hr h
      | fault msg => rw [hv] at h; cases h
      | err er =>
        rw [hv] at h
        dsimp only at h
        by_cases hin : er = ValidationError.InvalidNonce
        · rw [if_pos hin] at h
          refine ih m (mapSet r tx.Hash tx) m2 r2 ?_ h
          intro p hp
          rcases mem_mapSet _ _ _ p hp with h1 | h1
          · rw [h1]
          · exact hr p h1
        · rw [if_neg hin] at h
          cases hm : mapGet m tx.sender with
          | none => rw [hm] at h; exact ih _ r m2 r2 hr h
          | some n =>
            rw [hm] at h
            dsimp only at h
            by_cases hlt : tx.AccountNonce < n.nonce
            · rw [if_pos hlt] at h; exact ih _ r m2 r2 hr h
            · rw [if_neg hlt] at h; exact ih _ r m2 r2 hr h

/-- The pool after a `ResetTo` that re-validates and returns: the pool after
the removal of the block and the migration, without the transactions of the
removal set of the two loops. -/
theorem ResetTo_slow (pt : PriorityTable) (st : Ledger) (pool : TxPool)
    (block : List Transaction)
    (hslow : pool.mempoolCfg.ResetInCeremony = true ∨
      st.ValidationPeriod ≤ st.FlipLotteryPeriod)
    (hret : (pool.ResetTo pt st block).1 = none) :
    ∃ (m : List (Nat × txError)) (r1 : List (Hash × Transaction)),
      resetPass1 st st.Epoch
        (((block.foldl TxPool.Remove pool).movePendingTxsToExecutable pt st).all.List
          TxMapFilter.All) [] [] = Except.ok (m, r1) ∧
      (pool.ResetTo pt st block).2 =
        ((resetPass2 st.Epoch m
          (((block.foldl TxPool.Remove pool).movePendingTxsToExecutable pt st).all.List
            TxMapFilter.All) r1).map Prod.snd).foldl TxPool.Remove
          ((block.foldl TxPool.Remove pool).movePendingTxsToExecutable pt st) := by
  have hcfg : ((block.foldl TxPool.Remove pool).movePendingTxsToExecutable pt st).mempoolCfg =
      pool.mempoolCfg :=
    ((removeAll_syncFrame block pool).syncFrame_trans (move_syncFrame pt st _)).mempoolCfg
  have hcond : ¬ ((!((block.foldl TxPool.Remove pool).movePendingTxsToExecutable pt
      st).mempoolCfg.ResetInCeremony && decide (st.ValidationPeriod > st.FlipLotteryPeriod)) =
        true) := by
    rw [hcfg]
    rcases hslow with h | h
    · rw [h]; simp
    · simp only [Bool.and_eq_true, Bool.not_eq_true', decide_eq_true_eq, not_and]
      intro _; omega
  unfold TxPool.ResetTo at hret ⊢
  dsimp only at hret ⊢
  rw [if_neg hcond] at hret ⊢
  cases hro : st.ReadonlyErr with
  | some code => rw [hro] at hret; cases hret
  | none =>
    rw [hro] at hret
    dsimp only at hret ⊢
    cases h1 : resetPass1 st st.Epoch
        (((block.foldl TxPool.Remove pool).movePendingTxsToExecutable pt st).all.List
          TxMapFilter.All) [] [] with
    | error msg => rw [h1] at hret; cases hret
    | ok v =>
      obtain ⟨m, r1⟩ := v
      exact ⟨m, r1, rfl, rfl⟩

theorem txMap_List_All (m : txMap) : m.List TxMapFilter.All = m.txs.map Prod.snd := by
  unfold txMap.List
  simp

/-- After a `ResetTo` that re-validates and returns, the Global Index holds no
transaction of an epoch older than the global epoch, when it is keyed by the
hashes of its transactions. -/
theorem ResetTo_index_epoch (pt : PriorityTable) (st : Ledger) (pool : TxPool)
    (block : List Transaction) (hkeyed : IndexKeyed pool)
    (hslow : pool.mempoolCfg.ResetInCeremony = true ∨
      st.ValidationPeriod ≤ st.FlipLotteryPeriod)
    (hret : (pool.ResetTo pt st block).1 = none) :
    ∀ e ∈ (pool.ResetTo pt st block).2.all.txs, ¬ e.2.Epoch < st.Epoch := by
  obtain ⟨m, r1, h1, h2⟩ := ResetTo_slow pt st pool block hslow hret
  have hk2 : IndexKeyed ((block.foldl TxPool.Remove pool).movePendingTxsToExecutable pt st) :=
    hkeyed.keyed_sub (by rw [move_all]; exact removeAll_all_sublist block pool)
  have hr1 := resetPass1_keyed st st.Epoch _ [] [] m r1 (fun p hp => by cases hp) h1
  obtain ⟨hr2, _, hold⟩ := resetPass2_old st.Epoch m
    (((block.foldl TxPool.Remove pool).movePendingTxsToExecutable pt st).all.List
      TxMapFilter.All) r1 hr1
  intro e he hlt
  rw [h2] at he
  have he2 := (removeAll_all_sublist _ _).subset he
  have hkey : e.1 ∈ (((resetPass2 st.Epoch m
      (((block.foldl TxPool.Remove pool).movePendingTxsToExecutable pt st).all.List
        TxMapFilter.All) r1).map Prod.snd).foldl TxPool.Remove
      ((block.foldl TxPool.Remove pool).movePendingTxsToExecutable pt st)).all.txs.map Prod.fst :=
    List.mem_map_of_mem _ he
  have hne := (removeAll_keys _ _ e.1 hkey).2
  have hin : e.2 ∈ ((block.foldl TxPool.Remove pool).movePendingTxsToExecutable pt st).all.List
      TxMapFilter.All := by
    rw [txMap_List_All]
    exact List.mem_map_of_mem _ he2
  obtain ⟨p, hp, hpk⟩ := List.mem_map.mp (hold e.2 hin hlt)
  have hp2 := hr2 p hp
  apply hne p.2 (List.mem_map_of_mem _ hp)
  rw [hk2.keyed e he2, ← hpk, hp2]

/-! ## `ResetTo` and the transactions of older epochs -/

theorem length_mapSet_present {κ ν : Type} [DecidableEq κ] (m : List (κ × ν)) (k : κ) (v w : ν)
    (h : mapGet m k = some w) : (mapSet m k v).length = m.length := by
  have hk : k ∈ m.map Prod.fst := by
    by_contra hn
    rw [(mapGet_none_iff m k).mpr hn] at h
    cases h
  have h1 : ((mapSet m k v).map Prod.fst).length = (m.map Prod.fst).length := by
    rw [keys_mapSet, if_pos hk]
  simpa using h1

theorem length_mapDelete_le {κ ν : Type} [DecidableEq κ] (m : List (κ × ν)) (k : κ) :
    (mapDelete m k).length ≤ m.length := (mapDelete_sublist m k).length_le

theorem SlotBound.slots_of_le {pool other : TxPool} (h : SlotBound pool)
    (hcfg : other.mempoolCfg = pool.mempoolCfg)
    (hlen : other.pendingTxs.length ≤ pool.pendingTxs.length) : SlotBound other := by
  intro hpos
  rw [hcfg] at hpos ⊢
  have := h hpos
  omega

theorem SlotBound.slots_putToPending {pool : TxPool} (h : SlotBound pool) (pt : PriorityTable)
    (tx : Transaction) : SlotBound (pool.putToPending pt tx).2 := by
  unfold TxPool.putToPending
  cases hg : mapGet pool.pendingTxs tx.sender with
  | some set =>
    dsimp only
    cases hadd : set.Add pt tx with
    | mk e set1 =>
      cases e with
      | some e => exact h
      | none =>
        exact h.slots_of_le rfl (le_of_eq (length_mapSet_present _ _ _ _ hg))
  | none =>
    dsimp only
    by_cases hslots : pool.mempoolCfg.TxPoolQueueSlots > 0 ∧
        (pool.pendingTxs.length : Int) ≥ pool.mempoolCfg.TxPoolQueueSlots
    · rw [if_pos hslots]; exact h
    · rw [if_neg hslots]
      cases hadd : (newTxMap pool.mempoolCfg.TxPoolAddrQueueLimit).Add pt tx with
      | mk e set1 =>
        cases e with
        | some e => exact h
        | none =>
          intro hpos
          show ((mapSet pool.pendingTxs tx.sender set1).length : Int) ≤
            pool.mempoolCfg.TxPoolQueueSlots
          rw [mapSet_absent _ _ _ hg, List.length_append, List.length_singleton]
          have hpos2 : pool.mempoolCfg.TxPoolQueueSlots > 0 := hpos
          push_cast
          omega

theorem SlotBound.slots_place {pool : TxPool} (h : SlotBound pool) (pt : PriorityTable)
    (st : Ledger) (tx : Transaction) : SlotBound (pool.place pt st tx).2 := by
  unfold TxPool.place
  split
  · cases hadd : (pool.executableOrNew tx.sender).Add pt tx with
    | mk e q =>
      cases e with
      | some e => exact h.slots_putToPending pt tx
      | none => exact h.slots_of_le rfl (le_refl _)
  · exact h.slots_putToPending pt tx

theorem SlotBound.slots_put {pool : TxPool} (h : SlotBound pool) (pt : PriorityTable)
    (st : Ledger) (tx : Transaction) : SlotBound (pool.put pt st tx).2 := by
  have hp := h.slots_place pt st tx
  unfold TxPool.put
  cases hpl : pool.place pt st tx with
  | mk e p =>
    rw [hpl] at hp
    cases e with
    | some e => exact hp
    | none => exact hp.slots_of_le rfl (le_refl _)

theorem SlotBound.slots_add {pool : TxPool} (h : SlotBound pool) (pt : PriorityTable)
    (st : Ledger) (tx : Transaction) (own : Bool) (txType : TxKind) :
    SlotBound (pool.add pt st tx own txType).2 := by
  rcases add_cases pt st pool tx own txType with h1 | ⟨h1, _, _⟩
  · rw [h1]; exact h
  · rw [h1]; exact h.slots_put pt st _

theorem SlotBound.slots_remove {pool : TxPool} (h : SlotBound pool) (tx : Transaction) :
    SlotBound (pool.Remove tx) := by
  refine h.slots_of_le rfl ?_
  unfold TxPool.Remove
  dsimp only
  cases hg : mapGet pool.pendingTxs tx.sender with
  | none => exact le_refl _
  | some pending =>
    dsimp only
    split
    · exact length_mapDelete_le _ _
    · exact le_of_eq (length_mapSet_present _ _ _ _ hg)

theorem SlotBound.slots_removeAll {pool : TxPool} (h : SlotBound pool) (txs : List Transaction) :
    SlotBound (txs.foldl TxPool.Remove pool) :=
  foldl_invariant SlotBound TxPool.Remove txs (fun _ b _ ha => ha.slots_remove b) pool h

theorem SlotBound.slots_migrateStep {pool : TxPool} (h : SlotBound pool) (pt : PriorityTable)
    (st : Ledger) (entry : Nat × txMap)
    (hentry : mapGet pool.pendingTxs entry.1 = some entry.2) :
    SlotBound (migrateSender pt st pool entry) := by
  refine h.slots_of_le rfl ?_
  unfold migrateSender
  dsimp only
  split
  · exact length_mapDelete_le _ _
  · exact le_of_eq (length_mapSet_present _ _ _ _ hentry)

theorem SlotBound.slots_move {pool : TxPool} (h : SlotBound pool) (pt : PriorityTable)
    (st : Ledger) (hkeys : (pool.pendingTxs.map Prod.fst).Nodup) :
    SlotBound (pool.movePendingTxsToExecutable pt st) := by
  unfold TxPool.movePendingTxsToExecutable
  refine migrateFold_keeps pt st SlotBound (fun p e hp he => hp.slots_migrateStep pt st e he)
    pool.pendingTxs pool h hkeys ?_
  intro e he
  exact mem_mapGet _ _ _ hkeys he

theorem SlotBound.slots_reset {pool : TxPool} (h : SlotBound pool) (pt : PriorityTable)
    (st : Ledger) (block : List Transaction) (hkeys : (pool.pendingTxs.map Prod.fst).Nodup) :
    SlotBound (pool.ResetTo pt st block).2 := by
  have hk1 : ((block.foldl TxPool.Remove pool).pendingTxs.map Prod.fst).Nodup :=
    foldl_invariant (fun p : TxPool => (p.pendingTxs.map Prod.fst).Nodup) TxPool.Remove block
      (fun a b _ ha => Remove_pendKeys a b ha) pool hkeys
  have h2 : SlotBound ((block.foldl TxPool.Remove pool).movePendingTxsToExecutable pt st) :=
    (h.slots_removeAll block).slots_move pt st hk1
  rcases ResetTo_cases pt st pool block with h3 | ⟨removed, h3⟩
  · rw [h3]; exact h2
  · rw [h3]; exact h2.slots_removeAll removed

/-- Every reachable pool state keeps the bound on the senders with a pending
queue. -/
theorem Reachable.slotBound {pt : PriorityTable} {pool : TxPool} (h : Reachable pt pool) :
    SlotBound pool := by
  unfold Reachable at h
  induction h with
  | empty cfg =>
    intro hpos
    have hpos2 : cfg.TxPoolQueueSlots > 0 := hpos
    show ((0 : Nat) : Int) ≤ cfg.TxPoolQueueSlots
    omega
  | add st pool tx own txType _ _ ih => exact ih.slots_add pt st tx own txType
  | remove pool tx _ ih => exact ih.slots_remove tx
  | move st pool hprev ih => exact ih.slots_move pt st (Reachable.prioInv hprev).pendKeys
  | reset st pool block hprev ih =>
    exact ih.slots_reset pt st block (Reachable.prioInv hprev).pendKeys
  | reorder pool other _ hs ih =>
    exact ih.slots_of_le hs.mempoolCfg (le_of_eq hs.pendingTxs.length_eq)
  | reorderPending pool sender pending txs _ hget hperm ih =>
    exact ih.slots_of_le rfl (le_of_eq (length_mapSet_present _ _ _ _ hget))
  | frame pool other _ _ _ hpend hcfg ih =>
    exact ih.slots_of_le hcfg (le_of_eq (by rw [hpend]))

/-- C26: when the configured pending-slot count is positive, the number of
distinct senders that have a pending queue does not exceed it, in every pool
state reachable from the empty pool through `add`, `Remove`,
`movePendingTxsToExecutable` and `ResetTo`.  The senders counted are the keys
of the map `pendingTxs`, each once; their number is `len(pool.pendingTxs)`. -/
theorem pending_senders_bounded (pt : PriorityTable) (pool : TxPool) (h : Reachable pt pool)
    (hpos : pool.mempoolCfg.TxPoolQueueSlots > 0) :
    (pool.pendingSenders.length : Int) ≤ pool.mempoolCfg.TxPoolQueueSlots ∧
    (∀ s, s ∈ pool.pendingSenders ↔ (mapGet pool.pendingTxs s).isSome = true) ∧
    pool.pendingSenders.Nodup ∧
    pool.pendingSenders.length = pool.pendingTxs.length := by
  have hnd : (pool.pendingTxs.map Prod.fst).Nodup := (Reachable.prioInv h).pendKeys
  have hlen : pool.pendingSenders.length = pool.pendingTxs.length := by
    unfold TxPool.pendingSenders
    rw [hnd.dedup, List.length_map]
  refine ⟨?_, ?_, List.nodup_dedup _, hlen⟩
  · rw [hlen]
    exact Reachable.slotBound h hpos
  · intro s
    unfold TxPool.pendingSenders
    rw [List.mem_dedup]
    cases hg : mapGet pool.pendingTxs s with
    | none =>
      simp only [Option.isSome_none, Bool.false_eq_true, iff_false]
      exact (mapGet_none_iff _ _).mp hg
    | some v =>
      simp only [Option.isSome_some, iff_true]
      by_contra hn
      rw [(mapGet_none_iff _ _).mpr hn] at hg
      cases hg

/-- Witness of C26: the pool with one pending-sender slot in which sender 1
has a pending queue. -/
theorem pending_senders_bounded_witness :
    slotPool.mempoolCfg.TxPoolQueueSlots > 0 ∧
    (slotPool.pendingSenders.length : Int) ≤ slotPool.mempoolCfg.TxPoolQueueSlots ∧
    slotPool.pendingSenders = [1] :=
  ⟨by decide,
    (pending_senders_bounded examplePriority slotPool
      (ReachableVia.add exampleLedger (NewTxPool slotCfg) (exampleTx 5) false TxKind.InboundTx
        (ReachableVia.empty slotCfg) (fun _ => trivial)) (by decide)).1,
    by decide⟩

/-! ## Faults of the validator -/

/-- C27: if the validation call inside `add` raises a panic, `add` does not
propagate it: it returns an error, and the pool (Global Index, compact index,
executable queues, pending queues and every other field) is the same as
before the call.  When the call is reached (the transaction is not in the
Global Index and the limits let it pass) the error is the recovered panic. -/
theorem add_recovers_fault (pt : PriorityTable) (st : Ledger) (pool : TxPool)
    (tx : Transaction) (own : Bool) (txType : TxKind) (msg : Nat)
    (hfault : st.ValidateTx tx txType = ValidateOutcome.fault msg) :
    (pool.add pt st tx own txType).1 ≠ none ∧
    (pool.add pt st tx own txType).2 = pool ∧
    (pool.add pt st tx own txType).2.all = pool.all ∧
    (pool.add pt st tx own txType).2.shortHashAll = pool.shortHashAll ∧
    (pool.add pt st tx own txType).2.executableTxs = pool.executableTxs ∧
    (pool.add pt st tx own txType).2.pendingTxs = pool.pendingTxs ∧
    (pool.all.Get tx.Hash = none → pool.checkLimits pt tx = none →
      (pool.add pt st tx own txType).1 = some (PoolError.recovered msg)) := by
  have h : (pool.add pt st tx own txType).1 ≠ none ∧
      (pool.add pt st tx own txType).2 = pool ∧
      (pool.all.Get tx.Hash = none → pool.checkLimits pt tx = none →
        (pool.add pt st tx own txType).1 = some (PoolError.recovered msg)) := by
    unfold TxPool.add
    by_cases h1 : (pool.all.Get tx.Hash).isSome = true
    · rw [if_pos h1]
      refine ⟨by simp, rfl, fun h2 => ?_⟩
      rw [h2] at h1
      simp at h1
    · rw [if_neg h1]
      cases hc : pool.checkLimits pt tx with
      | some e => exact ⟨by simp, rfl, fun _ h3 => by cases h3⟩
      | none =>
        dsimp only
        rw [hfault]
        exact ⟨by simp, rfl, fun _ _ => rfl⟩
  refine ⟨h.1, h.2.1, ?_, ?_, ?_, ?_, h.2.2⟩ <;> rw [h.2.1]

theorem add_recovers_fault_witness :
    ((NewTxPool exampleCfg).add examplePriority faultyLedger (exampleTx 1) false
      TxKind.InboundTx).1 = some (PoolError.recovered 3) ∧
    ((NewTxPool exampleCfg).add examplePriority faultyLedger (exampleTx 1) false
      TxKind.InboundTx).2 = NewTxPool exampleCfg :=
  ⟨(add_recovers_fault examplePriority faultyLedger (NewTxPool exampleCfg) (exampleTx 1) false
      TxKind.InboundTx 3 rfl).2.2.2.2.2.2 (by decide) (by decide),
    (add_recovers_fault examplePriority faultyLedger (NewTxPool exampleCfg) (exampleTx 1) false
      TxKind.InboundTx 3 rfl).2.1⟩

/-! ## Placement by `put` -/

theorem putToPending_errors (pt : PriorityTable) (pool : TxPool) (tx : Transaction) :
    (pool.putToPending pt tx).1 = none ∨
    (pool.putToPending pt tx).1 = some PoolError.MempoolFullError ∨
    (pool.putToPending pt tx).1 = some PoolError.setIsFullErr := by
  unfold TxPool.putToPending txMap.Add
  cases mapGet pool.pendingTxs tx.sender with
  | some set =>
    dsimp only
    split_ifs <;> simp
  | none =>
    dsimp only
    split_ifs <;> simp

theorem sortedTxs_Add_errors (pt : PriorityTable) (s : sortedTxs) (tx : Transaction) :
    (s.Add pt tx).1 = none ∨ (s.Add pt tx).1 = some PoolError.setIsFullErr ∨
    (s.Add pt tx).1 = some PoolError.sortedTxNonceErr := by
  unfold sortedTxs.Add
  split_ifs
  · simp
  · cases s.txs.getLast? with
    | none => simp
    | some last =>
      dsimp only
      split_ifs <;> simp

/-- What `put` does when the placement goes to `putToPending`. -/
theorem put_via_pending (pt : PriorityTable) (st : Ledger) (pool : TxPool) (tx : Transaction)
    (hplace : pool.place pt st tx = pool.putToPending pt tx) :
    (pool.put pt st tx).1 = (pool.putToPending pt tx).1 ∧
    (pool.put pt st tx).2.executableTxs = pool.executableTxs ∧
    (pool.put pt st tx).2.pendingTxs = (pool.putToPending pt tx).2.pendingTxs ∧
    ((pool.put pt st tx).1 = none → (tx.Hash, tx) ∈ (pool.put pt st tx).2.pendOf tx.sender) := by
  unfold TxPool.put
  rw [hplace]
  rcases putToPending_cases pt pool tx with ⟨e, h⟩ | ⟨m, h, hm⟩
  · rw [h]
    exact ⟨rfl, rfl, rfl, fun h1 => by cases h1⟩
  · rw [h]
    refine ⟨rfl, rfl, rfl, fun _ => ?_⟩
    unfold TxPool.pendOf
    dsimp only
    rw [mapGet_mapSet_self]
    dsimp only
    rw [hm]
    exact mapGet_some_mem _ _ _ (mapGet_mapSet_self _ _ _)

/-- C28 as the code has it: when the sender has no executable queue, `put`
places the transaction in a new executable queue if and only if the epoch of
the transaction equals the global epoch and its nonce equals n + 1 (as
`uint32`), where n is the committed nonce of the sender, or 0 when the account
epoch of the sender is lower than the global epoch (`committedNonce`); the new
queue holds the transaction alone and `put` returns no error.  Otherwise the
transaction goes to `putToPending`: the executable queues stay as they are,
`put` returns what `putToPending` returns, and when that is no error the
transaction is in the pending queue of the sender. -/
theorem put_new_sender (pt : PriorityTable) (st : Ledger) (pool : TxPool) (tx : Transaction)
    (hnone : mapGet pool.executableTxs tx.sender = none) :
    ((mapGet (pool.put pt st tx).2.executableTxs tx.sender).isSome = true ↔
      (tx.Epoch = st.Epoch ∧ tx.AccountNonce = nonceSucc (committedNonce st tx.sender))) ∧
    ((tx.Epoch = st.Epoch ∧ tx.AccountNonce = nonceSucc (committedNonce st tx.sender)) →
      pool.put pt st tx =
        (none, { pool with
          executableTxs := mapSet pool.executableTxs tx.sender
            { txs := [tx], maxTxs := pool.mempoolCfg.TxPoolAddrExecutableLimit }
          all := (pool.all.Add pt tx).2
          shortHashAll := mapSet pool.shortHashAll tx.Hash128 tx })) ∧
    (¬ (tx.Epoch = st.Epoch ∧ tx.AccountNonce = nonceSucc (committedNonce st tx.sender)) →
      (pool.put pt st tx).1 = (pool.putToPending pt tx).1 ∧
      (pool.put pt st tx).2.executableTxs = pool.executableTxs ∧
      (pool.put pt st tx).2.pendingTxs = (pool.putToPending pt tx).2.pendingTxs ∧
      ((pool.put pt st tx).1 = none →
        (tx.Hash, tx) ∈ (pool.put pt st tx).2.pendOf tx.sender)) := by
  have hnew : pool.executableOrNew tx.sender =
      newSortedTxs pool.mempoolCfg.TxPoolAddrExecutableLimit := by
    unfold TxPool.executableOrNew
    rw [hnone]
  have hadd : (newSortedTxs pool.mempoolCfg.TxPoolAddrExecutableLimit).Add pt tx =
      (none, { txs := [tx], maxTxs := pool.mempoolCfg.TxPoolAddrExecutableLimit }) := by
    unfold sortedTxs.Add sortedTxs.Full newSortedTxs
    have hfull : (decide (pool.mempoolCfg.TxPoolAddrExecutableLimit > 0) &&
        decide ((([] : List Transaction).length : Int) ≥
          pool.mempoolCfg.TxPoolAddrExecutableLimit)) = false := by
      rw [Bool.and_eq_false_iff]
      by_cases h5 : pool.mempoolCfg.TxPoolAddrExecutableLimit > 0
      · right
        simp only [decide_eq_false_iff_not, List.length_nil, Nat.cast_zero]
        omega
      · left; simp only [decide_eq_false_iff_not]; exact h5
    dsimp only
    rw [hfull]
    simp
  have hyes : (tx.Epoch = st.Epoch ∧ tx.AccountNonce = nonceSucc (committedNonce st tx.sender)) →
      pool.put pt st tx =
        (none, { pool with
          executableTxs := mapSet pool.executableTxs tx.sender
            { txs := [tx], maxTxs := pool.mempoolCfg.TxPoolAddrExecutableLimit }
          all := (pool.all.Add pt tx).2
          shortHashAll := mapSet pool.shortHashAll tx.Hash128 tx }) := by
    intro hcond
    have hplace : pool.place pt st tx = (none, { pool with
        executableTxs := mapSet pool.executableTxs tx.sender
          { txs := [tx], maxTxs := pool.mempoolCfg.TxPoolAddrExecutableLimit } }) := by
      unfold TxPool.place TxPool.isExecutable
      rw [hnew, hadd]
      simp [newSortedTxs, sortedTxs.Empty, hcond.1, hcond.2]
    unfold TxPool.put
    rw [hplace]
  have hno : ¬ (tx.Epoch = st.Epoch ∧
      tx.AccountNonce = nonceSucc (committedNonce st tx.sender)) →
      pool.place pt st tx = pool.putToPending pt tx := by
    intro hcond
    unfold TxPool.place TxPool.isExecutable
    rw [hnew]
    have hex : (if (newSortedTxs pool.mempoolCfg.TxPoolAddrExecutableLimit).Empty = true then
        !(decide (tx.Epoch ≠ st.Epoch) ||
          decide (tx.AccountNonce ≠ nonceSucc (committedNonce st tx.sender))) else true) =
        false := by
      simp only [newSortedTxs, sortedTxs.Empty, List.length_nil, beq_self_eq_true, if_true]
      by_cases h2 : tx.Epoch = st.Epoch
      · have h3 : tx.AccountNonce ≠ nonceSucc (committedNonce st tx.sender) :=
          fun h3 => hcond ⟨h2, h3⟩
        simp [h2, h3]
      · simp [h2]
    rw [hex]
    simp
  refine ⟨⟨fun h => ?_, fun h => ?_⟩, hyes, fun h => put_via_pending pt st pool tx (hno h)⟩
  · by_contra hcond
    rw [(put_via_pending pt st pool tx (hno hcond)).2.1, hnone] at h
    simp at h
  · rw [hyes h]
    dsimp only
    rw [mapGet_mapSet_self]
    rfl

/-- Counterexample to C28 as stated: the pool has one slot for senders with a
pending queue and sender 1 holds it.  Sender 2 has no executable queue and its
transaction with the nonce 5 does not follow its committed nonce 0; `put`
returns the error of `putToPending` and the transaction is placed in no
queue. -/
theorem put_refused_by_pending :
    mapGet slotPool.executableTxs strangerTx.sender = none ∧
    ¬ (strangerTx.Epoch = exampleLedger.Epoch ∧
      strangerTx.AccountNonce = nonceSucc (committedNonce exampleLedger strangerTx.sender)) ∧
    slotPool.put examplePriority exampleLedger strangerTx =
      (some PoolError.MempoolFullError, slotPool) ∧
    (slotPool.put examplePriority exampleLedger strangerTx).2.pendOf strangerTx.sender = [] ∧
    (slotPool.put examplePriority exampleLedger strangerTx).2.execOf strangerTx.sender = [] := by
  decide

/-- Witness of C28: in the empty pool the nonce 1 of sender 1 starts an
executable queue, the nonce 2 does not. -/
theorem put_new_sender_witness :
    mapGet (NewTxPool exampleCfg).executableTxs (exampleTx 1).sender = none ∧
    (mapGet ((NewTxPool exampleCfg).put examplePriority exampleLedger
      (exampleTx 1)).2.executableTxs (exampleTx 1).sender).isSome = true ∧
    (mapGet ((NewTxPool exampleCfg).put examplePriority exampleLedger
      (exampleTx 2)).2.executableTxs (exampleTx 2).sender).isSome = false :=
  ⟨by decide,
    (put_new_sender examplePriority exampleLedger (NewTxPool exampleCfg) (exampleTx 1)
      (by decide)).1.2 (by decide), by decide⟩

/-- Counterexample to C29 as stated: the pool has one slot for senders with a
pending queue and sender 1 holds it; sender 2 holds its nonce 1 in its
executable queue.  The nonce 5 of sender 2 is not the next one: the
executable queue rejects it, `putToPending` refuses it because no slot is
free, and `put` returns `MempoolFullError`: the transaction is in neither
queue of its sender and not in the Global Index. -/
theorem known_sender_refused_by_pending :
    Reachable examplePriority twinSlotPool ∧
    mapGet twinSlotPool.executableTxs strangerTx.sender =
      some (sortedTxs.mk [storedTx exampleLedger twinTx] 2) ∧
    ((sortedTxs.mk [storedTx exampleLedger twinTx] 2).Add examplePriority strangerTx).1 =
      some PoolError.sortedTxNonceErr ∧
    twinSlotPool.put examplePriority exampleLedger strangerTx =
      (some PoolError.MempoolFullError, twinSlotPool) ∧
    (twinSlotPool.put examplePriority exampleLedger strangerTx).2.pendOf strangerTx.sender = [] ∧
    (twinSlotPool.put examplePriority exampleLedger strangerTx).2.execOf strangerTx.sender =
      [storedTx exampleLedger twinTx] ∧
    (twinSlotPool.put examplePriority exampleLedger strangerTx).2.GetTx strangerTx.Hash = none :=
  ⟨ReachableVia.add exampleLedger _ twinTx false TxKind.InboundTx
      (ReachableVia.add exampleLedger (NewTxPool slotCfg) (exampleTx 5) false TxKind.InboundTx
        (ReachableVia.empty slotCfg) (fun _ => trivial)) (fun _ => trivial),
    by decide, by decide, by decide, by decide, by decide, by decide⟩

/-- C29 as the code has it: when the sender has a non-empty executable queue,
`put` appends the transaction to it exactly when `sortedTxs.Add` accepts it.
When the queue rejects it (the queue is full, or the nonce is not the next
one) the executable queues stay as they are and the transaction is handed to
`putToPending`: `put` returns what `putToPending` returns.  When that is no
error the transaction is in the pending queue of the sender; when
`putToPending` refuses it (`MempoolFullError` or the error of the full set)
`put` returns that error and leaves the whole pool as it was, so that the
transaction is in no queue and in no index.  In no case does `put` return the
non-sequential-nonce error. -/
theorem put_known_sender (pt : PriorityTable) (st : Ledger) (pool : TxPool) (tx : Transaction)
    (executable : sortedTxs)
    (hq : mapGet pool.executableTxs tx.sender = some executable)
    (hne : executable.txs ≠ []) :
    ((executable.Add pt tx).1 = none →
      pool.put pt st tx =
        (none, { pool with
          executableTxs := mapSet pool.executableTxs tx.sender
            { executable with txs := executable.txs ++ [tx] }
          all := (pool.all.Add pt tx).2
          shortHashAll := mapSet pool.shortHashAll tx.Hash128 tx })) ∧
    ((executable.Add pt tx).1 ≠ none →
      ((executable.Add pt tx).1 = some PoolError.setIsFullErr ∨
        (executable.Add pt tx).1 = some PoolError.sortedTxNonceErr) ∧
      (pool.put pt st tx).1 = (pool.putToPending pt tx).1 ∧
      (pool.put pt st tx).2.executableTxs = pool.executableTxs ∧
      (pool.put pt st tx).2.pendingTxs = (pool.putToPending pt tx).2.pendingTxs ∧
      ((pool.put pt st tx).1 = none →
        (tx.Hash, tx) ∈ (pool.put pt st tx).2.pendOf tx.sender)) ∧
    ((pool.put pt st tx).2.execOf tx.sender = executable.txs ++ [tx] ↔
      (executable.Add pt tx).1 = none) ∧
    (pool.put pt st tx).1 ≠ some PoolError.sortedTxNonceErr ∧
    ((pool.put pt st tx).1 ≠ none →
      ((pool.put pt st tx).1 = some PoolError.MempoolFullError ∨
        (pool.put pt st tx).1 = some PoolError.setIsFullErr) ∧
      (executable.Add pt tx).1 ≠ none ∧
      (pool.put pt st tx).1 = (pool.putToPending pt tx).1 ∧
      (pool.put pt st tx).2 = pool) := by
  have hold : pool.executableOrNew tx.sender = executable := by
    unfold TxPool.executableOrNew
    rw [hq]
  have hexec : pool.isExecutable st tx = true := by
    unfold TxPool.isExecutable
    rw [hold]
    have : executable.Empty = false := by
      simp only [sortedTxs.Empty, beq_eq_false_iff_ne, ne_eq, List.length_eq_zero]
      exact hne
    rw [this]
    rfl
  have hcases := sortedTxs_Add_cases pt executable tx
  have hyes : (executable.Add pt tx).1 = none →
      pool.put pt st tx =
        (none, { pool with
          executableTxs := mapSet pool.executableTxs tx.sender
            { executable with txs := executable.txs ++ [tx] }
          all := (pool.all.Add pt tx).2
          shortHashAll := mapSet pool.shortHashAll tx.Hash128 tx }) := by
    intro hok
    have hadd : executable.Add pt tx = (none, { executable with txs := executable.txs ++ [tx] }) := by
      rcases hcases with ⟨e, h⟩ | ⟨h, _, _⟩
      · rw [h] at hok; cases hok
      · exact h
    unfold TxPool.put TxPool.place
    rw [if_pos hexec, hold, hadd]
  have hno : (executable.Add pt tx).1 ≠ none →
      pool.place pt st tx = pool.putToPending pt tx := by
    intro herr
    unfold TxPool.place
    rw [if_pos hexec, hold]
    cases hadd : executable.Add pt tx with
    | mk e q =>
      rw [hadd] at herr
      cases e with
      | none => exact absurd rfl herr
      | some e => rfl
  have hnever : (pool.put pt st tx).1 ≠ some PoolError.sortedTxNonceErr := by
    by_cases hok : (executable.Add pt tx).1 = none
    · rw [hyes hok]
      simp
    · rw [(put_via_pending pt st pool tx (hno hok)).1]
      rcases putToPending_errors pt pool tx with h | h | h <;> rw [h] <;> simp
  refine ⟨hyes, fun herr => ⟨?_, put_via_pending pt st pool tx (hno herr)⟩, ⟨fun h => ?_, fun h => ?_⟩,
    hnever, fun hfail => ?_⟩
  rotate_left 3
  · have hrej : (executable.Add pt tx).1 ≠ none := by
      intro hok
      rw [hyes hok] at hfail
      exact hfail rfl
    have hvia := (put_via_pending pt st pool tx (hno hrej)).1
    refine ⟨?_, hrej, hvia, put_error_same pt st pool tx hfail⟩
    rw [hvia] at hfail ⊢
    rcases putToPending_errors pt pool tx with h | h | h
    · exact absurd h hfail
    · exact Or.inl h
    · exact Or.inr h
  · rcases sortedTxs_Add_errors pt executable tx with h | h | h
    · exact absurd h herr
    · exact Or.inl h
    · exact Or.inr h
  · by_contra herr
    have h2 := (put_via_pending pt st pool tx (hno herr)).2.1
    unfold TxPool.execOf at h
    rw [h2, hq] at h
    dsimp only at h
    have := congrArg List.length h
    simp at this
  · rw [hyes h]
    unfold TxPool.execOf
    dsimp only
    rw [mapGet_mapSet_self]

/-- Witness of C29: sender 1 holds the nonce 1 in its executable queue; the
nonce 4 is not the next one, so it goes to the pending queue and `put` returns
no error. -/
theorem put_known_sender_witness :
    mapGet examplePool1.executableTxs (exampleTx 4).sender =
      some (sortedTxs.mk [storedTx exampleLedger (exampleTx 1)] 2) ∧
    ((sortedTxs.mk [storedTx exampleLedger (exampleTx 1)] 2).Add examplePriority
      (exampleTx 4)).1 = some PoolError.sortedTxNonceErr ∧
    (examplePool1.put examplePriority exampleLedger (exampleTx 4)).1 = none ∧
    (examplePool1.put examplePriority exampleLedger (exampleTx 4)).1 ≠
      some PoolError.sortedTxNonceErr ∧
    ((exampleTx 4).Hash, exampleTx 4) ∈
      (examplePool1.put examplePriority exampleLedger (exampleTx 4)).2.pendOf 1 :=
  ⟨by decide, by decide, by decide,
    (put_known_sender examplePriority exampleLedger examplePool1 (exampleTx 4)
      (sortedTxs.mk [storedTx exampleLedger (exampleTx 1)] 2) (by decide) (by decide)).2.2.2.1,
    by decide⟩

/-! ## The stable sort and the removal of entries -/

theorem not_less_of_epochNonceLe {a b : Transaction} (h : epochNonceLe a b) :
    ¬ sortedLess b a = true := by
  unfold epochNonceLe at h
  unfold sortedLess
  by_cases h1 : b.Epoch < a.Epoch
  · omega
  · by_cases h2 : b.Epoch > a.Epoch
    · simp [h1, h2]
    · simp only [h1, h2, if_false, decide_eq_true_eq]
      omega

theorem stableInsert_head (x : Transaction) (l : List Transaction)
    (h : ∀ z ∈ l, ¬ sortedLess z x = true) : stableInsert sortedLess x l = x :: l := by
  cases l with
  | nil => rfl
  | cons y ys =>
    show (if sortedLess y x = true then y :: stableInsert sortedLess x ys else x :: y :: ys) = _
    rw [if_neg (h y (List.mem_cons_self _ _))]

theorem stableInsert_cons (x y : Transaction) (ys : List Transaction) :
    stableInsert sortedLess x (y :: ys) =
      if sortedLess y x = true then y :: stableInsert sortedLess x ys else x :: y :: ys := rfl

/-- Filtering commutes with the stable insertion into a sorted list. -/
theorem stableInsert_filter (p : Transaction → Bool) (x : Transaction) (l : List Transaction)
    (hs : l.Pairwise epochNonceLe) :
    (stableInsert sortedLess x l).filter p =
      if p x = true then stableInsert sortedLess x (l.filter p) else l.filter p := by
  induction l with
  | nil =>
    by_cases px : p x = true
    · simp [stableInsert, px]
    · simp [stableInsert, px]
  | cons y ys ih =>
    rw [List.pairwise_cons] at hs
    have ih2 := ih hs.2
    rw [stableInsert_cons]
    by_cases h : sortedLess y x = true
    · rw [if_pos h]
      by_cases py : p y = true
      · rw [List.filter_cons_of_pos py, List.filter_cons_of_pos py, ih2, stableInsert_cons,
          if_pos h]
        by_cases px : p x = true
        · rw [if_pos px, if_pos px]
        · rw [if_neg px, if_neg px]
      · rw [List.filter_cons_of_neg py, List.filter_cons_of_neg py, ih2]
    · rw [if_neg h]
      by_cases px : p x = true
      · rw [if_pos px, List.filter_cons_of_pos px]
        rw [stableInsert_head]
        intro z hz
        have hz2 : z ∈ y :: ys := (List.mem_filter.mp hz).1
        rcases List.mem_cons.mp hz2 with hzy | hzy
        · rw [hzy]; exact h
        · exact not_less_of_epochNonceLe
            (epochNonceLe_trans (epochNonceLe_of_not_less h) (hs.1 z hzy))
      · rw [if_neg px, List.filter_cons_of_neg px]

/-- Filtering commutes with `sort.SliceStable` under the order of
`txMap.Sorted`. -/
theorem sliceStable_filter (p : Transaction → Bool) (l : List Transaction) :
    sliceStable sortedLess (l.filter p) = (sliceStable sortedLess l).filter p := by
  induction l with
  | nil => rfl
  | cons x xs ih =>
    show _ = (stableInsert sortedLess x (sliceStable sortedLess xs)).filter p
    rw [stableInsert_filter p x _ (sliceStable_sorted xs), ← ih]
    by_cases px : p x = true
    · rw [if_pos px, List.filter_cons_of_pos px]
      rfl
    · rw [if_neg px, List.filter_cons_of_neg px]

/-- The entries left when the transactions of a list are removed by hash. -/
theorem removeHashes_txs (moved : List Transaction) :
    ∀ pending : txMap,
      (moved.foldl (fun p t => p.Remove t.Hash) pending).txs =
        pending.txs.filter (fun e => decide (e.1 ∉ moved.map Transaction.Hash)) := by
  induction moved with
  | nil => intro pending; simp
  | cons tx rest ih =>
    intro pending
    simp only [List.foldl_cons]
    rw [ih (pending.Remove tx.Hash)]
    show List.filter _ (mapDelete pending.txs tx.Hash) = _
    unfold mapDelete
    rw [List.filter_filter]
    apply List.filter_congr
    intro e _
    simp only [List.map_cons, List.mem_cons, not_or, ne_eq, Bool.decide_and, Bool.and_comm]

/-- The sorted snapshot of a pending queue after a prefix of its sorted
snapshot was removed is the rest of the snapshot. -/
theorem sorted_after_removal (pending : txMap) (moved rest : List Transaction)
    (hkeyed : ∀ e ∈ pending.txs, e.1 = e.2.Hash)
    (hnd : (pending.txs.map Prod.fst).Nodup)
    (hsplit : pending.Sorted = moved ++ rest) :
    sliceStable sortedLess
      ((moved.foldl (fun p t => p.Remove t.Hash) pending).txs.map Prod.snd) = rest := by
  have hsnap := (sorted_snapshot pending hkeyed hnd).2
  rw [hsplit, List.map_append, List.nodup_append] at hsnap
  have h1 : (moved.foldl (fun p t => p.Remove t.Hash) pending).txs.map Prod.snd =
      (pending.txs.map Prod.snd).filter
        (fun t => decide (t.Hash ∉ moved.map Transaction.Hash)) := by
    rw [removeHashes_txs, List.filter_map]
    congr 1
    apply List.filter_congr
    intro e he
    simp only [Function.comp_apply, hkeyed e he]
  rw [h1, sliceStable_filter]
  show List.filter _ pending.Sorted = rest
  rw [hsplit, List.filter_append]
  have h2 : moved.filter (fun t => decide (t.Hash ∉ moved.map Transaction.Hash)) = [] := by
    rw [List.filter_eq_nil_iff]
    intro t ht
    simp only [decide_eq_true_eq, not_not]
    exact List.mem_map_of_mem _ ht
  have h3 : rest.filter (fun t => decide (t.Hash ∉ moved.map Transaction.Hash)) = rest := by
    rw [List.filter_eq_self]
    intro t ht
    simp only [decide_eq_true_eq]
    intro hin
    exact hsnap.2.2 hin (List.mem_map_of_mem _ ht)
  rw [h2, h3, List.nil_append]

/-! ## Where the migration stops -/

/-- The test of the migration loop is the acceptance of the specification. -/
theorem migrates_iff (pt : PriorityTable) (st : Ledger) (sender : Nat) (executable : sortedTxs)
    (tx : Transaction) :
    migrates pt st sender executable tx = true ↔ acceptsNext pt st sender executable tx := by
  unfold migrates acceptsNext sortedTxs.Add sortedTxs.Empty
  cases hl : executable.txs with
  | nil =>
    simp only [List.length_nil, beq_self_eq_true, Bool.true_and, List.getLast?_nil]
    by_cases hroom : (!priorityKey pt tx.TxType && executable.Full) = true
    · have hno : ¬ (priorityKey pt tx.TxType = true ∨ executable.Full = false) := by
        simp only [Bool.and_eq_true, Bool.not_eq_true'] at hroom
        rw [hroom.1, hroom.2]; simp
      rw [if_pos hroom]
      split_ifs <;> simp [hno]
    · have hyes : priorityKey pt tx.TxType = true ∨ executable.Full = false := by
        cases h1 : priorityKey pt tx.TxType
        · cases h2 : executable.Full
          · exact Or.inr rfl
          · rw [h1, h2] at hroom; simp at hroom
        · exact Or.inl rfl
      rw [if_neg hroom]
      by_cases hc : (decide (st.Epoch ≠ tx.Epoch) ||
          decide (tx.AccountNonce ≠ nonceSucc (committedNonce st sender))) = true
      · rw [if_pos hc]
        simp only [Bool.or_eq_true, decide_eq_true_eq] at hc
        simp only [Bool.false_eq_true, false_iff, not_and]
        intro _ hep hn
        rcases hc with h | h
        · exact h hep.symm
        · exact h hn
      · rw [if_neg hc]
        simp only [Bool.or_eq_true, decide_eq_true_eq, not_or, not_not] at hc
        simp only [Option.isNone_none, true_iff]
        exact ⟨hyes, hc.1.symm, hc.2⟩
  | cons y ys =>
    have hne : (y :: ys).getLast? = some ((y :: ys).getLast (List.cons_ne_nil _ _)) :=
      List.getLast?_eq_getLast _ _
    rw [hne]
    have hemp : (ys.length + 1 == 0) = false := by simp
    simp only [List.length_cons]
    rw [hemp]
    simp only [Bool.false_and, Bool.false_eq_true, if_false]
    by_cases hroom : (!priorityKey pt tx.TxType && executable.Full) = true
    · have hno : ¬ (priorityKey pt tx.TxType = true ∨ executable.Full = false) := by
        simp only [Bool.and_eq_true, Bool.not_eq_true'] at hroom
        rw [hroom.1, hroom.2]; simp
      rw [if_pos hroom]
      simp [hno]
    · have hyes : priorityKey pt tx.TxType = true ∨ executable.Full = false := by
        cases h1 : priorityKey pt tx.TxType
        · cases h2 : executable.Full
          · exact Or.inr rfl
          · rw [h1, h2] at hroom; simp at hroom
        · exact Or.inl rfl
      rw [if_neg hroom]
      by_cases hc : tx.AccountNonce ≠
          nonceSucc ((y :: ys).getLast (List.cons_ne_nil _ _)).AccountNonce ∨
          tx.Epoch ≠ ((y :: ys).getLast (List.cons_ne_nil _ _)).Epoch
      · rw [if_pos hc]
        simp only [Option.isNone_some, Bool.false_eq_true, false_iff, not_and]
        intro _ hep hn
        rcases hc with h | h
        · exact h hn
        · exact h hep
      · rw [if_neg hc]
        simp only [not_or, not_not] at hc
        simp only [Option.isNone_none, true_iff]
        exact ⟨hyes, hc.2, hc.1⟩

/-- The migration loop moves a prefix of the snapshot it runs over and stops
at the first transaction its test refuses. -/
theorem migrateLoop_stop (pt : PriorityTable) (st : Ledger) (sender : Nat) :
    ∀ (snapshot : List Transaction) (executable : sortedTxs) (pending : txMap) (stored : Bool),
      ∃ moved rest, snapshot = moved ++ rest ∧
        (migrateLoop pt st sender snapshot executable pending stored).1.txs =
          executable.txs ++ moved ∧
        (migrateLoop pt st sender snapshot executable pending stored).1.maxTxs =
          executable.maxTxs ∧
        (migrateLoop pt st sender snapshot executable pending stored).2.1 =
          moved.foldl (fun p t => p.Remove t.Hash) pending ∧
        (∀ t, rest.head? = some t →
          migrates pt st sender
            (migrateLoop pt st sender snapshot executable pending stored).1 t = false) := by
  intro snapshot
  induction snapshot with
  | nil =>
    intro executable pending stored
    refine ⟨[], [], rfl, ?_, rfl, rfl, fun t ht => by cases ht⟩
    simp [migrateLoop]
  | cons tx rest ih =>
    intro executable pending stored
    unfold migrateLoop
    by_cases hbreak : (executable.Empty && (decide (st.Epoch ≠ tx.Epoch) ||
        decide (tx.AccountNonce ≠ nonceSucc (committedNonce st sender)))) = true
    · rw [if_pos hbreak]
      refine ⟨[], tx :: rest, rfl, by simp, rfl, rfl, ?_⟩
      intro t ht
      simp only [List.head?_cons, Option.some.injEq] at ht
      subst ht
      unfold migrates
      rw [if_pos hbreak]
    · rw [if_neg hbreak]
      rcases sortedTxs_Add_cases pt executable tx with ⟨e, he⟩ | ⟨hadd, _, _⟩
      · rw [he]
        refine ⟨[], tx :: rest, rfl, by simp, rfl, rfl, ?_⟩
        intro t ht
        simp only [List.head?_cons, Option.some.injEq] at ht
        subst ht
        unfold migrates
        rw [if_neg hbreak, he]
        rfl
      · rw [hadd]
        dsimp only
        obtain ⟨moved, rest2, h1, h2, h3, h4, h5⟩ :=
          ih { executable with txs := executable.txs ++ [tx] } (pending.Remove tx.Hash) true
        refine ⟨tx :: moved, rest2, by rw [h1]; rfl, ?_, h3, ?_, h5⟩
        · rw [h2]; simp
        · rw [h4]; rfl

theorem executableOrNew_of_get (pool : TxPool) (s : Nat) (q : sortedTxs)
    (h : mapGet pool.executableTxs s = some q) : pool.executableOrNew s = q := by
  unfold TxPool.executableOrNew
  rw [h]

theorem executableOrNew_same (pool other : TxPool) (s : Nat)
    (h : mapGet other.executableTxs s = mapGet pool.executableTxs s)
    (hcfg : other.mempoolCfg = pool.mempoolCfg) :
    other.executableOrNew s = pool.executableOrNew s := by
  unfold TxPool.executableOrNew
  rw [h, hcfg]

theorem migrateSender_executableOrNew (pt : PriorityTable) (st : Ledger) (pool : TxPool)
    (entry : Nat × txMap) (s : Nat) :
    (migrateSender pt st pool entry).executableOrNew s =
      if s = entry.1 then (migrateLoop pt st entry.1 entry.2.Sorted
        (pool.executableOrNew entry.1) entry.2 false).1 else pool.executableOrNew s := by
  cases hf : (migrateLoop pt st entry.1 entry.2.Sorted
      (pool.executableOrNew entry.1) entry.2 false).2.2 with
  | true =>
    have h : (migrateSender pt st pool entry).executableTxs =
        mapSet pool.executableTxs entry.1 (migrateLoop pt st entry.1 entry.2.Sorted
          (pool.executableOrNew entry.1) entry.2 false).1 := by
      simp [migrateSender, hf]
    by_cases hs : s = entry.1
    · rw [if_pos hs, hs]
      exact executableOrNew_of_get _ _ _ (by rw [h, mapGet_mapSet_self])
    · rw [if_neg hs]
      exact executableOrNew_same _ _ _
        (by rw [h, mapGet_mapSet_ne _ _ _ _ hs]) rfl
  | false =>
    have h : (migrateSender pt st pool entry).executableTxs = pool.executableTxs := by
      simp [migrateSender, hf]
    have h2 := (migrateLoop_flag pt st entry.1 entry.2.Sorted (pool.executableOrNew entry.1)
      entry.2 false).2 hf
    have h3 : (migrateSender pt st pool entry).executableOrNew s = pool.executableOrNew s :=
      executableOrNew_same pool (migrateSender pt st pool entry) s (by rw [h]) rfl
    rw [h2, h3]
    by_cases hs : s = entry.1
    · rw [if_pos hs, hs]
    · rw [if_neg hs]

/-- After the iteration of the outer loop for a sender the migration has
stopped for that sender. -/
theorem migrateSender_done {pt : PriorityTable} {pool : TxPool} (hinv : PrioInv pt pool)
    (st : Ledger) (entry : Nat × txMap)
    (hentry : mapGet pool.pendingTxs entry.1 = some entry.2) :
    MigrationDone pt st (migrateSender pt st pool entry) entry.1 := by
  have hpend : pool.pendOf entry.1 = entry.2.txs := by
    unfold TxPool.pendOf; rw [hentry]
  have hkeyed : ∀ e ∈ entry.2.txs, e.1 = e.2.Hash :=
    fun e he => hinv.view.pendKeyed entry.1 e (by rw [hpend]; exact he)
  have hnd : (entry.2.txs.map Prod.fst).Nodup := by
    rw [← hpend]; exact hinv.view.pendNodup entry.1
  obtain ⟨moved, rest, h1, _, _, h4, h5⟩ := migrateLoop_stop pt st entry.1 entry.2.Sorted
    (pool.executableOrNew entry.1) entry.2 false
  intro tx htx
  rw [migrateSender_executableOrNew, if_pos rfl]
  rw [migrateSender_pendOf] at htx
  simp only [if_true] at htx
  rw [h4, sorted_after_removal entry.2 moved rest hkeyed hnd h1] at htx
  exact h5 tx htx

theorem migrateSender_done_other (pt : PriorityTable) (st : Ledger) (pool : TxPool)
    (entry : Nat × txMap) (s : Nat) (hs : s ≠ entry.1) (h : MigrationDone pt st pool s) :
    MigrationDone pt st (migrateSender pt st pool entry) s := by
  intro tx htx
  rw [migrateSender_executableOrNew, if_neg hs]
  rw [migrateSender_pendOf] at htx
  simp only [hs, if_false] at htx
  exact h tx htx

/-- The outer loop of the migration: the migration has stopped for every
sender it went over, and stays stopped for the others. -/
theorem migrateFold_done (pt : PriorityTable) (st : Ledger) :
    ∀ (entries : List (Nat × txMap)) (pool : TxPool), PrioInv pt pool →
      (entries.map Prod.fst).Nodup →
      (∀ e ∈ entries, mapGet pool.pendingTxs e.1 = some e.2) →
      ∀ s, (s ∈ entries.map Prod.fst ∨ MigrationDone pt st pool s) →
        MigrationDone pt st (entries.foldl (migrateSender pt st) pool) s := by
  intro entries
  induction entries with
  | nil =>
    intro pool _ _ _ s hs
    rcases hs with hs | hs
    · cases hs
    · exact hs
  | cons e rest ih =>
    intro pool hinv hnd hget s hs
    simp only [List.foldl_cons]
    simp only [List.map_cons, List.nodup_cons] at hnd
    have he := hget e (List.mem_cons_self _ _)
    have hget2 : ∀ e2 ∈ rest, mapGet (migrateSender pt st pool e).pendingTxs e2.1 = some e2.2 := by
      intro e2 he2
      have hne : e2.1 ≠ e.1 := by
        intro h
        exact hnd.1 (h ▸ List.mem_map_of_mem Prod.fst he2)
      rw [migrateSender_pending_other pt st pool e e2.1 hne]
      exact hget e2 (List.mem_cons_of_mem _ he2)
    refine ih _ (hinv.prio_migrateStep st e he) hnd.2 hget2 s ?_
    by_cases hin : s ∈ rest.map Prod.fst
    · exact Or.inl hin
    · right
      by_cases hse : s = e.1
      · rw [hse]; exact migrateSender_done hinv st e he
      · refine migrateSender_done_other pt st pool e s hse ?_
        rcases hs with hs | hs
        · simp only [List.map_cons, List.mem_cons] at hs
          rcases hs with hs | hs
          · exact absurd hs hse
          · exact absurd hs hin
        · exact hs

/-- After `movePendingTxsToExecutable` the migration has stopped for every
sender. -/
theorem move_done {pt : PriorityTable} {pool : TxPool} (hinv : PrioInv pt pool) (st : Ledger)
    (s : Nat) : MigrationDone pt st (pool.movePendingTxsToExecutable pt st) s := by
  unfold TxPool.movePendingTxsToExecutable
  refine migrateFold_done pt st pool.pendingTxs pool hinv hinv.pendKeys
    (fun e he => mem_mapGet _ _ _ hinv.pendKeys he) s ?_
  by_cases hin : s ∈ pool.pendingTxs.map Prod.fst
  · exact Or.inl hin
  · right
    intro tx htx
    have hnone : pool.pendOf s = [] := by
      unfold TxPool.pendOf
      rw [(mapGet_none_iff _ _).mpr hin]
    rw [hnone] at htx
    simp [sliceStable] at htx

/-- Counterexample to C30 as stated: sender 1 holds the nonces 1 and 2 in its
executable queue, and a second transaction with the nonce 1 and the nonce 3
in its pending queue.  The migration breaks at the second transaction with
the nonce 1, the first of the pending queue: the nonce 3 stays in the pending
queue although the executable queue would accept it next. -/
theorem migration_blocked :
    Reachable examplePriority (blockedPool.movePendingTxsToExecutable examplePriority
      exampleLedger) ∧
    (blockedPool.movePendingTxsToExecutable examplePriority exampleLedger).execOf 1 =
      [storedTx exampleLedger (exampleTx 1), storedTx exampleLedger (exampleTx 2)] ∧
    ((exampleTx 3).Hash, storedTx exampleLedger (exampleTx 3)) ∈
      (blockedPool.movePendingTxsToExecutable examplePriority exampleLedger).pendOf 1 ∧
    acceptsNext examplePriority exampleLedger 1
      ((blockedPool.movePendingTxsToExecutable examplePriority exampleLedger).executableOrNew 1)
      (storedTx exampleLedger (exampleTx 3)) :=
  ⟨ReachableVia.move exampleLedger _
      (ReachableVia.add exampleLedger _ (exampleTx 2) false TxKind.InboundTx
        (ReachableVia.add exampleLedger _ (exampleTx 3) false TxKind.InboundTx
          (ReachableVia.add exampleLedger _ rivalTx false TxKind.InboundTx
            (ReachableVia.add exampleLedger (NewTxPool scenarioCfg) (exampleTx 1) false
              TxKind.InboundTx (ReachableVia.empty scenarioCfg) (fun _ => trivial))
            (fun _ => trivial)) (fun _ => trivial))
        (fun _ => trivial)),
    by decide, by decide, by decide⟩

/-- C30 as the code has it: `movePendingTxsToExecutable` goes through the
pending queue of a sender in the order of `txMap.Sorted` and stops at the
first transaction the executable queue does not accept.  So after it, in a
reachable pool state, for every sender that still has a pending queue the
first transaction of that queue in the sorted order is not one that the
executable queue of the sender would accept next (same epoch and nonce one
above the tail, or, for an empty executable queue, the current epoch and the
committed nonce plus one, with room in the queue); a transaction behind it
may be. -/
theorem move_stops_at_first (pt : PriorityTable) (st : Ledger) (pool : TxPool)
    (h : Reachable pt pool) (sender : Nat) (pending : txMap)
    (hq : mapGet (pool.movePendingTxsToExecutable pt st).pendingTxs sender = some pending) :
    ∀ tx, pending.Sorted.head? = some tx →
      ¬ acceptsNext pt st sender
        ((pool.movePendingTxsToExecutable pt st).executableOrNew sender) tx := by
  intro tx htx hacc
  have hdone := move_done (Reachable.prioInv h) st sender
  have hpend : (pool.movePendingTxsToExecutable pt st).pendOf sender = pending.txs := by
    unfold TxPool.pendOf; rw [hq]
  have h1 := hdone tx (by rw [hpend]; exact htx)
  rw [(migrates_iff pt st sender _ tx).mpr hacc] at h1
  cases h1

/-- Witness of C30: in the pool of the counterexample the migration leaves
the second transaction with the nonce 1 at the head of the pending queue, and
the executable queue does not accept it. -/
theorem move_stops_at_first_witness :
    mapGet (blockedPool.movePendingTxsToExecutable examplePriority exampleLedger).pendingTxs 1 =
      some (txMap.mk [(rivalTx.Hash, storedTx exampleLedger rivalTx),
        ((exampleTx 3).Hash, storedTx exampleLedger (exampleTx 3))] 32) ∧
    (txMap.mk [(rivalTx.Hash, storedTx exampleLedger rivalTx),
      ((exampleTx 3).Hash, storedTx exampleLedger (exampleTx 3))] 32).Sorted.head? =
      some (storedTx exampleLedger rivalTx) ∧
    ¬ acceptsNext examplePriority exampleLedger 1
      ((blockedPool.movePendingTxsToExecutable examplePriority exampleLedger).executableOrNew 1)
      (storedTx exampleLedger rivalTx) :=
  ⟨by decide, by decide,
    move_stops_at_first examplePriority exampleLedger blockedPool
      (ReachableVia.add exampleLedger _ (exampleTx 2) false TxKind.InboundTx
        (ReachableVia.add exampleLedger _ (exampleTx 3) false TxKind.InboundTx
          (ReachableVia.add exampleLedger _ rivalTx false TxKind.InboundTx
            (ReachableVia.add exampleLedger (NewTxPool scenarioCfg) (exampleTx 1) false
              TxKind.InboundTx (ReachableVia.empty scenarioCfg) (fun _ => trivial))
            (fun _ => trivial)) (fun _ => trivial))
        (fun _ => trivial))
      1 (txMap.mk [(rivalTx.Hash, storedTx exampleLedger rivalTx),
        ((exampleTx 3).Hash, storedTx exampleLedger (exampleTx 3))] 32) (by decide)
      (storedTx exampleLedger rivalTx) (by decide)⟩

/-! ## `ResetTo` during a validation ceremony -/

/-- The Global Index after the removal of a list of transactions: the entries
whose key is not the hash of one of them. -/
theorem removeAll_all_txs (txs : List Transaction) :
    ∀ pool : TxPool, (txs.foldl TxPool.Remove pool).all.txs =
      pool.all.txs.filter (fun e => decide (e.1 ∉ txs.map Transaction.Hash)) := by
  induction txs with
  | nil => intro pool; simp
  | cons tx rest ih =>
    intro pool
    simp only [List.foldl_cons]
    rw [ih (pool.Remove tx), Remove_all]
    show List.filter _ (mapDelete pool.all.txs tx.Hash) = _
    unfold mapDelete
    rw [List.filter_filter]
    apply List.filter_congr
    intro e _
    simp only [List.map_cons, List.mem_cons, not_or, ne_eq, Bool.decide_and, Bool.and_comm]

/-- `Remove` takes no transaction with another hash out of the queues. -/
theorem Remove_keeps_other (pool : TxPool) (tx : Transaction) (s : Nat) :
    (∀ t ∈ pool.execOf s, t.Hash ≠ tx.Hash → t ∈ (pool.Remove tx).execOf s) ∧
    (∀ e ∈ pool.pendOf s, e.1 ≠ tx.Hash → e ∈ (pool.Remove tx).pendOf s) := by
  constructor
  · intro t ht hne
    rw [Remove_execOf]
    by_cases hs : s = tx.sender
    · rw [if_pos hs]
      rw [hs] at ht
      unfold TxPool.execOf at ht
      cases hg : mapGet pool.executableTxs tx.sender with
      | none => rw [hg] at ht; cases ht
      | some q =>
        rw [hg] at ht
        dsimp only at ht ⊢
        rcases (sortedTxs_Remove_split q tx).2 with h | ⟨l1, e, l2, h1, h2, h3⟩
        · rw [h]; exact ht
        · rw [h3]
          rw [h1] at ht
          rcases List.mem_append.mp ht with h4 | h4
          · exact List.mem_append_left _ h4
          · rcases List.mem_cons.mp h4 with h5 | h5
            · rw [h5] at hne; exact absurd h2 hne
            · exact List.mem_append_right _ h5
    · rw [if_neg hs]; exact ht
  · intro e he hne
    rw [Remove_pendOf]
    by_cases hs : s = tx.sender
    · rw [if_pos hs]
      unfold mapDelete
      rw [List.mem_filter]
      exact ⟨he, by simpa using hne⟩
    · rw [if_neg hs]; exact he

theorem removeAll_keeps_other (txs : List Transaction) (s : Nat) :
    ∀ pool : TxPool,
      (∀ t ∈ pool.execOf s, (∀ b ∈ txs, t.Hash ≠ b.Hash) →
        t ∈ (txs.foldl TxPool.Remove pool).execOf s) ∧
      (∀ e ∈ pool.pendOf s, (∀ b ∈ txs, e.1 ≠ b.Hash) →
        e ∈ (txs.foldl TxPool.Remove pool).pendOf s) := by
  induction txs with
  | nil => intro pool; exact ⟨fun t ht _ => ht, fun e he _ => he⟩
  | cons tx rest ih =>
    intro pool
    simp only [List.foldl_cons]
    obtain ⟨h1, h2⟩ := ih (pool.Remove tx)
    obtain ⟨h3, h4⟩ := Remove_keeps_other pool tx s
    constructor
    · intro t ht hne
      exact h1 t (h3 t ht (hne tx (List.mem_cons_self _ _)))
        (fun b hb => hne b (List.mem_cons_of_mem _ hb))
    · intro e he hne
      exact h2 e (h4 e he (hne tx (List.mem_cons_self _ _)))
        (fun b hb => hne b (List.mem_cons_of_mem _ hb))

/-- The property that the migration keeps: what the queues of the senders
held before is still in a queue of the same sender. -/
theorem migrateSender_holds {pt : PriorityTable} {pool : TxPool} (hinv : PrioInv pt pool)
    (st : Ledger) (entry : Nat × txMap)
    (hentry : mapGet pool.pendingTxs entry.1 = some entry.2) (s : Nat) (t : Transaction)
    (ht : t ∈ pool.execOf s ∨ t ∈ (pool.pendOf s).map Prod.snd) :
    t ∈ (migrateSender pt st pool entry).execOf s ∨
      t ∈ ((migrateSender pt st pool entry).pendOf s).map Prod.snd := by
  rw [migrateSender_execOf, migrateSender_pendOf]
  by_cases hs : s = entry.1
  · simp only [hs, if_true]
    rw [hs] at ht
    have hpend : pool.pendOf entry.1 = entry.2.txs := by
      unfold TxPool.pendOf; rw [hentry]
    obtain ⟨hsnap, hnd⟩ := sorted_snapshot entry.2
      (fun e he => hinv.view.pendKeyed entry.1 e (by rw [hpend]; exact he))
      (by rw [← hpend]; exact hinv.view.pendNodup entry.1)
    have hkeep := migrateLoop_keeps pt st entry.1
      (fun el pl => (pl.map Prod.fst).Nodup ∧ (t ∈ el ∨ t ∈ pl.map Prod.snd))
      (by
        intro el pl tx hI htx _
        refine ⟨keys_mapDelete_nodup _ _ hI.1, ?_⟩
        rcases hI.2 with h | h
        · exact Or.inl (List.mem_append_left _ h)
        · obtain ⟨e, he, het⟩ := List.mem_map.mp h
          by_cases hk : e.1 = tx.Hash
          · left
            have h1 := mem_mapGet pl e.1 e.2 hI.1 he
            have h2 := mem_mapGet pl tx.Hash tx hI.1 htx
            rw [hk, h2] at h1
            have h3 : tx = e.2 := Option.some.inj h1
            rw [← het, ← h3]
            exact List.mem_append_right _ (List.mem_singleton_self _)
          · right
            refine List.mem_map.mpr ⟨e, ?_, het⟩
            unfold mapDelete
            rw [List.mem_filter]
            exact ⟨he, by simpa using hk⟩)
      entry.2.Sorted (pool.executableOrNew entry.1) entry.2 false
      ⟨by rw [← hpend]; exact hinv.view.pendNodup entry.1, by
        rw [executableOrNew_txs, ← hpend]; exact ht⟩ hsnap hnd
    exact hkeep.2
  · simp only [hs, if_false]
    exact ht

theorem move_holds {pt : PriorityTable} {pool : TxPool} (hinv : PrioInv pt pool)
    (st : Ledger) (s : Nat) (t : Transaction)
    (ht : t ∈ pool.execOf s ∨ t ∈ (pool.pendOf s).map Prod.snd) :
    t ∈ (pool.movePendingTxsToExecutable pt st).execOf s ∨
      t ∈ ((pool.movePendingTxsToExecutable pt st).pendOf s).map Prod.snd := by
  unfold TxPool.movePendingTxsToExecutable
  have h := migrateFold_keeps pt st
    (fun p => PrioInv pt p ∧ (t ∈ p.execOf s ∨ t ∈ (p.pendOf s).map Prod.snd))
    (fun p e hp he => ⟨hp.1.prio_migrateStep st e he, migrateSender_holds hp.1 st e he s t hp.2⟩)
    pool.pendingTxs pool ⟨hinv, ht⟩ hinv.pendKeys
    (fun e he => mem_mapGet _ _ _ hinv.pendKeys he)
  exact h.2

/-- The migration does not read the validator. -/
theorem migrateLoop_validator (pt : PriorityTable) (st : Ledger)
    (v : Transaction → TxKind → ValidateOutcome) (sender : Nat) :
    ∀ (snapshot : List Transaction) (executable : sortedTxs) (pending : txMap) (stored : Bool),
      migrateLoop pt { st with ValidateTx := v } sender snapshot executable pending stored =
        migrateLoop pt st sender snapshot executable pending stored := by
  intro snapshot
  induction snapshot with
  | nil => intro executable pending stored; rfl
  | cons tx rest ih =>
    intro executable pending stored
    unfold migrateLoop
    simp only [ih]
    rfl

theorem move_validator (pt : PriorityTable) (st : Ledger)
    (v : Transaction → TxKind → ValidateOutcome) (pool : TxPool) :
    pool.movePendingTxsToExecutable pt { st with ValidateTx := v } =
      pool.movePendingTxsToExecutable pt st := by
  unfold TxPool.movePendingTxsToExecutable
  have h : migrateSender pt { st with ValidateTx := v } = migrateSender pt st := by
    funext p e
    unfold migrateSender
    simp only [migrateLoop_validator]
  rw [h]

/-- The result of `ResetTo` when it returns before the re-validation. -/
theorem ResetTo_fast_eq (pt : PriorityTable) (st : Ledger) (pool : TxPool)
    (block : List Transaction) (hcfg : pool.mempoolCfg.ResetInCeremony = false)
    (hperiod : st.ValidationPeriod > st.FlipLotteryPeriod) :
    pool.ResetTo pt st block =
      (none, (block.foldl TxPool.Remove pool).movePendingTxsToExecutable pt st) := by
  have hc : ((block.foldl TxPool.Remove pool).movePendingTxsToExecutable pt st).mempoolCfg =
      pool.mempoolCfg :=
    ((removeAll_syncFrame block pool).syncFrame_trans (move_syncFrame pt st _)).mempoolCfg
  unfold TxPool.ResetTo
  dsimp only
  rw [hc, hcfg]
  simp [hperiod]

/-- C32: when the configuration does not reset the pool in a ceremony
(`ResetInCeremony` is false) and the validation period of the ledger is later
than the flip-lottery period, `ResetTo` performs no re-validation: it returns
the pool obtained by removing the transactions of the block and then migrating
pending entries, whatever the validator is.  No other transaction is removed:
the Global Index keeps every entry whose key is not the hash of a transaction
of the block, and in a reachable pool state every transaction of a queue whose
hash is not the hash of a transaction of the block is still in a queue of its
sender. -/
theorem ResetTo_fast (pt : PriorityTable) (st : Ledger) (pool : TxPool)
    (block : List Transaction) (hcfg : pool.mempoolCfg.ResetInCeremony = false)
    (hperiod : st.ValidationPeriod > st.FlipLotteryPeriod) :
    pool.ResetTo pt st block =
      (none, (block.foldl TxPool.Remove pool).movePendingTxsToExecutable pt st) ∧
    (∀ v : Transaction → TxKind → ValidateOutcome,
      pool.ResetTo pt { st with ValidateTx := v } block = pool.ResetTo pt st block) ∧
    (pool.ResetTo pt st block).2.all.txs =
      pool.all.txs.filter (fun e => decide (e.1 ∉ block.map Transaction.Hash)) ∧
    (Reachable pt pool → ∀ s t,
      (t ∈ pool.execOf s ∨ t ∈ (pool.pendOf s).map Prod.snd) →
      (∀ b ∈ block, t.Hash ≠ b.Hash) →
      (t ∈ (pool.ResetTo pt st block).2.execOf s ∨
        t ∈ ((pool.ResetTo pt st block).2.pendOf s).map Prod.snd)) := by
  have heq := ResetTo_fast_eq pt st pool block hcfg hperiod
  refine ⟨heq, ?_, ?_, ?_⟩
  · intro v
    rw [heq, ResetTo_fast_eq pt { st with ValidateTx := v } pool block hcfg hperiod,
      move_validator]
  · rw [heq]
    show ((block.foldl TxPool.Remove pool).movePendingTxsToExecutable pt st).all.txs = _
    rw [move_all, removeAll_all_txs]
  · intro hreach s t ht hne
    rw [heq]
    have hinv : PrioInv pt (block.foldl TxPool.Remove pool) :=
      PrioInv.prio_removeAll block pool (Reachable.prioInv hreach)
    refine move_holds hinv st s t ?_
    obtain ⟨h1, h2⟩ := removeAll_keeps_other block s pool
    rcases ht with ht | ht
    · exact Or.inl (h1 t ht hne)
    · right
      obtain ⟨e, he, het⟩ := List.mem_map.mp ht
      have hk := (Reachable.prioInv hreach).view.pendKeyed s e he
      refine List.mem_map.mpr ⟨e, h2 e he ?_, het⟩
      intro b hb
      rw [hk, het]
      exact hne b hb

/-- Witness of C32: sender 1 holds the nonces 1 to 4 and the block takes the
nonce 1 during a validation ceremony; the three others stay. -/
theorem ResetTo_fast_witness :
    negLimitPool.ResetTo examplePriority ceremonyLedger [exampleTx 1] =
      (none, ([exampleTx 1].foldl TxPool.Remove negLimitPool).movePendingTxsToExecutable
        examplePriority ceremonyLedger) ∧
    (negLimitPool.ResetTo examplePriority ceremonyLedger [exampleTx 1]).2.all.txs.length = 3 ∧
    (negLimitPool.ResetTo examplePriority ceremonyLedger [exampleTx 1]).2.execOf 1 =
      [storedTx exampleLedger (exampleTx 2), storedTx exampleLedger (exampleTx 3),
        storedTx exampleLedger (exampleTx 4)] :=
  ⟨(ResetTo_fast examplePriority ceremonyLedger negLimitPool [exampleTx 1] (by decide)
      (by decide)).1, by decide, by decide⟩

/-! ## The two loops of the re-validation -/

theorem iff_cons_step {A B C : Prop} {Q : Transaction → Prop} {tx : Transaction}
    {rest : List Transaction} (ih : C ↔ B ∨ ∃ t ∈ rest, Q t) (step : B ↔ A ∨ Q tx) :
    C ↔ A ∨ ∃ t ∈ tx :: rest, Q t := by
  rw [ih, step]
  constructor
  · rintro ((h | h) | ⟨t, ht, hq⟩)
    · exact Or.inl h
    · exact Or.inr ⟨tx, List.mem_cons_self _ _, h⟩
    · exact Or.inr ⟨t, List.mem_cons_of_mem _ ht, hq⟩
  · rintro (h | ⟨t, ht, hq⟩)
    · exact Or.inl (Or.inl h)
    · rcases List.mem_cons.mp ht with h1 | h1
      · rw [h1] at hq; exact Or.inl (Or.inr hq)
      · exact Or.inr ⟨t, h1, hq⟩

theorem iff_skip {A : Prop} {q : Prop} (hq : ¬ q) : A ↔ A ∨ q :=
  ⟨Or.inl, fun h => h.elim id (fun h2 => absurd h2 hq)⟩

theorem mem_keys_mapSet {κ ν : Type} [DecidableEq κ] (m : List (κ × ν)) (k k2 : κ) (v : ν) :
    k2 ∈ (mapSet m k v).map Prod.fst ↔ k2 ∈ m.map Prod.fst ∨ k = k2 := by
  rw [keys_mapSet]
  by_cases hin : k ∈ m.map Prod.fst
  · rw [if_pos hin]
    exact ⟨Or.inl, fun h => h.elim id (fun h2 => h2 ▸ hin)⟩
  · rw [if_neg hin, List.mem_append, List.mem_singleton]
    exact ⟨fun h => h.elim Or.inl (fun h2 => Or.inr h2.symm),
      fun h => h.elim Or.inl (fun h2 => Or.inr h2.symm)⟩

theorem failsOther_iff (st : Ledger) (tx : Transaction) :
    failsOther st tx ↔
      ∃ e, st.ValidateTx tx TxKind.MempoolTx = ValidateOutcome.err e ∧
        e ≠ ValidationError.InvalidNonce := by
  unfold failsOther
  cases h : st.ValidateTx tx TxKind.MempoolTx with
  | ok => simp
  | fault msg => simp
  | err e => simp

/-- The entry of `minErrorNonce` for a sender after one more failure is
recorded. -/
theorem minError_record (m : List (Nat × txError)) (tx : Transaction) (er : ValidationError)
    (s n : Nat) :
    (∃ x, mapGet (match mapGet m tx.sender with
        | some x =>
          if tx.AccountNonce < x.nonce then
            mapSet m tx.sender { nonce := tx.AccountNonce, err := er }
          else m
        | none => mapSet m tx.sender { nonce := tx.AccountNonce, err := er }) s = some x ∧
      x.nonce ≤ n) ↔
    ((∃ x, mapGet m s = some x ∧ x.nonce ≤ n) ∨ (tx.sender = s ∧ tx.AccountNonce ≤ n)) := by
  by_cases hs : tx.sender = s
  · subst hs
    cases hg : mapGet m tx.sender with
    | none =>
      dsimp only
      rw [mapGet_mapSet_self]
      constructor
      · rintro ⟨x, hx, hn⟩
        cases hx
        exact Or.inr ⟨rfl, hn⟩
      · rintro (⟨x, hx, _⟩ | ⟨_, hn⟩)
        · cases hx
        · exact ⟨_, rfl, hn⟩
    | some y =>
      dsimp only
      by_cases hlt : tx.AccountNonce < y.nonce
      · rw [if_pos hlt, mapGet_mapSet_self]
        constructor
        · rintro ⟨x, hx, hn⟩
          cases hx
          exact Or.inr ⟨rfl, hn⟩
        · rintro (⟨x, hx, hn⟩ | ⟨_, hn⟩)
          · cases hx
            exact ⟨_, rfl, by show tx.AccountNonce ≤ n; omega⟩
          · exact ⟨_, rfl, hn⟩
      · rw [if_neg hlt, hg]
        constructor
        · intro h; exact Or.inl h
        · rintro (h | ⟨_, hn⟩)
          · exact h
          · exact ⟨y, rfl, by omega⟩
  · have hget : ∀ v, mapGet (mapSet m tx.sender v) s = mapGet m s :=
      fun v => mapGet_mapSet_ne m tx.sender s v (fun e => hs e.symm)
    have hsame : mapGet (match mapGet m tx.sender with
        | some x =>
          if tx.AccountNonce < x.nonce then
            mapSet m tx.sender { nonce := tx.AccountNonce, err := er }
          else m
        | none => mapSet m tx.sender { nonce := tx.AccountNonce, err := er }) s =
        mapGet m s := by
      cases hg : mapGet m tx.sender with
      | none => exact hget _
      | some y =>
        dsimp only
        by_cases hlt : tx.AccountNonce < y.nonce
        · rw [if_pos hlt]; exact hget _
        · rw [if_neg hlt]
    rw [hsame]
    exact ⟨Or.inl, fun h => h.elim id (fun h2 => absurd h2.1 hs)⟩

/-- What the first loop of the re-validation leaves: the removal set gains the
hashes of the transactions of the current epoch that fail with the
invalid-nonce error, and `minErrorNonce` records for a sender a nonce at or
below a given one exactly when a transaction of the sender and the current
epoch with such a nonce fails with another error. -/
theorem resetPass1_spec (st : Ledger) (e : Nat) :
    ∀ (l : List Transaction) (m : List (Nat × txError)) (r : List (Hash × Transaction))
      (m2 : List (Nat × txError)) (r2 : List (Hash × Transaction)),
      resetPass1 st e l m r = Except.ok (m2, r2) →
      (∀ k, k ∈ r2.map Prod.fst ↔
        (k ∈ r.map Prod.fst ∨ ∃ t ∈ l, t.Hash = k ∧ t.Epoch = e ∧ failsNonce st t)) ∧
      (∀ s n, (∃ x, mapGet m2 s = some x ∧ x.nonce ≤ n) ↔
        ((∃ x, mapGet m s = some x ∧ x.nonce ≤ n) ∨
          ∃ t ∈ l, t.sender = s ∧ t.Epoch = e ∧ failsOther st t ∧ t.AccountNonce ≤ n)) := by
  intro l
  induction l with
  | nil =>
    intro m r m2 r2 h
    simp only [resetPass1] at h
    cases h
    exact ⟨fun k => ⟨Or.inl, fun h => h.elim id (fun ⟨t, ht, _⟩ => by cases ht)⟩,
      fun s n => ⟨Or.inl, fun h => h.elim id (fun ⟨t, ht, _⟩ => by cases ht)⟩⟩
  | cons tx rest ih =>
    intro m r m2 r2 h
    unfold resetPass1 at h
    by_cases hep : tx.Epoch ≠ e
    · rw [if_pos hep] at h
      obtain ⟨h1, h2⟩ := ih m r m2 r2 h
      exact ⟨fun k => iff_cons_step (h1 k) (iff_skip (fun hq => hep hq.2.1)),
        fun s n => iff_cons_step (h2 s n) (iff_skip (fun hq => hep hq.2.1))⟩
    · rw [if_neg hep] at h
      have hep2 : tx.Epoch = e := not_not.mp hep
      cases hv : st.ValidateTx tx TxKind.MempoolTx with
      | ok =>
        rw [hv] at h
        obtain ⟨h1, h2⟩ := ih m r m2 r2 h
        refine ⟨fun k => iff_cons_step (h1 k) (iff_skip ?_),
          fun s n => iff_cons_step (h2 s n) (iff_skip ?_)⟩
        · intro hq
          have := hq.2.2
          unfold failsNonce at this
          rw [hv] at this
          cases this
        · intro hq
          have := hq.2.2.1
          unfold failsOther at this
          rw [hv] at this
          exact this
      | fault msg => rw [hv] at h; cases h
      | err er =>
        rw [hv] at h
        dsimp only at h
        by_cases hin : er = ValidationError.InvalidNonce
        · rw [if_pos hin] at h
          obtain ⟨h1, h2⟩ := ih m (mapSet r tx.Hash tx) m2 r2 h
          refine ⟨fun k => iff_cons_step (h1 k) ?_,
            fun s n => iff_cons_step (h2 s n) (iff_skip ?_)⟩
          · rw [mem_keys_mapSet]
            constructor
            · rintro (h3 | h3)
              · exact Or.inl h3
              · refine Or.inr ⟨h3, hep2, ?_⟩
                unfold failsNonce
                rw [hv, hin]
            · rintro (h3 | h3)
              · exact Or.inl h3
              · exact Or.inr h3.1
          · intro hq
            have := hq.2.2.1
            unfold failsOther at this
            rw [hv] at this
            exact this hin
        · rw [if_neg hin] at h
          have hfo : failsOther st tx := by
            unfold failsOther
            rw [hv]
            exact hin
          have hfn : ¬ failsNonce st tx := by
            unfold failsNonce
            rw [hv]
            intro h3
            cases h3
            exact hin rfl
          obtain ⟨h1, h2⟩ := ih (match mapGet m tx.sender with
            | some x =>
              if tx.AccountNonce < x.nonce then
                mapSet m tx.sender { nonce := tx.AccountNonce, err := er }
              else m
            | none => mapSet m tx.sender { nonce := tx.AccountNonce, err := er }) r m2 r2
            (by
              rw [← h]
              cases hm : mapGet m tx.sender with
              | none => rfl
              | some x =>
                dsimp only
                by_cases hlt : tx.AccountNonce < x.nonce
                · rw [if_pos hlt, if_pos hlt]
                · rw [if_neg hlt, if_neg hlt])
          refine ⟨fun k => iff_cons_step (h1 k) (iff_skip (fun hq => hfn hq.2.2)),
            fun s n => iff_cons_step (h2 s n) ?_⟩
          rw [minError_record]
          constructor
          · rintro (h3 | h3)
            · exact Or.inl h3
            · exact Or.inr ⟨h3.1, hep2, hfo, h3.2⟩
          · rintro (h3 | h3)
            · exact Or.inl h3
            · exact Or.inr ⟨h3.1, h3.2.2.2⟩

/-- What the second loop of the re-validation adds to the removal set: the
hashes of the transactions of an older epoch, and of those of the current
epoch whose nonce is at or above the recorded nonce of their sender. -/
theorem resetPass2_spec (e : Nat) (m : List (Nat × txError)) :
    ∀ (l : List Transaction) (r : List (Hash × Transaction)) (k : Hash),
      k ∈ (resetPass2 e m l r).map Prod.fst ↔
        (k ∈ r.map Prod.fst ∨ ∃ t ∈ l, t.Hash = k ∧
          (t.Epoch < e ∨ (t.Epoch = e ∧
            ∃ x, mapGet m t.sender = some x ∧ x.nonce ≤ t.AccountNonce))) := by
  intro l
  induction l with
  | nil =>
    intro r k
    simp only [resetPass2]
    exact ⟨Or.inl, fun h => h.elim id (fun ⟨t, ht, _⟩ => by cases ht)⟩
  | cons tx rest ih =>
    intro r k
    have htake : (tx.Epoch < e ∨ (tx.Epoch = e ∧
        ∃ x, mapGet m tx.sender = some x ∧ x.nonce ≤ tx.AccountNonce)) →
        (k ∈ (resetPass2 e m rest (mapSet r tx.Hash tx)).map Prod.fst ↔
          (k ∈ r.map Prod.fst ∨ ∃ t ∈ tx :: rest, t.Hash = k ∧
            (t.Epoch < e ∨ (t.Epoch = e ∧
              ∃ x, mapGet m t.sender = some x ∧ x.nonce ≤ t.AccountNonce)))) := by
      intro hc
      refine iff_cons_step (ih (mapSet r tx.Hash tx) k) ?_
      rw [mem_keys_mapSet]
      exact ⟨fun h => h.elim Or.inl (fun h2 => Or.inr ⟨h2, hc⟩),
        fun h => h.elim Or.inl (fun h2 => Or.inr h2.1)⟩
    have hskip : ¬ (tx.Epoch < e ∨ (tx.Epoch = e ∧
        ∃ x, mapGet m tx.sender = some x ∧ x.nonce ≤ tx.AccountNonce)) →
        (k ∈ (resetPass2 e m rest r).map Prod.fst ↔
          (k ∈ r.map Prod.fst ∨ ∃ t ∈ tx :: rest, t.Hash = k ∧
            (t.Epoch < e ∨ (t.Epoch = e ∧
              ∃ x, mapGet m t.sender = some x ∧ x.nonce ≤ t.AccountNonce)))) := by
      intro hc
      exact iff_cons_step (ih r k) (iff_skip (fun hq => hc hq.2))
    unfold resetPass2
    by_cases hlt : tx.Epoch < e
    · rw [if_pos hlt]; exact htake (Or.inl hlt)
    · rw [if_neg hlt]
      by_cases hgt : tx.Epoch > e
      · rw [if_pos hgt]
        refine hskip ?_
        rintro (h | h)
        · exact hlt h
        · omega
      · rw [if_neg hgt]
        have heq : tx.Epoch = e := by omega
        cases hm : mapGet m tx.sender with
        | none =>
          refine hskip ?_
          rintro (h | ⟨_, x, hx, _⟩)
          · exact hlt h
          · rw [hm] at hx; cases hx
        | some x =>
          dsimp only
          by_cases hn : tx.AccountNonce ≥ x.nonce
          · rw [if_pos hn]
            exact htake (Or.inr ⟨heq, x, hm, hn⟩)
          · rw [if_neg hn]
            refine hskip ?_
            rintro (h | ⟨_, y, hy, hle⟩)
            · exact hlt h
            · rw [hm] at hy
              cases hy
              exact hn hle

theorem IndexKeyed.value_unique {pool : TxPool} (h : IndexKeyed pool) (en : Hash × Transaction)
    (hen : en ∈ pool.all.txs) (t : Transaction) (ht : t ∈ pool.all.txs.map Prod.snd)
    (hh : t.Hash = en.1) : t = en.2 := by
  obtain ⟨e2, he2, het⟩ := List.mem_map.mp ht
  have hk : e2.1 = en.1 := by rw [h.keyed e2 he2, het, hh]
  have h1 := mem_mapGet pool.all.txs e2.1 e2.2 h.nodup he2
  have h2 := mem_mapGet pool.all.txs en.1 en.2 h.nodup hen
  rw [hk, h2] at h1
  rw [← het]
  exact (Option.some.inj h1).symm

/-- Which entries of the Global Index a `ResetTo` that re-validates and
returns takes out: those of an older epoch, and those of the current epoch
that meet the removal condition. -/
theorem ResetTo_index_removed (pt : PriorityTable) (st : Ledger) (pool : TxPool)
    (block : List Transaction) (hkeyed : IndexKeyed pool)
    (hslow : pool.mempoolCfg.ResetInCeremony = true ∨
      st.ValidationPeriod ≤ st.FlipLotteryPeriod)
    (hret : (pool.ResetTo pt st block).1 = none) :
    ∀ en ∈ ((block.foldl TxPool.Remove pool).movePendingTxsToExecutable pt st).all.txs,
      (en.1 ∈ (pool.ResetTo pt st block).2.all.txs.map Prod.fst ↔
        en ∈ (pool.ResetTo pt st block).2.all.txs) ∧
      (en ∉ (pool.ResetTo pt st block).2.all.txs ↔
        (en.2.Epoch < st.Epoch ∨ (en.2.Epoch = st.Epoch ∧
          revalidationRemoves st
            (((block.foldl TxPool.Remove pool).movePendingTxsToExecutable pt st).all.txs.map
              Prod.snd) en.2))) := by
  obtain ⟨m, r1, h1, h2⟩ := ResetTo_slow pt st pool block hslow hret
  have hk2 : IndexKeyed ((block.foldl TxPool.Remove pool).movePendingTxsToExecutable pt st) :=
    hkeyed.keyed_sub (by rw [move_all]; exact removeAll_all_sublist block pool)
  rw [txMap_List_All] at h1 h2
  have hr1 := resetPass1_keyed st st.Epoch _ [] [] m r1 (fun p hp => by cases hp) h1
  obtain ⟨hr2, _, _⟩ := resetPass2_old st.Epoch m
    (((block.foldl TxPool.Remove pool).movePendingTxsToExecutable pt st).all.txs.map Prod.snd)
    r1 hr1
  obtain ⟨hp1, hp2⟩ := resetPass1_spec st st.Epoch _ [] [] m r1 h1
  have hkeys : ((resetPass2 st.Epoch m
      (((block.foldl TxPool.Remove pool).movePendingTxsToExecutable pt st).all.txs.map Prod.snd)
      r1).map Prod.snd).map Transaction.Hash =
      (resetPass2 st.Epoch m
        (((block.foldl TxPool.Remove pool).movePendingTxsToExecutable pt st).all.txs.map
          Prod.snd) r1).map Prod.fst := by
    rw [List.map_map]
    apply List.map_congr_left
    intro p hp
    exact (hr2 p hp).symm
  have hall : (pool.ResetTo pt st block).2.all.txs =
      ((block.foldl TxPool.Remove pool).movePendingTxsToExecutable pt st).all.txs.filter
        (fun e => decide (e.1 ∉ (resetPass2 st.Epoch m
          (((block.foldl TxPool.Remove pool).movePendingTxsToExecutable pt st).all.txs.map
            Prod.snd) r1).map Prod.fst)) := by
    rw [h2, removeAll_all_txs, hkeys]
  intro en hen
  have hmem : en ∈ (pool.ResetTo pt st block).2.all.txs ↔
      en.1 ∉ (resetPass2 st.Epoch m
        (((block.foldl TxPool.Remove pool).movePendingTxsToExecutable pt st).all.txs.map
          Prod.snd) r1).map Prod.fst := by
    rw [hall, List.mem_filter]
    simp only [decide_eq_true_eq]
    exact ⟨fun h => h.2, fun h => ⟨hen, h⟩⟩
  constructor
  · constructor
    · intro hk
      rw [hmem]
      rw [hall] at hk
      obtain ⟨e2, he2, hek⟩ := List.mem_map.mp hk
      rw [List.mem_filter] at he2
      simp only [decide_eq_true_eq] at he2
      rw [← hek]
      exact he2.2
    · intro h
      exact List.mem_map_of_mem _ h
  · rw [hmem, not_not, resetPass2_spec, hp1]
    have hu := fun t ht hh => hk2.value_unique en hen t ht hh
    constructor
    · rintro ((h | ⟨t, ht, hh, hep, hf⟩) | ⟨t, ht, hh, hc⟩)
      · cases h
      · rw [hu t ht hh] at hep hf
        exact Or.inr ⟨hep, Or.inl hf⟩
      · rw [hu t ht hh] at hc
        rcases hc with hc | ⟨hep, hx⟩
        · exact Or.inl hc
        · refine Or.inr ⟨hep, Or.inr ?_⟩
          rcases (hp2 en.2.sender en.2.AccountNonce).mp hx with ⟨x, hx2, _⟩ | h3
          · cases hx2
          · exact h3
    · have hin : en.2 ∈ ((block.foldl TxPool.Remove pool).movePendingTxsToExecutable pt
          st).all.txs.map Prod.snd := List.mem_map_of_mem _ hen
      have hhash : en.2.Hash = en.1 := (hk2.keyed en hen).symm
      rintro (h | ⟨hep, hf | hf⟩)
      · exact Or.inr ⟨en.2, hin, hhash, Or.inl h⟩
      · exact Or.inl (Or.inr ⟨en.2, hin, hhash, hep, hf⟩)
      · exact Or.inr ⟨en.2, hin, hhash, Or.inr ⟨hep,
          (hp2 en.2.sender en.2.AccountNonce).mpr (Or.inr hf)⟩⟩

/-- C31: in the re-validation path of `ResetTo`, a transaction of the current
global epoch that is in the Global Index when the re-validation starts (after
the removal of the block and the migration) is removed if and only if its own
validation fails with the invalid-nonce error, or its nonce is greater than or
equal to the nonce of a transaction of its sender and the current epoch whose
validation fails with another error (so to the least such nonce).  A
transaction of a future epoch is never removed.  Removed means that `GetTx` no
longer finds it; in a pool state reachable without the largest `uint32` nonce
that is the case exactly when no queue of its sender holds it. -/
theorem ResetTo_revalidation (pt : PriorityTable) (st : Ledger) (pool : TxPool)
    (block : List Transaction) (hkeyed : IndexKeyed pool)
    (hslow : pool.mempoolCfg.ResetInCeremony = true ∨
      st.ValidationPeriod ≤ st.FlipLotteryPeriod)
    (hret : (pool.ResetTo pt st block).1 = none) :
    ∀ en ∈ ((block.foldl TxPool.Remove pool).movePendingTxsToExecutable pt st).all.txs,
      (en.2.Epoch = st.Epoch →
        ((pool.ResetTo pt st block).2.GetTx en.1 = none ↔
          revalidationRemoves st
            (((block.foldl TxPool.Remove pool).movePendingTxsToExecutable pt st).all.txs.map
              Prod.snd) en.2)) ∧
      (en.2.Epoch > st.Epoch →
        (pool.ResetTo pt st block).2.GetTx en.1 = some en.2 ∧
          en ∈ (pool.ResetTo pt st block).2.all.txs) ∧
      (ReachableNoWrap pt pool →
        ((pool.ResetTo pt st block).2.GetTx en.1 = none ↔
          ((∀ t ∈ (pool.ResetTo pt st block).2.execOf en.2.sender, t.Hash ≠ en.1) ∧
            (∀ p ∈ (pool.ResetTo pt st block).2.pendOf en.2.sender, p.1 ≠ en.1)))) := by
  intro en hen
  obtain ⟨hkey, hrem⟩ := ResetTo_index_removed pt st pool block hkeyed hslow hret en hen
  have hk2 : IndexKeyed ((block.foldl TxPool.Remove pool).movePendingTxsToExecutable pt st) :=
    hkeyed.keyed_sub (by rw [move_all]; exact removeAll_all_sublist block pool)
  have hkr : IndexKeyed (pool.ResetTo pt st block).2 :=
    hkeyed.keyed_sub (ResetTo_all_sublist pt st pool block)
  have hget : (pool.ResetTo pt st block).2.GetTx en.1 = none ↔
      en ∉ (pool.ResetTo pt st block).2.all.txs := by
    unfold TxPool.GetTx txMap.Get
    rw [mapGet_none_iff, hkey]
  refine ⟨?_, ?_, ?_⟩
  · intro hep
    rw [hget, hrem]
    constructor
    · rintro (h | h)
      · omega
      · exact h.2
    · intro h
      exact Or.inr ⟨hep, h⟩
  · intro hep
    have hin : en ∈ (pool.ResetTo pt st block).2.all.txs := by
      by_contra hn
      rcases hrem.mp hn with h | h
      · omega
      · omega
    refine ⟨?_, hin⟩
    unfold TxPool.GetTx txMap.Get
    exact mem_mapGet _ _ _ hkr.nodup hin
  · intro hreach
    have hinv : PoolInv noWrap (pool.ResetTo pt st block).2 :=
      hreach.inv.pool_reset noWrap_wrapFree pt st block
    have h0 := hinv.view.hashes en.1
    have hs : en.1.sender = en.2.sender := by
      rw [hk2.keyed en hen]
      rfl
    rw [hs] at h0
    unfold TxPool.GetTx txMap.Get
    rw [mapGet_none_iff, ← List.count_eq_zero]
    constructor
    · intro hz
      rw [hz] at h0
      have h1 : (((pool.ResetTo pt st block).2.execOf en.2.sender).map Transaction.Hash).count
          en.1 = 0 := by omega
      have h2 : (((pool.ResetTo pt st block).2.pendOf en.2.sender).map Prod.fst).count
          en.1 = 0 := by omega
      rw [List.count_eq_zero] at h1 h2
      exact ⟨fun t ht e => h1 (e ▸ List.mem_map_of_mem Transaction.Hash ht),
        fun p hp e => h2 (e ▸ List.mem_map_of_mem Prod.fst hp)⟩
    · rintro ⟨h1, h2⟩
      have h3 : (((pool.ResetTo pt st block).2.execOf en.2.sender).map Transaction.Hash).count
          en.1 = 0 := by
        rw [List.count_eq_zero]
        intro hm
        obtain ⟨t, ht, hte⟩ := List.mem_map.mp hm
        exact h1 t ht hte
      have h4 : (((pool.ResetTo pt st block).2.pendOf en.2.sender).map Prod.fst).count
          en.1 = 0 := by
        rw [List.count_eq_zero]
        intro hm
        obtain ⟨p, hp, hpe⟩ := List.mem_map.mp hm
        exact h2 p hp hpe
      omega

/-- Witness of C31: sender 1 holds the nonces 1 to 4; the validator finds the
nonce 1 invalid and rejects the nonce 3 for another reason.  The nonce 4 is
removed, the nonce 2 is not. -/
theorem ResetTo_revalidation_witness :
    IndexKeyed negLimitPool ∧
    ((negLimitPool.ResetTo examplePriority pickyLedger []).2.GetTx (exampleTx 4).Hash = none ↔
      revalidationRemoves pickyLedger
        (((([] : List Transaction).foldl TxPool.Remove negLimitPool).movePendingTxsToExecutable
          examplePriority pickyLedger).all.txs.map Prod.snd)
        (storedTx exampleLedger (exampleTx 4))) ∧
    (negLimitPool.ResetTo examplePriority pickyLedger []).2.all.txs =
      [((exampleTx 2).Hash, storedTx exampleLedger (exampleTx 2))] :=
  ⟨by decide,
    (ResetTo_revalidation examplePriority pickyLedger negLimitPool [] (by decide)
      (Or.inr (by decide)) (by decide)
      ((exampleTx 4).Hash, storedTx exampleLedger (exampleTx 4)) (by decide)).1 (by decide),
    by decide⟩

/-! ## The stable sort by nonce -/

theorem nonceInsert_cons (x y : Transaction) (ys : List Transaction) :
    stableInsert nonceLess x (y :: ys) =
      if nonceLess y x = true then y :: stableInsert nonceLess x ys else x :: y :: ys := rfl

theorem nonceLess_iff (a b : Transaction) :
    nonceLess a b = true ↔ a.AccountNonce < b.AccountNonce := by
  unfold nonceLess
  exact decide_eq_true_iff

theorem nonceInsert_sorted (x : Transaction) (l : List Transaction)
    (hl : l.Pairwise (fun a b => a.AccountNonce ≤ b.AccountNonce)) :
    (stableInsert nonceLess x l).Pairwise (fun a b => a.AccountNonce ≤ b.AccountNonce) := by
  induction l with
  | nil => simp [stableInsert]
  | cons y ys ih =>
    rw [List.pairwise_cons] at hl
    rw [nonceInsert_cons]
    by_cases h : nonceLess y x = true
    · rw [if_pos h, List.pairwise_cons]
      refine ⟨?_, ih hl.2⟩
      intro z hz
      have hz2 : z ∈ x :: ys := (stableInsert_perm nonceLess x ys).mem_iff.mp hz
      rcases List.mem_cons.mp hz2 with hzx | hzy
      · rw [hzx]; exact Nat.le_of_lt ((nonceLess_iff y x).mp h)
      · exact hl.1 z hzy
    · rw [if_neg h, List.pairwise_cons]
      have hxy : x.AccountNonce ≤ y.AccountNonce := by
        have := mt (nonceLess_iff y x).mpr h
        omega
      refine ⟨?_, List.pairwise_cons.mpr hl⟩
      intro z hz
      rcases List.mem_cons.mp hz with hzy | hzy
      · rw [hzy]; exact hxy
      · exact Nat.le_trans hxy (hl.1 z hzy)

/-- The list sorted by `createBuildingContext` ascends in the nonce. -/
theorem nonceSort_sorted (l : List Transaction) :
    (sliceStable nonceLess l).Pairwise (fun a b => a.AccountNonce ≤ b.AccountNonce) := by
  induction l with
  | nil => simp [sliceStable]
  | cons x xs ih =>
    show (stableInsert nonceLess x (sliceStable nonceLess xs)).Pairwise _
    exact nonceInsert_sorted x _ ih

theorem nonceInsert_head (x : Transaction) (l : List Transaction)
    (h : ∀ z ∈ l, x.AccountNonce ≤ z.AccountNonce) : stableInsert nonceLess x l = x :: l := by
  cases l with
  | nil => rfl
  | cons y ys =>
    rw [nonceInsert_cons, if_neg]
    intro hlt
    have h1 := (nonceLess_iff y x).mp hlt
    have h2 := h y (List.mem_cons_self _ _)
    omega

/-- A list that ascends in the nonce is left as it is. -/
theorem nonceSort_of_sorted (l : List Transaction)
    (hl : l.Pairwise (fun a b => a.AccountNonce ≤ b.AccountNonce)) :
    sliceStable nonceLess l = l := by
  induction l with
  | nil => rfl
  | cons x xs ih =>
    rw [List.pairwise_cons] at hl
    show stableInsert nonceLess x (sliceStable nonceLess xs) = x :: xs
    rw [ih hl.2]
    exact nonceInsert_head x xs hl.1

theorem nonceInsert_filter (p : Transaction → Bool) (x : Transaction) (l : List Transaction)
    (hs : l.Pairwise (fun a b => a.AccountNonce ≤ b.AccountNonce)) :
    (stableInsert nonceLess x l).filter p =
      if p x = true then stableInsert nonceLess x (l.filter p) else l.filter p := by
  induction l with
  | nil =>
    by_cases px : p x = true
    · simp [stableInsert, px]
    · simp [stableInsert, px]
  | cons y ys ih =>
    rw [List.pairwise_cons] at hs
    have ih2 := ih hs.2
    rw [nonceInsert_cons]
    by_cases h : nonceLess y x = true
    · rw [if_pos h]
      by_cases py : p y = true
      · rw [List.filter_cons_of_pos py, List.filter_cons_of_pos py, ih2, nonceInsert_cons,
          if_pos h]
        by_cases px : p x = true
        · rw [if_pos px, if_pos px]
        · rw [if_neg px, if_neg px]
      · rw [List.filter_cons_of_neg py, List.filter_cons_of_neg py, ih2]
    · rw [if_neg h]
      have hxy : x.AccountNonce ≤ y.AccountNonce := by
        have := mt (nonceLess_iff y x).mpr h
        omega
      by_cases px : p x = true
      · rw [if_pos px, List.filter_cons_of_pos px]
        rw [nonceInsert_head]
        intro z hz
        have hz2 : z ∈ y :: ys := (List.mem_filter.mp hz).1
        rcases List.mem_cons.mp hz2 with hzy | hzy
        · rw [hzy]; exact hxy
        · exact Nat.le_trans hxy (hs.1 z hzy)
      · rw [if_neg px, List.filter_cons_of_neg px]

/-- Filtering commutes with the stable sort by nonce. -/
theorem nonceSort_filter (p : Transaction → Bool) (l : List Transaction) :
    sliceStable nonceLess (l.filter p) = (sliceStable nonceLess l).filter p := by
  induction l with
  | nil => rfl
  | cons x xs ih =>
    show _ = (stableInsert nonceLess x (sliceStable nonceLess xs)).filter p
    rw [nonceInsert_filter p x _ (nonceSort_sorted xs), ← ih]
    by_cases px : p x = true
    · rw [if_pos px, List.filter_cons_of_pos px]
      rfl
    · rw [if_neg px, List.filter_cons_of_neg px]

/-! ## The snapshot of `createBuildingContext` -/

theorem createBuildingContext_txs_eq (pt : PriorityTable) (st : Ledger) (pool : TxPool) :
    (pool.createBuildingContext pt st).txs =
      sliceStable nonceLess (collectExecutable st.Epoch pool.executableTxs) := rfl

theorem mem_collectExecutable (e : Nat) (entries : List (Nat × sortedTxs)) (t : Transaction) :
    t ∈ collectExecutable e entries ↔ ∃ p ∈ entries, t ∈ p.2.txs ∧ t.Epoch = e := by
  unfold collectExecutable
  rw [List.mem_flatMap]
  constructor
  · rintro ⟨p, hp, ht⟩
    rw [List.mem_filter] at ht
    exact ⟨p, hp, ht.1, by simpa using ht.2⟩
  · rintro ⟨p, hp, ht, he⟩
    exact ⟨p, hp, List.mem_filter.mpr ⟨ht, by simpa using he⟩⟩

/-- The transactions of one sender among those collected from executable
queues that hold transactions of their own sender, one queue a sender. -/
theorem collectExecutable_sender (e : Nat) (entries : List (Nat × sortedTxs))
    (hnd : (entries.map Prod.fst).Nodup)
    (hown : ∀ p ∈ entries, ∀ t ∈ p.2.txs, t.sender = p.1) (s : Nat) :
    (collectExecutable e entries).filter (fun t => decide (t.sender = s)) =
      (match mapGet entries s with
        | some q => q.txs
        | none => []).filter (fun t => decide (t.Epoch = e)) := by
  induction entries with
  | nil => rfl
  | cons p rest ih =>
    obtain ⟨k, q⟩ := p
    simp only [List.map_cons, List.nodup_cons] at hnd
    have ih2 := ih hnd.2 (fun p hp => hown p (List.mem_cons_of_mem _ hp))
    have hq : ∀ t ∈ q.txs, t.sender = k := hown (k, q) (List.mem_cons_self _ _)
    unfold collectExecutable at ih2 ⊢
    rw [List.flatMap_cons, List.filter_append, ih2]
    by_cases hk : k = s
    · subst hk
      have hnone : mapGet rest k = none := (mapGet_none_iff _ _).mpr hnd.1
      rw [hnone]
      simp only [mapGet, if_true, List.filter_nil, List.append_nil]
      rw [List.filter_eq_self]
      intro t ht
      simpa using hq t (List.mem_filter.mp ht).1
    · simp only [mapGet, hk, if_false]
      have hnil : (q.txs.filter (fun tx => decide (tx.Epoch = e))).filter
          (fun t => decide (t.sender = s)) = [] := by
        rw [List.filter_eq_nil_iff]
        intro t ht
        have := hq t (List.mem_filter.mp ht).1
        simp only [decide_eq_true_eq]
        rw [this]
        exact hk
      rw [hnil, List.nil_append]

/-- Counterexample to C34 as stated: sender 1 and sender 2 each hold their
nonce 1.  The two enumerations of the map of the executable queues give the
same pool contents and two different transaction lists: the stable sort
leaves transactions with the same nonce in the order of the enumeration. -/
theorem snapshot_follows_enumeration :
    Reachable examplePriority tiePool ∧
    Reachable examplePriority tiePoolSwapped ∧
    SameContent tiePool tiePoolSwapped ∧
    (tiePool.createBuildingContext examplePriority exampleLedger).txs =
      [storedTx exampleLedger (exampleTx 1), storedTx exampleLedger twinTx] ∧
    (tiePoolSwapped.createBuildingContext examplePriority exampleLedger).txs =
      [storedTx exampleLedger twinTx, storedTx exampleLedger (exampleTx 1)] ∧
    (tiePoolSwapped.createBuildingContext examplePriority exampleLedger).txs ≠
      (tiePool.createBuildingContext examplePriority exampleLedger).txs :=
  have hreach : Reachable examplePriority tiePool :=
    ReachableVia.add exampleLedger _ twinTx false TxKind.InboundTx
      (ReachableVia.add exampleLedger (NewTxPool exampleCfg) (exampleTx 1) false
        TxKind.InboundTx (ReachableVia.empty exampleCfg) (fun _ => trivial)) (fun _ => trivial)
  have hsame : SameContent tiePool tiePoolSwapped :=
    ⟨rfl, rfl, List.Perm.refl _, rfl, List.Perm.refl _, List.Perm.refl _,
      List.reverse_perm _, List.Perm.refl _, rfl, rfl, rfl⟩
  ⟨hreach, ReachableVia.reorder tiePool tiePoolSwapped hreach hsame, hsame,
    by decide, by decide, by decide⟩

/-- C34 as the code has it: for the same pool contents, whatever the order in
which the executable queues are enumerated, `createBuildingContext` yields
the same transactions with the same sequence of nonces; the two lists can
differ in the order of transactions that carry the same nonce, and they are
the same list when no two of the transactions carry the same nonce. -/
theorem createBuildingContext_reordered (pt : PriorityTable) (st : Ledger)
    (pool other : TxPool) (hperm : other.executableTxs.Perm pool.executableTxs) :
    (other.createBuildingContext pt st).txs.Perm (pool.createBuildingContext pt st).txs ∧
    (other.createBuildingContext pt st).txs.map Transaction.AccountNonce =
      (pool.createBuildingContext pt st).txs.map Transaction.AccountNonce ∧
    (((pool.createBuildingContext pt st).txs.map Transaction.AccountNonce).Nodup →
      (other.createBuildingContext pt st).txs = (pool.createBuildingContext pt st).txs) := by
  rw [createBuildingContext_txs_eq, createBuildingContext_txs_eq]
  have hcol : (collectExecutable st.Epoch other.executableTxs).Perm
      (collectExecutable st.Epoch pool.executableTxs) := by
    unfold collectExecutable
    exact hperm.flatMap_right _
  have hp : (sliceStable nonceLess (collectExecutable st.Epoch other.executableTxs)).Perm
      (sliceStable nonceLess (collectExecutable st.Epoch pool.executableTxs)) :=
    ((sliceStable_perm nonceLess _).trans hcol).trans (sliceStable_perm nonceLess _).symm
  have hs1 := nonceSort_sorted (collectExecutable st.Epoch other.executableTxs)
  have hs2 := nonceSort_sorted (collectExecutable st.Epoch pool.executableTxs)
  have hnonces : (sliceStable nonceLess (collectExecutable st.Epoch other.executableTxs)).map
      Transaction.AccountNonce =
      (sliceStable nonceLess (collectExecutable st.Epoch pool.executableTxs)).map
        Transaction.AccountNonce :=
    List.eq_of_perm_of_sorted (hp.map _) (List.pairwise_map.mpr hs1) (List.pairwise_map.mpr hs2)
  refine ⟨hp, hnonces, ?_⟩
  intro hnd
  have hnd1 : ((sliceStable nonceLess (collectExecutable st.Epoch other.executableTxs)).map
      Transaction.AccountNonce).Nodup := by rw [hnonces]; exact hnd
  have hstrict : ∀ l : List Transaction,
      l.Pairwise (fun a b => a.AccountNonce ≤ b.AccountNonce) →
      (l.map Transaction.AccountNonce).Nodup →
      l.Pairwise (fun a b => a.AccountNonce < b.AccountNonce) := by
    intro l h1 h2
    have h3 : l.Pairwise (fun a b => a.AccountNonce ≠ b.AccountNonce) := List.pairwise_map.mp h2
    exact (h1.and h3).imp (fun hab => Nat.lt_of_le_of_ne hab.1 hab.2)
  haveI : IsAntisymm Transaction (fun a b => a.AccountNonce < b.AccountNonce) :=
    ⟨fun a b h1 h2 => absurd h1 (Nat.lt_asymm h2)⟩
  exact List.eq_of_perm_of_sorted hp (hstrict _ hs1 hnd1) (hstrict _ hs2 hnd)

/-- Witness of C34: sender 1 holds its nonce 1 and sender 2 its nonce 2; the
two enumerations of the executable queues give the same list. -/
theorem createBuildingContext_reordered_witness :
    stepPoolSwapped.executableTxs.Perm stepPool.executableTxs ∧
    (stepPoolSwapped.createBuildingContext examplePriority stepLedger).txs =
      (stepPool.createBuildingContext examplePriority stepLedger).txs ∧
    (stepPool.createBuildingContext examplePriority stepLedger).txs.length = 2 :=
  ⟨List.reverse_perm _,
    (createBuildingContext_reordered examplePriority stepLedger stepPool stepPoolSwapped
      (List.reverse_perm _)).2.2 (by decide),
    by decide⟩

/-! ## Admission is atomic -/

/-- C35: admission is atomic.  Whenever `add` returns an error, the pool is
exactly as it was before the call: the Global Index, the compact index, every
executable queue and every pending queue (and every other field).  The error
has one of four causes: the transaction is in the Global Index already, the
limit check refuses it, the validator does not accept it, or the placement in
`put` fails after the limit check passed. -/
theorem add_atomic (pt : PriorityTable) (st : Ledger) (pool : TxPool) (tx : Transaction)
    (own : Bool) (txType : TxKind) (herr : (pool.add pt st tx own txType).1 ≠ none) :
    (pool.add pt st tx own txType).2 = pool ∧
    (pool.add pt st tx own txType).2.all = pool.all ∧
    (pool.add pt st tx own txType).2.shortHashAll = pool.shortHashAll ∧
    (pool.add pt st tx own txType).2.executableTxs = pool.executableTxs ∧
    (pool.add pt st tx own txType).2.pendingTxs = pool.pendingTxs ∧
    ((pool.all.Get tx.Hash).isSome = true ∨ pool.checkLimits pt tx ≠ none ∨
      st.ValidateTx tx txType ≠ ValidateOutcome.ok ∨
      (pool.put pt st (storedTx st tx)).1 ≠ none) := by
  have hsame : (pool.add pt st tx own txType).2 = pool := by
    rcases add_cases pt st pool tx own txType with h | ⟨h, _, _⟩
    · exact h
    · rw [h] at herr ⊢
      rcases put_cases pt st pool { tx with shardId := st.ShardId tx.sender } with
        ⟨e, he⟩ | ⟨q, hq, _⟩ | ⟨m, hm, _⟩
      · rw [he]
      · rw [hq] at herr; exact absurd rfl herr
      · rw [hm] at herr; exact absurd rfl herr
  refine ⟨hsame, by rw [hsame], by rw [hsame], by rw [hsame], by rw [hsame], ?_⟩
  by_cases hdup : (pool.all.Get tx.Hash).isSome = true
  · exact Or.inl hdup
  · right
    cases hlim : pool.checkLimits pt tx with
    | some e => exact Or.inl (by simp)
    | none =>
      right
      cases hval : st.ValidateTx tx txType with
      | fault msg => exact Or.inl (by simp)
      | err e => exact Or.inl (by simp)
      | ok =>
        right
        have hadd : pool.add pt st tx own txType = pool.put pt st (storedTx st tx) := by
          unfold TxPool.add
          rw [if_neg hdup, hlim]
          simp only [hval]
          rfl
        rw [← hadd]
        exact herr

/-- Witness of C35: the pool has one slot for senders with a pending queue and
sender 1 holds it; the transaction of sender 2 passes the limit check and the
validator, and `put` cannot place it. -/
theorem add_atomic_witness :
    (slotPool.add examplePriority exampleLedger strangerTx false TxKind.InboundTx).1 =
      some PoolError.MempoolFullError ∧
    slotPool.checkLimits examplePriority strangerTx = none ∧
    (slotPool.add examplePriority exampleLedger strangerTx false TxKind.InboundTx).2 =
      slotPool :=
  ⟨by decide, by decide,
    (add_atomic examplePriority exampleLedger slotPool strangerTx false TxKind.InboundTx
      (by decide)).1⟩

/-! ## The entry points and the reachable states

The entry points of the pool are made of the four operations and of writes to
the fields these do not read, so they lead from reachable states to reachable
states.  The transactions they admit pass the validator of the ledger: the
condition asked of it is that it accepts only transactions that meet `ok`. -/

/-- A step with `add` under a ledger whose validator accepts only
transactions that meet `ok`. -/
theorem ReachableVia.add_valid {pt : PriorityTable} {ok : Transaction → Prop} {pool : TxPool}
    (h : ReachableVia pt ok pool) (st : Ledger)
    (hst : ∀ tx kind, st.ValidateTx tx kind = ValidateOutcome.ok → ok tx)
    (tx : Transaction) (own : Bool) (txType : TxKind) :
    ReachableVia pt ok (pool.add pt st tx own txType).2 :=
  ReachableVia.add st pool tx own txType h
    (fun hnone => hst tx txType (add_admits_valid pt st pool tx own txType hnone))

theorem ReachableVia.initialize {pt : PriorityTable} {ok : Transaction → Prop} {pool : TxPool}
    (h : ReachableVia pt ok pool) (coinbase : Nat) :
    ReachableVia pt ok (pool.Initialize coinbase) :=
  ReachableVia.frame pool _ h rfl rfl rfl rfl

theorem ReachableVia.startSync {pt : PriorityTable} {ok : Transaction → Prop} {pool : TxPool}
    (h : ReachableVia pt ok pool) : ReachableVia pt ok pool.StartSync :=
  ReachableVia.frame pool _ h rfl rfl rfl rfl

theorem ReachableVia.deferred {pt : PriorityTable} {ok : Transaction → Prop} {pool : TxPool}
    (h : ReachableVia pt ok pool) (tx : Transaction) :
    ReachableVia pt ok (pool.addDeferredTx tx) :=
  have hq := addDeferredTx_queues pool tx
  ReachableVia.frame pool _ h hq.2.2.1 hq.1 hq.2.1 hq.2.2.2.2.2.2

theorem ReachableVia.getPending {pt : PriorityTable} {ok : Transaction → Prop} {pool : TxPool}
    (h : ReachableVia pt ok pool) (multiShard : Nat) (noFilter addHighPriority : Bool)
    (shardId : Nat) (count : Bool) :
    ReachableVia pt ok
      (pool.GetPendingTransaction multiShard noFilter addHighPriority shardId count).2 :=
  ReachableVia.frame pool _ h rfl rfl rfl rfl

theorem ReachableVia.externalLoop_reach {pt : PriorityTable} {ok : Transaction → Prop}
    (st : Ledger) (hst : ∀ tx kind, st.ValidateTx tx kind = ValidateOutcome.ok → ok tx)
    (txType : TxKind) (n : Nat) (txs : List Transaction) :
    ∀ pool : TxPool, ReachableVia pt ok pool →
      ReachableVia pt ok (externalLoop pt st txType n txs pool).2 := by
  induction txs with
  | nil => intro pool h; exact h
  | cons tx rest ih =>
    intro pool h
    rw [externalLoop]
    by_cases hc : (pool.isSyncing && decide (tx.sender ≠ pool.coinbase)) = true
    · rw [if_pos hc]
      exact ih _ (h.deferred tx)
    · rw [if_neg hc]
      have hadd := h.add_valid st hst tx (decide (tx.sender = pool.coinbase)) txType
      cases hr : pool.add pt st tx (decide (tx.sender = pool.coinbase)) txType with
      | mk e p =>
        rw [hr] at hadd
        cases e with
        | none => exact ih p hadd
        | some e =>
          dsimp only
          by_cases hn : n = 1
          · rw [if_pos hn]; exact hadd
          · rw [if_neg hn]; exact ih p hadd

theorem ReachableVia.externalTxs {pt : PriorityTable} {ok : Transaction → Prop} {pool : TxPool}
    (h : ReachableVia pt ok pool) (st : Ledger)
    (hst : ∀ tx kind, st.ValidateTx tx kind = ValidateOutcome.ok → ok tx)
    (txType : TxKind) (txs : List Transaction) :
    ReachableVia pt ok (pool.AddExternalTxs pt st txType txs).2 := by
  unfold TxPool.AddExternalTxs
  cases st.ReadonlyErr with
  | some code => exact h
  | none => exact ReachableVia.externalLoop_reach st hst txType txs.length txs pool h

theorem ReachableVia.internalTx {pt : PriorityTable} {ok : Transaction → Prop} {pool : TxPool}
    (h : ReachableVia pt ok pool) (st : Ledger)
    (hst : ∀ tx kind, st.ValidateTx tx kind = ValidateOutcome.ok → ok tx)
    (tx : Transaction) :
    ReachableVia pt ok (pool.AddInternalTx pt st tx).pool := by
  cases hsync : pool.isSyncing with
  | true =>
    have hc := AddInternalTx_sync_cases pt st pool tx hsync
    have hd := h.deferred { tx with highPriority := true }
    have hadd := hd.add_valid st hst { tx with highPriority := true } true TxKind.InboundTx
    cases hro : st.ReadonlyErr with
    | some code => rw [hc.1 code hro]; exact hd
    | none =>
      cases hr : ((pool.addDeferredTx { tx with highPriority := true }).add pt st
          { tx with highPriority := true } true TxKind.InboundTx).1 with
      | some e => rw [(hc.2 hro).1 e hr]; exact hadd
      | none =>
        rw [((hc.2 hro).2 hr).2.2.2]
        exact ReachableVia.frame _ _ hadd rfl rfl rfl rfl
  | false =>
    unfold TxPool.AddInternalTx
    simp only [hsync, Bool.false_eq_true, if_false]
    cases st.ReadonlyErr with
    | some code => exact h
    | none =>
      dsimp only
      have hadd := h.add_valid st hst { tx with highPriority := true } true TxKind.InboundTx
      cases hr : pool.add pt st { tx with highPriority := true } true TxKind.InboundTx with
      | mk e p =>
        rw [hr] at hadd
        cases e with
        | none => exact hadd
        | some e => exact hadd

theorem ReachableVia.drain {pt : PriorityTable} {ok : Transaction → Prop}
    (st : Ledger) (hst : ∀ tx kind, st.ValidateTx tx kind = ValidateOutcome.ok → ok tx) :
    ∀ (fuel : Nat) (pool : TxPool) (log : List Resubmission), ReachableVia pt ok pool →
      ReachableVia pt ok (drainLoop pt st fuel pool log).2.1 := by
  intro fuel
  induction fuel with
  | zero => intro pool log h; exact h
  | succ fuel ih =>
    intro pool log h
    rw [drainLoop]
    cases hq : pool.deferredTxs with
    | nil => exact h
    | cons tx rest =>
      dsimp only
      have h1 : ReachableVia pt ok { pool with deferredTxs := rest } :=
        ReachableVia.frame pool _ h rfl rfl rfl rfl
      have hr : ReachableVia pt ok
          (if tx.highPriority then
            ((TxPool.AddInternalTx pt st { pool with deferredTxs := rest } tx).err,
              (TxPool.AddInternalTx pt st { pool with deferredTxs := rest } tx).pool)
          else TxPool.AddExternalTxs pt st { pool with deferredTxs := rest }
            TxKind.MempoolTx [tx]).2 := by
        split_ifs
        · exact h1.internalTx st hst tx
        · exact h1.externalTxs st hst TxKind.MempoolTx [tx]
      cases hf : (if tx.highPriority then
          (TxPool.AddInternalTx pt st { pool with deferredTxs := rest } tx).fault
          else none) with
      | some code => exact hr
      | none => exact ih _ _ hr

theorem ReachableVia.stopSync {pt : PriorityTable} {ok : Transaction → Prop} {pool : TxPool}
    (h : ReachableVia pt ok pool) (st : Ledger)
    (hst : ∀ tx kind, st.ValidateTx tx kind = ValidateOutcome.ok → ok tx)
    (block keeperTxs : List Transaction) :
    ReachableVia pt ok (pool.StopSync pt st block keeperTxs).pool := by
  have h1 : ReachableVia pt ok { pool with isSyncing := false } :=
    ReachableVia.frame pool _ h rfl rfl rfl rfl
  have h2 := ReachableVia.reset st _ block h1
  unfold TxPool.StopSync
  dsimp only
  cases hreset : TxPool.ResetTo pt st { pool with isSyncing := false } block with
  | mk fault pool2 =>
    rw [hreset] at h2
    cases fault with
    | some msg => exact h2
    | none =>
      dsimp only
      have h3 := ReachableVia.drain st hst pool2.deferredTxs.length pool2 [] h2
      cases hdr : (drainLoop pt st pool2.deferredTxs.length pool2 []).1 with
      | some code => exact h3
      | none =>
        dsimp only
        have h4 : ReachableVia pt ok
            { (drainLoop pt st pool2.deferredTxs.length pool2 []).2.1 with
              knownDeferredTxs := [] } :=
          ReachableVia.frame _ _ h3 rfl rfl rfl rfl
        exact h4.externalTxs st hst TxKind.MempoolTx keeperTxs

end Mempool
